import Mathlib

set_option linter.unusedSectionVars false

/-!
# Verification development for `cpp-algorithms`: the containers

This file embeds `HashMap` (`src/data_structures/hash_map/hash_map.h`) and
`HashSet` (`src/data_structures/hash_set/hash_set.h`) together with the part
of `DoublyLinkedList` they are built on, and `DynamicArray`
(`src/data_structures/dynamic_array/dynamic_array.h`), `Deque`
(`src/data_structures/deque/deque.h`), `Queue`
(`src/data_structures/queue/queue.h`), `BinaryHeap`
(`src/data_structures/binary_heap/binary_heap.h`), `PriorityQueue`
(`src/data_structures/priority_queue/priority_queue.h`) and `DoublyLinkedList`
(`src/data_structures/doubly_linked_list/doubly_linked_list.h`) at the level
of its pointers, and states and proves properties of them.

## Conventions of the embedding

* A `DoublyLinkedList<T>` is the circular chain `head_ -> n1 -> ... -> nk -> head_`.
  It is represented by the sequence of its linked nodes in `next` order, each
  node being the pair of its address and its value.  Node addresses are what
  iterators hold, so an iterator keeps denoting the same node when other nodes
  are linked or unlinked.  `new` hands out an address that was never used by
  the list before (`brk`), so a pointer to a deleted node stays dangling.
* Undefined behaviour of the C++ program (reading or writing a deleted node,
  reading the value of the sentinel, a modulo by zero, a float to integer
  cast out of range) is the result `none`.
* In `HashMap` the member `float max_load_factor_` is a fraction of natural
  numbers (`Fraction`) and float arithmetic is exact: no quotient or product
  is rounded, and no quotient leaves the range of `std::size_t`.  Where the
  rounding of the conversion of a count to `float` decides the outcome
  (counts above `2^24`), `Insert` with `max_load_factor_ == 1.0f` has a second
  form with the conversions written out (`toFloat`, `CheckRehashFloat`,
  `InsertFloat`): IEEE 754 binary32, round to nearest, ties to even.
* Where the value of `max_load_factor_` decides the outcome (`Rehash`,
  `Reserve`, `CheckRehash`, the copies), the table is `HashMap32`: the same
  `elements_` and `buckets_` with `max_load_factor_` a binary32 value
  (`Float32`: a finite value that is not negative, `+infinity` or a NaN), the
  quotient `Size() / max_load_factor_`, the product
  `max_load_factor_ * BucketCount()` and the conversions of the counts being
  rounded as the hardware rounds them.
* `std::size_t` is `Nat` (no table in this development gets near `2^64`
  elements).
* `HashSet<Key>` is the same source text as `HashMap<Key, T>` with the mapped
  value dropped; it is embedded as `HashMap Key Unit`.
* A `DynamicArray<T>` is its three members: the buffer `data_` as the list of
  its cells, `capacity_` and `size_`.  Allocation always succeeds, and the
  element type is one that may be assigned into freshly allocated storage
  (as `int` is).
* A `Deque<T>` is the list of the blocks its map points to and its six
  counters; the block size `kBlockSize`, which the source derives from
  `sizeof(T)`, is a parameter of the functions.  `std::size_t` subtraction
  that may wrap is `wsub`.
* A `BinaryHeap<T, Compare>` is its member array; `Compare{}` is a parameter
  `lt`.  The recursion of `Heapify` is bounded by a fuel, and the theorems
  show that `Size()` levels suffice.  A `PriorityQueue<T, Compare>` is its
  member heap.
* At the level of its pointers a `DoublyLinkedList<T>` is the pair of `size_`
  and the address `head_` in a memory of nodes (`LinkedList`); `new` returns
  the address after the last cell of the memory.
-/

namespace CppAlgorithms

/-- The `Iterator` of `DoublyLinkedList`: a pointer to a node.  `head` is the
sentinel `head_` of the list the iterator belongs to (this is `end()`),
`node a` is the element node allocated at address `a`. -/
inductive Iterator where
  | head : Iterator
  | node (addr : Nat) : Iterator
  deriving DecidableEq, Repr

/-- The state of a `DoublyLinkedList<T>`: its element nodes `(address, value)`
in the order of the `next` links starting at `head_->next`, and the first
address that `new` has not handed out yet. `size_` is `nodes.length`. -/
structure DoublyLinkedList (T : Type) where
  nodes : List (Nat × T)
  brk : Nat
  deriving Repr

namespace DoublyLinkedList

variable {T : Type}

/-- `DoublyLinkedList()`: only the sentinel, linked to itself. -/
def empty : DoublyLinkedList T := ⟨[], 0⟩

/-- `Size()`. -/
def Size (l : DoublyLinkedList T) : Nat := l.nodes.length

/-- `Empty()`: `size_ == 0`. -/
def Empty (l : DoublyLinkedList T) : Bool := l.Size == 0

/-- `begin()`: `iterator(head_->next)`. -/
def begin (l : DoublyLinkedList T) : Iterator :=
  match l.nodes with
  | [] => Iterator.head
  | n :: _ => Iterator.node n.1

/-- `end()`: `iterator(head_)`. -/
def end_ (_l : DoublyLinkedList T) : Iterator := Iterator.head

/-- The nodes from the node at address `a` on, following `next` up to the
sentinel; `none` when no linked node has address `a` (dangling pointer). -/
def suffixFrom (a : Nat) : List (Nat × T) → Option (List (Nat × T))
  | [] => none
  | n :: ns => if n.1 = a then some (n :: ns) else suffixFrom a ns

/-- The nodes met when walking `++it` from `it` up to the sentinel. -/
def walkFrom (l : DoublyLinkedList T) : Iterator → Option (List (Nat × T))
  | Iterator.head => some []
  | Iterator.node a => suffixFrom a l.nodes

/-- `*it`: the value of the node; undefined for the sentinel (its value is
never constructed) and for a deleted node. -/
def deref (l : DoublyLinkedList T) (it : Iterator) : Option T :=
  match l.walkFrom it with
  | some (n :: _) => some n.2
  | _ => none

/-- `std::next(it)`: `node_->next`. -/
def next (l : DoublyLinkedList T) : Iterator → Option Iterator
  | Iterator.head => some l.begin
  | Iterator.node a =>
    match suffixFrom a l.nodes with
    | some (_ :: m :: _) => some (Iterator.node m.1)
    | some _ => some Iterator.head
    | none => none

/-- The pointer `node_->prev` of the node at address `a`, given the pointer
`p` to the node before the first node of the list at hand. -/
def prevOf (a : Nat) : Iterator → List (Nat × T) → Option Iterator
  | _, [] => none
  | p, n :: ns => if n.1 = a then some p else prevOf a (Iterator.node n.1) ns

/-- `std::prev(it)`: `node_->prev`. -/
def prev (l : DoublyLinkedList T) : Iterator → Option Iterator
  | Iterator.head =>
    match l.nodes.getLast? with
    | some n => some (Iterator.node n.1)
    | none => some Iterator.head
  | Iterator.node a => prevOf a Iterator.head l.nodes

/-- Link the node `x` in front of the node at address `a`. -/
def linkBefore (a : Nat) (x : Nat × T) : List (Nat × T) → Option (List (Nat × T))
  | [] => none
  | n :: ns =>
    if n.1 = a then some (x :: n :: ns) else (linkBefore a x ns).map (fun r => n :: r)

/-- `Insert(position, value)`: a new node is linked between `position.node_->prev`
and `position.node_`; returns the list and the iterator to the new node. -/
def Insert (l : DoublyLinkedList T) (position : Iterator) (value : T) :
    Option (DoublyLinkedList T × Iterator) :=
  match position with
  | Iterator.head => some (⟨l.nodes ++ [(l.brk, value)], l.brk + 1⟩, Iterator.node l.brk)
  | Iterator.node a =>
    (linkBefore a (l.brk, value) l.nodes).map
      (fun ns => (⟨ns, l.brk + 1⟩, Iterator.node l.brk))

/-- Unlink the node at address `a`. -/
def unlink (a : Nat) : List (Nat × T) → Option (List (Nat × T))
  | [] => none
  | n :: ns => if n.1 = a then some ns else (unlink a ns).map (fun r => n :: r)

/-- `Erase(position)`, that is `Erase(position, std::next(position))`: the node
is unlinked and deleted; returns the iterator to the node that followed.  At
`end()` the range is empty for an empty list (nothing happens), and otherwise
the loop deletes the sentinel. -/
def Erase (l : DoublyLinkedList T) (position : Iterator) :
    Option (DoublyLinkedList T × Iterator) :=
  match position with
  | Iterator.head => if l.nodes.isEmpty then some (l, Iterator.head) else none
  | Iterator.node a =>
    match l.next (Iterator.node a), unlink a l.nodes with
    | some nx, some ns => some (⟨ns, l.brk⟩, nx)
    | _, _ => none

/-- `Clear()`: every node is deleted, the sentinel is linked to itself. -/
def Clear (l : DoublyLinkedList T) : DoublyLinkedList T := ⟨[], l.brk⟩

/-- The assignment `it->member = value` through an iterator: the value of the
node is replaced by `f` of it.  Undefined for the sentinel and for a deleted
node. -/
def assign (l : DoublyLinkedList T) (it : Iterator) (f : T → T) :
    Option (DoublyLinkedList T) :=
  match it with
  | Iterator.head => none
  | Iterator.node a =>
    if a ∈ l.nodes.map Prod.fst then
      some ⟨l.nodes.map (fun n => if n.1 = a then (n.1, f n.2) else n), l.brk⟩
    else none

/-- The loop of `std::distance` on list iterators:
`while (first != last) { ++first; ++n; }`.  The chain is circular, so a loop
that has not met `last` after a full turn never does; `fuel` is the number of
iterations granted. -/
def distanceLoop (l : DoublyLinkedList T) (last : Iterator) :
    Nat → Iterator → Nat → Option Nat
  | 0, _, _ => none
  | fuel + 1, first, n =>
    if first = last then some n
    else
      match l.next first with
      | none => none
      | some nx => distanceLoop l last fuel nx (n + 1)

/-- `std::distance(first, last)`; a full turn of the chain is `Size() + 1`
steps. -/
def distance (l : DoublyLinkedList T) (first last : Iterator) : Option Nat :=
  distanceLoop l last (l.Size + 2) first 0

/-- The iterator to the first node of a chain of linked nodes that ends at
the sentinel: the sentinel itself when the chain has no node. -/
def first : List (Nat × T) → Iterator
  | [] => Iterator.head
  | n :: _ => Iterator.node n.1

/-- The addresses of the linked nodes. -/
def addrs (l : List (Nat × T)) : List Nat := l.map Prod.fst

end DoublyLinkedList

/-- A value of the C++ type `float` that is finite and not negative, which is
what a load factor is: the fraction `num / den`.  Arithmetic on it is exact:
nothing is rounded and nothing overflows.  `Float32` is the binary32 value
with the rounding written out. -/
structure Fraction where
  num : Nat
  den : Nat
  den_pos : 0 < den
  deriving DecidableEq, Repr

namespace Fraction

/-- The float `1.0`. -/
def one : Fraction := ⟨1, 1, Nat.one_pos⟩

/-- The float as a rational number. -/
def toRat (f : Fraction) : ℚ := (f.num : ℚ) / (f.den : ℚ)

/-- The comparison `k > f * n` of a count with the product of the float and a
count, the product being exact. -/
def mulLt (f : Fraction) (n k : Nat) : Bool := decide (f.num * n < k * f.den)

/-- The number `ceil(f * n)`. -/
def ceilMul (f : Fraction) (n : Nat) : Nat := (f.num * n + f.den - 1) / f.den

end Fraction

/-- `static_cast<std::size_t>(std::ceil(n / f))` for a count `n` and a float
`f`, the quotient being exact: it is infinite or not a number for `f = 0`,
and then the cast is undefined.  `HashMap32.minCount` is the same expression
with the quotient rounded to `float` and the cast undefined out of the range
of `std::size_t`. -/
def ceilDiv (n : Nat) (f : Fraction) : Option Nat :=
  if f.num = 0 then none else some ((n * f.den + f.num - 1) / f.num)

/-- The state of a `HashMap<Key, T, Hash>`: the members `elements_`, `buckets_`
and `max_load_factor_`. -/
structure HashMap (Key T : Type) where
  elements_ : DoublyLinkedList (Key × T)
  buckets_ : List (Iterator × Iterator)
  max_load_factor_ : Fraction
  deriving Repr

/-- `HashSet<Key, Hash>`: `hash_set.h` is `hash_map.h` with `value_type = Key`;
an element `k` of the set is the pair `(k, ())`. -/
abbrev HashSet (Key : Type) := HashMap Key Unit

namespace HashMap

variable {Key T : Type} [DecidableEq Key]

/-- `HashMap()`: no element, no bucket, `max_load_factor_{1.0}`. -/
def default : HashMap Key T := ⟨DoublyLinkedList.empty, [], Fraction.one⟩

/-- `end()`. -/
def end_ (m : HashMap Key T) : Iterator := m.elements_.end_

/-- `begin()`. -/
def begin (m : HashMap Key T) : Iterator := m.elements_.begin

/-- `Empty()`. -/
def Empty (m : HashMap Key T) : Bool := m.elements_.Empty

/-- `Size()`. -/
def Size (m : HashMap Key T) : Nat := m.elements_.Size

/-- `BucketCount()`. -/
def BucketCount (m : HashMap Key T) : Nat := m.buckets_.length

/-- `MaxLoadFactor()`. -/
def MaxLoadFactor (m : HashMap Key T) : Fraction := m.max_load_factor_

/-- `MaxLoadFactor(max_load_factor)`. -/
def setMaxLoadFactor (m : HashMap Key T) (max_load_factor : Fraction) : HashMap Key T :=
  { m with max_load_factor_ := max_load_factor }

/-- The elements visited by `for (value : *this)`, in iteration order. -/
def toList (m : HashMap Key T) : List (Key × T) := m.elements_.nodes.map Prod.snd

/-- `Bucket(key)`: `Hash{}(key) % BucketCount()`, undefined with no bucket. -/
def Bucket (hash : Key → Nat) (m : HashMap Key T) (key : Key) : Option Nat :=
  if m.BucketCount = 0 then none else some (hash key % m.BucketCount)

/-- The loop of `Find`, started at the first node of `ns`:
`for (it; it != second; ++it) if (it->first == key) return it; return end();`.
Past the last node `it` is the sentinel, whose value must not be read. -/
def findLoop (key : Key) (second : Iterator) : List (Nat × (Key × T)) → Option Iterator
  | [] => if second = Iterator.head then some Iterator.head else none
  | n :: ns =>
    if second = Iterator.node n.1 then some Iterator.head
    else if n.2.1 = key then some (Iterator.node n.1)
    else findLoop key second ns

/-- `Find(key)`. -/
def Find (hash : Key → Nat) (m : HashMap Key T) (key : Key) : Option Iterator :=
  if m.Empty then some m.end_
  else
    match m.Bucket hash key with
    | none => none
    | some b =>
      match m.buckets_[b]? with
      | none => none
      | some bucket =>
        if bucket.1 = bucket.2 then some m.end_
        else
          match m.elements_.walkFrom bucket.1 with
          | none => none
          | some ns => findLoop key bucket.2 ns

/-- `Contains(key)`. -/
def Contains (hash : Key → Nat) (m : HashMap Key T) (key : Key) : Option Bool :=
  (m.Find hash key).map (fun it => if it = m.end_ then false else true)

/-- The outcome of `At` for the stored pair with the key, if there is one:
the pair, or the exception `std::out_of_range` (`Except.error ()`). -/
def atResult : Option (Key × T) → Except Unit (Key × T)
  | some p => Except.ok p
  | none => Except.error ()

/-- `At(key)`: the stored pair, or the exception `std::out_of_range`
(`Except.error ()`). -/
def At (hash : Key → Nat) (m : HashMap Key T) (key : Key) :
    Option (Except Unit (Key × T)) :=
  match m.Find hash key with
  | none => none
  | some it =>
    if it = m.end_ then some (Except.error ())
    else (m.elements_.deref it).map Except.ok

/-- `InsertUnchecked(value)`. -/
def InsertUnchecked (hash : Key → Nat) (m : HashMap Key T) (value : Key × T) :
    Option (HashMap Key T × Iterator) :=
  match m.Bucket hash value.1 with
  | none => none
  | some b =>
    match m.buckets_[b]? with
    | none => none
    | some bucket =>
      match m.elements_.Insert bucket.1 value with
      | none => none
      | some (els, it) =>
        if bucket.1 = bucket.2 then
          match els.next it with
          | none => none
          | some nx =>
            some ({ m with elements_ := els, buckets_ := m.buckets_.set b (it, nx) }, it)
        else
          some ({ m with elements_ := els, buckets_ := m.buckets_.set b (it, bucket.2) }, it)

/-- The loop `for (value : values) InsertUnchecked(value);`. -/
def insertAllUnchecked (hash : Key → Nat) :
    HashMap Key T → List (Key × T) → Option (HashMap Key T)
  | m, [] => some m
  | m, v :: vs =>
    match m.InsertUnchecked hash v with
    | none => none
    | some (m1, _) => insertAllUnchecked hash m1 vs

/-- `Rehash(count)`. -/
def Rehash (hash : Key → Nat) (m : HashMap Key T) (count : Nat) : Option (HashMap Key T) :=
  match ceilDiv m.Size m.max_load_factor_ with
  | none => none
  | some min_count =>
    let new_size := max min_count count
    let new_elements : DoublyLinkedList (Key × T) := DoublyLinkedList.empty
    let new_buckets := List.replicate new_size (new_elements.end_, new_elements.end_)
    insertAllUnchecked hash
      { m with elements_ := new_elements, buckets_ := new_buckets } m.toList

/-- `Reserve(count)`: `Rehash(std::ceil(count / max_load_factor_))`. -/
def Reserve (hash : Key → Nat) (m : HashMap Key T) (count : Nat) : Option (HashMap Key T) :=
  match ceilDiv count m.max_load_factor_ with
  | none => none
  | some n => m.Rehash hash n

/-- `CheckRehash(additional)`. -/
def CheckRehash (hash : Key → Nat) (m : HashMap Key T) (additional : Nat) :
    Option (HashMap Key T) :=
  let new_size := m.Size + additional
  if m.max_load_factor_.mulLt m.BucketCount new_size then
    m.Rehash hash (max new_size (m.Size * 2))
  else some m

/-- `Insert(value)`: the table, the returned iterator and the flag. -/
def Insert (hash : Key → Nat) (m : HashMap Key T) (value : Key × T) :
    Option (HashMap Key T × Iterator × Bool) :=
  match m.Find hash value.1 with
  | none => none
  | some existing_it =>
    if existing_it ≠ m.end_ then some (m, existing_it, false)
    else
      match m.CheckRehash hash 1 with
      | none => none
      | some m1 =>
        match m1.InsertUnchecked hash value with
        | none => none
        | some (m2, it) => some (m2, it, true)

/-- The loop of the range `Insert`:
`if (Contains(it->first)) continue; InsertUnchecked(*it);`. -/
def insertAllChecked (hash : Key → Nat) :
    HashMap Key T → List (Key × T) → Option (HashMap Key T)
  | m, [] => some m
  | m, v :: vs =>
    match m.Contains hash v.1 with
    | none => none
    | some true => insertAllChecked hash m vs
    | some false =>
      match m.InsertUnchecked hash v with
      | none => none
      | some (m1, _) => insertAllChecked hash m1 vs

/-- `Insert(first, last)` and `Insert(initializer_list)`; the range is given
by the list of its elements. -/
def InsertRange (hash : Key → Nat) (m : HashMap Key T) (values : List (Key × T)) :
    Option (HashMap Key T) :=
  if values.isEmpty then some m
  else
    match m.CheckRehash hash values.length with
    | none => none
    | some m1 => insertAllChecked hash m1 values

/-- `Erase(const_iterator position)`. -/
def ErasePosition (hash : Key → Nat) (m : HashMap Key T) (position : Iterator) :
    Option (HashMap Key T × Iterator) :=
  match m.elements_.deref position with
  | none => none
  | some pv =>
    match m.Find hash pv.1 with
    | none => none
    | some it =>
      match m.elements_.deref it with
      | none => none
      | some iv =>
        match m.Bucket hash iv.1 with
        | none => none
        | some b =>
          match m.buckets_[b]? with
          | none => none
          | some bucket =>
            let adjusted : Option (Iterator × Iterator) :=
              if bucket.1 = it then (m.elements_.next it).map (fun nx => (nx, bucket.2))
              else if bucket.2 = it then (m.elements_.prev it).map (fun pr => (bucket.1, pr))
              else some bucket
            match adjusted with
            | none => none
            | some bucket1 =>
              let bucket2 : Iterator × Iterator :=
                if bucket1.1 = bucket1.2 then (m.end_, m.end_) else bucket1
              match m.elements_.Erase it with
              | none => none
              | some (els, next_it) =>
                some ({ m with elements_ := els, buckets_ := m.buckets_.set b bucket2 },
                  next_it)

/-- `Erase(const Key& key)`: the table and the returned count. -/
def Erase (hash : Key → Nat) (m : HashMap Key T) (key : Key) : Option (HashMap Key T × Nat) :=
  match m.Find hash key with
  | none => none
  | some it =>
    if it = m.end_ then some (m, 0)
    else
      match m.ErasePosition hash it with
      | none => none
      | some (m1, _) => some (m1, 1)

/-- `InsertOrAssign(key, value)`: the table, the returned iterator and the
flag. -/
def InsertOrAssign (hash : Key → Nat) (m : HashMap Key T) (key : Key) (value : T) :
    Option (HashMap Key T × Iterator × Bool) :=
  match m.Find hash key with
  | none => none
  | some existing_it =>
    if existing_it ≠ m.end_ then
      match m.elements_.assign existing_it (fun e => (e.1, value)) with
      | none => none
      | some els => some ({ m with elements_ := els }, existing_it, false)
    else
      match m.CheckRehash hash 1 with
      | none => none
      | some m1 =>
        match m1.InsertUnchecked hash (key, value) with
        | none => none
        | some (m2, it) => some (m2, it, true)

/-- The loop of the range `Erase`:
`do { next_it = Erase(next_it); } while (next_it != last_it);`.  Every
iteration that returns deletes one element, `fuel` is the number of
iterations granted. -/
def eraseLoop (hash : Key → Nat) (last_it : Iterator) :
    Nat → HashMap Key T → Iterator → Option (HashMap Key T × Iterator)
  | 0, _, _ => none
  | fuel + 1, m, next_it =>
    match m.ErasePosition hash next_it with
    | none => none
    | some (m1, nx) =>
      if nx ≠ last_it then eraseLoop hash last_it fuel m1 nx else some (m1, nx)

/-- `Erase(const_iterator first, const_iterator last)`:
`first_it = Find(first->first); last_it = Find(last->first);` and the loop;
the table and the returned iterator. -/
def EraseRange (hash : Key → Nat) (m : HashMap Key T) (first last : Iterator) :
    Option (HashMap Key T × Iterator) :=
  match m.elements_.deref first with
  | none => none
  | some fv =>
    match m.Find hash fv.1 with
    | none => none
    | some first_it =>
      match m.elements_.deref last with
      | none => none
      | some lv =>
        match m.Find hash lv.1 with
        | none => none
        | some last_it => eraseLoop hash last_it (m.Size + 1) m first_it

/-- `Clear()`. -/
def Clear (m : HashMap Key T) : HashMap Key T :=
  { m with
    elements_ := m.elements_.Clear
    buckets_ := m.buckets_.map (fun _ => (m.elements_.end_, m.elements_.end_)) }

/-- `Swap(other)`: `elements_` and `buckets_` are exchanged, `max_load_factor_`
is not; returns the new `*this` and the new `other`. -/
def Swap (m other : HashMap Key T) : HashMap Key T × HashMap Key T :=
  ({ m with elements_ := other.elements_, buckets_ := other.buckets_ },
   { other with elements_ := m.elements_, buckets_ := m.buckets_ })

/-- `begin(n)`: `buckets_[n].first`. -/
def beginBucket (m : HashMap Key T) (n : Nat) : Option Iterator :=
  (m.buckets_[n]?).map Prod.fst

/-- `end(n)`: `buckets_[n].second`. -/
def endBucket (m : HashMap Key T) (n : Nat) : Option Iterator :=
  (m.buckets_[n]?).map Prod.snd

/-- `BucketSize(n)`: `std::distance(bucket.first, bucket.second)` of
`buckets_[n]`. -/
def BucketSize (m : HashMap Key T) (n : Nat) : Option Nat :=
  match m.buckets_[n]? with
  | none => none
  | some bucket => m.elements_.distance bucket.1 bucket.2

/-- `LoadFactor()`: `Empty() ? 0 : Size() / BucketCount()`.  Both operands of
the division are `std::size_t`, so it is the integer division, and its result
is converted to `float`. -/
def LoadFactor (m : HashMap Key T) : Option Fraction :=
  if m.Empty then some ⟨0, 1, Nat.one_pos⟩
  else if m.BucketCount = 0 then none
  else some ⟨m.Size / m.BucketCount, 1, Nat.one_pos⟩

/-- The nodes visited by `for (it; it != last; ++it)`, started at the first
node of `ns`; the loop must not step over the sentinel. -/
def rangeLoop (last : Iterator) : List (Nat × (Key × T)) → Option (List (Nat × (Key × T)))
  | [] => if last = Iterator.head then some [] else none
  | n :: ns =>
    if last = Iterator.node n.1 then some []
    else (rangeLoop last ns).map (fun r => n :: r)

/-- The elements in the range `[begin(n), end(n))` of bucket `n`. -/
def bucketElements (m : HashMap Key T) (n : Nat) : Option (List (Key × T)) :=
  match m.buckets_[n]? with
  | none => none
  | some bucket =>
    match m.elements_.walkFrom bucket.1 with
    | none => none
    | some ns => (rangeLoop bucket.2 ns).map (fun r => r.map Prod.snd)

/-- The loop of `operator==`: for every `value` of `*this`,
`it = other.Find(value.first)` and
`if (it == other.end() || it->second != value.second) return false;`. -/
def equalLoop [DecidableEq T] (hash : Key → Nat) (other : HashMap Key T) :
    List (Key × T) → Option Bool
  | [] => some true
  | value :: vs =>
    match other.Find hash value.1 with
    | none => none
    | some it =>
      if it = other.end_ then some false
      else
        match other.elements_.deref it with
        | none => none
        | some ov => if ov.2 ≠ value.2 then some false else equalLoop hash other vs

/-- `operator==`. -/
def equal [DecidableEq T] (hash : Key → Nat) (m other : HashMap Key T) : Option Bool :=
  if m.Size ≠ other.Size then some false else equalLoop hash other m.toList

/-- `operator!=`: `!(*this == other)`. -/
def notEqual [DecidableEq T] (hash : Key → Nat) (m other : HashMap Key T) : Option Bool :=
  (m.equal hash other).map (fun r => !r)

/-- `operator=(const HashMap& other)` for `this != &other`. -/
def copyAssign (hash : Key → Nat) (m other : HashMap Key T) : Option (HashMap Key T) :=
  match m.Clear.CheckRehash hash other.Size with
  | none => none
  | some m1 => insertAllUnchecked hash m1 other.toList

/-- `HashMap(HashMap&& other)`: `Swap(other); other.max_load_factor_ = 1;` on
default-initialised members; returns the new table and the moved-from
`other`. -/
def moveConstruct (other : HashMap Key T) : HashMap Key T × HashMap Key T :=
  let r := (default : HashMap Key T).Swap other
  (r.1, { r.2 with max_load_factor_ := Fraction.one })

/-- `operator=(HashMap&& other)` for `this != &other`:
`Clear(); Swap(other); other.max_load_factor_ = 1;`; returns the new `*this`
and the moved-from `other`. -/
def moveAssign (m other : HashMap Key T) : HashMap Key T × HashMap Key T :=
  let r := m.Clear.Swap other
  (r.1, { r.2 with max_load_factor_ := Fraction.one })

/-! ### Callers -/

/-- A caller that inserts the pairs of a list one at a time:
`for (value : values) table.Insert(value);`. -/
def insertEach (hash : Key → Nat) : HashMap Key T → List (Key × T) → Option (HashMap Key T)
  | m, [] => some m
  | m, v :: vs =>
    match m.Insert hash v with
    | none => none
    | some r => insertEach hash r.1 vs

/-- The three forms of `Insert`: of a value, of an iterator range and of an
initializer list (the ranges are given by the list of their elements). -/
inductive InsertCall (Key T : Type) where
  | value (v : Key × T) : InsertCall Key T
  | range (vs : List (Key × T)) : InsertCall Key T
  | initializerList (vs : List (Key × T)) : InsertCall Key T

/-- One `Insert` call; `Insert(initializer_list)` is
`Insert(list.begin(), list.end())`. -/
def applyInsert (hash : Key → Nat) (m : HashMap Key T) :
    InsertCall Key T → Option (HashMap Key T)
  | InsertCall.value v => (m.Insert hash v).map (fun r => r.1)
  | InsertCall.range vs => m.InsertRange hash vs
  | InsertCall.initializerList vs => m.InsertRange hash vs

/-- A sequence of `Insert` calls on one table. -/
def runInserts (hash : Key → Nat) :
    HashMap Key T → List (InsertCall Key T) → Option (HashMap Key T)
  | m, [] => some m
  | m, c :: cs =>
    match applyInsert hash m c with
    | none => none
    | some m1 => runInserts hash m1 cs

/-- A call of `Insert(value)` or of `Erase(key)`. -/
inductive Call (Key T : Type) where
  | insert (v : Key × T) : Call Key T
  | erase (k : Key) : Call Key T

/-- One call of `Insert(value)` or `Erase(key)`. -/
def applyCall (hash : Key → Nat) (m : HashMap Key T) : Call Key T → Option (HashMap Key T)
  | Call.insert v => (m.Insert hash v).map (fun r => r.1)
  | Call.erase k => (m.Erase hash k).map (fun r => r.1)

/-- A sequence of `Insert(value)` and `Erase(key)` calls on one table. -/
def runCalls (hash : Key → Nat) :
    HashMap Key T → List (Call Key T) → Option (HashMap Key T)
  | m, [] => some m
  | m, c :: cs =>
    match applyCall hash m c with
    | none => none
    | some m1 => runCalls hash m1 cs

/-! ### States and invariants -/

/-- The tables built without erasing: from `HashMap()` by `MaxLoadFactor(f)`
with `f > 0`, the forms of `Insert`, `Rehash` and `Reserve`. -/
inductive Built (hash : Key → Nat) : HashMap Key T → Prop where
  | default : Built hash (default : HashMap Key T)
  | maxLoadFactor {m : HashMap Key T} (f : Fraction) :
      Built hash m → 0 < f.num → Built hash (m.setMaxLoadFactor f)
  | insert {m : HashMap Key T} (v : Key × T) {r : HashMap Key T × Iterator × Bool} :
      Built hash m → m.Insert hash v = some r → Built hash r.1
  | insertRange {m : HashMap Key T} (vs : List (Key × T)) {m1 : HashMap Key T} :
      Built hash m → m.InsertRange hash vs = some m1 → Built hash m1
  | rehash {m : HashMap Key T} (n : Nat) {m1 : HashMap Key T} :
      Built hash m → m.Rehash hash n = some m1 → Built hash m1
  | reserve {m : HashMap Key T} (n : Nat) {m1 : HashMap Key T} :
      Built hash m → m.Reserve hash n = some m1 → Built hash m1

/-- The tables reachable from `HashMap()` by `MaxLoadFactor(f)` with `f > 0`,
the forms of `Insert`, `Erase(key)`, `Clear`, `Rehash` and `Reserve`, each
call having defined behaviour. -/
inductive Reachable (hash : Key → Nat) : HashMap Key T → Prop where
  | default : Reachable hash (default : HashMap Key T)
  | maxLoadFactor {m : HashMap Key T} (f : Fraction) :
      Reachable hash m → 0 < f.num → Reachable hash (m.setMaxLoadFactor f)
  | insert {m : HashMap Key T} (v : Key × T) {r : HashMap Key T × Iterator × Bool} :
      Reachable hash m → m.Insert hash v = some r → Reachable hash r.1
  | insertRange {m : HashMap Key T} (vs : List (Key × T)) {m1 : HashMap Key T} :
      Reachable hash m → m.InsertRange hash vs = some m1 → Reachable hash m1
  | erase {m : HashMap Key T} (k : Key) {r : HashMap Key T × Nat} :
      Reachable hash m → m.Erase hash k = some r → Reachable hash r.1
  | clear {m : HashMap Key T} : Reachable hash m → Reachable hash m.Clear
  | rehash {m : HashMap Key T} (n : Nat) {m1 : HashMap Key T} :
      Reachable hash m → m.Rehash hash n = some m1 → Reachable hash m1
  | reserve {m : HashMap Key T} (n : Nat) {m1 : HashMap Key T} :
      Reachable hash m → m.Reserve hash n = some m1 → Reachable hash m1

/-- The keys of the stored elements, in iteration order. -/
def keys (m : HashMap Key T) : List Key := m.toList.map Prod.fst

/-- Every bucket entry ends at the sentinel, and the walk from its `first`
up to the sentinel meets every stored element that hashes to the bucket. -/
def Covers (hash : Key → Nat) (m : HashMap Key T) : Prop :=
  ∀ (b : Nat) (bucket : Iterator × Iterator), m.buckets_[b]? = some bucket →
    bucket.2 = Iterator.head ∧
    ∀ ns, m.elements_.walkFrom bucket.1 = some ns →
      ∀ n ∈ m.elements_.nodes, hash n.2.1 % m.buckets_.length = b → n ∈ ns

/-- The representation invariant kept by every operation of the table. -/
structure Inv (hash : Key → Nat) (m : HashMap Key T) : Prop where
  addrs_nodup : (DoublyLinkedList.addrs m.elements_.nodes).Nodup
  addrs_lt : ∀ n ∈ m.elements_.nodes, n.1 < m.elements_.brk
  keys_nodup : m.keys.Nodup
  buckets_pos : m.elements_.nodes ≠ [] → 0 < m.buckets_.length
  covers : Covers hash m
  buckets_lt : ∀ (b : Nat) (bucket : Iterator × Iterator), m.buckets_[b]? = some bucket →
    ∀ a, bucket.1 = Iterator.node a → a < m.elements_.brk
  mlf_pos : 0 < m.max_load_factor_.num

/-- No bucket entry points to a deleted node. -/
def Clean (m : HashMap Key T) : Prop :=
  ∀ (b : Nat) (bucket : Iterator × Iterator), m.buckets_[b]? = some bucket →
    ∀ a, bucket.1 = Iterator.node a → a ∈ DoublyLinkedList.addrs m.elements_.nodes

/-- The states in which every lookup is defined and right: the invariant
holds and no bucket entry dangles. -/
structure Good (hash : Key → Nat) (m : HashMap Key T) : Prop where
  inv : Inv hash m
  clean : Clean m

/-- Every bucket entry is `(first, end())` where `first` is `end()` or points
to the node of a stored element that hashes to this bucket, and the node
addresses in use lie below the next fresh one.  This holds in the tables
built without erasing. -/
structure Owned (hash : Key → Nat) (m : HashMap Key T) : Prop where
  second_end : ∀ (b : Nat) (bucket : Iterator × Iterator), m.buckets_[b]? = some bucket →
    bucket.2 = Iterator.head
  addrs_lt : ∀ n ∈ m.elements_.nodes, n.1 < m.elements_.brk
  own : ∀ (b : Nat) (bucket : Iterator × Iterator), m.buckets_[b]? = some bucket →
    ∀ a, bucket.1 = Iterator.node a →
      ∃ n ∈ m.elements_.nodes, n.1 = a ∧ hash n.2.1 % m.buckets_.length = b

/-! ### Sample tables (keys and values `int`, `std::hash<int>` the identity) -/

/-- The table after `Insert({1,1}); Insert({2,4});`. -/
def tableA : HashMap Nat Nat :=
  ⟨⟨[(0, (1, 1)), (1, (2, 4))], 2⟩,
    [(Iterator.node 1, Iterator.head), (Iterator.node 0, Iterator.head)], Fraction.one⟩

/-- The table after `Insert({2,4}); Insert({1,1});`. -/
def tableB : HashMap Nat Nat :=
  ⟨⟨[(0, (2, 4)), (1, (1, 1))], 2⟩,
    [(Iterator.node 0, Iterator.head), (Iterator.node 1, Iterator.head)], Fraction.one⟩

/-- The table after `Insert({1,1}); Insert({2,4}); Insert({3,9});`. -/
def tableC : HashMap Nat Nat :=
  ⟨⟨[(0, (1, 1)), (1, (2, 4)), (2, (3, 9))], 3⟩,
    [(Iterator.head, Iterator.head), (Iterator.node 0, Iterator.head),
      (Iterator.node 1, Iterator.head), (Iterator.node 2, Iterator.head)], Fraction.one⟩

/-- The table after `Insert({1,1}); Insert({2,4}); Insert({3,9}); Erase(1);
Insert({6,36}); Insert({5,25}); Erase(6); Erase(5);`: the keys 2 and 3 are
stored, and the entry of bucket 2 points to the deleted node of key 5. -/
def tableDangling : HashMap Nat Nat :=
  ⟨⟨[(1, (2, 4)), (2, (3, 9))], 5⟩,
    [(Iterator.head, Iterator.head), (Iterator.node 1, Iterator.head),
      (Iterator.node 4, Iterator.head), (Iterator.node 2, Iterator.head)], Fraction.one⟩

/-- The table after `MaxLoadFactor(2); Insert({1,1});`. -/
def tableWide : HashMap Nat Nat :=
  ⟨⟨[(0, (1, 1))], 1⟩, [(Iterator.node 0, Iterator.head)], ⟨2, 1, Nat.one_pos⟩⟩

end HashMap

/-- Subtraction of `std::size_t` values: it wraps around below zero. -/
def wsub (a b : Nat) : Nat := if b ≤ a then a - b else a + 2 ^ 64 - b

/-- The state of a `DynamicArray<T>`: the cells of the buffer `data_` points
to (`[]` for `nullptr`), `capacity_` and `size_`.  A cell is `none` while no
value has been stored in it since the buffer was allocated. -/
structure DynamicArray (T : Type) where
  data_ : List (Option T)
  capacity_ : Nat
  size_ : Nat
  deriving Repr

namespace DynamicArray

variable {T : Type}

/-- `DynamicArray()`: `data_{nullptr}`, `capacity_{0}`, `size_{0}`. -/
def default : DynamicArray T := ⟨[], 0, 0⟩

/-- `Empty()`. -/
def Empty (a : DynamicArray T) : Bool := a.size_ == 0

/-- `Size()`. -/
def Size (a : DynamicArray T) : Nat := a.size_

/-- `Capacity()`. -/
def Capacity (a : DynamicArray T) : Nat := a.capacity_

/-- `operator[](index)`: `data_[index]`; undefined outside the buffer and for
a cell that holds no value. -/
def subscript (a : DynamicArray T) (index : Nat) : Option T :=
  match a.data_[index]? with
  | some (some v) => some v
  | _ => none

/-- `At(index)`: the element, or the exception `std::out_of_range`
(`Except.error ()`). -/
def At (a : DynamicArray T) (index : Nat) : Option (Except Unit T) :=
  if index ≥ a.size_ then some (Except.error ())
  else (a.subscript index).map Except.ok

/-- The loop `for (i = 0; i < count; ++i) new_data[i] = std::move(data[i]);`;
undefined when it leaves one of the two buffers. -/
def moveCells (data : List (Option T)) : Nat → List (Option T) → Option (List (Option T))
  | 0, new_data => some new_data
  | i + 1, new_data =>
    match moveCells data i new_data with
    | none => none
    | some moved =>
      match data[i]? with
      | none => none
      | some cell => if i < moved.length then some (moved.set i cell) else none

/-- `ForceReserve(new_capacity)`: a buffer of `new_capacity` cells is
allocated, the first `size_` cells are moved into it and the old buffer is
freed. -/
def ForceReserve (a : DynamicArray T) (new_capacity : Nat) : Option (DynamicArray T) :=
  match moveCells a.data_ a.size_ (List.replicate new_capacity none) with
  | none => none
  | some new_data => some ⟨new_data, new_capacity, a.size_⟩

/-- `Reserve(new_capacity)`. -/
def Reserve (a : DynamicArray T) (new_capacity : Nat) : Option (DynamicArray T) :=
  if new_capacity ≤ a.capacity_ then some a else a.ForceReserve new_capacity

/-- `Grow()`: `ForceReserve(capacity_ == 0 ? 1 : capacity_ * 2)`. -/
def Grow (a : DynamicArray T) : Option (DynamicArray T) :=
  a.ForceReserve (if a.capacity_ = 0 then 1 else a.capacity_ * 2)

/-- `PushBack(value)`:
`if (size_ == capacity_) Grow(); data_[size_] = value; ++size_;`. -/
def PushBack (a : DynamicArray T) (value : T) : Option (DynamicArray T) :=
  match (if a.size_ = a.capacity_ then a.Grow else some a) with
  | none => none
  | some a1 =>
    if a1.size_ < a1.data_.length then
      some { a1 with data_ := a1.data_.set a1.size_ (some value), size_ := a1.size_ + 1 }
    else none

/-- The loop `for (n times; ++old_i, ++i) new_data[i] = std::move(data[old_i]);`;
undefined when it leaves one of the two buffers. -/
def moveRange (data : List (Option T)) :
    (n old_i i : Nat) → List (Option T) → Option (List (Option T))
  | 0, _, _, new_data => some new_data
  | n + 1, old_i, i, new_data =>
    match data[old_i]? with
    | none => none
    | some cell =>
      if i < new_data.length then
        moveRange data n (old_i + 1) (i + 1) (new_data.set i cell)
      else none

/-- The loop `for (it = first; it != last; ++it) { data[i] = *it; ++i; }` over
the values of the range `[first, last)`. -/
def writeCells : List T → Nat → List (Option T) → Option (List (Option T))
  | [], _, data => some data
  | x :: xs, i, data =>
    if i < data.length then writeCells xs (i + 1) (data.set i (some x)) else none

/-- The loop `for (i = hi; i > lo; --i) std::swap(data_[i - distance], data_[i]);`
with `n = hi - lo` iterations left and `i` the current index.  The two cells
exchange what they hold, be it a value or none. -/
def swapDown (distance : Nat) : (n i : Nat) → List (Option T) → Option (List (Option T))
  | 0, _, data => some data
  | n + 1, i, data =>
    if i < distance then none
    else
      match data[i - distance]?, data[i]? with
      | some x, some y => swapDown distance n (i - 1) ((data.set (i - distance) y).set i x)
      | _, _ => none

/-- `Insert(position, first, last)` with `position == cbegin() + index` and
`xs` the values of `[first, last)`, a range of another container; returns the
array and the index of the returned iterator. -/
def Insert (a : DynamicArray T) (index : Nat) (xs : List T) : Option (DynamicArray T × Nat) :=
  if xs.isEmpty then some (a, index)
  else
    let distance := xs.length
    let new_size := a.size_ + distance
    if new_size > a.capacity_ then
      let new_capacity := max (a.capacity_ * 2) new_size
      match moveRange a.data_ index 0 0 (List.replicate new_capacity none) with
      | none => none
      | some d1 =>
        match writeCells xs index d1 with
        | none => none
        | some d2 =>
          match moveRange a.data_ (a.size_ - index) index (index + distance) d2 with
          | none => none
          | some d3 => some (⟨d3, new_capacity, new_size⟩, index)
    else
      match swapDown distance (a.size_ + distance - 1 - (index + distance - 1))
          (a.size_ + distance - 1) a.data_ with
      | none => none
      | some d1 =>
        match writeCells xs index d1 with
        | none => none
        | some d2 => some ({ a with data_ := d2, size_ := new_size }, index)

/-- `DynamicArray(std::initializer_list<T> list)`: `Insert(cbegin(), list)` on
the default-initialised members. -/
def ofList (list : List T) : Option (DynamicArray T) :=
  ((default : DynamicArray T).Insert 0 list).map Prod.fst

/-- `operator=(std::initializer_list<T> list)`:
`Reserve(list.size());`, the loop `data_[i] = value; ++i;` and
`size_ = list.size();`. -/
def assignList (a : DynamicArray T) (list : List T) : Option (DynamicArray T) :=
  match a.Reserve list.length with
  | none => none
  | some a1 =>
    match writeCells list 0 a1.data_ with
    | none => none
    | some d => some { a1 with data_ := d, size_ := list.length }

/-- The loop `for (n times; ++i) data_[i].~T();`: the cells hold no value
afterwards. -/
def destroyCells : (n i : Nat) → List (Option T) → Option (List (Option T))
  | 0, _, data => some data
  | n + 1, i, data =>
    if i < data.length then destroyCells n (i + 1) (data.set i none) else none

/-- The loop `for (i; i + distance < size_; ++i) data_[i] = std::move(data_[i + distance]);`
with `n` iterations left. -/
def shiftDown (distance : Nat) : (n i : Nat) → List (Option T) → Option (List (Option T))
  | 0, _, data => some data
  | n + 1, i, data =>
    match data[i + distance]? with
    | none => none
    | some cell =>
      if i < data.length then shiftDown distance n (i + 1) (data.set i cell) else none

/-- `Erase(first, last)` with `first == cbegin() + first_index` and
`last == cbegin() + last`; returns the array and the index of the returned
iterator (`end()` is the index `size_`). -/
def Erase (a : DynamicArray T) (first_index last : Nat) : Option (DynamicArray T × Nat) :=
  if first_index = a.size_ then some (a, a.size_)
  else
    let distance := wsub last first_index
    if distance = 0 then some (a, last)
    else
      let last_index := first_index + distance
      match destroyCells distance first_index a.data_ with
      | none => none
      | some d1 =>
        match shiftDown distance (a.size_ - (first_index + distance)) first_index d1 with
        | none => none
        | some d2 =>
          let size1 := wsub a.size_ distance
          some ({ a with data_ := d2, size_ := size1 },
            if last_index = size1 then size1 else wsub last_index distance)

/-- `Erase(position)`: `Erase(position, position + 1)`. -/
def ErasePosition (a : DynamicArray T) (index : Nat) : Option (DynamicArray T × Nat) :=
  a.Erase index (index + 1)

/-- `PopBack()`: `data_[size_ - 1].~T(); --size_;`. -/
def PopBack (a : DynamicArray T) : Option (DynamicArray T) :=
  if a.size_ = 0 then none
  else if a.size_ - 1 < a.data_.length then
    some { a with data_ := a.data_.set (a.size_ - 1) none, size_ := a.size_ - 1 }
  else none

/-- The loop of `operator==`:
`for (i; i < size_; ++i) if ((*this)[i] != other[i]) return false; return true;`
with `n` iterations left. -/
def equalLoop [DecidableEq T] (a other : DynamicArray T) : (n i : Nat) → Option Bool
  | 0, _ => some true
  | n + 1, i =>
    match a.subscript i, other.subscript i with
    | some x, some y => if x ≠ y then some false else equalLoop a other n (i + 1)
    | _, _ => none

/-- `operator==`. -/
def equal [DecidableEq T] (a other : DynamicArray T) : Option Bool :=
  if a.size_ ≠ other.size_ then some false else equalLoop a other a.size_ 0

/-- The loop of `operator<`:
`for (i; i < other.size_; ++i) if (!((*this)[i] < other[i])) return false; return true;`
with `n` iterations left; `lt` is `operator<` of the element type. -/
def lessLoop (lt : T → T → Bool) (a other : DynamicArray T) : (n i : Nat) → Option Bool
  | 0, _ => some true
  | n + 1, i =>
    match a.subscript i, other.subscript i with
    | some x, some y => if !(lt x y) then some false else lessLoop lt a other n (i + 1)
    | _, _ => none

/-- `operator<`. -/
def less (lt : T → T → Bool) (a other : DynamicArray T) : Option Bool :=
  if a.size_ ≠ other.size_ then some (decide (a.size_ < other.size_))
  else lessLoop lt a other other.size_ 0

/-- `operator>`: `other < *this`. -/
def greater (lt : T → T → Bool) (a other : DynamicArray T) : Option Bool :=
  other.less lt a

/-- `operator<=`: `!(*this > other)`. -/
def lessEq (lt : T → T → Bool) (a other : DynamicArray T) : Option Bool :=
  (a.greater lt other).map (fun r => !r)

/-- `operator>=`: `!(*this < other)`. -/
def greaterEq (lt : T → T → Bool) (a other : DynamicArray T) : Option Bool :=
  (a.less lt other).map (fun r => !r)

/-- `std::swap(a[i], a[j])`; both elements are read, so both cells must hold a
value. -/
def swapCells (a : DynamicArray T) (i j : Nat) : Option (DynamicArray T) :=
  match a.subscript i, a.subscript j with
  | some x, some y => some { a with data_ := (a.data_.set i (some y)).set j (some x) }
  | _, _ => none

/-- The elements `a[0], ..., a[Size() - 1]`. -/
def toList (a : DynamicArray T) : List T := (a.data_.take a.size_).reduceOption

/-- The representation invariant of the array: the buffer has `capacity_`
cells, `size_` is at most `capacity_`, and each of the first `size_` cells
holds an element. -/
structure WF (a : DynamicArray T) : Prop where
  size_le : a.size_ ≤ a.capacity_
  length_eq : a.data_.length = a.capacity_
  stored : ∀ i, i < a.size_ → (a.subscript i).isSome = true

/-- The array after `PushBack(7); PushBack(8);` on `DynamicArray<int>()`. -/
def arrayA : DynamicArray Nat := ⟨[some 7, some 8], 2, 2⟩

/-- The array `DynamicArray<int>{1, 3, 4, 5}`. -/
def arrayB : DynamicArray Nat := ⟨[some 1, some 3, some 4, some 5], 4, 4⟩

/-- The array left by `Erase(cbegin() + 2)` on `DynamicArray<int>{1, 3, 4, 5}`. -/
def arrayErased : DynamicArray Nat := ⟨[some 1, some 3, some 5, some 5], 4, 3⟩

end DynamicArray

/-- The `Position` of `Deque`: the end at which `Grow` and `Erase` work. -/
inductive Position where
  | kFront : Position
  | kBack : Position
  deriving DecidableEq, Repr

/-- The state of a `Deque<T>`: the blocks the entries of `map_` point to (`[]`
for `nullptr`), each block being the list of its cells, and the six counters.
A cell is `none` while no value has been stored in it since its block was
allocated.  Distinct entries of `map_` always point to distinct blocks. -/
structure Deque (T : Type) where
  map_ : List (List (Option T))
  map_capacity_ : Nat
  map_size_ : Nat
  map_head_ : Nat
  size_ : Nat
  block_head_ : Nat
  block_tail_ : Nat
  deriving Repr

namespace Deque

variable {T : Type}

/-- `Deque()`: `map_{nullptr}` and all counters 0. -/
def default : Deque T := ⟨[], 0, 0, 0, 0, 0, 0⟩

/-- `Empty()`. -/
def Empty (d : Deque T) : Bool := d.size_ == 0

/-- `Size()`. -/
def Size (d : Deque T) : Nat := d.size_

/-- The cell that `(*this)[index]` designates, as the index of its block in
`map_` and its offset in the block:
`map_[(map_head_ + (block_head_ + index) / kBlockSize) % map_capacity_][(block_head_ + index) % kBlockSize]`.
The modulo by `map_capacity_ == 0` is undefined. -/
def cellOf (kBlockSize : Nat) (d : Deque T) (index : Nat) : Option (Nat × Nat) :=
  if d.map_capacity_ = 0 then none
  else
    some ((d.map_head_ + (d.block_head_ + index) / kBlockSize) % d.map_capacity_,
      (d.block_head_ + index) % kBlockSize)

/-- What the cell `(*this)[index]` holds; undefined outside the map and the
block. -/
def readCell (kBlockSize : Nat) (d : Deque T) (index : Nat) : Option (Option T) :=
  match d.cellOf kBlockSize index with
  | none => none
  | some (b, o) =>
    match d.map_[b]? with
    | none => none
    | some block => block[o]?

/-- `operator[](index)` read as a value; undefined for a cell that holds no
value. -/
def subscript (kBlockSize : Nat) (d : Deque T) (index : Nat) : Option T :=
  match d.readCell kBlockSize index with
  | some (some v) => some v
  | _ => none

/-- The assignment `(*this)[index] = ...` of what a cell holds. -/
def writeCell (kBlockSize : Nat) (d : Deque T) (index : Nat) (cell : Option T) :
    Option (Deque T) :=
  match d.cellOf kBlockSize index with
  | none => none
  | some (b, o) =>
    match d.map_[b]? with
    | none => none
    | some block =>
      if o < block.length then some { d with map_ := d.map_.set b (block.set o cell) }
      else none

/-- `At(index)`: the element, or the exception `std::out_of_range`. -/
def At (kBlockSize : Nat) (d : Deque T) (index : Nat) : Option (Except Unit T) :=
  if index ≥ d.size_ then some (Except.error ())
  else (d.subscript kBlockSize index).map Except.ok

/-- `Front()`: `(*this)[0]`. -/
def Front (kBlockSize : Nat) (d : Deque T) : Option T := d.subscript kBlockSize 0

/-- `Back()`: `(*this)[size_ - 1]`. -/
def Back (kBlockSize : Nat) (d : Deque T) : Option T :=
  d.subscript kBlockSize (wsub d.size_ 1)

/-- The first loop of `GrowMap`:
`for (i; i < map_size_; ++i) new_map_[i] = map_[(map_head_ + i) % map_capacity_];`
with `n` iterations left; the blocks taken over, in order. -/
def takeBlocks (d : Deque T) : (n i : Nat) → Option (List (List (Option T)))
  | 0, _ => some []
  | n + 1, i =>
    if d.map_capacity_ = 0 then none
    else
      match d.map_[(d.map_head_ + i) % d.map_capacity_]? with
      | none => none
      | some block => (takeBlocks d n (i + 1)).map (fun r => block :: r)

/-- `GrowMap(new_capacity)`: the blocks in use are taken over in order, the
rest of the new map gets newly allocated blocks. -/
def GrowMap (kBlockSize : Nat) (d : Deque T) (new_capacity : Nat) : Option (Deque T) :=
  match takeBlocks d d.map_size_ 0 with
  | none => none
  | some blocks =>
    if d.map_size_ ≤ new_capacity then
      some { d with
        map_ := blocks ++
          List.replicate (new_capacity - d.map_size_) (List.replicate kBlockSize none)
        map_capacity_ := new_capacity
        map_head_ := 0 }
    else none

/-- `GrowBlocks(position, size)`. -/
def GrowBlocks (d : Deque T) (position : Position) (size : Nat) : Deque T :=
  let d1 := { d with map_size_ := d.map_size_ + size }
  match position with
  | Position.kFront =>
    if size > d1.map_head_ then
      { d1 with map_head_ := wsub (wsub d1.map_capacity_ 1) (wsub size (d1.map_head_ + 1)) }
    else { d1 with map_head_ := wsub d1.map_head_ size }
  | Position.kBack => d1

/-- The lambda `update_head_tail` of `Grow`. -/
def updateHeadTail (kBlockSize : Nat) (d : Deque T) (position : Position) (size : Nat) :
    Deque T :=
  if d.size_ = 0 then
    let used_blocks := (wsub size 1) / kBlockSize + 1
    let free_space := wsub (used_blocks * kBlockSize) size
    let block_head := free_space / 2
    { d with
      block_head_ := block_head
      block_tail_ := ((wsub size 1) % kBlockSize + block_head) % kBlockSize }
  else
    let offset := size % kBlockSize
    match position with
    | Position.kFront =>
      if d.block_head_ ≥ offset then { d with block_head_ := d.block_head_ - offset }
      else { d with block_head_ := wsub kBlockSize (offset - d.block_head_) }
    | Position.kBack => { d with block_tail_ := (d.block_tail_ + offset) % kBlockSize }

/-- `Grow(position, size)`. -/
def Grow (kBlockSize : Nat) (d : Deque T) (position : Position) (size : Nat) :
    Option (Deque T) :=
  let free_block_space :=
    if d.map_capacity_ = 0 then 0
    else
      match position with
      | Position.kFront => d.block_head_
      | Position.kBack => wsub kBlockSize (d.block_tail_ + 1)
  if size ≤ free_block_space then
    match position with
    | Position.kFront => some { d with block_head_ := wsub d.block_head_ size }
    | Position.kBack => some { d with block_tail_ := d.block_tail_ + size }
  else
    let required_space := wsub size free_block_space
    let new_blocks := (wsub required_space 1) / kBlockSize + 1
    if new_blocks ≤ wsub d.map_capacity_ d.map_size_ then
      some (updateHeadTail kBlockSize (d.GrowBlocks position new_blocks) position size)
    else
      let new_capacity := max (2 * d.map_capacity_) (d.map_capacity_ + new_blocks)
      match d.GrowMap kBlockSize new_capacity with
      | none => none
      | some d1 =>
        some (updateHeadTail kBlockSize (d1.GrowBlocks position new_blocks) position size)

/-- The loop of `Clear`: the `map_size_` blocks in use are deallocated and
allocated anew; `n` iterations left. -/
def resetBlocks (kBlockSize : Nat) (d : Deque T) :
    (n i : Nat) → List (List (Option T)) → Option (List (List (Option T)))
  | 0, _, map => some map
  | n + 1, i, map =>
    if d.map_capacity_ = 0 then none
    else if (d.map_head_ + i) % d.map_capacity_ < map.length then
      resetBlocks kBlockSize d n (i + 1)
        (map.set ((d.map_head_ + i) % d.map_capacity_) (List.replicate kBlockSize none))
    else none

/-- `Clear()`. -/
def Clear (kBlockSize : Nat) (d : Deque T) : Option (Deque T) :=
  match resetBlocks kBlockSize d d.map_size_ 0 d.map_ with
  | none => none
  | some map =>
    some { d with
      map_ := map, map_size_ := 0, map_head_ := 0, size_ := 0, block_head_ := 0,
      block_tail_ := 0 }

/-- The loop `for (value : list) { (*this)[i] = value; ++i; }`. -/
def writeAll (kBlockSize : Nat) : List T → Nat → Deque T → Option (Deque T)
  | [], _, d => some d
  | x :: xs, i, d =>
    match d.writeCell kBlockSize i (some x) with
    | none => none
    | some d1 => writeAll kBlockSize xs (i + 1) d1

/-- `Deque(std::initializer_list<T> list)` on the default-initialised
members. -/
def ofList (kBlockSize : Nat) (list : List T) : Option (Deque T) :=
  match (default : Deque T).Grow kBlockSize Position.kBack list.length with
  | none => none
  | some d1 => writeAll kBlockSize list 0 { d1 with size_ := list.length }

/-- `operator=(std::initializer_list<T> list)`. -/
def assignList (kBlockSize : Nat) (d : Deque T) (list : List T) : Option (Deque T) :=
  match d.Clear kBlockSize with
  | none => none
  | some d1 =>
    match d1.Grow kBlockSize Position.kBack list.length with
    | none => none
    | some d2 =>
      match writeAll kBlockSize list 0 d2 with
      | none => none
      | some d3 => some { d3 with size_ := list.length }

/-- The loop `for (i; i < size_; ++i) (*this)[i] = other[i];` with `n`
iterations left. -/
def copyAll (kBlockSize : Nat) (other : Deque T) : (n i : Nat) → Deque T → Option (Deque T)
  | 0, _, d => some d
  | n + 1, i, d =>
    match other.subscript kBlockSize i with
    | none => none
    | some v =>
      match d.writeCell kBlockSize i (some v) with
      | none => none
      | some d1 => copyAll kBlockSize other n (i + 1) d1

/-- `operator=(const Deque& other)` for `this != &other`. -/
def copyAssign (kBlockSize : Nat) (d other : Deque T) : Option (Deque T) :=
  match d.Clear kBlockSize with
  | none => none
  | some d1 =>
    match d1.Grow kBlockSize Position.kBack other.size_ with
    | none => none
    | some d2 => copyAll kBlockSize other other.size_ 0 { d2 with size_ := other.size_ }

/-- `PushBack(value)`: `Grow(kBack, 1); (*this)[size_] = value; ++size_;`. -/
def PushBack (kBlockSize : Nat) (d : Deque T) (value : T) : Option (Deque T) :=
  match d.Grow kBlockSize Position.kBack 1 with
  | none => none
  | some d1 =>
    match d1.writeCell kBlockSize d1.size_ (some value) with
    | none => none
    | some d2 => some { d2 with size_ := d2.size_ + 1 }

/-- `PushFront(value)`: `Grow(kFront, 1); (*this)[0] = value; ++size_;`. -/
def PushFront (kBlockSize : Nat) (d : Deque T) (value : T) : Option (Deque T) :=
  match d.Grow kBlockSize Position.kFront 1 with
  | none => none
  | some d1 =>
    match d1.writeCell kBlockSize 0 (some value) with
    | none => none
    | some d2 => some { d2 with size_ := d2.size_ + 1 }

/-- The loop `for (n times; ++i) (*this)[i].~T();`. -/
def destroyAll (kBlockSize : Nat) : (n i : Nat) → Deque T → Option (Deque T)
  | 0, _, d => some d
  | n + 1, i, d =>
    match d.writeCell kBlockSize i none with
    | none => none
    | some d1 => destroyAll kBlockSize n (i + 1) d1

/-- The loop
`for (i = last_index - 1; i >= distance; --i) (*this)[i] = std::move((*this)[i - distance]);`
with `n` iterations left and `i` the current index. -/
def moveUp (kBlockSize distance : Nat) : (n i : Nat) → Deque T → Option (Deque T)
  | 0, _, d => some d
  | n + 1, i, d =>
    match d.readCell kBlockSize (wsub i distance) with
    | none => none
    | some cell =>
      match d.writeCell kBlockSize i cell with
      | none => none
      | some d1 => moveUp kBlockSize distance n (i - 1) d1

/-- The loop
`for (i = first_index; i + distance < size_; ++i) (*this)[i] = std::move((*this)[i + distance]);`
with `n` iterations left. -/
def moveDown (kBlockSize distance : Nat) : (n i : Nat) → Deque T → Option (Deque T)
  | 0, _, d => some d
  | n + 1, i, d =>
    match d.readCell kBlockSize (i + distance) with
    | none => none
    | some cell =>
      match d.writeCell kBlockSize i cell with
      | none => none
      | some d1 => moveDown kBlockSize distance n (i + 1) d1

/-- `Erase(first, last)` with `first == cbegin() + first_index` and
`last == cbegin() + last`; returns the deque and the offset of the returned
iterator (`end()` is the offset `size_`). -/
def Erase (kBlockSize : Nat) (d : Deque T) (first_index last : Nat) :
    Option (Deque T × Nat) :=
  if first_index = d.size_ then some (d, d.size_)
  else
    let distance := wsub last first_index
    if distance = 0 then some (d, last)
    else
      let last_index := first_index + distance
      match destroyAll kBlockSize distance first_index d with
      | none => none
      | some d1 =>
        let shifted : Option (Deque T) :=
          if first_index < wsub (wsub (d1.size_ + distance) last_index) 1 then
            match moveUp kBlockSize distance (last_index - distance) (wsub last_index 1) d1 with
            | none => none
            | some d2 =>
              let erased_blocks := (distance + d2.block_head_) / kBlockSize
              let offset := distance % kBlockSize
              if d2.map_capacity_ = 0 then none
              else
                some { d2 with
                  map_size_ := wsub d2.map_size_ erased_blocks
                  map_head_ := (d2.map_head_ + erased_blocks) % d2.map_capacity_
                  block_head_ := (d2.block_head_ + offset) % kBlockSize }
          else
            match moveDown kBlockSize distance (d1.size_ - (first_index + distance))
                first_index d1 with
            | none => none
            | some d2 =>
              let erased_blocks :=
                distance / kBlockSize +
                  (if distance % kBlockSize > d2.block_tail_ then 1 else 0)
              let offset := distance % kBlockSize
              some { d2 with
                map_size_ := wsub d2.map_size_ erased_blocks
                block_tail_ :=
                  if d2.block_tail_ ≥ offset then d2.block_tail_ - offset
                  else wsub kBlockSize (offset - d2.block_tail_) }
        match shifted with
        | none => none
        | some d3 =>
          let size1 := wsub d3.size_ distance
          some ({ d3 with size_ := size1 },
            if last_index = size1 then size1 else wsub last_index distance)

/-- `PopFront()`: `Erase(cbegin())`, that is `Erase(cbegin(), cbegin() + 1)`. -/
def PopFront (kBlockSize : Nat) (d : Deque T) : Option (Deque T) :=
  (d.Erase kBlockSize 0 1).map Prod.fst

/-- `PopBack()`: `Erase(cend() - 1)`. -/
def PopBack (kBlockSize : Nat) (d : Deque T) : Option (Deque T) :=
  (d.Erase kBlockSize (wsub d.size_ 1) (wsub d.size_ 1 + 1)).map Prod.fst

/-- The copy loop of `ShrinkToFit`:
`for (i; i < size_; ++i) map[(block_head_ + i) / kBlockSize][(block_head_ + i) % kBlockSize] = std::move((*this)[i]);`
with `n` iterations left; `map` is the new map. -/
def shrinkCopy (kBlockSize : Nat) (d : Deque T) :
    (n i : Nat) → List (List (Option T)) → Option (List (List (Option T)))
  | 0, _, map => some map
  | n + 1, i, map =>
    match d.readCell kBlockSize i with
    | none => none
    | some cell =>
      match map[(d.block_head_ + i) / kBlockSize]? with
      | none => none
      | some block =>
        if (d.block_head_ + i) % kBlockSize < block.length then
          shrinkCopy kBlockSize d n (i + 1)
            (map.set ((d.block_head_ + i) / kBlockSize)
              (block.set ((d.block_head_ + i) % kBlockSize) cell))
        else none

/-- `ShrinkToFit()`. -/
def ShrinkToFit (kBlockSize : Nat) (d : Deque T) : Option (Deque T) :=
  let required_blocks := (wsub d.size_ 1) / kBlockSize + 1
  let free_space := wsub (required_blocks * kBlockSize) d.size_
  let block_head := free_space / 2
  let block_tail := ((wsub d.size_ 1) % kBlockSize + d.block_head_) % kBlockSize
  match shrinkCopy kBlockSize d d.size_ 0
      (List.replicate required_blocks (List.replicate kBlockSize none)) with
  | none => none
  | some map =>
    some { map_ := map, map_capacity_ := required_blocks, map_size_ := required_blocks,
           map_head_ := 0, size_ := d.size_, block_head_ := block_head,
           block_tail_ := block_tail }

/-- The elements `d[0], ..., d[Size() - 1]` as `operator[]` gives them. -/
def elements (kBlockSize : Nat) (d : Deque T) : List (Option T) :=
  (List.range d.size_).map (fun i => d.subscript kBlockSize i)

/-- A caller that pushes the values of a list in order:
`for (value : values) deque.PushBack(value);`. -/
def pushAll (kBlockSize : Nat) : Deque T → List T → Option (Deque T)
  | d, [] => some d
  | d, x :: xs =>
    match d.PushBack kBlockSize x with
    | none => none
    | some d1 => pushAll kBlockSize d1 xs

/-- The deque `d` holds the values `ys`: the map has `map_capacity_` blocks of
`kBlockSize` cells, the cells of the indices below `Size()` are distinct
cells of the map, and `d[i]` is `ys[i]`. -/
structure Holds (kBlockSize : Nat) (d : Deque T) (ys : List T) : Prop where
  block_size : 0 < kBlockSize
  capacity_pos : 0 < d.map_capacity_
  map_length : d.map_.length = d.map_capacity_
  blocks : ∀ b ∈ d.map_, b.length = kBlockSize
  head_lt : d.block_head_ < kBlockSize
  size_eq : d.size_ = ys.length
  fits : d.block_head_ + d.size_ ≤ d.map_capacity_ * kBlockSize
  cells : ∀ i, i < ys.length → d.subscript kBlockSize i = ys[i]?

/-- The state of a deque after `PushBack` of the values `ys`, one or more, on
`Deque()`: the blocks in use are the first `map_size_` of the map, and the
first value is in the middle of the first block. -/
structure Pushed (kBlockSize : Nat) (d : Deque T) (ys : List T) : Prop where
  holds : Holds kBlockSize d ys
  nonempty : 0 < ys.length
  map_head : d.map_head_ = 0
  block_head : d.block_head_ = (kBlockSize - 1) / 2
  block_tail : d.block_tail_ = (d.block_head_ + ys.length - 1) % kBlockSize
  map_size : d.map_size_ = (d.block_head_ + ys.length - 1) / kBlockSize + 1
  map_size_le : d.map_size_ ≤ d.map_capacity_

/-- The deque `Deque<int>{1}` (`kBlockSize == 4`). -/
def dequeOne : Deque Nat := ⟨[[none, some 1, none, none]], 1, 1, 0, 1, 1, 1⟩

/-- The deque `Deque<int>{1, 2, 3, 4, 5}`. -/
def dequeFive : Deque Nat :=
  ⟨[[none, some 1, some 2, some 3], [some 4, some 5, none, none]], 2, 2, 0, 5, 1, 1⟩

/-- The deque left by the assignment `d = {1, 2, 3, 4, 5}` to `Deque<int>{1}`. -/
def dequeAssigned : Deque Nat := ⟨[[some 4, some 5, some 2, some 3]], 1, 1, 0, 5, 1, 1⟩

/-- The deque after `PushBack(1); PushBack(2); PushBack(3);` on `Deque<int>()`. -/
def dequePushed : Deque Nat := ⟨[[none, some 1, some 2, some 3]], 1, 1, 0, 3, 1, 3⟩

end Deque

/-- The state of a `Queue<T>`: its member `container_`. -/
structure Queue (T : Type) where
  container_ : Deque T
  deriving Repr

namespace Queue

variable {T : Type}

/-- `Queue()`. -/
def default : Queue T := ⟨Deque.default⟩

/-- `Front()`. -/
def Front (kBlockSize : Nat) (q : Queue T) : Option T := q.container_.Front kBlockSize

/-- `Back()`. -/
def Back (kBlockSize : Nat) (q : Queue T) : Option T := q.container_.Back kBlockSize

/-- `Empty()`. -/
def Empty (q : Queue T) : Bool := q.container_.Empty

/-- `Size()`. -/
def Size (q : Queue T) : Nat := q.container_.Size

/-- `Push(value)`: `container_.PushBack(value)`. -/
def Push (kBlockSize : Nat) (q : Queue T) (value : T) : Option (Queue T) :=
  (q.container_.PushBack kBlockSize value).map (fun c => ⟨c⟩)

/-- `Pop()`: `container_.PopFront()`. -/
def Pop (kBlockSize : Nat) (q : Queue T) : Option (Queue T) :=
  (q.container_.PopFront kBlockSize).map (fun c => ⟨c⟩)

/-- A caller that pushes the values of a list in order. -/
def pushAll (kBlockSize : Nat) : Queue T → List T → Option (Queue T)
  | q, [] => some q
  | q, x :: xs =>
    match q.Push kBlockSize x with
    | none => none
    | some q1 => pushAll kBlockSize q1 xs

/-- A caller that calls `Pop()` `k` times. -/
def popN (kBlockSize : Nat) : Nat → Queue T → Option (Queue T)
  | 0, q => some q
  | k + 1, q =>
    match q.Pop kBlockSize with
    | none => none
    | some q1 => popN kBlockSize k q1

end Queue

/-- The state of a `BinaryHeap<T, Compare>`: its member `array_`. -/
structure BinaryHeap (T : Type) where
  array_ : DynamicArray T
  deriving Repr

namespace BinaryHeap

variable {T : Type}

/-- `BinaryHeap()`. -/
def default : BinaryHeap T := ⟨DynamicArray.default⟩

/-- `Size()`. -/
def Size (h : BinaryHeap T) : Nat := h.array_.Size

/-- `Empty()`. -/
def Empty (h : BinaryHeap T) : Bool := h.array_.Empty

/-- `Top()`: `array_[0]`. -/
def Top (h : BinaryHeap T) : Option T := h.array_.subscript 0

/-- One test of `Heapify`:
`if (child < Size() && !Compare{}(array_[child], array_[largest])) largest = child;`
gives the new value of `largest`; `lt` is `Compare{}`. -/
def pickLargest (lt : T → T → Bool) (h : BinaryHeap T) (child largest : Nat) : Option Nat :=
  if child < h.Size then
    match h.array_.subscript child, h.array_.subscript largest with
    | some c, some l => some (if !(lt c l) then child else largest)
    | _, _ => none
  else some largest

/-- `Heapify(index)`; `fuel` bounds the depth of the recursion. -/
def Heapify (lt : T → T → Bool) : Nat → BinaryHeap T → Nat → Option (BinaryHeap T)
  | 0, _, _ => none
  | fuel + 1, h, index =>
    match pickLargest lt h (2 * index + 1) index with
    | none => none
    | some largest1 =>
      match pickLargest lt h (2 * index + 2) largest1 with
      | none => none
      | some largest =>
        if largest ≠ index then
          match h.array_.swapCells index largest with
          | none => none
          | some a1 => Heapify lt fuel ⟨a1⟩ largest
        else some h

/-- The loop of `HeapifyArray`: `for (i = start; i <= start; --i) Heapify(i);`
with `n` iterations left; the recursion of `Heapify(i)` goes down from `i`, so
`Size()` bounds its depth. -/
def heapifyLoop (lt : T → T → Bool) : (n i : Nat) → BinaryHeap T → Option (BinaryHeap T)
  | 0, _, h => some h
  | n + 1, i, h =>
    match Heapify lt h.Size h i with
    | none => none
    | some h1 => heapifyLoop lt n (i - 1) h1

/-- `HeapifyArray()`. -/
def HeapifyArray (lt : T → T → Bool) (h : BinaryHeap T) : Option (BinaryHeap T) :=
  if h.Size ≤ 1 then some h
  else heapifyLoop lt (h.Size / 2 - 1 + 1) (h.Size / 2 - 1) h

/-- `BinaryHeap(std::initializer_list<T> list)`: `array_{list}` and
`HeapifyArray()`. -/
def ofList (lt : T → T → Bool) (list : List T) : Option (BinaryHeap T) :=
  match DynamicArray.ofList list with
  | none => none
  | some a => HeapifyArray lt ⟨a⟩

/-- `operator=(std::initializer_list<T> list)`: `array_ = list;` and
`HeapifyArray()`. -/
def assignList (lt : T → T → Bool) (h : BinaryHeap T) (list : List T) :
    Option (BinaryHeap T) :=
  match h.array_.assignList list with
  | none => none
  | some a => HeapifyArray lt ⟨a⟩

/-- `Insert(first, last)` and `Insert(std::initializer_list<T>)`:
`array_.Insert(array_.end(), first, last); HeapifyArray();`. -/
def InsertRange (lt : T → T → Bool) (h : BinaryHeap T) (xs : List T) :
    Option (BinaryHeap T) :=
  match h.array_.Insert h.array_.size_ xs with
  | none => none
  | some (a, _) => HeapifyArray lt ⟨a⟩

/-- `Insert(value)`: `Insert({value})`. -/
def Insert (lt : T → T → Bool) (h : BinaryHeap T) (value : T) : Option (BinaryHeap T) :=
  h.InsertRange lt [value]

/-- The inner loop of `Erase`:
`for (i; i < Size(); ++i) if (array_[i] == *it) { std::swap(array_[i], array_[Size() - 1]); array_.PopBack(); break; }`
with `n` iterations left. -/
def eraseOne [DecidableEq T] (value : T) : (n i : Nat) → BinaryHeap T → Option (BinaryHeap T)
  | 0, _, h => some h
  | n + 1, i, h =>
    match h.array_.subscript i with
    | none => none
    | some x =>
      if x = value then
        match h.array_.swapCells i (wsub h.Size 1) with
        | none => none
        | some a1 => (a1.PopBack).map (fun a2 => ⟨a2⟩)
      else eraseOne value n (i + 1) h

/-- The outer loop of `Erase(first, last)` over the values of the range. -/
def eraseAll [DecidableEq T] : List T → BinaryHeap T → Option (BinaryHeap T)
  | [], h => some h
  | x :: xs, h =>
    match eraseOne x h.Size 0 h with
    | none => none
    | some h1 => eraseAll xs h1

/-- `Erase(first, last)` and `Erase(std::initializer_list<T>)`. -/
def EraseRange [DecidableEq T] (lt : T → T → Bool) (h : BinaryHeap T) (xs : List T) :
    Option (BinaryHeap T) :=
  match eraseAll xs h with
  | none => none
  | some h1 => HeapifyArray lt h1

/-- `Erase(value)`: `Erase({value})`. -/
def Erase [DecidableEq T] (lt : T → T → Bool) (h : BinaryHeap T) (value : T) :
    Option (BinaryHeap T) :=
  h.EraseRange lt [value]

/-- `Pop()`:
`std::swap(array_[0], array_[Size() - 1]); array_.PopBack(); HeapifyArray();`. -/
def Pop (lt : T → T → Bool) (h : BinaryHeap T) : Option (BinaryHeap T) :=
  match h.array_.swapCells 0 (wsub h.Size 1) with
  | none => none
  | some a1 =>
    match a1.PopBack with
    | none => none
    | some a2 => HeapifyArray lt ⟨a2⟩

/-- The stored elements, in the order of the array. -/
def toList (h : BinaryHeap T) : List T := h.array_.toList

/-- The requirement `Compare` on a comparator: a strict weak order, that is,
irreflexive, transitive, and with a transitive equivalence
`!comp(a, b) && !comp(b, a)`. -/
structure StrictWeakOrder (lt : T → T → Bool) : Prop where
  irrefl : ∀ x, lt x x = false
  trans : ∀ x y z, lt x y = true → lt y z = true → lt x z = true
  equiv_trans : ∀ x y z, lt x y = false → lt y x = false → lt y z = false → lt z y = false →
    lt x z = false ∧ lt z x = false

/-- The heaps produced by the public operations: `BinaryHeap()`, the
construction from and the assignment of an initializer list, `Insert`,
`Erase` and `Pop`, each call having defined behaviour. -/
inductive Made [DecidableEq T] (lt : T → T → Bool) : BinaryHeap T → Prop where
  | default : Made lt (default : BinaryHeap T)
  | ofList (list : List T) {h : BinaryHeap T} : ofList lt list = some h → Made lt h
  | assignList {h : BinaryHeap T} (list : List T) {h1 : BinaryHeap T} :
      Made lt h → h.assignList lt list = some h1 → Made lt h1
  | insert {h : BinaryHeap T} (xs : List T) {h1 : BinaryHeap T} :
      Made lt h → h.InsertRange lt xs = some h1 → Made lt h1
  | erase {h : BinaryHeap T} (xs : List T) {h1 : BinaryHeap T} :
      Made lt h → h.EraseRange lt xs = some h1 → Made lt h1
  | pop {h : BinaryHeap T} {h1 : BinaryHeap T} :
      Made lt h → h.Pop lt = some h1 → Made lt h1

/-- The heap property at the node `j` of a sequence: `l[j]` is not below its
children `l[2j+1]` and `l[2j+2]`. -/
def Above (lt : T → T → Bool) (l : List T) (j : Nat) : Prop :=
  ∀ (c : Nat) (x y : T), (c = 2 * j + 1 ∨ c = 2 * j + 2) → l[j]? = some x → l[c]? = some y →
    lt x y = false

/-- The heap property of a sequence: no element is below one of its two
children, `l[j]` having the children `l[2j+1]` and `l[2j+2]`. -/
def IsHeap (lt : T → T → Bool) (l : List T) : Prop :=
  ∀ (j c : Nat) (x y : T), (c = 2 * j + 1 ∨ c = 2 * j + 2) → l[j]? = some x → l[c]? = some y →
    lt x y = false

/-- The comparator `std::less<int>`. -/
def lessNat (a b : Nat) : Bool := decide (a < b)

/-- The comparator `std::greater<int>`. -/
def greaterNat (a b : Nat) : Bool := decide (b < a)

/-- The heap `BinaryHeap<int>{3, 1, 4, 1, 5, 9, 2, 6}`. -/
def heapSample : BinaryHeap Nat :=
  ⟨⟨[some 9, some 6, some 4, some 1, some 5, some 3, some 2, some 1], 8, 8⟩⟩

/-- The heap `heapSample` after `Pop()`. -/
def heapPopped : BinaryHeap Nat :=
  ⟨⟨[some 6, some 5, some 4, some 1, some 1, some 3, some 2, none], 8, 7⟩⟩

end BinaryHeap

/-- A `Node<T>` of `DoublyLinkedList`: its value (`none` while none has been
constructed, as in the sentinel, which is allocated raw) and the pointers
`prev` and `next` (`none` is `nullptr`). -/
structure Node (T : Type) where
  value : Option T
  prev : Option Nat
  next : Option Nat
  deriving Repr

/-- The members of a `DoublyLinkedList<T>` object, with `head_` as an
address: the embedding of the class at the level of its pointers.  The
memory the nodes live in is a list indexed by address; an entry is `none`
once its node is deleted, and `new` returns the address after the last
one. -/
structure LinkedList where
  size_ : Nat
  head_ : Nat
  deriving Repr, DecidableEq

namespace LinkedList

variable {T : Type}

/-- The node at a pointer; undefined for `nullptr` and for a deleted node. -/
def load (mem : List (Option (Node T))) : Option Nat → Option (Node T)
  | none => none
  | some a =>
    match mem[a]? with
    | some (some n) => some n
    | _ => none

/-- The assignment `p->next = q`. -/
def setNext (mem : List (Option (Node T))) (p q : Option Nat) :
    Option (List (Option (Node T))) :=
  match p, load mem p with
  | some a, some n => some (mem.set a (some { n with next := q }))
  | _, _ => none

/-- The assignment `p->prev = q`. -/
def setPrev (mem : List (Option (Node T))) (p q : Option Nat) :
    Option (List (Option (Node T))) :=
  match p, load mem p with
  | some a, some n => some (mem.set a (some { n with prev := q }))
  | _, _ => none

/-- `DoublyLinkedList()`: the sentinel is allocated and linked to itself. -/
def create (mem : List (Option (Node T))) : List (Option (Node T)) × LinkedList :=
  (mem ++ [some ⟨none, some mem.length, some mem.length⟩], ⟨0, mem.length⟩)

/-- `Size()`. -/
def Size (l : LinkedList) : Nat := l.size_

/-- `Empty()`. -/
def Empty (l : LinkedList) : Bool := l.size_ == 0

/-- `begin()`: `iterator(head_->next)`. -/
def begin (mem : List (Option (Node T))) (l : LinkedList) : Option (Option Nat) :=
  (load mem (some l.head_)).map (fun n => n.next)

/-- `end()`: `iterator(head_)`. -/
def end_ (l : LinkedList) : Option Nat := some l.head_

/-- The loop of `Insert(position, count, value)`:
`node = new Node<T>{value, prev_node}; prev_node->next = node; prev_node = node;`
with `n` iterations left; gives the memory and the last node. -/
def insertLoop (value : T) :
    (n : Nat) → List (Option (Node T)) → Option Nat → Option Nat →
      Option (List (Option (Node T)) × Option Nat)
  | 0, mem, _, node => some (mem, node)
  | n + 1, mem, prev_node, _ =>
    let node := mem.length
    match setNext (mem ++ [some ⟨some value, prev_node, none⟩]) prev_node (some node) with
    | none => none
    | some mem1 => insertLoop value n mem1 (some node) (some node)

/-- `Insert(position, count, value)`; returns the memory, the list object and
the returned iterator. -/
def InsertCount (mem : List (Option (Node T))) (l : LinkedList) (position : Option Nat)
    (count : Nat) (value : T) :
    Option (List (Option (Node T)) × LinkedList × Option Nat) :=
  if count = 0 then some (mem, l, position)
  else
    match (if l.size_ = 0 then some (some l.head_)
        else (load mem position).map (fun (n : Node T) => n.prev)) with
    | none => none
    | some prev_node =>
      let next_node : Option Nat :=
        match position with
        | none => some l.head_
        | some p => some p
      match insertLoop value count mem prev_node none with
      | none => none
      | some (mem1, node) =>
        match setNext mem1 node next_node with
        | none => none
        | some mem2 =>
          match setPrev mem2 next_node node with
          | none => none
          | some mem3 => some (mem3, { l with size_ := l.size_ + count }, node)

/-- `Insert(position, value)`: `Insert(position, 1, value)`. -/
def Insert (mem : List (Option (Node T))) (l : LinkedList) (position : Option Nat)
    (value : T) : Option (List (Option (Node T)) × LinkedList × Option Nat) :=
  InsertCount mem l position 1 value

/-- `Splice(position, other)` for `this != &other`; returns the memory, the
list and `other`. -/
def Splice (mem : List (Option (Node T))) (l other : LinkedList) (position : Option Nat) :
    Option (List (Option (Node T)) × LinkedList × LinkedList) :=
  if other.size_ = 0 then some (mem, l, other)
  else
    match (match position with
        | none => some (some l.head_)
        | some p => (load mem (some p)).map (fun (n : Node T) => n.prev)) with
    | none => none
    | some prev_node =>
      let next_node : Option Nat :=
        match position with
        | none => some l.head_
        | some p => some p
      match load mem (some other.head_) with
      | none => none
      | some oh =>
        let other_first_node := oh.next
        match setPrev mem other_first_node prev_node with
        | none => none
        | some mem1 =>
          match setNext mem1 prev_node other_first_node with
          | none => none
          | some mem2 =>
            match load mem2 (some other.head_) with
            | none => none
            | some oh2 =>
              let other_last_node := oh2.prev
              match setNext mem2 other_last_node next_node with
              | none => none
              | some mem3 =>
                match setPrev mem3 next_node other_last_node with
                | none => none
                | some mem4 =>
                  match setPrev mem4 (some other.head_) none with
                  | none => none
                  | some mem5 =>
                    match setNext mem5 (some other.head_) none with
                    | none => none
                    | some mem6 =>
                      some (mem6, { l with size_ := l.size_ + other.size_ },
                        { other with size_ := 0 })

/-- The values visited by `for (it; it != end(); ++it)` from the iterator
`it` on; `fuel` bounds the number of steps, and a walk that uses it up does
not end. -/
def forwardLoop (mem : List (Option (Node T))) (head : Nat) :
    Nat → Option Nat → Option (List T)
  | 0, _ => none
  | fuel + 1, it =>
    if it = some head then some []
    else
      match load mem it with
      | none => none
      | some n =>
        match n.value with
        | none => none
        | some v => (forwardLoop mem head fuel n.next).map (fun r => v :: r)

/-- The values visited by the forward traversal
`for (it = begin(); it != end(); ++it)`. -/
def forward (mem : List (Option (Node T))) (l : LinkedList) : Option (List T) :=
  match begin mem l with
  | none => none
  | some first => forwardLoop mem l.head_ (mem.length + 1) first

/-- The values visited by the backward walk
`while (it != begin()) { --it; visit(*it); }` from the iterator `it` on,
`first` being `begin()`. -/
def backwardLoop (mem : List (Option (Node T))) (first : Option Nat) :
    Nat → Option Nat → Option (List T)
  | 0, _ => none
  | fuel + 1, it =>
    if it = first then some []
    else
      match load mem it with
      | none => none
      | some n =>
        match load mem n.prev with
        | none => none
        | some p =>
          match p.value with
          | none => none
          | some v => (backwardLoop mem first fuel n.prev).map (fun r => v :: r)

/-- The values visited by the backward traversal from `end()` down to
`begin()` (the traversal `rbegin()` to `rend()`). -/
def backward (mem : List (Option (Node T))) (l : LinkedList) : Option (List T) :=
  match begin mem l with
  | none => none
  | some first => backwardLoop mem first (mem.length + 1) (some l.head_)

/-- The value `*it` at an iterator. -/
def deref (mem : List (Option (Node T))) (it : Option Nat) : Option T :=
  match load mem it with
  | none => none
  | some n => n.value

/-- The pointer `a->next` of the node at address `a`. -/
def nextOf (mem : List (Option (Node T))) (a : Nat) : Option Nat :=
  (load mem (some a)).bind (fun n => n.next)

/-- The pointer `a->prev` of the node at address `a`. -/
def prevOf (mem : List (Option (Node T))) (a : Nat) : Option Nat :=
  (load mem (some a)).bind (fun n => n.prev)

/-- The link between two consecutive nodes of a list: `p->next == a` and
`a->prev == p`. -/
def Link (mem : List (Option (Node T))) (p a : Nat) : Prop :=
  nextOf mem p = some a ∧ prevOf mem a = some p

/-- The values of the nodes at the addresses `as`. -/
def contents (mem : List (Option (Node T))) (as : List Nat) : List T :=
  as.filterMap (fun a => deref mem (some a))

/-- The list object `l` is the circular chain
`head_ -> as[0] -> ... -> as[k-1] -> head_` of distinct nodes, linked in both
directions, every node but the sentinel holding a value, and `size_` is the
number of the nodes. -/
structure Linked (mem : List (Option (Node T))) (l : LinkedList) (as : List Nat) : Prop where
  chain : List.Chain (Link mem) l.head_ (as ++ [l.head_])
  nodup : (l.head_ :: as).Nodup
  values : ∀ a ∈ as, ∃ v, deref mem (some a) = some v
  size_eq : l.size_ = as.length

/-- The list object `l` is an empty list that `Splice` has taken the nodes
from: `size_ == 0` and the links of the sentinel are `nullptr`. -/
def Emptied (mem : List (Option (Node T))) (l : LinkedList) : Prop :=
  l.size_ = 0 ∧ (∃ n, load mem (some l.head_) = some n) ∧
    nextOf mem l.head_ = none ∧ prevOf mem l.head_ = none

/-- The states of a list object: linked as a circular chain with the element
nodes `as`, or emptied by `Splice`. -/
def Valid (mem : List (Option (Node T))) (l : LinkedList) (as : List Nat) : Prop :=
  Linked mem l as ∨ (Emptied mem l ∧ as = [])

/-- The memory after `DoublyLinkedList<int> a, b; a.PushBack(1); b.PushBack(2);`:
the sentinel of `a` at address 0, the node of 1 at 1, the sentinel of `b` at 2
and the node of 2 at 3. -/
def pushedMemory : List (Option (Node Nat)) :=
  [some ⟨none, some 1, some 1⟩, some ⟨some 1, some 0, some 0⟩, some ⟨none, some 3, some 3⟩,
    some ⟨some 2, some 2, some 2⟩]

/-- The memory after `a.Splice(a.cend(), b);` in `pushedMemory`. -/
def splicedMemory : List (Option (Node Nat)) :=
  [some ⟨none, some 3, some 1⟩, some ⟨some 1, some 0, some 3⟩, some ⟨none, none, none⟩,
    some ⟨some 2, some 1, some 0⟩]

end LinkedList

/-! ## Further definitions: comparison of lists, float conversion, traces of the
heap, priority queue, calls at the ends of a deque -/

namespace DoublyLinkedList

variable {T : Type}

/-- The values of the elements in iteration order. -/
def values (l : DoublyLinkedList T) : List T := l.nodes.map Prod.snd

/-- The loop of `operator<` over the values of `*this` and of `other`:
`for (it, other_it; it != cend(); ++it, ++other_it) if (*it < *other_it) return true;`
and then `return false;`.  Reading past the last element of `other` is
undefined. -/
def lessLoop (lt : T → T → Bool) : List T → List T → Option Bool
  | [], _ => some false
  | _ :: _, [] => none
  | x :: xs, y :: ys => if lt x y then some true else lessLoop lt xs ys

/-- `operator<`:
`if (size_ != other.size_) return size_ < other.size_; if (size_ == 0) return true;`
and the loop; `lt` is `operator<` of the elements. -/
def less (lt : T → T → Bool) (l other : DoublyLinkedList T) : Option Bool :=
  if l.Size ≠ other.Size then some (decide (l.Size < other.Size))
  else if l.Size = 0 then some true
  else lessLoop lt l.values other.values

/-- `PushBack(value)`: `Insert(cend(), 1, value)`. -/
def PushBack (l : DoublyLinkedList T) (value : T) : Option (DoublyLinkedList T) :=
  (l.Insert l.end_ value).map Prod.fst

/-- `operator<` of `int`. -/
def lessInt (a b : Int) : Bool := decide (a < b)

/-- The list after `PushBack(1); PushBack(3);` on `DoublyLinkedList<int>()`. -/
def listOneThree : DoublyLinkedList Int := ⟨[(0, 1), (1, 3)], 2⟩

/-- The list after `PushBack(2); PushBack(1);` on `DoublyLinkedList<int>()`. -/
def listTwoOne : DoublyLinkedList Int := ⟨[(0, 2), (1, 1)], 2⟩

end DoublyLinkedList

namespace HashMap

variable {Key T : Type} [DecidableEq Key]

/-- The multiple of `ulp` nearest to `n`, the tie going to the even multiple:
the rounding of a conversion to `float` in the binade whose floats are `ulp`
apart. -/
def roundTo (ulp n : Nat) : Nat :=
  if 2 * (n % ulp) < ulp then n / ulp * ulp
  else if ulp < 2 * (n % ulp) then (n / ulp + 1) * ulp
  else if n / ulp % 2 = 0 then n / ulp * ulp
  else (n / ulp + 1) * ulp

/-- The search of the binade of `n`: the floats below `2 ^ 24 * ulp` have 24
significant bits and are `ulp` apart. -/
def toFloatLoop : Nat → Nat → Nat → Nat
  | 0, ulp, n => roundTo ulp n
  | fuel + 1, ulp, n => if n < 2 ^ 24 * ulp then roundTo ulp n else toFloatLoop fuel (2 * ulp) n

/-- `static_cast<float>(n)` for a `std::size_t` `n`, as the number it denotes:
the binary32 value nearest to `n`, ties to even (every `n < 2 ^ 64` is in the
range of `float`). -/
def toFloat (n : Nat) : Nat := toFloatLoop 40 1 n

/-- `Rehash(count)` with `max_load_factor_ == 1.0f` in `float` arithmetic:
`min_count` is `static_cast<std::size_t>(std::ceil(Size() / 1.0f))`, the
conversion of `Size()` to `float`. -/
def RehashFloat (hash : Key → Nat) (m : HashMap Key T) (count : Nat) : Option (HashMap Key T) :=
  let min_count := toFloat m.Size
  let new_size := max min_count count
  let new_elements : DoublyLinkedList (Key × T) := DoublyLinkedList.empty
  let new_buckets := List.replicate new_size (new_elements.end_, new_elements.end_)
  insertAllUnchecked hash { m with elements_ := new_elements, buckets_ := new_buckets } m.toList

/-- `CheckRehash(additional)` with `max_load_factor_ == 1.0f` in `float`
arithmetic: in the test `new_size > max_load_factor_ * BucketCount()` both
counts are converted to `float`, and the product with `1.0f` is exact. -/
def CheckRehashFloat (hash : Key → Nat) (m : HashMap Key T) (additional : Nat) :
    Option (HashMap Key T) :=
  let new_size := m.Size + additional
  if toFloat m.BucketCount < toFloat new_size then
    m.RehashFloat hash (max new_size (m.Size * 2))
  else some m

/-- `Insert(value)` with `max_load_factor_ == 1.0f` in `float` arithmetic. -/
def InsertFloat (hash : Key → Nat) (m : HashMap Key T) (value : Key × T) :
    Option (HashMap Key T × Iterator × Bool) :=
  match m.Find hash value.1 with
  | none => none
  | some existing_it =>
    if existing_it ≠ m.end_ then some (m, existing_it, false)
    else
      match m.CheckRehashFloat hash 1 with
      | none => none
      | some m1 =>
        match m1.InsertUnchecked hash value with
        | none => none
        | some (m2, it) => some (m2, it, true)

/-- A caller that inserts the pairs of a list one at a time, in `float`
arithmetic. -/
def insertEachFloat (hash : Key → Nat) :
    HashMap Key T → List (Key × T) → Option (HashMap Key T)
  | m, [] => some m
  | m, v :: vs =>
    match m.InsertFloat hash v with
    | none => none
    | some r => insertEachFloat hash r.1 vs

/-- The keys `0, ..., n - 1` as elements of a `HashSet<int>`. -/
def firstKeys (n : Nat) : List (Nat × Unit) := (List.range n).map (fun k => (k, ()))

/-- The table after `Insert(4); Insert(8); Insert(12);` on `HashSet<int>()`. -/
def tableFours : HashSet Nat :=
  ⟨⟨[(2, (12, ())), (1, (4, ())), (0, (8, ()))], 3⟩,
    [(Iterator.node 2, Iterator.head), (Iterator.head, Iterator.head),
      (Iterator.head, Iterator.head), (Iterator.head, Iterator.head)], Fraction.one⟩

/-- The table after `Insert(1); Insert(2); Erase(1); Erase(2);` on
`HashSet<int>()`: no element, and the entry of bucket 1 points to the deleted
node of key 2 (`Erase(1)` moved it from the node of key 1 to the next node,
which `Erase(2)` deleted). -/
def tableEmptied : HashSet Nat :=
  ⟨⟨[], 2⟩, [(Iterator.head, Iterator.head), (Iterator.node 1, Iterator.head)], Fraction.one⟩

end HashMap

namespace BinaryHeap

variable {T : Type}

/-- `Heapify(index)` together with the indices of its calls, the first being
`index`; `fuel` bounds the depth of the recursion. -/
def HeapifyCalls (lt : T → T → Bool) :
    Nat → BinaryHeap T → Nat → Option (BinaryHeap T × List Nat)
  | 0, _, _ => none
  | fuel + 1, h, index =>
    match pickLargest lt h (2 * index + 1) index with
    | none => none
    | some largest1 =>
      match pickLargest lt h (2 * index + 2) largest1 with
      | none => none
      | some largest =>
        if largest ≠ index then
          match h.array_.swapCells index largest with
          | none => none
          | some a1 => (HeapifyCalls lt fuel ⟨a1⟩ largest).map (fun r => (r.1, index :: r.2))
        else some (h, [index])

/-- The loop of `HeapifyArray` with its counter as a 64-bit unsigned number:
`for (i = start; i <= start; --i) Heapify(i);`.  `fuel` bounds the number of
tests of the condition; the result is the heap, the values of `i` the body
ran with, in order, and the value of `i` at the exit. -/
def heapifyCounter (lt : T → T → Bool) (start : Nat) :
    Nat → Nat → BinaryHeap T → Option (BinaryHeap T × List Nat × Nat)
  | 0, _, _ => none
  | fuel + 1, i, h =>
    if i ≤ start then
      match Heapify lt h.Size h i with
      | none => none
      | some h1 =>
        (heapifyCounter lt start fuel (wsub i 1) h1).map (fun r => (r.1, i :: r.2.1, r.2.2))
    else some (h, [], i)

/-- `HeapifyArray()` with the counter of its loop: the heap, the values of
`i` the body ran with and the value of `i` at the exit of the loop (`none`
when the function returns before the loop). -/
def HeapifyArrayCounter (lt : T → T → Bool) (h : BinaryHeap T) :
    Option (BinaryHeap T × List Nat × Option Nat) :=
  if h.Size ≤ 1 then some (h, [], none)
  else
    (heapifyCounter lt (h.Size / 2 - 1) (h.Size / 2 + 1) (h.Size / 2 - 1) h).map
      (fun r => (r.1, r.2.1, some r.2.2))

/-- The comparator `std::less<T>` of a linearly ordered type. -/
def lessOf [LinearOrder T] (a b : T) : Bool := decide (a < b)

end BinaryHeap

/-- The state of a `PriorityQueue<T, Compare>`: its member `container_`. -/
structure PriorityQueue (T : Type) where
  container_ : BinaryHeap T
  deriving Repr

namespace PriorityQueue

variable {T : Type}

/-- `PriorityQueue()`. -/
def default : PriorityQueue T := ⟨BinaryHeap.default⟩

/-- `Top()`. -/
def Top (q : PriorityQueue T) : Option T := q.container_.Top

/-- `Empty()`. -/
def Empty (q : PriorityQueue T) : Bool := q.container_.Empty

/-- `Size()`. -/
def Size (q : PriorityQueue T) : Nat := q.container_.Size

/-- `Push(value)`: `container_.Insert(value)`. -/
def Push (lt : T → T → Bool) (q : PriorityQueue T) (value : T) : Option (PriorityQueue T) :=
  (q.container_.Insert lt value).map (fun c => ⟨c⟩)

/-- `Pop()`: `container_.Pop()`. -/
def Pop (lt : T → T → Bool) (q : PriorityQueue T) : Option (PriorityQueue T) :=
  (q.container_.Pop lt).map (fun c => ⟨c⟩)

/-- A caller that pushes the values of a list in order. -/
def pushAll (lt : T → T → Bool) : PriorityQueue T → List T → Option (PriorityQueue T)
  | q, [] => some q
  | q, x :: xs =>
    match q.Push lt x with
    | none => none
    | some q1 => pushAll lt q1 xs

/-- A caller that reads `Top()` and calls `Pop()` until the queue is empty:
`while (!q.Empty()) { out.push_back(q.Top()); q.Pop(); }`; `fuel` bounds the
number of tests of the condition. -/
def drain (lt : T → T → Bool) : Nat → PriorityQueue T → Option (List T)
  | 0, _ => none
  | fuel + 1, q =>
    if q.Empty then some []
    else
      match q.Top with
      | none => none
      | some t =>
        match q.Pop lt with
        | none => none
        | some q1 => (drain lt fuel q1).map (fun r => t :: r)

end PriorityQueue

namespace Deque

variable {T : Type}

/-- A call of one of the four operations at the ends of a deque. -/
inductive Call (T : Type) where
  | pushBack (value : T) : Call T
  | pushFront (value : T) : Call T
  | popBack : Call T
  | popFront : Call T
  deriving Repr

/-- The effect of a call on the deque. -/
def applyCall (kBlockSize : Nat) (d : Deque T) : Call T → Option (Deque T)
  | Call.pushBack value => d.PushBack kBlockSize value
  | Call.pushFront value => d.PushFront kBlockSize value
  | Call.popBack => d.PopBack kBlockSize
  | Call.popFront => d.PopFront kBlockSize

/-- A caller that makes the calls of a list in order. -/
def runCalls (kBlockSize : Nat) : Deque T → List (Call T) → Option (Deque T)
  | d, [] => some d
  | d, c :: cs =>
    match d.applyCall kBlockSize c with
    | none => none
    | some d1 => runCalls kBlockSize d1 cs

/-- The effect of a call on the mathematical list of the elements; a pop of
the empty list is not allowed (`none`). -/
def listCall : List T → Call T → Option (List T)
  | ys, Call.pushBack value => some (ys ++ [value])
  | ys, Call.pushFront value => some (value :: ys)
  | [], Call.popBack => none
  | y :: ys, Call.popBack => some (y :: ys).dropLast
  | [], Call.popFront => none
  | _ :: ys, Call.popFront => some ys

/-- The mathematical list after the calls of a list, in order. -/
def listCalls : List T → List (Call T) → Option (List T)
  | ys, [] => some ys
  | ys, c :: cs =>
    match listCall ys c with
    | none => none
    | some ys1 => listCalls ys1 cs

/-- The counters of a deque of `n` elements whose map has been allocated: the
map has `map_capacity_` blocks of `kBlockSize` cells, the first element is at
the offset `block_head_` of the block `map_head_`, the last one at the offset
`block_tail_`, and `map_size_` counts the blocks from the first element to
the last. -/
structure Counted (kBlockSize : Nat) (d : Deque T) (n : Nat) : Prop where
  block_size : 0 < kBlockSize
  capacity_pos : 0 < d.map_capacity_
  map_length : d.map_.length = d.map_capacity_
  blocks : ∀ b ∈ d.map_, b.length = kBlockSize
  map_head_lt : d.map_head_ < d.map_capacity_
  head_lt : d.block_head_ < kBlockSize
  block_tail : d.block_tail_ = (d.block_head_ + n + kBlockSize - 1) % kBlockSize
  map_size : d.map_size_ = (d.block_head_ + n + kBlockSize - 1) / kBlockSize
  map_size_le : d.map_size_ ≤ d.map_capacity_

/-- The deque `d`, whose map has been allocated, holds the values `ys`: the
counters fit `ys.length` elements, and `d[i]` is `ys[i]`. -/
structure Tracks (kBlockSize : Nat) (d : Deque T) (ys : List T) : Prop where
  counted : Counted kBlockSize d ys.length
  size_eq : d.size_ = ys.length
  cells : ∀ i, i < ys.length → d.subscript kBlockSize i = ys[i]?

end Deque

/-! ## The table with `max_load_factor_` as a binary32 value

`Rehash`, `Reserve`, `CheckRehash` and the copies compute with
`max_load_factor_` in `float`.  The definitions below repeat them with every
conversion and every operation of `float` written out (IEEE 754 binary32,
round to nearest, ties to even), for any value of `max_load_factor_`,
`+infinity` included. -/

/-- A value of the C++ type `float` (IEEE 754 binary32) that is not negative:
the finite value `num / den`, `+infinity`, or a NaN. -/
inductive Float32 where
  | finite (num den : Nat) : Float32
  | inf : Float32
  | nan : Float32
  deriving DecidableEq, Repr

namespace Float32

/-- The integer nearest to `p / q`, the tie going to the even one. -/
def roundHalfEven (p q : Nat) : Nat :=
  if 2 * (p % q) < q then p / q
  else if q < 2 * (p % q) then p / q + 1
  else if p / q % 2 = 0 then p / q
  else p / q + 1

/-- The search of the binade of `p / q` and the rounding in it.  In the step
`k` the candidate floats are the multiples of `2 ^ k / 2 ^ 149` below
`2 ^ 24 * 2 ^ k / 2 ^ 149`: the subnormal numbers and the first normal binade
for `k = 0`, the binade below `2 ^ 128` for `k = 253`.  A value that rounds to
`2 ^ 128` or lies above it overflows to `+infinity`. -/
def binade : Nat → Nat → Nat → Nat → Float32
  | 0, _, _, _ => inf
  | fuel + 1, k, p, q =>
    if p * 2 ^ 149 < 2 ^ 24 * (q * 2 ^ k) then
      if roundHalfEven (p * 2 ^ 149) (q * 2 ^ k) = 2 ^ 24 ∧ k = 253 then inf
      else finite (roundHalfEven (p * 2 ^ 149) (q * 2 ^ k) * 2 ^ k) (2 ^ 149)
    else binade fuel (k + 1) p q

/-- The `float` nearest to `p / q` for `q > 0`, ties to even: the result of an
operation whose exact value is `p / q` in the default rounding mode. -/
def round (p q : Nat) : Float32 :=
  if p = 0 then finite 0 1 else binade 254 0 p q

/-- `static_cast<float>(n)` for a `std::size_t` `n`. -/
def ofNat (n : Nat) : Float32 := round n 1

/-- The quotient `x / y` of two floats. -/
def div : Float32 → Float32 → Float32
  | finite n1 d1, finite n2 d2 =>
    if n2 = 0 then (if n1 = 0 then nan else inf) else round (n1 * d2) (d1 * n2)
  | finite _ _, inf => finite 0 1
  | inf, finite _ _ => inf
  | _, _ => nan

/-- The product `x * y` of two floats. -/
def mul : Float32 → Float32 → Float32
  | finite n1 d1, finite n2 d2 => round (n1 * n2) (d1 * d2)
  | finite n _, inf => if n = 0 then nan else inf
  | inf, finite n _ => if n = 0 then nan else inf
  | inf, inf => inf
  | _, _ => nan

/-- `std::ceil(x)`. -/
def ceil : Float32 → Float32
  | finite n d => finite ((n + d - 1) / d) 1
  | inf => inf
  | nan => nan

/-- The conversion of a float to `std::size_t`: the value is truncated, and
the behaviour is undefined when the truncated value is not a `std::size_t`
(a value of `2 ^ 64` or more, `+infinity`, a NaN). -/
def toSize : Float32 → Option Nat
  | finite n d => if n / d < 2 ^ 64 then some (n / d) else none
  | _ => none

/-- The comparison `x < y`; false when one of them is a NaN. -/
def lt : Float32 → Float32 → Bool
  | finite n1 d1, finite n2 d2 => decide (n1 * d2 < n2 * d1)
  | finite _ _, inf => true
  | _, _ => false

/-- The float as a rational number (0 for `+infinity` and NaN). -/
def toRat : Float32 → ℚ
  | finite n d => (n : ℚ) / (d : ℚ)
  | _ => 0

end Float32

namespace Float32

/-- A float above 0: a finite value that is not 0, or `+infinity`. -/
def Positive : Float32 → Prop
  | finite num den => 0 < num ∧ 0 < den
  | inf => True
  | nan => False

end Float32

/-- The state of a `HashMap<Key, T, Hash>` with the member `max_load_factor_`
as the binary32 value it holds; `elements_` and `buckets_` are as in
`HashMap`. -/
structure HashMap32 (Key T : Type) where
  elements_ : DoublyLinkedList (Key × T)
  buckets_ : List (Iterator × Iterator)
  max_load_factor_ : Float32

namespace HashMap32

variable {Key T : Type} [DecidableEq Key]

/-- `HashMap()`: no element, no bucket, `max_load_factor_{1.0}`. -/
def default : HashMap32 Key T := ⟨DoublyLinkedList.empty, [], Float32.finite 1 1⟩

/-- The members `elements_` and `buckets_` as a `HashMap`, for the functions
that do not read `max_load_factor_`: `Find`, `Contains`, `At`,
`InsertUnchecked`, `Clear`, `operator==`. -/
def table (t : HashMap32 Key T) : HashMap Key T := ⟨t.elements_, t.buckets_, Fraction.one⟩

/-- The table with the members `elements_` and `buckets_` of `m`. -/
def withTable (t : HashMap32 Key T) (m : HashMap Key T) : HashMap32 Key T :=
  ⟨m.elements_, m.buckets_, t.max_load_factor_⟩

/-- `Size()`. -/
def Size (t : HashMap32 Key T) : Nat := t.table.Size

/-- `BucketCount()`. -/
def BucketCount (t : HashMap32 Key T) : Nat := t.table.BucketCount

/-- `MaxLoadFactor(max_load_factor)`. -/
def setMaxLoadFactor (t : HashMap32 Key T) (max_load_factor : Float32) : HashMap32 Key T :=
  { t with max_load_factor_ := max_load_factor }

/-- `Clear()`. -/
def Clear (t : HashMap32 Key T) : HashMap32 Key T := t.withTable t.table.Clear

/-- `static_cast<std::size_t>(std::ceil(n / max_load_factor))` for a
`std::size_t` `n`: `n` is converted to `float`, the quotient is rounded to
`float`, and the conversion of its ceiling to `std::size_t` is undefined when
the ceiling is `2 ^ 64` or more, `+infinity` or a NaN. -/
def minCount (max_load_factor : Float32) (n : Nat) : Option Nat :=
  ((Float32.ofNat n).div max_load_factor).ceil.toSize

/-- `Rehash(count)`. -/
def Rehash (hash : Key → Nat) (t : HashMap32 Key T) (count : Nat) : Option (HashMap32 Key T) :=
  match minCount t.max_load_factor_ t.Size with
  | none => none
  | some min_count =>
    let new_size := max min_count count
    let new_elements : DoublyLinkedList (Key × T) := DoublyLinkedList.empty
    let new_buckets := List.replicate new_size (new_elements.end_, new_elements.end_)
    (HashMap.insertAllUnchecked hash ⟨new_elements, new_buckets, Fraction.one⟩
      t.table.toList).map t.withTable

/-- `Reserve(count)`: `Rehash(std::ceil(count / max_load_factor_))`, the
argument being converted from `float` to `size_type`. -/
def Reserve (hash : Key → Nat) (t : HashMap32 Key T) (count : Nat) : Option (HashMap32 Key T) :=
  match minCount t.max_load_factor_ count with
  | none => none
  | some n => t.Rehash hash n

/-- `CheckRehash(additional)`: in the test
`new_size > max_load_factor_ * BucketCount()` both counts are converted to
`float` and the product is rounded to `float`. -/
def CheckRehash (hash : Key → Nat) (t : HashMap32 Key T) (additional : Nat) :
    Option (HashMap32 Key T) :=
  let new_size := t.Size + additional
  if (t.max_load_factor_.mul (Float32.ofNat t.BucketCount)).lt (Float32.ofNat new_size) then
    t.Rehash hash (max new_size (t.Size * 2))
  else some t

/-- `Insert(value)`: the table, the returned iterator and the flag. -/
def Insert (hash : Key → Nat) (t : HashMap32 Key T) (value : Key × T) :
    Option (HashMap32 Key T × Iterator × Bool) :=
  match t.table.Find hash value.1 with
  | none => none
  | some existing_it =>
    if existing_it ≠ t.table.end_ then some (t, existing_it, false)
    else
      match t.CheckRehash hash 1 with
      | none => none
      | some t1 =>
        match t1.table.InsertUnchecked hash value with
        | none => none
        | some (m2, it) => some (t1.withTable m2, it, true)

/-- `operator=(const HashMap& other)` for `this != &other`. -/
def copyAssign (hash : Key → Nat) (t other : HashMap32 Key T) : Option (HashMap32 Key T) :=
  match t.Clear.CheckRehash hash other.Size with
  | none => none
  | some t1 => (HashMap.insertAllUnchecked hash t1.table other.table.toList).map t1.withTable

/-- A caller that inserts the pairs of a list one at a time:
`for (value : values) table.Insert(value);`. -/
def insertEach (hash : Key → Nat) :
    HashMap32 Key T → List (Key × T) → Option (HashMap32 Key T)
  | t, [] => some t
  | t, v :: vs =>
    match t.Insert hash v with
    | none => none
    | some r => insertEach hash r.1 vs

/-- The tables built by `Insert` calls and `MaxLoadFactor(f)` calls with
`f > 0` on `HashMap()`, each call having defined behaviour. -/
inductive Built (hash : Key → Nat) : HashMap32 Key T → Prop where
  | default : Built hash (default : HashMap32 Key T)
  | maxLoadFactor {t : HashMap32 Key T} (f : Float32) :
      Built hash t → f.Positive → Built hash (t.setMaxLoadFactor f)
  | insert {t : HashMap32 Key T} (v : Key × T) {r : HashMap32 Key T × Iterator × Bool} :
      Built hash t → t.Insert hash v = some r → Built hash r.1

/-- `Insert(first, last)` and `Insert(initializer_list)`; the range is given
by the list of its elements. -/
def InsertRange (hash : Key → Nat) (t : HashMap32 Key T) (values : List (Key × T)) :
    Option (HashMap32 Key T) :=
  if values.isEmpty then some t
  else
    match t.CheckRehash hash values.length with
    | none => none
    | some t1 => (HashMap.insertAllChecked hash t1.table values).map t1.withTable

/-- `Erase(const Key& key)`: the table and the returned count. -/
def Erase (hash : Key → Nat) (t : HashMap32 Key T) (key : Key) :
    Option (HashMap32 Key T × Nat) :=
  (t.table.Erase hash key).map (fun r => (t.withTable r.1, r.2))

/-- The tables reachable from `HashMap()` by `MaxLoadFactor(f)` with `f > 0`,
the forms of `Insert`, `Erase(key)`, `Clear`, `Rehash` and `Reserve`, each
call having defined behaviour. -/
inductive Reachable (hash : Key → Nat) : HashMap32 Key T → Prop where
  | default : Reachable hash (default : HashMap32 Key T)
  | maxLoadFactor {t : HashMap32 Key T} (f : Float32) :
      Reachable hash t → f.Positive → Reachable hash (t.setMaxLoadFactor f)
  | insert {t : HashMap32 Key T} (v : Key × T) {r : HashMap32 Key T × Iterator × Bool} :
      Reachable hash t → t.Insert hash v = some r → Reachable hash r.1
  | insertRange {t : HashMap32 Key T} (vs : List (Key × T)) {t1 : HashMap32 Key T} :
      Reachable hash t → t.InsertRange hash vs = some t1 → Reachable hash t1
  | erase {t : HashMap32 Key T} (k : Key) {r : HashMap32 Key T × Nat} :
      Reachable hash t → t.Erase hash k = some r → Reachable hash r.1
  | clear {t : HashMap32 Key T} : Reachable hash t → Reachable hash t.Clear
  | rehash {t : HashMap32 Key T} (n : Nat) {t1 : HashMap32 Key T} :
      Reachable hash t → t.Rehash hash n = some t1 → Reachable hash t1
  | reserve {t : HashMap32 Key T} (n : Nat) {t1 : HashMap32 Key T} :
      Reachable hash t → t.Reserve hash n = some t1 → Reachable hash t1

end HashMap32

namespace HashMap

variable {Key T : Type} [DecidableEq Key]

/-- The tables built by single `Insert(value)` calls on `HashMap()`, in
`float` arithmetic; `max_load_factor_` stays `1.0f`. -/
inductive BuiltFloat (hash : Key → Nat) : HashMap Key T → Prop where
  | default : BuiltFloat hash (default : HashMap Key T)
  | insert {m : HashMap Key T} (v : Key × T) {r : HashMap Key T × Iterator × Bool} :
      BuiltFloat hash m → m.InsertFloat hash v = some r → BuiltFloat hash r.1

/-- The table after `Insert(4); Insert(8);` on `HashSet<int>()`: two buckets,
both keys in bucket 0, in the order 8, 4. -/
def tableEights : HashSet Nat :=
  ⟨⟨[(1, (8, ())), (0, (4, ()))], 2⟩,
    [(Iterator.node 1, Iterator.head), (Iterator.head, Iterator.head)], Fraction.one⟩

end HashMap
/-! ## The load factor: what the fraction arithmetic computes -/

namespace Fraction

theorem ceil_natCast_div (a d : Nat) (hd : 0 < d) :
    ⌈(a : ℚ) / (d : ℚ)⌉₊ = (a + d - 1) / d := by
  have hdq : (0 : ℚ) < (d : ℚ) := by exact_mod_cast hd
  apply eq_of_forall_ge_iff
  intro k
  rw [Nat.ceil_le, div_le_iff₀ hdq]
  have h1 : ((a : ℚ) ≤ (k : ℚ) * (d : ℚ)) ↔ a ≤ k * d := by exact_mod_cast Iff.rfl
  rw [h1]
  constructor
  · intro h
    have h2 : a + d - 1 < (k + 1) * d := by
      rw [Nat.add_mul, Nat.one_mul]; omega
    exact Nat.le_of_lt_succ ((Nat.div_lt_iff_lt_mul hd).mpr h2)
  · intro h
    have h2 : a + d - 1 < (k + 1) * d :=
      (Nat.div_lt_iff_lt_mul hd).mp (Nat.lt_succ_of_le h)
    rw [Nat.add_mul, Nat.one_mul] at h2
    omega

/-- `ceilMul` is the ceiling of the product. -/
theorem ceilMul_eq (f : Fraction) (n : Nat) : f.ceilMul n = ⌈f.toRat * (n : ℚ)⌉₊ := by
  have h : f.toRat * (n : ℚ) = ((f.num * n : Nat) : ℚ) / (f.den : ℚ) := by
    simp only [toRat, Nat.cast_mul]
    ring
  rw [h, ceil_natCast_div _ _ f.den_pos]
  rfl

/-- `mulLt` is the comparison of the count with the product. -/
theorem mulLt_iff (f : Fraction) (n k : Nat) :
    f.mulLt n k = true ↔ f.toRat * (n : ℚ) < (k : ℚ) := by
  have hdq : (0 : ℚ) < (f.den : ℚ) := by exact_mod_cast f.den_pos
  have h : f.toRat * (n : ℚ) = ((f.num * n : Nat) : ℚ) / (f.den : ℚ) := by
    simp only [toRat, Nat.cast_mul]
    ring
  rw [h, div_lt_iff₀ hdq]
  simp only [mulLt, decide_eq_true_eq]
  exact_mod_cast Iff.rfl

end Fraction

/-- `ceilDiv` is the ceiling of the quotient, for a positive float. -/
theorem ceilDiv_eq (n : Nat) (f : Fraction) (hf : 0 < f.num) :
    ceilDiv n f = some ⌈(n : ℚ) / f.toRat⌉₊ := by
  have hnq : (f.num : ℚ) ≠ 0 := by exact_mod_cast (Nat.pos_iff_ne_zero.mp hf)
  have hdq : (f.den : ℚ) ≠ 0 := by exact_mod_cast (Nat.pos_iff_ne_zero.mp f.den_pos)
  have h : (n : ℚ) / f.toRat = ((n * f.den : Nat) : ℚ) / (f.num : ℚ) := by
    simp only [Fraction.toRat, Nat.cast_mul]
    field_simp
  rw [h, Fraction.ceil_natCast_div _ _ hf]
  simp [ceilDiv, Nat.pos_iff_ne_zero.mp hf]

/-! ## The linked sequence: facts about walking, linking and unlinking -/

namespace DoublyLinkedList

variable {T : Type}

theorem suffixFrom_suffix {a : Nat} {l s : List (Nat × T)} (h : suffixFrom a l = some s) :
    s <:+ l := by
  induction l with
  | nil => simp [suffixFrom] at h
  | cons n ns ih =>
    unfold suffixFrom at h
    split at h
    · cases h; exact List.suffix_refl _
    · exact (ih h).trans (List.suffix_cons n ns)

theorem suffixFrom_subset {a : Nat} {l s : List (Nat × T)} (h : suffixFrom a l = some s) :
    ∀ n ∈ s, n ∈ l := fun _ hn => (suffixFrom_suffix h).subset hn

theorem suffixFrom_head {a : Nat} {l s : List (Nat × T)} (h : suffixFrom a l = some s) :
    ∃ v rest, s = (a, v) :: rest := by
  induction l with
  | nil => simp [suffixFrom] at h
  | cons n ns ih =>
    unfold suffixFrom at h
    split at h
    · next hn =>
      cases h
      obtain ⟨a1, v⟩ := n
      exact ⟨v, ns, by simp at hn; simp [hn]⟩
    · exact ih h

theorem suffixFrom_eq_none {a : Nat} {l : List (Nat × T)} :
    suffixFrom a l = none ↔ a ∉ addrs l := by
  induction l with
  | nil => simp [suffixFrom, addrs]
  | cons n ns ih =>
    unfold suffixFrom
    by_cases hn : n.1 = a
    · simp [hn, addrs]
    · simp only [hn, if_false, ih, addrs, List.map_cons, List.mem_cons, not_or]
      constructor
      · intro h; exact ⟨fun e => hn e.symm, h⟩
      · intro h; exact h.2

theorem suffixFrom_isSome {a : Nat} {l : List (Nat × T)} (h : a ∈ addrs l) :
    ∃ s, suffixFrom a l = some s := by
  cases hs : suffixFrom a l with
  | none => exact absurd h (suffixFrom_eq_none.mp hs)
  | some s => exact ⟨s, rfl⟩

theorem suffixFrom_append_of_mem {a : Nat} {l s : List (Nat × T)} (x : List (Nat × T))
    (h : suffixFrom a l = some s) : suffixFrom a (l ++ x) = some (s ++ x) := by
  induction l with
  | nil => simp [suffixFrom] at h
  | cons n ns ih =>
    simp only [List.cons_append]
    unfold suffixFrom at h ⊢
    split at h
    · next hn => cases h; simp [hn]
    · next hn => simp only [hn, if_false]; exact ih h

theorem suffixFrom_append_of_not_mem {a : Nat} {l : List (Nat × T)} (x : List (Nat × T))
    (h : a ∉ addrs l) : suffixFrom a (l ++ x) = suffixFrom a x := by
  induction l with
  | nil => rfl
  | cons n ns ih =>
    simp only [addrs, List.map_cons, List.mem_cons, not_or] at h
    have hne : ¬ n.1 = a := fun e => h.1 e.symm
    simp only [List.cons_append, suffixFrom, hne, if_false]
    exact ih h.2

theorem linkBefore_perm {a : Nat} {x : Nat × T} {l r : List (Nat × T)}
    (h : linkBefore a x l = some r) : r.Perm (x :: l) := by
  induction l generalizing r with
  | nil => simp [linkBefore] at h
  | cons n ns ih =>
    unfold linkBefore at h
    split at h
    · cases h; exact List.Perm.refl _
    · cases hr : linkBefore a x ns with
      | none => simp [hr] at h
      | some r1 =>
        simp [hr] at h
        subst h
        exact ((ih hr).cons n).trans (List.Perm.swap x n ns)

theorem linkBefore_isSome {a : Nat} (x : Nat × T) {l : List (Nat × T)} (h : a ∈ addrs l) :
    ∃ r, linkBefore a x l = some r := by
  induction l with
  | nil => simp [addrs] at h
  | cons n ns ih =>
    unfold linkBefore
    by_cases hn : n.1 = a
    · exact ⟨x :: n :: ns, by simp [hn]⟩
    · have : a ∈ addrs ns := by
        simp only [addrs, List.map_cons, List.mem_cons] at h
        rcases h with h | h
        · exact absurd h.symm hn
        · exact h
      obtain ⟨r, hr⟩ := ih this
      exact ⟨n :: r, by simp [hn, hr]⟩

theorem linkBefore_suffix_mono {a b : Nat} {x : Nat × T} {l r s : List (Nat × T)}
    (h : linkBefore a x l = some r) (hx : x.1 ≠ b) (hs : suffixFrom b l = some s) :
    ∃ s1, suffixFrom b r = some s1 ∧ ∀ n ∈ s, n ∈ s1 := by
  induction l generalizing r s with
  | nil => simp [linkBefore] at h
  | cons n ns ih =>
    unfold linkBefore at h
    split at h
    · cases h
      refine ⟨s, ?_, fun _ hn => hn⟩
      rw [← hs]
      conv => lhs; unfold suffixFrom
      simp [hx]
    · cases hr : linkBefore a x ns with
      | none => simp [hr] at h
      | some r1 =>
        simp [hr] at h
        subst h
        unfold suffixFrom at hs ⊢
        split at hs
        · next hn =>
          cases hs
          refine ⟨n :: r1, by simp [hn], ?_⟩
          intro m hm
          rcases List.mem_cons.mp hm with hm | hm
          · exact hm ▸ List.mem_cons_self _ _
          · exact List.mem_cons_of_mem _
              ((linkBefore_perm hr).symm.subset (List.mem_cons_of_mem _ hm))
        · next hn =>
          simp only [hn, if_false]
          exact ih hr hs

theorem linkBefore_suffix_new {a : Nat} {x : Nat × T} {l r s : List (Nat × T)}
    (h : linkBefore a x l = some r) (hx : x.1 ∉ addrs l) (hs : suffixFrom a l = some s) :
    suffixFrom x.1 r = some (x :: s) := by
  induction l generalizing r s with
  | nil => simp [linkBefore] at h
  | cons n ns ih =>
    simp only [addrs, List.map_cons, List.mem_cons, not_or] at hx
    unfold linkBefore at h
    unfold suffixFrom at hs
    split at h
    · next hn =>
      cases h
      simp only [hn, if_true] at hs
      cases hs
      simp [suffixFrom]
    · next hn =>
      simp only [hn, if_false] at hs
      cases hr : linkBefore a x ns with
      | none => simp [hr] at h
      | some r1 =>
        simp [hr] at h
        subst h
        unfold suffixFrom
        rw [if_neg (fun e => hx.1 e.symm)]
        exact ih hr hx.2 hs

theorem not_mem_addrs_of_lt {l : List (Nat × T)} {b : Nat} (h : ∀ n ∈ l, n.1 < b) :
    b ∉ addrs l := by
  intro hb
  obtain ⟨n, hn, e⟩ := List.mem_map.mp hb
  have := h n hn
  omega

theorem mem_addrs_of_mem {l : List (Nat × T)} {n : Nat × T} (h : n ∈ l) : n.1 ∈ addrs l :=
  List.mem_map.mpr ⟨n, h, rfl⟩

theorem suffixFrom_of_mem {l : List (Nat × T)} {n : Nat × T} (hnd : (addrs l).Nodup)
    (h : n ∈ l) : ∃ rest, suffixFrom n.1 l = some (n :: rest) := by
  induction l with
  | nil => simp at h
  | cons m ms ih =>
    simp only [addrs, List.map_cons, List.nodup_cons] at hnd
    rcases List.mem_cons.mp h with h | h
    · subst h; exact ⟨ms, by simp [suffixFrom]⟩
    · have hne : ¬ m.1 = n.1 := fun e => hnd.1 (e ▸ mem_addrs_of_mem h)
      obtain ⟨rest, hr⟩ := ih hnd.2 h
      exact ⟨rest, by simp [suffixFrom, hne, hr]⟩

/-- What `Insert(position, value)` does to the chain, for a position that is
the sentinel or a linked node. -/
theorem Insert_link (l : DoublyLinkedList T) (pos : Iterator) (value : T)
    {s : List (Nat × T)} (hlt : ∀ n ∈ l.nodes, n.1 < l.brk) (hs : l.walkFrom pos = some s) :
    ∃ ns, l.Insert pos value = some (⟨ns, l.brk + 1⟩, Iterator.node l.brk) ∧
      ns.Perm ((l.brk, value) :: l.nodes) ∧
      suffixFrom l.brk ns = some ((l.brk, value) :: s) ∧
      ∀ b s1, b ≠ l.brk → suffixFrom b l.nodes = some s1 →
        ∃ s2, suffixFrom b ns = some s2 ∧ ∀ n ∈ s1, n ∈ s2 := by
  have hfresh : l.brk ∉ addrs l.nodes := not_mem_addrs_of_lt hlt
  cases pos with
  | head =>
    simp only [walkFrom, Option.some.injEq] at hs
    subst hs
    refine ⟨l.nodes ++ [(l.brk, value)], rfl, ?_, ?_, ?_⟩
    · exact (List.perm_append_comm).trans (List.Perm.refl _)
    · rw [suffixFrom_append_of_not_mem _ hfresh]; simp [suffixFrom]
    · intro b s1 _ h1
      exact ⟨s1 ++ [(l.brk, value)], suffixFrom_append_of_mem _ h1,
        fun n hn => List.mem_append_left _ hn⟩
  | node a =>
    simp only [walkFrom] at hs
    have ha : a ∈ addrs l.nodes := by
      by_contra hc
      rw [suffixFrom_eq_none.mpr hc] at hs
      cases hs
    obtain ⟨r, hr⟩ := linkBefore_isSome (l.brk, value) ha
    refine ⟨r, by simp [Insert, hr], linkBefore_perm hr, ?_, ?_⟩
    · exact linkBefore_suffix_new hr hfresh hs
    · intro b s1 hb h1
      exact linkBefore_suffix_mono hr (fun e => hb e.symm) h1


theorem linkBefore_some_mem {a : Nat} {x : Nat × T} {l r : List (Nat × T)}
    (h : linkBefore a x l = some r) : a ∈ addrs l := by
  induction l generalizing r with
  | nil => simp [linkBefore] at h
  | cons n ns ih =>
    unfold linkBefore at h
    split at h
    · next hn => simp [addrs, hn]
    · cases hr : linkBefore a x ns with
      | none => simp [hr] at h
      | some r1 => exact List.mem_cons_of_mem _ (ih hr)

/-- `Insert(position, value)` has defined behaviour only at the sentinel and
at linked nodes. -/
theorem Insert_walkFrom {l : DoublyLinkedList T} {pos : Iterator} {value : T}
    {r : DoublyLinkedList T × Iterator} (h : l.Insert pos value = some r) :
    ∃ s, l.walkFrom pos = some s := by
  cases pos with
  | head => exact ⟨[], rfl⟩
  | node a =>
    simp only [Insert] at h
    cases hr : linkBefore a (l.brk, value) l.nodes with
    | none => simp [hr] at h
    | some r1 => exact suffixFrom_isSome (linkBefore_some_mem hr)

theorem unlink_isSome {a : Nat} {l : List (Nat × T)} (h : a ∈ addrs l) :
    ∃ r, unlink a l = some r := by
  induction l with
  | nil => simp [addrs] at h
  | cons n ns ih =>
    unfold unlink
    by_cases hn : n.1 = a
    · exact ⟨ns, by simp [hn]⟩
    · have : a ∈ addrs ns := by
        simp only [addrs, List.map_cons, List.mem_cons] at h
        rcases h with h | h
        · exact absurd h.symm hn
        · exact h
      obtain ⟨r, hr⟩ := ih this
      exact ⟨n :: r, by simp [hn, hr]⟩

theorem unlink_perm {a : Nat} {l r : List (Nat × T)} (h : unlink a l = some r) :
    ∃ n, n.1 = a ∧ l.Perm (n :: r) := by
  induction l generalizing r with
  | nil => simp [unlink] at h
  | cons m ms ih =>
    unfold unlink at h
    split at h
    · next hm => cases h; exact ⟨m, hm, List.Perm.refl _⟩
    · cases hr : unlink a ms with
      | none => simp [hr] at h
      | some r1 =>
        simp [hr] at h
        subst h
        obtain ⟨n, hn, hp⟩ := ih hr
        exact ⟨n, hn, (hp.cons m).trans (List.Perm.swap n m r1)⟩

theorem unlink_mem {a : Nat} {l r : List (Nat × T)} (h : unlink a l = some r)
    {n : Nat × T} (hn : n ∈ l) (hna : n.1 ≠ a) : n ∈ r := by
  obtain ⟨n0, hn0, hp⟩ := unlink_perm h
  rcases List.mem_cons.mp (hp.subset hn) with e | e
  · exact absurd (e ▸ hn0) hna
  · exact e

theorem unlink_subset {a : Nat} {l r : List (Nat × T)} (h : unlink a l = some r)
    {n : Nat × T} (hn : n ∈ r) : n ∈ l := by
  obtain ⟨n0, _, hp⟩ := unlink_perm h
  exact hp.symm.subset (List.mem_cons_of_mem _ hn)

theorem unlink_not_mem {a : Nat} {l r : List (Nat × T)} (hnd : (addrs l).Nodup)
    (h : unlink a l = some r) : a ∉ addrs r := by
  obtain ⟨n0, hn0, hp⟩ := unlink_perm h
  have hp1 : (addrs l).Perm (n0.1 :: addrs r) := hp.map Prod.fst
  have := (hp1.nodup_iff.mp hnd)
  rw [List.nodup_cons] at this
  exact hn0 ▸ this.1

theorem unlink_nodup {a : Nat} {l r : List (Nat × T)} (hnd : (addrs l).Nodup)
    (h : unlink a l = some r) : (addrs r).Nodup := by
  obtain ⟨n0, _, hp⟩ := unlink_perm h
  have hp1 : (addrs l).Perm (n0.1 :: addrs r) := hp.map Prod.fst
  exact (List.nodup_cons.mp (hp1.nodup_iff.mp hnd)).2

theorem unlink_suffix_mono {a b : Nat} {l r s : List (Nat × T)} (h : unlink a l = some r)
    (hb : b ≠ a) (hs : suffixFrom b l = some s) :
    ∃ s1, suffixFrom b r = some s1 ∧ ∀ n ∈ s, n.1 ≠ a → n ∈ s1 := by
  induction l generalizing r s with
  | nil => simp [unlink] at h
  | cons m ms ih =>
    unfold unlink at h
    split at h
    · next hm =>
      cases h
      have hne : ¬ m.1 = b := fun e => hb (e ▸ hm)
      simp only [suffixFrom, hne, if_false] at hs
      exact ⟨s, hs, fun n hn _ => hn⟩
    · next hm =>
      cases hr : unlink a ms with
      | none => simp [hr] at h
      | some r1 =>
        simp [hr] at h
        subst h
        by_cases hmb : m.1 = b
        · simp only [suffixFrom, hmb, if_true, Option.some.injEq] at hs
          subst hs
          refine ⟨m :: r1, by simp [suffixFrom, hmb], ?_⟩
          intro n hn hna
          rcases List.mem_cons.mp hn with e | e
          · exact e ▸ List.mem_cons_self _ _
          · exact List.mem_cons_of_mem _ (unlink_mem hr e hna)
        · simp only [suffixFrom, hmb, if_false] at hs ⊢
          exact ih hr hs

theorem unlink_suffix_next {a : Nat} {l r rest : List (Nat × T)} {n n2 : Nat × T}
    (hnd : (addrs l).Nodup) (hs : suffixFrom a l = some (n :: n2 :: rest))
    (h : unlink a l = some r) : suffixFrom n2.1 r = some (n2 :: rest) := by
  induction l generalizing r with
  | nil => simp [unlink] at h
  | cons m ms ih =>
    simp only [addrs, List.map_cons, List.nodup_cons] at hnd
    by_cases hm : m.1 = a
    · simp only [suffixFrom, hm, if_true, Option.some.injEq, List.cons.injEq] at hs
      simp only [unlink, hm, if_true, Option.some.injEq] at h
      subst h
      rw [hs.2]
      simp [suffixFrom]
    · simp only [suffixFrom, hm, if_false] at hs
      simp only [unlink, hm, if_false] at h
      cases hr : unlink a ms with
      | none => simp [hr] at h
      | some r1 =>
        simp [hr] at h
        subst h
        have hn2 : n2 ∈ ms := suffixFrom_subset hs n2 (by simp)
        have hne : ¬ m.1 = n2.1 := fun e => hnd.1 (e ▸ mem_addrs_of_mem hn2)
        simp only [suffixFrom, hne, if_false]
        exact ih hnd.2 hs hr

end DoublyLinkedList
/-! ## The hash table: representation invariant -/

namespace HashMap

open DoublyLinkedList

variable {Key T : Type} [DecidableEq Key]

theorem mem_keys {m : HashMap Key T} {k : Key} :
    k ∈ m.keys ↔ ∃ n ∈ m.elements_.nodes, n.2.1 = k := by
  simp [keys, toList]

theorem findLoop_head (key : Key) (ns : List (Nat × (Key × T))) :
    findLoop key Iterator.head ns =
      some (match ns.find? (fun n => decide (n.2.1 = key)) with
        | some n => Iterator.node n.1
        | none => Iterator.head) := by
  induction ns with
  | nil => simp [findLoop]
  | cons n ns ih =>
    unfold findLoop
    by_cases hk : n.2.1 = key
    · simp [hk, List.find?]
    · simp [hk, List.find?, ih]

/-- `Find` never returns a wrong answer: what it returns is `end()` for a key
that is not stored and the node of the element with the key otherwise. -/
theorem Find_sound {hash : Key → Nat} {m : HashMap Key T} (hI : Inv hash m) {key : Key}
    {it : Iterator} (h : m.Find hash key = some it) :
    (it = Iterator.head ∧ key ∉ m.keys) ∨
      ∃ a v, it = Iterator.node a ∧ (a, (key, v)) ∈ m.elements_.nodes := by
  unfold Find at h
  by_cases he : m.Empty = true
  · rw [if_pos he] at h
    left
    refine ⟨(Option.some.inj h).symm, ?_⟩
    have : m.elements_.nodes = [] := by
      simpa [Empty, DoublyLinkedList.Empty, DoublyLinkedList.Size] using he
    simp [keys, toList, this]
  · rw [if_neg he] at h
    have hpos : 0 < m.buckets_.length := by
      apply hI.buckets_pos
      intro hn
      exact he (by simp [Empty, DoublyLinkedList.Empty, DoublyLinkedList.Size, hn])
    have hB : m.Bucket hash key = some (hash key % m.buckets_.length) := by
      simp [Bucket, BucketCount, Nat.pos_iff_ne_zero.mp hpos]
    simp only [hB] at h
    cases hg : m.buckets_[hash key % m.buckets_.length]? with
    | none => simp [hg] at h
    | some bucket =>
      simp only [hg] at h
      obtain ⟨h2, hcov⟩ := hI.covers _ _ hg
      by_cases h12 : bucket.1 = bucket.2
      · rw [if_pos h12] at h
        left
        refine ⟨(Option.some.inj h).symm, ?_⟩
        intro hk
        obtain ⟨n, hn, hnk⟩ := mem_keys.mp hk
        have := hcov [] (by rw [h12, h2]; rfl) n hn (by rw [hnk])
        simp at this
      · rw [if_neg h12] at h
        cases hw : m.elements_.walkFrom bucket.1 with
        | none => simp [hw] at h
        | some ns =>
          simp only [hw, h2, findLoop_head, Option.some.injEq] at h
          have hsub : ∀ n ∈ ns, n ∈ m.elements_.nodes := by
            cases hb1 : bucket.1 with
            | head => rw [hb1] at hw; simp [walkFrom] at hw; subst hw; simp
            | node a => rw [hb1] at hw; exact suffixFrom_subset hw
          cases hf : ns.find? (fun n => decide (n.2.1 = key)) with
          | none =>
            simp only [hf] at h
            left
            refine ⟨h.symm, ?_⟩
            intro hk
            obtain ⟨n, hn, hnk⟩ := mem_keys.mp hk
            have hmem := hcov ns hw n hn (by rw [hnk])
            have := List.find?_eq_none.mp hf n hmem
            simp [hnk] at this
          | some n =>
            simp only [hf] at h
            right
            have hn1 := List.find?_some hf
            have hn2 := List.mem_of_find?_eq_some hf
            simp only [decide_eq_true_eq] at hn1
            refine ⟨n.1, n.2.2, h.symm, ?_⟩
            have : (n.1, (key, n.2.2)) = n := by rw [← hn1]
            rw [this]
            exact hsub n hn2

/-- In a table without dangling bucket entries `Find` is defined. -/
theorem Find_defined {hash : Key → Nat} {m : HashMap Key T} (hI : Inv hash m)
    (hC : Clean m) (key : Key) : ∃ it, m.Find hash key = some it := by
  unfold Find
  by_cases he : m.Empty = true
  · exact ⟨m.end_, by rw [if_pos he]⟩
  · rw [if_neg he]
    have hpos : 0 < m.buckets_.length := by
      apply hI.buckets_pos
      intro hn
      exact he (by simp [Empty, DoublyLinkedList.Empty, DoublyLinkedList.Size, hn])
    have hB : m.Bucket hash key = some (hash key % m.buckets_.length) := by
      simp [Bucket, BucketCount, Nat.pos_iff_ne_zero.mp hpos]
    simp only [hB]
    have hlt : hash key % m.buckets_.length < m.buckets_.length := Nat.mod_lt _ hpos
    obtain ⟨bucket, hg⟩ : ∃ bucket, m.buckets_[hash key % m.buckets_.length]? = some bucket :=
      ⟨m.buckets_[hash key % m.buckets_.length], List.getElem?_eq_getElem hlt⟩
    simp only [hg]
    by_cases h12 : bucket.1 = bucket.2
    · exact ⟨m.end_, by rw [if_pos h12]⟩
    · rw [if_neg h12]
      obtain ⟨h2, _⟩ := hI.covers _ _ hg
      cases hb1 : bucket.1 with
      | head => exact absurd (hb1.trans h2.symm) h12
      | node a =>
        obtain ⟨s, hs⟩ := suffixFrom_isSome (hC _ _ hg a hb1)
        simp only [walkFrom, hs, h2, findLoop_head]
        exact ⟨_, rfl⟩

theorem walkFrom_defined {m : HashMap Key T} (hC : Clean m) {b : Nat}
    {bucket : Iterator × Iterator} (hg : m.buckets_[b]? = some bucket) :
    ∃ s, m.elements_.walkFrom bucket.1 = some s := by
  cases hb1 : bucket.1 with
  | head => exact ⟨[], rfl⟩
  | node a => exact suffixFrom_isSome (hC _ _ hg a hb1)

/-- `InsertUnchecked` of an element with a new key, where its behaviour is
defined: it keeps the invariant and adds exactly the element. -/
theorem InsertUnchecked_inv {hash : Key → Nat} {m m1 : HashMap Key T} {it : Iterator}
    (hI : Inv hash m) {value : Key × T} (hk : value.1 ∉ m.keys)
    (hres : m.InsertUnchecked hash value = some (m1, it)) :
    Inv hash m1 ∧ (Clean m → Clean m1) ∧ m1.toList.Perm (value :: m.toList) ∧
      m1.buckets_.length = m.buckets_.length ∧
      m1.max_load_factor_ = m.max_load_factor_ := by
  unfold InsertUnchecked at hres
  cases hB : m.Bucket hash value.1 with
  | none => simp [hB] at hres
  | some b =>
    have hpos : 0 < m.buckets_.length := by
      unfold Bucket at hB
      split at hB
      · cases hB
      · next h0 => exact Nat.pos_of_ne_zero h0
    have hb : b = hash value.1 % m.buckets_.length := by
      simp [Bucket, BucketCount, Nat.pos_iff_ne_zero.mp hpos] at hB
      exact hB.symm
    subst hb
    have hlt : hash value.1 % m.buckets_.length < m.buckets_.length := Nat.mod_lt _ hpos
    simp only [hB] at hres
    cases hg : m.buckets_[hash value.1 % m.buckets_.length]? with
    | none => simp [hg] at hres
    | some bucket =>
      simp only [hg] at hres
      obtain ⟨h2, hcov⟩ := hI.covers _ _ hg
      cases hIns0 : m.elements_.Insert bucket.1 value with
      | none => simp [hIns0] at hres
      | some r0 =>
        obtain ⟨s, hs⟩ := Insert_walkFrom hIns0
        obtain ⟨ns, hIns, hperm, hnew, hmono⟩ :=
          DoublyLinkedList.Insert_link m.elements_ bucket.1 value hI.addrs_lt hs
        have hm1 : m1 = { m with
            elements_ := ⟨ns, m.elements_.brk + 1⟩
            buckets_ := m.buckets_.set (hash value.1 % m.buckets_.length)
              (Iterator.node m.elements_.brk, Iterator.head) } := by
          simp only [hIns] at hres
          by_cases h12 : bucket.1 = bucket.2
          · rw [if_pos h12] at hres
            have hs0 : s = [] := by
              rw [h12, h2] at hs
              simpa [walkFrom] using hs.symm
            subst hs0
            simp only [DoublyLinkedList.next, hnew, Option.some.injEq, Prod.mk.injEq] at hres
            exact hres.1.symm
          · rw [if_neg h12, h2] at hres
            simp only [Option.some.injEq, Prod.mk.injEq] at hres
            exact hres.1.symm
        subst hm1
        have hfresh : m.elements_.brk ∉ addrs m.elements_.nodes :=
          not_mem_addrs_of_lt hI.addrs_lt
        have hmem : ∀ n, n ∈ ns ↔ n = (m.elements_.brk, value) ∨ n ∈ m.elements_.nodes := by
          intro n; rw [hperm.mem_iff]; simp
        refine ⟨?_, ?_, ?_, ?_, rfl⟩
        · constructor
          · have : (addrs ns).Perm (m.elements_.brk :: addrs m.elements_.nodes) :=
              hperm.map Prod.fst
            exact this.nodup_iff.mpr (List.nodup_cons.mpr ⟨hfresh, hI.addrs_nodup⟩)
          · intro n hn
            show n.1 < m.elements_.brk + 1
            rcases (hmem n).mp hn with h | h
            · subst h; exact Nat.lt_succ_self _
            · exact Nat.lt_succ_of_lt (hI.addrs_lt n h)
          · have : (List.map Prod.fst (List.map Prod.snd ns)).Perm (value.1 :: m.keys) :=
              (hperm.map Prod.snd).map Prod.fst
            exact this.nodup_iff.mpr (List.nodup_cons.mpr ⟨hk, hI.keys_nodup⟩)
          · intro _
            show 0 < (m.buckets_.set _ _).length
            rw [List.length_set]; exact hpos
          · intro b1 bucket1 hg1
            have hg1a : (m.buckets_.set (hash value.1 % m.buckets_.length)
                (Iterator.node m.elements_.brk, Iterator.head))[b1]? = some bucket1 := hg1
            show bucket1.2 = Iterator.head ∧
              ∀ s1, DoublyLinkedList.walkFrom ⟨ns, _⟩ bucket1.1 = some s1 →
                ∀ n ∈ ns, hash n.2.1 % (m.buckets_.set _ _).length = b1 → n ∈ s1
            rw [List.length_set]
            by_cases hb : hash value.1 % m.buckets_.length = b1
            · subst hb
              rw [List.getElem?_set_self hlt] at hg1a
              cases hg1a
              refine ⟨rfl, ?_⟩
              intro s1 hs1 n hn hnb
              simp only [walkFrom, hnew, Option.some.injEq] at hs1
              subst hs1
              rcases (hmem n).mp hn with h | h
              · subst h; exact List.mem_cons_self _ _
              · exact List.mem_cons_of_mem _ (hcov s hs n h hnb)
            · rw [List.getElem?_set_ne hb] at hg1a
              obtain ⟨h2a, hcova⟩ := hI.covers _ _ hg1a
              refine ⟨h2a, ?_⟩
              intro s1 hs1 n hn hnb
              have hnold : n ∈ m.elements_.nodes := by
                rcases (hmem n).mp hn with h | h
                · subst h; exact absurd hnb hb
                · exact h
              cases hb1 : bucket1.1 with
              | head =>
                have := hcova [] (by rw [hb1]; rfl) n hnold hnb
                simp at this
              | node a =>
                have hne : a ≠ m.elements_.brk :=
                  Nat.ne_of_lt (hI.buckets_lt _ _ hg1a a hb1)
                rw [hb1] at hs1
                simp only [walkFrom] at hs1
                cases hs0 : suffixFrom a m.elements_.nodes with
                | none =>
                  have hna : a ∉ addrs ns := by
                    intro hmem1
                    obtain ⟨x, hx, hxa⟩ := List.mem_map.mp hmem1
                    rcases (hmem x).mp hx with e | e
                    · subst e; exact hne hxa.symm
                    · exact suffixFrom_eq_none.mp hs0 (hxa ▸ mem_addrs_of_mem e)
                  rw [suffixFrom_eq_none.mpr hna] at hs1
                  cases hs1
                | some s0 =>
                  obtain ⟨s2, hs2, hsub⟩ := hmono a s0 hne hs0
                  rw [hs2] at hs1
                  cases hs1
                  exact hsub n (hcova s0 (by rw [hb1]; exact hs0) n hnold hnb)
          · intro b1 bucket1 hg1 a ha
            have hg1a : (m.buckets_.set (hash value.1 % m.buckets_.length)
                (Iterator.node m.elements_.brk, Iterator.head))[b1]? = some bucket1 := hg1
            show a < m.elements_.brk + 1
            by_cases hb : hash value.1 % m.buckets_.length = b1
            · subst hb
              rw [List.getElem?_set_self hlt] at hg1a
              cases hg1a
              cases ha
              exact Nat.lt_succ_self _
            · rw [List.getElem?_set_ne hb] at hg1a
              exact Nat.lt_succ_of_lt (hI.buckets_lt _ _ hg1a a ha)
          · exact hI.mlf_pos
        · intro hC b1 bucket1 hg1 a ha
          have hg1a : (m.buckets_.set (hash value.1 % m.buckets_.length)
              (Iterator.node m.elements_.brk, Iterator.head))[b1]? = some bucket1 := hg1
          show a ∈ addrs ns
          by_cases hb : hash value.1 % m.buckets_.length = b1
          · subst hb
            rw [List.getElem?_set_self hlt] at hg1a
            cases hg1a
            cases ha
            exact mem_addrs_of_mem ((hmem _).mpr (Or.inl rfl))
          · rw [List.getElem?_set_ne hb] at hg1a
            obtain ⟨n, hn, e⟩ := List.mem_map.mp (hC _ _ hg1a a ha)
            exact e ▸ mem_addrs_of_mem ((hmem n).mpr (Or.inr hn))
        · exact hperm.map Prod.snd
        · show (m.buckets_.set _ _).length = _
          rw [List.length_set]

/-- `InsertUnchecked` has defined behaviour on a table with at least one
bucket and no dangling bucket entry. -/
theorem InsertUnchecked_defined {hash : Key → Nat} {m : HashMap Key T} (hI : Inv hash m)
    (hC : Clean m) (hpos : 0 < m.buckets_.length) (value : Key × T) :
    ∃ r, m.InsertUnchecked hash value = some r := by
  have hB : m.Bucket hash value.1 = some (hash value.1 % m.buckets_.length) := by
    simp [Bucket, BucketCount, Nat.pos_iff_ne_zero.mp hpos]
  have hlt : hash value.1 % m.buckets_.length < m.buckets_.length := Nat.mod_lt _ hpos
  obtain ⟨bucket, hg⟩ : ∃ bucket, m.buckets_[hash value.1 % m.buckets_.length]? = some bucket :=
    ⟨m.buckets_[hash value.1 % m.buckets_.length], List.getElem?_eq_getElem hlt⟩
  obtain ⟨h2, _⟩ := hI.covers _ _ hg
  obtain ⟨s, hs⟩ := walkFrom_defined hC hg
  obtain ⟨ns, hIns, _, hnew, _⟩ :=
    DoublyLinkedList.Insert_link m.elements_ bucket.1 value hI.addrs_lt hs
  unfold InsertUnchecked
  simp only [hB, hg, hIns]
  by_cases h12 : bucket.1 = bucket.2
  · rw [if_pos h12]
    have hs0 : s = [] := by
      rw [h12, h2] at hs
      simpa [walkFrom] using hs.symm
    subst hs0
    simp only [DoublyLinkedList.next, hnew]
    exact ⟨_, rfl⟩
  · rw [if_neg h12]
    exact ⟨_, rfl⟩

theorem InsertUnchecked_spec {hash : Key → Nat} {m : HashMap Key T} (hI : Inv hash m)
    (hC : Clean m) (hpos : 0 < m.buckets_.length) (value : Key × T)
    (hk : value.1 ∉ m.keys) :
    ∃ m1 it, m.InsertUnchecked hash value = some (m1, it) ∧ Inv hash m1 ∧ Clean m1 ∧
      m1.toList.Perm (value :: m.toList) ∧ m1.buckets_.length = m.buckets_.length ∧
      m1.max_load_factor_ = m.max_load_factor_ := by
  obtain ⟨⟨m1, it⟩, hres⟩ := InsertUnchecked_defined hI hC hpos value
  obtain ⟨hI1, hC1, hp, hl, hf⟩ := InsertUnchecked_inv hI hk hres
  exact ⟨m1, it, hres, hI1, hC1 hC, hp, hl, hf⟩

theorem insertAllUnchecked_spec {hash : Key → Nat} (vs : List (Key × T)) :
    ∀ {m : HashMap Key T}, Inv hash m → Clean m → (vs ≠ [] → 0 < m.buckets_.length) →
      (vs.map Prod.fst).Nodup → (∀ v ∈ vs, v.1 ∉ m.keys) →
      ∃ m1, insertAllUnchecked hash m vs = some m1 ∧ Inv hash m1 ∧ Clean m1 ∧
        m1.toList.Perm (vs ++ m.toList) ∧ m1.buckets_.length = m.buckets_.length ∧
        m1.max_load_factor_ = m.max_load_factor_ := by
  induction vs with
  | nil =>
    intro m hI hC _ _ _
    exact ⟨m, rfl, hI, hC, List.Perm.refl _, rfl, rfl⟩
  | cons v vs ih =>
    intro m hI hC hpos hnd hdisj
    have hpos0 := hpos (List.cons_ne_nil _ _)
    rw [List.map_cons, List.nodup_cons] at hnd
    obtain ⟨m1, it, h1, hI1, hC1, hp1, hl1, hf1⟩ :=
      InsertUnchecked_spec hI hC hpos0 v (hdisj v (List.mem_cons_self _ _))
    have hdisj1 : ∀ w ∈ vs, w.1 ∉ m1.keys := by
      intro w hw hmem
      have : w.1 ∈ (v :: m.toList).map Prod.fst := (hp1.map Prod.fst).subset hmem
      rcases List.mem_cons.mp this with h | h
      · exact hnd.1 (h ▸ List.mem_map.mpr ⟨w, hw, rfl⟩)
      · exact hdisj w (List.mem_cons_of_mem _ hw) h
    obtain ⟨m2, h2, hI2, hC2, hp2, hl2, hf2⟩ :=
      ih hI1 hC1 (fun _ => hl1 ▸ hpos0) hnd.2 hdisj1
    refine ⟨m2, ?_, hI2, hC2, ?_, hl2.trans hl1, hf2.trans hf1⟩
    · simp only [insertAllUnchecked, h1, h2]
    · refine hp2.trans ?_
      refine (List.Perm.append_left vs hp1).trans ?_
      exact List.perm_middle

theorem ceilDiv_pos {n : Nat} {f : Fraction} (hf : 0 < f.num) :
    ceilDiv n f = some ((n * f.den + f.num - 1) / f.num) := by
  simp [ceilDiv, Nat.pos_iff_ne_zero.mp hf]

/-- `Rehash` rebuilds the table from the stored elements alone: whatever the
bucket entries were, the result is a good state with the same elements. -/
theorem Rehash_spec (hash : Key → Nat) {m : HashMap Key T} (hnd : m.keys.Nodup)
    (hf : 0 < m.max_load_factor_.num) (count : Nat) :
    ∃ m1, m.Rehash hash count = some m1 ∧ Good hash m1 ∧ m1.toList.Perm m.toList ∧
      m1.buckets_.length = max ((m.Size * m.max_load_factor_.den + m.max_load_factor_.num - 1) / m.max_load_factor_.num) count ∧
      m1.max_load_factor_ = m.max_load_factor_ := by
  let m0 : HashMap Key T :=
    { m with
      elements_ := DoublyLinkedList.empty
      buckets_ := List.replicate (max ((m.Size * m.max_load_factor_.den + m.max_load_factor_.num - 1) / m.max_load_factor_.num) count)
        (Iterator.head, Iterator.head) }
  have hI0 : Inv hash m0 := by
    constructor
    · exact List.nodup_nil
    · intro n hn; cases hn
    · exact List.nodup_nil
    · intro h; exact absurd rfl h
    · intro b bucket hg
      have hg1 : (List.replicate (max ((m.Size * m.max_load_factor_.den + m.max_load_factor_.num - 1) / m.max_load_factor_.num) count)
          (Iterator.head, Iterator.head))[b]? = some bucket := hg
      rw [List.getElem?_replicate] at hg1
      split at hg1
      · cases hg1
        exact ⟨rfl, fun ns _ n hn => by cases hn⟩
      · cases hg1
    · intro b bucket hg a ha
      have hg1 : (List.replicate ((m.Size * m.max_load_factor_.den +
          m.max_load_factor_.num - 1) / m.max_load_factor_.num ⊔ count)
          (Iterator.head, Iterator.head))[b]? = some bucket := hg
      rw [List.getElem?_replicate] at hg1
      split at hg1
      · cases hg1; cases ha
      · cases hg1
    · exact hf
  have hC0 : Clean m0 := by
    intro b bucket hg a ha
    have hg1 : (List.replicate (max ((m.Size * m.max_load_factor_.den + m.max_load_factor_.num - 1) / m.max_load_factor_.num) count)
        (Iterator.head, Iterator.head))[b]? = some bucket := hg
    rw [List.getElem?_replicate] at hg1
    split at hg1
    · cases hg1; cases ha
    · cases hg1
  have hpos : m.toList ≠ [] → 0 < m0.buckets_.length := by
    intro hne
    show 0 < (List.replicate _ _).length
    rw [List.length_replicate]
    have hsz : 0 < m.Size := by
      have : m.toList.length = m.Size := by simp [toList, Size, DoublyLinkedList.Size]
      rw [← this]
      exact List.length_pos.mpr hne
    have : 0 < (m.Size * m.max_load_factor_.den + m.max_load_factor_.num - 1) /
        m.max_load_factor_.num := by
      apply Nat.div_pos _ hf
      have := Nat.mul_pos hsz m.max_load_factor_.den_pos
      omega
    exact lt_of_lt_of_le this (le_max_left _ _)
  obtain ⟨m1, h1, hI1, hC1, hp1, hl1, hf1⟩ :=
    insertAllUnchecked_spec m.toList hI0 hC0 hpos hnd
      (fun v _ hv => by simp [keys, toList, m0, DoublyLinkedList.empty] at hv)
  refine ⟨m1, ?_, ⟨hI1, hC1⟩, ?_, ?_, hf1⟩
  · unfold Rehash
    rw [ceilDiv_pos hf]
    exact h1
  · have : m0.toList = [] := rfl
    rw [this, List.append_nil] at hp1
    exact hp1
  · rw [hl1]
    show (List.replicate _ _).length = _
    rw [List.length_replicate]

/-- `CheckRehash` has defined behaviour in every state with the invariant; it
keeps the elements and leaves room for `additional` elements to have a
bucket. -/
theorem CheckRehash_inv {hash : Key → Nat} {m : HashMap Key T} (hI : Inv hash m)
    (additional : Nat) :
    ∃ m1, m.CheckRehash hash additional = some m1 ∧ Inv hash m1 ∧ (Clean m → Clean m1) ∧
      m1.toList.Perm m.toList ∧ m1.max_load_factor_ = m.max_load_factor_ ∧
      (0 < additional → 0 < m1.buckets_.length) := by
  unfold CheckRehash
  by_cases hlt : m.max_load_factor_.mulLt m.BucketCount (m.Size + additional) = true
  · simp only [hlt, if_true]
    obtain ⟨m1, h1, hG1, hp1, hl1, hf1⟩ :=
      Rehash_spec hash hI.keys_nodup hI.mlf_pos
        (max (m.Size + additional) (m.Size * 2))
    refine ⟨m1, h1, hG1.inv, fun _ => hG1.clean, hp1, hf1, ?_⟩
    intro ha
    rw [hl1]
    have : 0 < max (m.Size + additional) (m.Size * 2) :=
      lt_of_lt_of_le (by omega) (le_max_left _ _)
    exact lt_of_lt_of_le this (le_max_right _ _)
  · simp only [hlt, if_false]
    refine ⟨m, rfl, hI, fun h => h, List.Perm.refl _, rfl, ?_⟩
    intro ha
    by_contra hc
    have h0 : m.BucketCount = 0 := by
      have : m.buckets_.length = 0 := by omega
      exact this
    apply hlt
    rw [h0]
    simp only [Fraction.mulLt, Nat.mul_zero, decide_eq_true_eq]
    exact Nat.mul_pos (by omega) m.max_load_factor_.den_pos

theorem CheckRehash_spec {hash : Key → Nat} {m : HashMap Key T} (hG : Good hash m)
    (additional : Nat) :
    ∃ m1, m.CheckRehash hash additional = some m1 ∧ Good hash m1 ∧
      m1.toList.Perm m.toList ∧ m1.max_load_factor_ = m.max_load_factor_ ∧
      (0 < additional → 0 < m1.buckets_.length) := by
  obtain ⟨m1, h1, hI1, hC1, hp1, hf1, hb1⟩ := CheckRehash_inv hG.inv additional
  exact ⟨m1, h1, ⟨hI1, hC1 hG.clean⟩, hp1, hf1, hb1⟩

/-- `Insert(value)`, where its behaviour is defined, keeps the invariant; it
leaves the table as it is when the key is stored and adds the element when it
is not. -/
theorem Insert_inv {hash : Key → Nat} {m : HashMap Key T} (hI : Inv hash m)
    {value : Key × T} {r : HashMap Key T × Iterator × Bool}
    (h : m.Insert hash value = some r) :
    Inv hash r.1 ∧ (Clean m → Clean r.1) ∧ r.1.max_load_factor_ = m.max_load_factor_ ∧
      ((value.1 ∈ m.keys ∧ r.1 = m ∧ r.2.2 = false) ∨
       (value.1 ∉ m.keys ∧ r.2.2 = true ∧ r.1.toList.Perm (value :: m.toList))) := by
  unfold Insert at h
  cases hF : m.Find hash value.1 with
  | none => simp [hF] at h
  | some it =>
    simp only [hF] at h
    rcases Find_sound hI hF with ⟨hit, hk⟩ | ⟨a, v, hit, hmem⟩
    · subst hit
      simp only [end_, DoublyLinkedList.end_, ne_eq, not_true_eq_false, if_false] at h
      obtain ⟨m1, h1, hI1, hC1, hp1, hf1, _⟩ := CheckRehash_inv hI 1
      simp only [h1] at h
      have hk1 : value.1 ∉ m1.keys := fun e => hk ((hp1.map Prod.fst).subset e)
      cases h2 : m1.InsertUnchecked hash value with
      | none => simp [h2] at h
      | some r2 =>
        obtain ⟨m2, it2⟩ := r2
        simp only [h2, Option.some.injEq] at h
        subst h
        obtain ⟨hI2, hC2, hp2, _, hf2⟩ := InsertUnchecked_inv hI1 hk1 h2
        exact ⟨hI2, fun hC => hC2 (hC1 hC), hf2.trans hf1,
          Or.inr ⟨hk, rfl, hp2.trans (hp1.cons value)⟩⟩
    · subst hit
      simp only [end_, DoublyLinkedList.end_, ne_eq, reduceCtorEq, not_false_eq_true, if_true,
        Option.some.injEq] at h
      subst h
      exact ⟨hI, fun hC => hC, rfl, Or.inl ⟨mem_keys.mpr ⟨_, hmem, rfl⟩, rfl, rfl⟩⟩

/-- The result of `Insert(value)` on a good state. -/
theorem Insert_spec {hash : Key → Nat} {m : HashMap Key T} (hG : Good hash m)
    (value : Key × T) :
    ∃ m1 it, Good hash m1 ∧ m1.max_load_factor_ = m.max_load_factor_ ∧
      ((value.1 ∈ m.keys ∧ m.Insert hash value = some (m, it, false) ∧ m1 = m) ∨
       (value.1 ∉ m.keys ∧ m.Insert hash value = some (m1, it, true) ∧
          m1.toList.Perm (value :: m.toList))) := by
  obtain ⟨it, hF⟩ := Find_defined hG.inv hG.clean value.1
  rcases Find_sound hG.inv hF with ⟨hit, hk⟩ | ⟨a, v, hit, hmem⟩
  · obtain ⟨m1, h1, hG1, hp1, hf1, hb1⟩ := CheckRehash_spec hG 1
    have hk1 : value.1 ∉ m1.keys := fun h => hk ((hp1.map Prod.fst).subset h)
    obtain ⟨m2, it2, h2, hI2, hC2, hp2, _, hf2⟩ :=
      InsertUnchecked_spec hG1.inv hG1.clean (hb1 Nat.one_pos) value hk1
    refine ⟨m2, it2, ⟨hI2, hC2⟩, hf2.trans hf1, Or.inr ⟨hk, ?_, ?_⟩⟩
    · unfold Insert
      simp only [hF, hit, end_, DoublyLinkedList.end_, ne_eq, not_true_eq_false, if_false,
        h1, h2]
    · exact hp2.trans (hp1.cons value)
  · refine ⟨m, it, hG, rfl, Or.inl ⟨?_, ?_, rfl⟩⟩
    · exact mem_keys.mpr ⟨_, hmem, rfl⟩
    · unfold Insert
      simp [hF, hit, end_, DoublyLinkedList.end_]

theorem find?_key_of_mem {l : List (Key × T)} (hnd : (l.map Prod.fst).Nodup) {p : Key × T}
    (hp : p ∈ l) : l.find? (fun q => decide (q.1 = p.1)) = some p := by
  induction l with
  | nil => simp at hp
  | cons q qs ih =>
    rw [List.map_cons, List.nodup_cons] at hnd
    rcases List.mem_cons.mp hp with h | h
    · subst h; simp [List.find?]
    · have hne : ¬ q.1 = p.1 := fun e => hnd.1 (e ▸ List.mem_map.mpr ⟨p, h, rfl⟩)
      simp [List.find?, hne, ih hnd.2 h]

/-- `Contains` on a good state is membership of the key. -/
theorem Contains_eq {hash : Key → Nat} {m : HashMap Key T} (hG : Good hash m) (k : Key) :
    m.Contains hash k = some (decide (k ∈ m.keys)) := by
  obtain ⟨it, hF⟩ := Find_defined hG.inv hG.clean k
  rcases Find_sound hG.inv hF with ⟨hit, hk⟩ | ⟨a, v, hit, hmem⟩
  · simp [Contains, hF, hit, end_, DoublyLinkedList.end_, hk]
  · have : k ∈ m.keys := mem_keys.mpr ⟨_, hmem, rfl⟩
    simp [Contains, hF, hit, end_, DoublyLinkedList.end_, this]

/-- `At` on a good state returns the stored pair with the key, and throws
when there is none. -/
theorem At_eq {hash : Key → Nat} {m : HashMap Key T} (hG : Good hash m) (k : Key) :
    m.At hash k = some (atResult (m.toList.find? (fun p => decide (p.1 = k)))) := by
  obtain ⟨it, hF⟩ := Find_defined hG.inv hG.clean k
  rcases Find_sound hG.inv hF with ⟨hit, hk⟩ | ⟨a, v, hit, hmem⟩
  · have : m.toList.find? (fun p => decide (p.1 = k)) = none := by
      rw [List.find?_eq_none]
      intro p hp hpk
      simp only [decide_eq_true_eq] at hpk
      exact hk (List.mem_map.mpr ⟨p, hp, hpk⟩)
    simp [At, hF, hit, end_, DoublyLinkedList.end_, this, atResult]
  · have h1 : (k, v) ∈ m.toList := List.mem_map.mpr ⟨_, hmem, rfl⟩
    have h2 := find?_key_of_mem hG.inv.keys_nodup h1
    simp only at h2
    obtain ⟨rest, hr⟩ := suffixFrom_of_mem hG.inv.addrs_nodup hmem
    simp only at hr
    simp [At, hF, hit, end_, DoublyLinkedList.end_, h2, deref, walkFrom, hr, atResult]

theorem insertEach_spec {hash : Key → Nat} (l : List (Key × T)) :
    ∀ {m : HashMap Key T}, Good hash m →
      ∃ m1, insertEach hash m l = some m1 ∧ Good hash m1 ∧
        m1.max_load_factor_ = m.max_load_factor_ ∧
        ∀ p, p ∈ m1.toList ↔
          (p ∈ m.toList ∨ (p.1 ∉ m.keys ∧ l.find? (fun q => decide (q.1 = p.1)) = some p)) := by
  induction l with
  | nil =>
    intro m hG
    exact ⟨m, rfl, hG, rfl, fun p => by simp⟩
  | cons v vs ih =>
    intro m hG
    obtain ⟨m1, it, hG1, hf1, h | h⟩ := Insert_spec hG v
    · obtain ⟨hk, hIns, hm1⟩ := h
      obtain ⟨m2, h2, hG2, hf2, hc2⟩ := ih hG
      refine ⟨m2, by simp only [insertEach, hIns, h2], hG2, hf2, ?_⟩
      intro p
      rw [hc2 p]
      constructor
      · rintro (h | ⟨hpk, hfind⟩)
        · exact Or.inl h
        · refine Or.inr ⟨hpk, ?_⟩
          have hne : ¬ v.1 = p.1 := fun e => hpk (e ▸ hk)
          simp [List.find?, hne, hfind]
      · rintro (h | ⟨hpk, hfind⟩)
        · exact Or.inl h
        · refine Or.inr ⟨hpk, ?_⟩
          have hne : ¬ v.1 = p.1 := fun e => hpk (e ▸ hk)
          simpa [List.find?, hne] using hfind
    · obtain ⟨hk, hIns, hp1⟩ := h
      obtain ⟨m2, h2, hG2, hf2, hc2⟩ := ih hG1
      refine ⟨m2, by simp only [insertEach, hIns, h2], hG2, hf2.trans hf1, ?_⟩
      intro p
      rw [hc2 p]
      have hmem1 : ∀ q, q ∈ m1.toList ↔ q = v ∨ q ∈ m.toList := by
        intro q; rw [hp1.mem_iff]; simp
      have hkeys1 : ∀ k, k ∈ m1.keys ↔ k = v.1 ∨ k ∈ m.keys := by
        intro k
        have := (hp1.map Prod.fst).mem_iff (a := k)
        simpa [keys] using this
      constructor
      · rintro (h | ⟨hpk, hfind⟩)
        · rcases (hmem1 p).mp h with h | h
          · subst h
            exact Or.inr ⟨hk, by simp [List.find?]⟩
          · exact Or.inl h
        · have hne : ¬ v.1 = p.1 := fun e => hpk ((hkeys1 _).mpr (Or.inl e.symm))
          have hpm : p.1 ∉ m.keys := fun e => hpk ((hkeys1 _).mpr (Or.inr e))
          exact Or.inr ⟨hpm, by simp [List.find?, hne, hfind]⟩
      · rintro (h | ⟨hpk, hfind⟩)
        · exact Or.inl ((hmem1 p).mpr (Or.inr h))
        · by_cases hvp : v.1 = p.1
          · have : p = v := by
              have := hfind
              simp [List.find?, hvp] at this
              exact this.symm
            exact Or.inl ((hmem1 p).mpr (Or.inl this))
          · refine Or.inr ⟨?_, ?_⟩
            · intro e
              rcases (hkeys1 _).mp e with e | e
              · exact hvp e.symm
              · exact hpk e
            · simpa [List.find?, hvp] using hfind

theorem Good_default (hash : Key → Nat) : Good hash (default : HashMap Key T) := by
  refine ⟨⟨List.nodup_nil, ?_, List.nodup_nil, fun h => absurd rfl h, ?_, ?_, Nat.one_pos⟩, ?_⟩
  · intro n hn; cases hn
  · intro b bucket hg; cases hg
  · intro b bucket hg; cases hg
  · intro b bucket hg; cases hg

theorem insertAllChecked_spec {hash : Key → Nat} (l : List (Key × T)) :
    ∀ {m : HashMap Key T}, Good hash m → (l ≠ [] → 0 < m.buckets_.length) →
      ∃ m1, insertAllChecked hash m l = some m1 ∧ Good hash m1 ∧
        m1.max_load_factor_ = m.max_load_factor_ ∧
        m1.buckets_.length = m.buckets_.length ∧
        ∀ p, p ∈ m1.toList ↔
          (p ∈ m.toList ∨ (p.1 ∉ m.keys ∧ l.find? (fun q => decide (q.1 = p.1)) = some p)) := by
  induction l with
  | nil =>
    intro m hG _
    exact ⟨m, rfl, hG, rfl, rfl, fun p => by simp⟩
  | cons v vs ih =>
    intro m hG hpos
    have hpos0 := hpos (List.cons_ne_nil _ _)
    have hCo := Contains_eq hG v.1
    by_cases hk : v.1 ∈ m.keys
    · simp only [hk, decide_True] at hCo
      obtain ⟨m2, h2, hG2, hf2, hl2, hc2⟩ := ih hG (fun _ => hpos0)
      refine ⟨m2, by simp only [insertAllChecked, hCo, h2], hG2, hf2, hl2, ?_⟩
      intro p
      rw [hc2 p]
      constructor
      · rintro (h | ⟨hpk, hfind⟩)
        · exact Or.inl h
        · refine Or.inr ⟨hpk, ?_⟩
          have hne : ¬ v.1 = p.1 := fun e => hpk (e ▸ hk)
          simp [List.find?, hne, hfind]
      · rintro (h | ⟨hpk, hfind⟩)
        · exact Or.inl h
        · refine Or.inr ⟨hpk, ?_⟩
          have hne : ¬ v.1 = p.1 := fun e => hpk (e ▸ hk)
          simpa [List.find?, hne] using hfind
    · simp only [hk, decide_False] at hCo
      obtain ⟨m1, it, hIns, hI1, hC1, hp1, hl1, hf1⟩ :=
        InsertUnchecked_spec hG.inv hG.clean hpos0 v hk
      have hG1 : Good hash m1 := ⟨hI1, hC1⟩
      obtain ⟨m2, h2, hG2, hf2, hl2, hc2⟩ := ih hG1 (fun _ => hl1 ▸ hpos0)
      refine ⟨m2, by simp only [insertAllChecked, hCo, hIns, h2], hG2, hf2.trans hf1,
        hl2.trans hl1, ?_⟩
      intro p
      rw [hc2 p]
      have hmem1 : ∀ q, q ∈ m1.toList ↔ q = v ∨ q ∈ m.toList := by
        intro q; rw [hp1.mem_iff]; simp
      have hkeys1 : ∀ k, k ∈ m1.keys ↔ k = v.1 ∨ k ∈ m.keys := by
        intro k
        have := (hp1.map Prod.fst).mem_iff (a := k)
        simpa [keys] using this
      constructor
      · rintro (h | ⟨hpk, hfind⟩)
        · rcases (hmem1 p).mp h with h | h
          · subst h
            exact Or.inr ⟨hk, by simp [List.find?]⟩
          · exact Or.inl h
        · have hne : ¬ v.1 = p.1 := fun e => hpk ((hkeys1 _).mpr (Or.inl e.symm))
          have hpm : p.1 ∉ m.keys := fun e => hpk ((hkeys1 _).mpr (Or.inr e))
          exact Or.inr ⟨hpm, by simp [List.find?, hne, hfind]⟩
      · rintro (h | ⟨hpk, hfind⟩)
        · exact Or.inl ((hmem1 p).mpr (Or.inr h))
        · by_cases hvp : v.1 = p.1
          · have : p = v := by
              have := hfind
              simp [List.find?, hvp] at this
              exact this.symm
            exact Or.inl ((hmem1 p).mpr (Or.inl this))
          · refine Or.inr ⟨?_, ?_⟩
            · intro e
              rcases (hkeys1 _).mp e with e | e
              · exact hvp e.symm
              · exact hpk e
            · simpa [List.find?, hvp] using hfind

theorem keys_congr {m m1 : HashMap Key T} (h : m1.toList.Perm m.toList) (k : Key) :
    k ∈ m1.keys ↔ k ∈ m.keys := (h.map Prod.fst).mem_iff

/-- The result of the range `Insert` on a good state. -/
theorem InsertRange_spec {hash : Key → Nat} {m : HashMap Key T} (hG : Good hash m)
    (l : List (Key × T)) :
    ∃ m1, m.InsertRange hash l = some m1 ∧ Good hash m1 ∧
      m1.max_load_factor_ = m.max_load_factor_ ∧
      ∀ p, p ∈ m1.toList ↔
        (p ∈ m.toList ∨ (p.1 ∉ m.keys ∧ l.find? (fun q => decide (q.1 = p.1)) = some p)) := by
  unfold InsertRange
  cases l with
  | nil => exact ⟨m, rfl, hG, rfl, fun p => by simp⟩
  | cons v vs =>
    obtain ⟨m1, h1, hG1, hp1, hf1, hb1⟩ := CheckRehash_spec hG (v :: vs).length
    obtain ⟨m2, h2, hG2, hf2, _, hc2⟩ :=
      insertAllChecked_spec (v :: vs) hG1 (fun _ => hb1 (by simp))
    refine ⟨m2, by simp only [List.isEmpty_cons, Bool.false_eq_true, if_false, h1, h2],
      hG2, hf2.trans hf1, ?_⟩
    intro p
    rw [hc2 p, hp1.mem_iff, keys_congr hp1]

theorem runInserts_spec {hash : Key → Nat} (cs : List (InsertCall Key T)) :
    ∀ {m : HashMap Key T}, Good hash m →
      ∃ m1, runInserts hash m cs = some m1 ∧ Good hash m1 := by
  induction cs with
  | nil => intro m hG; exact ⟨m, rfl, hG⟩
  | cons c cs ih =>
    intro m hG
    have step : ∃ m1, applyInsert hash m c = some m1 ∧ Good hash m1 := by
      cases c with
      | value v =>
        obtain ⟨m1, it, hG1, _, h | h⟩ := Insert_spec hG v
        · exact ⟨m, by simp [applyInsert, h.2.1], hG⟩
        · exact ⟨m1, by simp [applyInsert, h.2.1], hG1⟩
      | range vs =>
        obtain ⟨m1, h1, hG1, _⟩ := InsertRange_spec hG vs
        exact ⟨m1, h1, hG1⟩
      | initializerList vs =>
        obtain ⟨m1, h1, hG1, _⟩ := InsertRange_spec hG vs
        exact ⟨m1, h1, hG1⟩
    obtain ⟨m1, h1, hG1⟩ := step
    obtain ⟨m2, h2, hG2⟩ := ih hG1
    exact ⟨m2, by simp only [runInserts, h1, h2], hG2⟩

/-- `Contains`, where its behaviour is defined, is membership of the key. -/
theorem Contains_sound {hash : Key → Nat} {m : HashMap Key T} (hI : Inv hash m) {k : Key}
    {c : Bool} (h : m.Contains hash k = some c) : c = decide (k ∈ m.keys) := by
  unfold Contains at h
  cases hF : m.Find hash k with
  | none => simp [hF] at h
  | some it =>
    rcases Find_sound hI hF with ⟨hit, hk⟩ | ⟨a, v, hit, hmem⟩
    · simp [hF, hit, end_, DoublyLinkedList.end_] at h
      simp [← h, hk]
    · have : k ∈ m.keys := mem_keys.mpr ⟨_, hmem, rfl⟩
      simp [hF, hit, end_, DoublyLinkedList.end_] at h
      simp [← h, this]

theorem insertAllChecked_inv {hash : Key → Nat} (l : List (Key × T)) :
    ∀ {m m2 : HashMap Key T}, Inv hash m → insertAllChecked hash m l = some m2 →
      Inv hash m2 ∧ (Clean m → Clean m2) ∧ m2.max_load_factor_ = m.max_load_factor_ := by
  induction l with
  | nil =>
    intro m m2 hI h
    simp only [insertAllChecked, Option.some.injEq] at h
    subst h
    exact ⟨hI, fun h => h, rfl⟩
  | cons v vs ih =>
    intro m m2 hI h
    unfold insertAllChecked at h
    cases hCo : m.Contains hash v.1 with
    | none => simp [hCo] at h
    | some c =>
      have hc := Contains_sound hI hCo
      cases c with
      | true =>
        simp only [hCo] at h
        exact ih hI h
      | false =>
        simp only [hCo] at h
        have hk : v.1 ∉ m.keys := by
          intro e
          simp [e] at hc
        cases h1 : m.InsertUnchecked hash v with
        | none => simp [h1] at h
        | some r1 =>
          obtain ⟨m1, it⟩ := r1
          simp only [h1] at h
          obtain ⟨hI1, hC1, _, _, hf1⟩ := InsertUnchecked_inv hI hk h1
          obtain ⟨hI2, hC2, hf2⟩ := ih hI1 h
          exact ⟨hI2, fun hC => hC2 (hC1 hC), hf2.trans hf1⟩

/-- The range `Insert`, where its behaviour is defined, keeps the invariant. -/
theorem InsertRange_inv {hash : Key → Nat} {m m2 : HashMap Key T} (hI : Inv hash m)
    {l : List (Key × T)} (h : m.InsertRange hash l = some m2) :
    Inv hash m2 ∧ (Clean m → Clean m2) ∧ m2.max_load_factor_ = m.max_load_factor_ := by
  unfold InsertRange at h
  cases l with
  | nil =>
    simp only [List.isEmpty_nil, if_true, Option.some.injEq] at h
    subst h
    exact ⟨hI, fun h => h, rfl⟩
  | cons v vs =>
    obtain ⟨m1, h1, hI1, hC1, _, hf1, _⟩ := CheckRehash_inv hI (v :: vs).length
    simp only [List.isEmpty_cons, Bool.false_eq_true, if_false, h1] at h
    obtain ⟨hI2, hC2, hf2⟩ := insertAllChecked_inv (v :: vs) hI1 h
    exact ⟨hI2, fun hC => hC2 (hC1 hC), hf2.trans hf1⟩

theorem node_eq_of_addr_eq {l : List (Nat × (Key × T))} (hnd : (addrs l).Nodup)
    {n1 n2 : Nat × (Key × T)} (h1 : n1 ∈ l) (h2 : n2 ∈ l) (e : n1.1 = n2.1) : n1 = n2 :=
  List.inj_on_of_nodup_map hnd h1 h2 e

theorem node_eq_of_key_eq {m : HashMap Key T} (hnd : m.keys.Nodup)
    {n1 n2 : Nat × (Key × T)} (h1 : n1 ∈ m.elements_.nodes) (h2 : n2 ∈ m.elements_.nodes)
    (e : n1.2.1 = n2.2.1) : n1 = n2 := by
  have hnd1 : (m.elements_.nodes.map (fun n => n.2.1)).Nodup := by
    simpa [keys, toList, List.map_map] using hnd
  exact List.inj_on_of_nodup_map hnd1 h1 h2 e

/-- `Erase(position)` at the node of a stored element, where its behaviour is
defined: it keeps the invariant and removes exactly that element. -/
theorem ErasePosition_inv {hash : Key → Nat} {m : HashMap Key T} (hI : Inv hash m)
    {a : Nat} {k : Key} {v : T} (hmem : (a, (k, v)) ∈ m.elements_.nodes)
    {r : HashMap Key T × Iterator} (h : m.ErasePosition hash (Iterator.node a) = some r) :
    Inv hash r.1 ∧ r.1.max_load_factor_ = m.max_load_factor_ ∧
      r.1.buckets_.length = m.buckets_.length ∧ m.toList.Perm ((k, v) :: r.1.toList) := by
  obtain ⟨rest, hsuf⟩ := suffixFrom_of_mem hI.addrs_nodup hmem
  simp only at hsuf
  have hderef : m.elements_.deref (Iterator.node a) = some (k, v) := by
    simp [deref, walkFrom, hsuf]
  have hpos : 0 < m.buckets_.length := hI.buckets_pos (List.ne_nil_of_mem hmem)
  have hB : m.Bucket hash k = some (hash k % m.buckets_.length) := by
    simp [Bucket, BucketCount, Nat.pos_iff_ne_zero.mp hpos]
  have hlt : hash k % m.buckets_.length < m.buckets_.length := Nat.mod_lt _ hpos
  obtain ⟨bucket, hg⟩ : ∃ bucket, m.buckets_[hash k % m.buckets_.length]? = some bucket :=
    ⟨m.buckets_[hash k % m.buckets_.length], List.getElem?_eq_getElem hlt⟩
  obtain ⟨h2, hcov⟩ := hI.covers _ _ hg
  unfold ErasePosition at h
  simp only [hderef] at h
  cases hF : m.Find hash k with
  | none => simp [hF] at h
  | some it =>
    have hit : it = Iterator.node a := by
      rcases Find_sound hI hF with ⟨_, hk⟩ | ⟨a1, v1, hit, hmem1⟩
      · exact absurd (mem_keys.mpr ⟨_, hmem, rfl⟩) hk
      · have := node_eq_of_key_eq hI.keys_nodup hmem1 hmem rfl
        simp only [Prod.mk.injEq] at this
        rw [hit, this.1]
    subst hit
    simp only [hF, hderef, hB, hg] at h
    let nxt : Iterator :=
      match rest with
      | [] => Iterator.head
      | n2 :: _ => Iterator.node n2.1
    have hnext : m.elements_.next (Iterator.node a) = some nxt := by
      cases rest with
      | nil => simp [DoublyLinkedList.next, hsuf, nxt]
      | cons n2 rest2 => simp [DoublyLinkedList.next, hsuf, nxt]
    obtain ⟨r0, hr0⟩ := unlink_isSome (mem_addrs_of_mem hmem)
    simp only at hr0
    have hErase : m.elements_.Erase (Iterator.node a) = some (⟨r0, m.elements_.brk⟩, nxt) := by
      simp [DoublyLinkedList.Erase, hnext, hr0]
    let nb : Iterator × Iterator :=
      if bucket.1 = Iterator.node a then (nxt, Iterator.head) else bucket
    have hr : r = ({ m with
        elements_ := ⟨r0, m.elements_.brk⟩
        buckets_ := m.buckets_.set (hash k % m.buckets_.length) nb }, nxt) := by
      by_cases hf : bucket.1 = Iterator.node a
      · simp only [hf, if_true, hnext, Option.map_some', h2, hErase, end_,
          DoublyLinkedList.end_, Option.some.injEq] at h
        rw [← h]
        simp only [nb, hf, if_true]
        by_cases hn : nxt = Iterator.head
        · simp [hn]
        · simp [hn]
      · have hne2 : ¬ bucket.2 = Iterator.node a := by rw [h2]; exact fun e => by cases e
        simp only [hf, hne2, if_false, hErase, end_, DoublyLinkedList.end_,
          Option.some.injEq] at h
        rw [← h]
        simp only [nb, hf, if_false]
        by_cases h12 : bucket.1 = bucket.2
        · have : bucket = (Iterator.head, Iterator.head) := by
            rw [h2] at h12
            exact Prod.ext h12 h2
          simp [h12, this]
        · simp [h12]
    subst hr
    have hna : a ∉ addrs r0 := unlink_not_mem hI.addrs_nodup hr0
    obtain ⟨n0, hn0, hperm⟩ := unlink_perm hr0
    have hn0e : n0 = (a, (k, v)) :=
      node_eq_of_addr_eq hI.addrs_nodup (hperm.symm.subset (List.mem_cons_self _ _)) hmem hn0
    subst hn0e
    have hkeep : ∀ (b1 : Nat) (f : Iterator),
        (∀ ns, m.elements_.walkFrom f = some ns →
          ∀ n ∈ m.elements_.nodes, hash n.2.1 % m.buckets_.length = b1 → n ∈ ns) →
        ∀ s1, DoublyLinkedList.walkFrom ⟨r0, m.elements_.brk⟩ f = some s1 →
          ∀ n ∈ r0, hash n.2.1 % m.buckets_.length = b1 → n ∈ s1 := by
      intro b1 f hold s1 hs1 n hn hnb
      have hnold : n ∈ m.elements_.nodes := unlink_subset hr0 hn
      cases f with
      | head =>
        have := hold [] rfl n hnold hnb
        simp at this
      | node a1 =>
        simp only [walkFrom] at hs1
        by_cases ha1 : a1 = a
        · subst ha1
          rw [suffixFrom_eq_none.mpr hna] at hs1
          cases hs1
        · cases hs0 : suffixFrom a1 m.elements_.nodes with
          | none =>
            have : a1 ∉ addrs r0 := by
              intro e
              obtain ⟨x, hx, hxa⟩ := List.mem_map.mp e
              exact suffixFrom_eq_none.mp hs0 (hxa ▸ mem_addrs_of_mem (unlink_subset hr0 hx))
            rw [suffixFrom_eq_none.mpr this] at hs1
            cases hs1
          | some s0 =>
            obtain ⟨s2, hs2, hsub⟩ := unlink_suffix_mono hr0 ha1 hs0
            rw [hs2] at hs1
            cases hs1
            exact hsub n (hold s0 hs0 n hnold hnb) (fun e => hna (e ▸ mem_addrs_of_mem hn))
    refine ⟨?_, rfl, ?_, ?_⟩
    · constructor
      · exact unlink_nodup hI.addrs_nodup hr0
      · intro n hn
        exact hI.addrs_lt n (unlink_subset hr0 hn)
      · have hp : m.keys.Perm (k :: List.map Prod.fst (List.map Prod.snd r0)) :=
          (hperm.map Prod.snd).map Prod.fst
        exact (List.nodup_cons.mp (hp.nodup_iff.mp hI.keys_nodup)).2
      · intro _
        show 0 < (m.buckets_.set _ _).length
        rw [List.length_set]; exact hpos
      · intro b1 bucket1 hg1
        have hg1a : (m.buckets_.set (hash k % m.buckets_.length) nb)[b1]? = some bucket1 := hg1
        show bucket1.2 = Iterator.head ∧
          ∀ s1, DoublyLinkedList.walkFrom ⟨r0, _⟩ bucket1.1 = some s1 →
            ∀ n ∈ r0, hash n.2.1 % (m.buckets_.set _ _).length = b1 → n ∈ s1
        rw [List.length_set]
        by_cases hb : hash k % m.buckets_.length = b1
        · subst hb
          rw [List.getElem?_set_self hlt] at hg1a
          cases hg1a
          by_cases hf : bucket.1 = Iterator.node a
          · simp only [nb, hf, if_true]
            refine ⟨trivial, ?_⟩
            intro s1 hs1 n hn hnb
            have hnold : n ∈ m.elements_.nodes := unlink_subset hr0 hn
            have hin := hcov _ (by rw [hf]; exact hsuf) n hnold hnb
            have hin2 : n ∈ rest := by
              rcases List.mem_cons.mp hin with e | e
              · rw [e] at hn
                exact absurd (mem_addrs_of_mem hn) hna
              · exact e
            cases rest with
            | nil => cases hin2
            | cons n2 rest2 =>
              have := unlink_suffix_next hI.addrs_nodup hsuf hr0
              simp only [nxt, walkFrom, this, Option.some.injEq] at hs1
              subst hs1
              exact hin2
          · simp only [nb, hf, if_false]
            exact ⟨h2, hkeep _ bucket.1 hcov⟩
        · rw [List.getElem?_set_ne hb] at hg1a
          obtain ⟨h2a, hcova⟩ := hI.covers _ _ hg1a
          exact ⟨h2a, hkeep _ bucket1.1 hcova⟩
      · intro b1 bucket1 hg1 a1 ha1
        have hg1a : (m.buckets_.set (hash k % m.buckets_.length) nb)[b1]? = some bucket1 := hg1
        show a1 < m.elements_.brk
        by_cases hb : hash k % m.buckets_.length = b1
        · subst hb
          rw [List.getElem?_set_self hlt] at hg1a
          cases hg1a
          by_cases hf : bucket.1 = Iterator.node a
          · simp only [nb, hf, if_true] at ha1
            cases rest with
            | nil => simp [nxt] at ha1
            | cons n2 rest2 =>
              simp only [nxt, Iterator.node.injEq] at ha1
              subst ha1
              exact hI.addrs_lt n2 (suffixFrom_subset hsuf n2 (by simp))
          · simp only [nb, hf, if_false] at ha1
            exact hI.buckets_lt _ _ hg a1 ha1
        · rw [List.getElem?_set_ne hb] at hg1a
          exact hI.buckets_lt _ _ hg1a a1 ha1
      · exact hI.mlf_pos
    · show (m.buckets_.set _ _).length = _
      rw [List.length_set]
    · exact hperm.map Prod.snd

/-- `Erase(key)`, where its behaviour is defined, keeps the invariant; it
returns 0 and leaves the table as it is when the key is not stored, and
returns 1 and removes the element with the key when it is. -/
theorem Erase_inv {hash : Key → Nat} {m : HashMap Key T} (hI : Inv hash m) {k : Key}
    {r : HashMap Key T × Nat} (h : m.Erase hash k = some r) :
    Inv hash r.1 ∧ r.1.max_load_factor_ = m.max_load_factor_ ∧
      r.1.buckets_.length = m.buckets_.length ∧
      ((k ∉ m.keys ∧ r = (m, 0)) ∨
       (∃ v, r.2 = 1 ∧ m.toList.Perm ((k, v) :: r.1.toList))) := by
  unfold Erase at h
  cases hF : m.Find hash k with
  | none => simp [hF] at h
  | some it =>
    simp only [hF] at h
    rcases Find_sound hI hF with ⟨hit, hk⟩ | ⟨a, v, hit, hmem⟩
    · subst hit
      simp only [end_, DoublyLinkedList.end_, if_true, Option.some.injEq] at h
      subst h
      exact ⟨hI, rfl, rfl, Or.inl ⟨hk, rfl⟩⟩
    · subst hit
      simp only [end_, DoublyLinkedList.end_, reduceCtorEq, if_false] at h
      cases hE : m.ErasePosition hash (Iterator.node a) with
      | none => simp [hE] at h
      | some r1 =>
        obtain ⟨hI1, hf1, hl1, hp1⟩ := ErasePosition_inv hI hmem hE
        simp only [hE, Option.some.injEq] at h
        subst h
        exact ⟨hI1, hf1, hl1, Or.inr ⟨v, rfl, hp1⟩⟩

/-- `Clear()` gives a good state. -/
theorem Clear_good (hash : Key → Nat) {m : HashMap Key T} (hf : 0 < m.max_load_factor_.num) :
    Good hash m.Clear := by
  have hb : ∀ (b : Nat) (bucket : Iterator × Iterator), m.Clear.buckets_[b]? = some bucket →
      bucket = (Iterator.head, Iterator.head) := by
    intro b bucket hg
    have hg1 : (m.buckets_.map (fun _ => (m.elements_.end_, m.elements_.end_)))[b]? =
        some bucket := hg
    rw [List.getElem?_map] at hg1
    cases hx : m.buckets_[b]? with
    | none => simp [hx] at hg1
    | some x =>
      simp only [hx, Option.map_some', Option.some.injEq] at hg1
      exact hg1.symm
  refine ⟨⟨List.nodup_nil, ?_, List.nodup_nil, fun h => absurd rfl h, ?_, ?_, hf⟩, ?_⟩
  · intro n hn; cases hn
  · intro b bucket hg
    rw [hb b bucket hg]
    exact ⟨rfl, fun ns _ n hn => by cases hn⟩
  · intro b bucket hg a ha
    rw [hb b bucket hg] at ha
    cases ha
  · intro b bucket hg a ha
    rw [hb b bucket hg] at ha
    cases ha

/-- `Reserve` rebuilds the table like `Rehash`. -/
theorem Reserve_spec (hash : Key → Nat) {m : HashMap Key T} (hnd : m.keys.Nodup)
    (hf : 0 < m.max_load_factor_.num) (count : Nat) :
    ∃ m1, m.Reserve hash count = some m1 ∧ Good hash m1 ∧ m1.toList.Perm m.toList ∧
      m1.buckets_.length =
        max ((m.Size * m.max_load_factor_.den + m.max_load_factor_.num - 1) /
            m.max_load_factor_.num)
          ((count * m.max_load_factor_.den + m.max_load_factor_.num - 1) /
            m.max_load_factor_.num) ∧
      m1.max_load_factor_ = m.max_load_factor_ := by
  obtain ⟨m1, h1, hG1, hp1, hl1, hf1⟩ := Rehash_spec hash hnd hf
    ((count * m.max_load_factor_.den + m.max_load_factor_.num - 1) / m.max_load_factor_.num)
  refine ⟨m1, ?_, hG1, hp1, hl1, hf1⟩
  unfold Reserve
  rw [ceilDiv_pos hf]
  exact h1

/-- Every reachable state satisfies the invariant. -/
theorem reachable_inv {hash : Key → Nat} {m : HashMap Key T} (h : Reachable hash m) :
    Inv hash m := by
  induction h with
  | default => exact (Good_default hash).inv
  | maxLoadFactor f _ hf ih =>
    exact ⟨ih.addrs_nodup, ih.addrs_lt, ih.keys_nodup, ih.buckets_pos, ih.covers,
      ih.buckets_lt, hf⟩
  | insert v _ hr ih => exact (Insert_inv ih hr).1
  | insertRange vs _ hr ih => exact (InsertRange_inv ih hr).1
  | erase k _ hr ih => exact (Erase_inv ih hr).1
  | clear _ ih => exact (Clear_good hash ih.mlf_pos).inv
  | rehash n _ hr ih =>
    obtain ⟨m1, h1, hG1, _⟩ := Rehash_spec hash ih.keys_nodup ih.mlf_pos n
    rw [hr] at h1
    cases h1
    exact hG1.inv
  | reserve n _ hr ih =>
    obtain ⟨m1, h1, hG1, _⟩ := Reserve_spec hash ih.keys_nodup ih.mlf_pos n
    rw [hr] at h1
    cases h1
    exact hG1.inv

/-- Every table built without erasing is a good state. -/
theorem built_good {hash : Key → Nat} {m : HashMap Key T} (h : Built hash m) :
    Good hash m := by
  induction h with
  | default => exact Good_default hash
  | maxLoadFactor f _ hf ih =>
    exact ⟨⟨ih.inv.addrs_nodup, ih.inv.addrs_lt, ih.inv.keys_nodup, ih.inv.buckets_pos,
      ih.inv.covers, ih.inv.buckets_lt, hf⟩, ih.clean⟩
  | insert v _ hr ih =>
    obtain ⟨hI, hC, _⟩ := Insert_inv ih.inv hr
    exact ⟨hI, hC ih.clean⟩
  | insertRange vs _ hr ih =>
    obtain ⟨hI, hC, _⟩ := InsertRange_inv ih.inv hr
    exact ⟨hI, hC ih.clean⟩
  | rehash n _ hr ih =>
    obtain ⟨m1, h1, hG1, _⟩ := Rehash_spec hash ih.inv.keys_nodup ih.inv.mlf_pos n
    rw [hr] at h1
    cases h1
    exact hG1
  | reserve n _ hr ih =>
    obtain ⟨m1, h1, hG1, _⟩ := Reserve_spec hash ih.inv.keys_nodup ih.inv.mlf_pos n
    rw [hr] at h1
    cases h1
    exact hG1

theorem built_runInserts {hash : Key → Nat} (cs : List (InsertCall Key T)) :
    ∀ {m m1 : HashMap Key T}, Built hash m → runInserts hash m cs = some m1 →
      Built hash m1 := by
  induction cs with
  | nil =>
    intro m m1 hB h
    simp only [runInserts, Option.some.injEq] at h
    exact h ▸ hB
  | cons c cs ih =>
    intro m m1 hB h
    unfold runInserts at h
    cases h0 : applyInsert hash m c with
    | none => simp [h0] at h
    | some m0 =>
      simp only [h0] at h
      refine ih ?_ h
      cases c with
      | value v =>
        simp only [applyInsert] at h0
        cases hi : m.Insert hash v with
        | none => simp [hi] at h0
        | some r =>
          simp only [hi, Option.map_some', Option.some.injEq] at h0
          exact h0 ▸ Built.insert v hB hi
      | range vs => exact Built.insertRange vs hB h0
      | initializerList vs => exact Built.insertRange vs hB h0

theorem reachable_runCalls {hash : Key → Nat} (cs : List (Call Key T)) :
    ∀ {m m1 : HashMap Key T}, Reachable hash m → runCalls hash m cs = some m1 →
      Reachable hash m1 := by
  induction cs with
  | nil =>
    intro m m1 hR h
    simp only [runCalls, Option.some.injEq] at h
    exact h ▸ hR
  | cons c cs ih =>
    intro m m1 hR h
    unfold runCalls at h
    cases h0 : applyCall hash m c with
    | none => simp [h0] at h
    | some m0 =>
      simp only [h0] at h
      refine ih ?_ h
      cases c with
      | insert v =>
        simp only [applyCall] at h0
        cases hi : m.Insert hash v with
        | none => simp [hi] at h0
        | some r =>
          simp only [hi, Option.map_some', Option.some.injEq] at h0
          exact h0 ▸ Reachable.insert v hR hi
      | erase k =>
        simp only [applyCall] at h0
        cases hi : m.Erase hash k with
        | none => simp [hi] at h0
        | some r =>
          simp only [hi, Option.map_some', Option.some.injEq] at h0
          exact h0 ▸ Reachable.erase k hR hi
/-! ## Claims on insertion -/

/-- C1: for every hash function and every list of key/value pairs inserted one
at a time with `Insert` into a default-constructed `HashMap`, the calls are
all defined and afterwards `Size()` is the number of distinct keys of the
list, `At(k)` returns the first pair of the list that carries `k` (and throws
`out_of_range` when no pair carries `k`), and `Contains(k)` is true exactly
for the keys of the list, so it is false for every key not in the list. -/
theorem insert_each_size_at_contains (hash : Key → Nat) (l : List (Key × T)) :
    ∃ m, insertEach hash (default : HashMap Key T) l = some m ∧
      m.Size = (l.map Prod.fst).dedup.length ∧
      ∀ k, m.At hash k = some (atResult (l.find? (fun p => decide (p.1 = k)))) ∧
           m.Contains hash k = some (decide (k ∈ l.map Prod.fst)) := by
  obtain ⟨m, hm, hG, _, hc⟩ := insertEach_spec l (Good_default (T := T) hash)
  have hc1 : ∀ p, p ∈ m.toList ↔ l.find? (fun q => decide (q.1 = p.1)) = some p := by
    intro p
    rw [hc p]
    simp [default, toList, keys, DoublyLinkedList.empty]
  have hkeys : ∀ k, k ∈ m.keys ↔ k ∈ l.map Prod.fst := by
    intro k
    constructor
    · intro h
      obtain ⟨p, hp, hpk⟩ := List.mem_map.mp h
      exact List.mem_map.mpr ⟨p, List.mem_of_find?_eq_some ((hc1 p).mp hp), hpk⟩
    · intro h
      obtain ⟨p, hp, hpk⟩ := List.mem_map.mp h
      cases hf : l.find? (fun q => decide (q.1 = k)) with
      | none =>
        have := List.find?_eq_none.mp hf p hp
        simp [hpk] at this
      | some q =>
        have hq := List.find?_some hf
        simp only [decide_eq_true_eq] at hq
        have : q ∈ m.toList := (hc1 q).mpr (by rw [hq]; exact hf)
        exact List.mem_map.mpr ⟨q, this, hq⟩
  have hfind : ∀ k, m.toList.find? (fun p => decide (p.1 = k)) =
      l.find? (fun p => decide (p.1 = k)) := by
    intro k
    cases hf : l.find? (fun q => decide (q.1 = k)) with
    | none =>
      rw [List.find?_eq_none]
      intro p hp hpk
      simp only [decide_eq_true_eq] at hpk
      have := (hc1 p).mp hp
      rw [hpk, hf] at this
      cases this
    | some q =>
      have hq := List.find?_some hf
      simp only [decide_eq_true_eq] at hq
      have hqm : q ∈ m.toList := (hc1 q).mpr (by rw [hq]; exact hf)
      have := find?_key_of_mem hG.inv.keys_nodup hqm
      rw [hq] at this
      exact this
  refine ⟨m, hm, ?_, fun k => ⟨?_, ?_⟩⟩
  · have hperm : m.keys.Perm (l.map Prod.fst).dedup :=
      (List.perm_ext_iff_of_nodup hG.inv.keys_nodup (List.nodup_dedup _)).mpr
        (fun k => by rw [hkeys k, List.mem_dedup])
    rw [← hperm.length_eq]
    simp [keys, toList, Size, DoublyLinkedList.Size]
  · rw [At_eq hG k, hfind k]
  · rw [Contains_eq hG k]
    congr 1
    exact decide_eq_decide.mpr (hkeys k)

/-- C2: for every hash function and every sequence of `Insert` calls (of a
value, of an iterator range, of an initializer list, with any repeated keys)
applied to an empty `HashMap` (or `HashSet`, the case `T = Unit`), the calls
are all defined and the elements visited by iterating from `begin()` to
`end()` have pairwise distinct keys. -/
theorem insert_calls_keys_distinct (hash : Key → Nat) (calls : List (InsertCall Key T)) :
    ∃ m, runInserts hash (default : HashMap Key T) calls = some m ∧
      (m.toList.map Prod.fst).Nodup := by
  obtain ⟨m, hm, hG⟩ := runInserts_spec calls (Good_default (T := T) hash)
  exact ⟨m, hm, hG.inv.keys_nodup⟩

/-! ## Claims on the bucket ranges, on erasing and on the load factor -/

/-- C3 (violated by the code): after `Insert({1,1}); Insert({2,4});` with the
identity hash the table has two buckets, key 2 falls in bucket 0, and the
range `[begin(1), end(1))` of bucket 1 holds the element with key 2 besides
the element with key 1; that element lies in the range of bucket 0 too.  The
same happens without any rehash: in the table with 4 buckets left by
`Insert({1,1}); Insert({2,4}); Insert({3,9});` a further `Insert({4,16})`
keeps the 4 buckets, key 4 falls in bucket 0, and the range of bucket 1 then
holds the keys 1, 2, 3 and 4. -/
theorem bucket_range_overlaps :
    (runCalls id (default : HashMap Nat Nat) [Call.insert (1, 1), Call.insert (2, 4)]
        = some tableA ∧
      tableA.BucketCount = 2 ∧ tableA.Bucket id 2 = some 0 ∧
      tableA.bucketElements 1 = some [(1, 1), (2, 4)] ∧
      tableA.bucketElements 0 = some [(2, 4)]) ∧
    ∃ m3 m4, runCalls id (default : HashMap Nat Nat)
        [Call.insert (1, 1), Call.insert (2, 4), Call.insert (3, 9)] = some m3 ∧
      m3.BucketCount = 4 ∧ applyCall id m3 (Call.insert (4, 16)) = some m4 ∧
      m4.BucketCount = 4 ∧ m4.Bucket id 4 = some 0 ∧
      m4.bucketElements 1 = some [(1, 1), (2, 4), (3, 9), (4, 16)] ∧
      m4.bucketElements 0 = some [(4, 16)] :=
  ⟨⟨rfl, rfl, rfl, rfl, rfl⟩, _, _, rfl, rfl, rfl, rfl, rfl, rfl, rfl⟩

/-- C4 (violated by the code): after
`Insert({1,1}); Insert({2,4}); Insert({3,9}); Erase(1); Erase(2);` with the
identity hash, the entry of bucket 1 still points to the node of key 2, which
`Erase(2)` deleted; `Erase(1)` and `Find(1)` then read that deleted node and
have undefined behaviour. -/
theorem erase_then_find_reads_deleted_node :
    ∃ m, runCalls id (default : HashMap Nat Nat)
        [Call.insert (1, 1), Call.insert (2, 4), Call.insert (3, 9), Call.erase 1,
          Call.erase 2] = some m ∧
      m.toList = [(3, 9)] ∧ m.Bucket id 1 = some 1 ∧
      m.beginBucket 1 = some (Iterator.node 1) ∧
      m.elements_.deref (Iterator.node 1) = none ∧
      m.Erase id 1 = none ∧ m.Find id 1 = none :=
  ⟨_, rfl, rfl, rfl, rfl, rfl, rfl, rfl⟩

/-- C5 (violated by the code): after `Insert({1,1}); Insert({2,4});
Insert({3,9}); Erase(1); Insert({6,36}); Insert({5,25}); Erase(6); Erase(5);`
with the identity hash the keys 2 and 3 are stored, but the entry of bucket 2
points to the deleted node of key 5: `Erase(2)` of the stored key 2 and
`Erase(6)` of the key 6 that is not stored both read the deleted node and
have undefined behaviour. -/
theorem erase_key_reads_deleted_node :
    ∃ m, runCalls id (default : HashMap Nat Nat)
        [Call.insert (1, 1), Call.insert (2, 4), Call.insert (3, 9), Call.erase 1,
          Call.insert (6, 36), Call.insert (5, 25), Call.erase 6, Call.erase 5] = some m ∧
      m.toList = [(2, 4), (3, 9)] ∧ m.Bucket id 2 = some 2 ∧ m.Bucket id 6 = some 2 ∧
      m.beginBucket 2 = some (Iterator.node 4) ∧
      m.elements_.deref (Iterator.node 4) = none ∧
      m.Erase id 2 = none ∧ m.Erase id 6 = none :=
  ⟨_, rfl, rfl, rfl, rfl, rfl, rfl, rfl, rfl⟩

/-- C6 (violated by the code): after `MaxLoadFactor(0.25); Insert({1,1});
Insert({2,4});` on an empty table, `Size()` is 2 and `BucketCount()` is 4, so
`ceil(0.25 * BucketCount())` is 1 and smaller than `Size()`. -/
theorem load_factor_bound_exceeded :
    ∃ m, insertEach id ((default : HashMap Nat Nat).setMaxLoadFactor ⟨1, 4, by decide⟩)
        [(1, 1), (2, 4)] = some m ∧
      m.Size = 2 ∧ m.BucketCount = 4 ∧ m.MaxLoadFactor = ⟨1, 4, by decide⟩ ∧
      m.MaxLoadFactor.ceilMul m.BucketCount = 1 :=
  ⟨_, rfl, rfl, rfl, rfl, rfl⟩

/-! ## Claims on comparison and move -/

theorem mem_toList_of_key {m : HashMap Key T} (hnd : m.keys.Nodup) {p q : Key × T}
    (hp : p ∈ m.toList) (hq : q ∈ m.toList) (e : p.1 = q.1) : p = q := by
  have h1 := find?_key_of_mem hnd hp
  have h2 := find?_key_of_mem hnd hq
  rw [e, h2] at h1
  exact (Option.some.inj h1).symm

theorem equalLoop_eq [DecidableEq T] {hash : Key → Nat} {b : HashMap Key T}
    (hG : Good hash b) (l : List (Key × T)) :
    equalLoop hash b l = some (l.all (fun p => decide (p ∈ b.toList))) := by
  induction l with
  | nil => rfl
  | cons p ps ih =>
    obtain ⟨it, hF⟩ := Find_defined hG.inv hG.clean p.1
    unfold equalLoop
    rcases Find_sound hG.inv hF with ⟨hit, hk⟩ | ⟨a, v, hit, hmem⟩
    · have hp : p ∉ b.toList := fun h => hk (List.mem_map.mpr ⟨p, h, rfl⟩)
      simp [hF, hit, end_, DoublyLinkedList.end_, hp]
    · obtain ⟨rest, hr⟩ := suffixFrom_of_mem hG.inv.addrs_nodup hmem
      simp only at hr
      have hq : (p.1, v) ∈ b.toList := List.mem_map.mpr ⟨_, hmem, rfl⟩
      by_cases hv : v = p.2
      · have hp : p ∈ b.toList := by
          have : (p.1, v) = p := by rw [hv]
          rw [← this]; exact hq
        simp [hF, hit, end_, DoublyLinkedList.end_, deref, walkFrom, hr, hv, hp, ih]
      · have hp : p ∉ b.toList := by
          intro h
          have := mem_toList_of_key hG.inv.keys_nodup hq h rfl
          exact hv (by rw [← this])
        simp [hF, hit, end_, DoublyLinkedList.end_, deref, walkFrom, hr, hv, hp]

theorem equal_eq [DecidableEq T] {hash : Key → Nat} {a b : HashMap Key T}
    (hb : Good hash b) :
    a.equal hash b =
      some (decide (a.Size = b.Size) && a.toList.all (fun p => decide (p ∈ b.toList))) := by
  unfold equal
  by_cases hs : a.Size = b.Size
  · simp [hs, equalLoop_eq hb]
  · simp [hs]

theorem same_elements_iff [DecidableEq T] {hash : Key → Nat} {a b : HashMap Key T}
    (ha : Good hash a) (hb : Good hash b) :
    (decide (a.Size = b.Size) && a.toList.all (fun p => decide (p ∈ b.toList))) = true ↔
      ∀ p, p ∈ a.toList ↔ p ∈ b.toList := by
  have hla : a.toList.length = a.Size := by simp [toList, Size, DoublyLinkedList.Size]
  have hlb : b.toList.length = b.Size := by simp [toList, Size, DoublyLinkedList.Size]
  have hna : a.toList.Nodup := List.Nodup.of_map Prod.fst ha.inv.keys_nodup
  have hnb : b.toList.Nodup := List.Nodup.of_map Prod.fst hb.inv.keys_nodup
  simp only [Bool.and_eq_true, decide_eq_true_eq, List.all_eq_true]
  constructor
  · rintro ⟨hs, hsub⟩
    have hperm : a.toList.Perm b.toList :=
      (hna.subperm (fun p hp => hsub p hp)).perm_of_length_le (by rw [hla, hlb, hs])
    exact fun p => hperm.mem_iff
  · intro h
    have hperm : a.toList.Perm b.toList := (List.perm_ext_iff_of_nodup hna hnb).mpr h
    refine ⟨?_, fun p hp => (h p).mp hp⟩
    rw [← hla, ← hlb]
    exact hperm.length_eq

/-- C8: for all tables `a` and `b` built by `Insert` calls (in any order, with
any maximum load factors and bucket counts set through `MaxLoadFactor`,
`Rehash` and `Reserve`, for any hash function), `a == b` is defined and holds
if and only if `a` and `b` store the same set of key/value pairs (for a
`HashSet`, `T = Unit`: the same set of keys); `a == b` and `b == a` agree, and
`a != b` is the negation of `a == b`. -/
theorem equal_iff_same_elements [DecidableEq T] (hash : Key → Nat) {a b : HashMap Key T}
    (ha : Built hash a) (hb : Built hash b) :
    (∃ c, a.equal hash b = some c) ∧
      (a.equal hash b = some true ↔ ∀ p, p ∈ a.toList ↔ p ∈ b.toList) ∧
      a.equal hash b = b.equal hash a ∧
      a.notEqual hash b = (a.equal hash b).map (fun c => !c) := by
  have hGa := built_good ha
  have hGb := built_good hb
  refine ⟨⟨_, equal_eq hGb⟩, ?_, ?_, rfl⟩
  · rw [equal_eq hGb, Option.some.injEq]
    exact same_elements_iff hGa hGb
  · rw [equal_eq hGb, equal_eq hGa, Option.some.injEq, Bool.eq_iff_iff,
      same_elements_iff hGa hGb, same_elements_iff hGb hGa]
    exact ⟨fun h p => (h p).symm, fun h p => (h p).symm⟩

/-- Witness of C8 on the tables built by `Insert({1,1}); Insert({2,4});` and by
`Insert({2,4}); Insert({1,1});`. -/
theorem equal_iff_same_elements_witness :
    Built id tableA ∧ Built id tableB ∧
      (∃ c, tableA.equal id tableB = some c) ∧
      (tableA.equal id tableB = some true ↔ ∀ p, p ∈ tableA.toList ↔ p ∈ tableB.toList) ∧
      tableA.equal id tableB = tableB.equal id tableA ∧
      tableA.notEqual id tableB = (tableA.equal id tableB).map (fun c => !c) :=
  ⟨built_runInserts [InsertCall.value (1, 1), InsertCall.value (2, 4)] Built.default (by rfl),
    built_runInserts [InsertCall.value (2, 4), InsertCall.value (1, 1)] Built.default (by rfl),
    equal_iff_same_elements id
      (built_runInserts [InsertCall.value (1, 1), InsertCall.value (2, 4)] Built.default
        (by rfl) : Built id tableA)
      (built_runInserts [InsertCall.value (2, 4), InsertCall.value (1, 1)] Built.default
        (by rfl) : Built id tableB)⟩

theorem size_pos_of_toList_ne_nil {m : HashMap Key T} (h : m.toList ≠ []) : 0 < m.Size := by
  have : m.toList.length = m.Size := by simp [toList, Size, DoublyLinkedList.Size]
  rw [← this]
  exact List.length_pos.mpr h

theorem insert_into_cleared {hash : Key → Nat} {m : HashMap Key T} (hG : Good hash m)
    (hnil : m.toList = []) (e : Key × T) :
    ∃ m1 it, m.Insert hash e = some (m1, it, true) ∧ m1.Size = 1 ∧
      m1.Contains hash e.1 = some true := by
  obtain ⟨m1, it, hG1, _, h | h⟩ := Insert_spec hG e
  · have := h.1
    simp [keys, hnil] at this
  · obtain ⟨_, hIns, hp⟩ := h
    rw [hnil] at hp
    refine ⟨m1, it, hIns, ?_, ?_⟩
    · have := hp.length_eq
      simpa [toList, Size, DoublyLinkedList.Size] using this
    · rw [Contains_eq hG1 e.1]
      have : e.1 ∈ m1.keys := (hp.map Prod.fst).symm.subset (by simp)
      simp [this]

/-- C10: for all tables `x` and `y` and every element `e`: after
move-constructing a table from `x`, and after move-assigning `x` to `y`, the
new table (the assigned `y`) stores exactly the elements `x` stored, in the
same order; the moved-from `x` has `Size() == 0` and `MaxLoadFactor() == 1.0`,
and a following `Insert(e)` on it returns `inserted == true` and leaves it
with `Size() == 1` and `Contains(key of e)`. -/
theorem move_leaves_source_usable (hash : Key → Nat) (x y : HashMap Key T) (e : Key × T) :
    ((moveConstruct x).1.toList = x.toList ∧ (moveConstruct x).2.Size = 0 ∧
      (moveConstruct x).2.MaxLoadFactor = Fraction.one ∧
      ∃ x1 it, (moveConstruct x).2.Insert hash e = some (x1, it, true) ∧ x1.Size = 1 ∧
        x1.Contains hash e.1 = some true) ∧
    ((moveAssign y x).1.toList = x.toList ∧ (moveAssign y x).2.Size = 0 ∧
      (moveAssign y x).2.MaxLoadFactor = Fraction.one ∧
      ∃ x1 it, (moveAssign y x).2.Insert hash e = some (x1, it, true) ∧ x1.Size = 1 ∧
        x1.Contains hash e.1 = some true) := by
  refine ⟨⟨rfl, rfl, rfl, ?_⟩, ⟨rfl, rfl, rfl, ?_⟩⟩
  · exact insert_into_cleared (Good_default hash) rfl e
  · have hG : Good hash (moveAssign y x).2 :=
      Clear_good hash (m := { y with max_load_factor_ := Fraction.one }) Nat.one_pos
    exact insert_into_cleared hG rfl e

end HashMap

/-! ## The list: erasing a node, and the distance loop -/

namespace DoublyLinkedList

variable {T : Type}

theorem suffixFrom_split {a : Nat} {v : T} {pre post : List (Nat × T)}
    (h : a ∉ addrs pre) : suffixFrom a (pre ++ (a, v) :: post) = some ((a, v) :: post) := by
  rw [suffixFrom_append_of_not_mem _ h]
  simp [suffixFrom]

theorem unlink_split {a : Nat} {v : T} {pre post : List (Nat × T)}
    (h : a ∉ addrs pre) : unlink a (pre ++ (a, v) :: post) = some (pre ++ post) := by
  induction pre with
  | nil => simp [unlink]
  | cons n ns ih =>
    simp only [addrs, List.map_cons, List.mem_cons, not_or] at h
    have hne : ¬ n.1 = a := fun e => h.1 e.symm
    have ih1 := ih h.2
    simp only [List.cons_append, unlink, hne, if_false]
    show Option.map (fun r => n :: r) (unlink a (ns ++ (a, v) :: post)) = _
    rw [ih1]
    rfl

theorem not_mem_addrs_pre {a : Nat} {v : T} {pre post : List (Nat × T)}
    (hnd : (addrs (pre ++ (a, v) :: post)).Nodup) : a ∉ addrs pre := by
  simp only [addrs, List.map_append, List.map_cons] at hnd
  intro h
  exact (List.nodup_append.mp hnd).2.2 h (List.mem_cons_self _ _)

theorem next_split {l : DoublyLinkedList T} {a : Nat} {v : T} {post : List (Nat × T)}
    (hs : suffixFrom a l.nodes = some ((a, v) :: post)) :
    l.next (Iterator.node a) = some (first post) := by
  cases post with
  | nil => simp [next, hs, first]
  | cons n2 rest => simp [next, hs, first]

theorem unlink_length {a : Nat} {l r : List (Nat × T)} (h : unlink a l = some r) :
    r.length + 1 = l.length := by
  obtain ⟨n, _, hp⟩ := unlink_perm h
  simpa using hp.length_eq.symm

theorem Erase_size {l : DoublyLinkedList T} {it : Iterator} {v : T}
    (hd : l.deref it = some v) {r : DoublyLinkedList T × Iterator}
    (h : l.Erase it = some r) : r.1.Size + 1 = l.Size := by
  cases it with
  | head => simp [deref, walkFrom] at hd
  | node a =>
    simp only [DoublyLinkedList.Erase] at h
    cases hn : l.next (Iterator.node a) with
    | none => simp [hn] at h
    | some nx =>
      cases hu : unlink a l.nodes with
      | none => simp [hn, hu] at h
      | some ns =>
        simp only [hn, hu, Option.some.injEq] at h
        subst h
        exact unlink_length hu

/-- A result of the distance loop does not depend on the fuel it was given:
more fuel gives the same result. -/
theorem distanceLoop_mono (l : DoublyLinkedList T) (last : Iterator) :
    ∀ (fuel : Nat) (it : Iterator) (n r : Nat), distanceLoop l last fuel it n = some r →
      ∀ k, distanceLoop l last (fuel + k) it n = some r := by
  intro fuel
  induction fuel with
  | zero => intro it n r h; simp [distanceLoop] at h
  | succ f ih =>
    intro it n r h k
    rw [Nat.add_right_comm]
    simp only [distanceLoop] at h ⊢
    by_cases he : it = last
    · rw [if_pos he] at h ⊢; exact h
    · rw [if_neg he] at h ⊢
      cases hn : l.next it with
      | none => simp [hn] at h
      | some nx =>
        simp only [hn] at h ⊢
        exact ih nx (n + 1) r h k

end DoublyLinkedList

/-! ## The hash table: erasing at a position, swapping -/

namespace HashMap

open DoublyLinkedList

variable {Key T : Type} [DecidableEq Key]

/-- `Erase(position)` at the node of a stored element of a good state: it is
defined, unlinks exactly that node and returns the iterator to the node that
followed. -/
theorem ErasePosition_eq {hash : Key → Nat} {m : HashMap Key T} (hG : Good hash m)
    {pre post : List (Nat × (Key × T))} {a : Nat} {e : Key × T}
    (hp : m.elements_.nodes = pre ++ (a, e) :: post) :
    ∃ m1, m.ErasePosition hash (Iterator.node a) = some (m1, first post) ∧
      m1.elements_.nodes = pre ++ post ∧ m1.buckets_.length = m.buckets_.length ∧
      m1.max_load_factor_ = m.max_load_factor_ := by
  have hI := hG.inv
  have hmem : (a, (e.1, e.2)) ∈ m.elements_.nodes := by rw [hp]; simp
  have hpre : a ∉ addrs pre := not_mem_addrs_pre (hp ▸ hI.addrs_nodup)
  have hsuf : suffixFrom a m.elements_.nodes = some ((a, e) :: post) := by
    rw [hp]; exact suffixFrom_split hpre
  have hderef : m.elements_.deref (Iterator.node a) = some e := by
    simp [deref, walkFrom, hsuf]
  have hpos : 0 < m.buckets_.length := hI.buckets_pos (List.ne_nil_of_mem hmem)
  have hB : m.Bucket hash e.1 = some (hash e.1 % m.buckets_.length) := by
    simp [Bucket, BucketCount, Nat.pos_iff_ne_zero.mp hpos]
  have hlt : hash e.1 % m.buckets_.length < m.buckets_.length := Nat.mod_lt _ hpos
  obtain ⟨bucket, hg⟩ : ∃ bucket, m.buckets_[hash e.1 % m.buckets_.length]? = some bucket :=
    ⟨m.buckets_[hash e.1 % m.buckets_.length], List.getElem?_eq_getElem hlt⟩
  obtain ⟨h2, _⟩ := hI.covers _ _ hg
  obtain ⟨it, hF⟩ := Find_defined hI hG.clean e.1
  have hit : it = Iterator.node a := by
    rcases Find_sound hI hF with ⟨_, hk⟩ | ⟨a1, v1, hit, hmem1⟩
    · exact absurd (mem_keys.mpr ⟨_, hmem, rfl⟩) hk
    · have := node_eq_of_key_eq hI.keys_nodup hmem1 hmem rfl
      simp only [Prod.mk.injEq] at this
      rw [hit, this.1]
  subst hit
  have hnext : m.elements_.next (Iterator.node a) = some (first post) := next_split hsuf
  have hun : unlink a m.elements_.nodes = some (pre ++ post) := by
    rw [hp]; exact unlink_split hpre
  have hErase : m.elements_.Erase (Iterator.node a)
      = some (⟨pre ++ post, m.elements_.brk⟩, first post) := by
    simp [DoublyLinkedList.Erase, hnext, hun]
  unfold ErasePosition
  simp only [hderef, hF, hB, hg]
  by_cases hf : bucket.1 = Iterator.node a
  · simp only [hf, if_true, hnext, Option.map_some', hErase]
    exact ⟨_, rfl, rfl, by simp, rfl⟩
  · have hne2 : ¬ bucket.2 = Iterator.node a := by rw [h2]; exact fun e => by cases e
    simp only [hf, hne2, if_false, hErase]
    exact ⟨_, rfl, rfl, by simp, rfl⟩

/-- What `Erase(position)` does to the list, whatever the bucket entries are:
where it returns, one linked node has been erased from `elements_`. -/
theorem ErasePosition_elements {hash : Key → Nat} {m : HashMap Key T} {p : Iterator}
    {r : HashMap Key T × Iterator} (h : m.ErasePosition hash p = some r) :
    ∃ it v, m.elements_.deref it = some v ∧
      m.elements_.Erase it = some (r.1.elements_, r.2) := by
  unfold ErasePosition at h
  cases h1 : m.elements_.deref p with
  | none => simp [h1] at h
  | some pv =>
    cases h2 : m.Find hash pv.1 with
    | none => simp [h1, h2] at h
    | some it =>
      cases h3 : m.elements_.deref it with
      | none => simp [h1, h2, h3] at h
      | some iv =>
        cases h4 : m.Bucket hash iv.1 with
        | none => simp [h1, h2, h3, h4] at h
        | some b =>
          cases h5 : m.buckets_[b]? with
          | none => simp [h1, h2, h3, h4, h5] at h
          | some bucket =>
            cases h6 : m.elements_.Erase it with
            | none =>
              simp only [h1, h2, h3, h4, h5, h6] at h
              split at h <;> simp at h
            | some e =>
              simp only [h1, h2, h3, h4, h5, h6] at h
              refine ⟨it, iv, h3, ?_⟩
              split at h
              · simp at h
              · simp only [Option.some.injEq] at h
                rw [← h]
                exact h6

theorem ErasePosition_size {hash : Key → Nat} {m : HashMap Key T} {p : Iterator}
    {r : HashMap Key T × Iterator} (h : m.ErasePosition hash p = some r) :
    r.1.Size + 1 = m.Size := by
  obtain ⟨it, v, hd, hE⟩ := ErasePosition_elements h
  exact Erase_size hd hE

/-- The fuel `Size() + 1` of the loop of the range `Erase` is never used up:
every iteration that returns removes one element, so any larger fuel gives
the same result. -/
theorem eraseLoop_fuel (hash : Key → Nat) (last_it : Iterator) :
    ∀ (fuel : Nat) (m : HashMap Key T) (it : Iterator), m.Size < fuel →
      ∀ fuel1, m.Size < fuel1 →
        eraseLoop hash last_it fuel1 m it = eraseLoop hash last_it fuel m it := by
  intro fuel
  induction fuel with
  | zero => intro m it h; exact absurd h (Nat.not_lt_zero _)
  | succ n ih =>
    intro m it h fuel1 h1
    cases fuel1 with
    | zero => exact absurd h1 (Nat.not_lt_zero _)
    | succ n1 =>
      simp only [eraseLoop]
      cases hE : m.ErasePosition hash it with
      | none => rfl
      | some r =>
        have hs := ErasePosition_size hE
        simp only
        by_cases hl : r.2 ≠ last_it
        · rw [if_pos hl, if_pos hl]
          exact ih r.1 r.2 (by omega) n1 (by omega)
        · rw [if_neg hl, if_neg hl]

theorem Find_setMaxLoadFactor (hash : Key → Nat) (m : HashMap Key T) (f : Fraction) (k : Key) :
    (m.setMaxLoadFactor f).Find hash k = m.Find hash k := rfl

theorem ErasePosition_setMaxLoadFactor (hash : Key → Nat) (m : HashMap Key T) (f : Fraction)
    (p : Iterator) :
    (m.setMaxLoadFactor f).ErasePosition hash p
      = (m.ErasePosition hash p).map (fun r => (r.1.setMaxLoadFactor f, r.2)) := by
  unfold ErasePosition
  simp only [Find_setMaxLoadFactor]
  simp only [setMaxLoadFactor, Bucket, BucketCount, end_]
  repeat' split
  all_goals simp_all

theorem Erase_setMaxLoadFactor (hash : Key → Nat) (m : HashMap Key T) (f : Fraction)
    (k : Key) :
    (m.setMaxLoadFactor f).Erase hash k
      = (m.Erase hash k).map (fun r => (r.1.setMaxLoadFactor f, r.2)) := by
  unfold Erase
  simp only [Find_setMaxLoadFactor, ErasePosition_setMaxLoadFactor]
  cases m.Find hash k with
  | none => rfl
  | some it =>
    simp only
    by_cases h : it = m.end_
    · have h1 : it = (m.setMaxLoadFactor f).end_ := h
      rw [if_pos h, if_pos h1]; rfl
    · have h1 : ¬ it = (m.setMaxLoadFactor f).end_ := h
      rw [if_neg h, if_neg h1]
      cases m.ErasePosition hash it with
      | none => rfl
      | some r => rfl

/-- `InsertOrAssign` on a good state: for a stored key it is defined, returns
the iterator to the element with `false` and replaces the mapped value in its
node, every other node and the bucket array staying as they are; for a key
that is not stored it is `Insert({key, value})`. -/
theorem InsertOrAssign_spec {hash : Key → Nat} {m : HashMap Key T} (hG : Good hash m)
    (key : Key) (value : T) :
    (∀ a v, (a, (key, v)) ∈ m.elements_.nodes →
      m.InsertOrAssign hash key value
        = some ({ m with elements_ :=
            ⟨m.elements_.nodes.map (fun n => if n.1 = a then (n.1, (n.2.1, value)) else n),
              m.elements_.brk⟩ }, Iterator.node a, false)) ∧
    (key ∉ m.keys → m.InsertOrAssign hash key value = m.Insert hash (key, value)) := by
  obtain ⟨it, hF⟩ := Find_defined hG.inv hG.clean key
  constructor
  · intro a v hmem
    have hit : it = Iterator.node a := by
      rcases Find_sound hG.inv hF with ⟨_, hk⟩ | ⟨a1, v1, hit, hmem1⟩
      · exact absurd (mem_keys.mpr ⟨_, hmem, rfl⟩) hk
      · have := node_eq_of_key_eq hG.inv.keys_nodup hmem1 hmem rfl
        simp only [Prod.mk.injEq] at this
        rw [hit, this.1]
    subst hit
    have ha : a ∈ m.elements_.nodes.map Prod.fst := List.mem_map.mpr ⟨_, hmem, rfl⟩
    have hne : Iterator.node a ≠ m.end_ := fun e => by cases e
    simp only [InsertOrAssign, hF, hne, ne_eq, not_false_eq_true, if_true,
      DoublyLinkedList.assign, ha]
  · intro hk
    have hit : it = m.end_ := by
      rcases Find_sound hG.inv hF with ⟨hit, _⟩ | ⟨a1, v1, _, hmem1⟩
      · exact hit
      · exact absurd (mem_keys.mpr ⟨_, hmem1, rfl⟩) hk
    subst hit
    simp only [InsertOrAssign, Insert, hF, ne_eq, not_true_eq_false, if_false]

/-! ## The hash table: bucket entries of tables built without erasing -/

theorem InsertUnchecked_owned {hash : Key → Nat} {m m1 : HashMap Key T} {it : Iterator}
    (hO : Owned hash m) {value : Key × T}
    (hres : m.InsertUnchecked hash value = some (m1, it)) : Owned hash m1 := by
  unfold InsertUnchecked at hres
  cases hB : m.Bucket hash value.1 with
  | none => simp [hB] at hres
  | some b =>
    have hpos : 0 < m.buckets_.length := by
      unfold Bucket at hB
      split at hB
      · cases hB
      · next h0 => exact Nat.pos_of_ne_zero h0
    have hb : b = hash value.1 % m.buckets_.length := by
      simp [Bucket, BucketCount, Nat.pos_iff_ne_zero.mp hpos] at hB
      exact hB.symm
    subst hb
    have hlt : hash value.1 % m.buckets_.length < m.buckets_.length := Nat.mod_lt _ hpos
    simp only [hB] at hres
    cases hg : m.buckets_[hash value.1 % m.buckets_.length]? with
    | none => simp [hg] at hres
    | some bucket =>
      simp only [hg] at hres
      have h2 := hO.second_end _ _ hg
      cases hIns0 : m.elements_.Insert bucket.1 value with
      | none => simp [hIns0] at hres
      | some r0 =>
        obtain ⟨s, hs⟩ := Insert_walkFrom hIns0
        obtain ⟨ns, hIns, hperm, hnew, _⟩ :=
          DoublyLinkedList.Insert_link m.elements_ bucket.1 value hO.addrs_lt hs
        have hm1 : m1 = { m with
            elements_ := ⟨ns, m.elements_.brk + 1⟩
            buckets_ := m.buckets_.set (hash value.1 % m.buckets_.length)
              (Iterator.node m.elements_.brk, Iterator.head) } := by
          simp only [hIns] at hres
          by_cases h12 : bucket.1 = bucket.2
          · rw [if_pos h12] at hres
            have hs0 : s = [] := by
              rw [h12, h2] at hs
              simpa [walkFrom] using hs.symm
            subst hs0
            simp only [DoublyLinkedList.next, hnew, Option.some.injEq, Prod.mk.injEq] at hres
            exact hres.1.symm
          · rw [if_neg h12, h2] at hres
            simp only [Option.some.injEq, Prod.mk.injEq] at hres
            exact hres.1.symm
        subst hm1
        have hmem : ∀ n, n ∈ ns ↔ n = (m.elements_.brk, value) ∨ n ∈ m.elements_.nodes := by
          intro n; rw [hperm.mem_iff]; simp
        refine ⟨?_, ?_, ?_⟩
        · intro b1 bucket1 hg1
          have hg1a : (m.buckets_.set (hash value.1 % m.buckets_.length)
              (Iterator.node m.elements_.brk, Iterator.head))[b1]? = some bucket1 := hg1
          by_cases hb : hash value.1 % m.buckets_.length = b1
          · subst hb
            rw [List.getElem?_set_self hlt] at hg1a
            cases hg1a
            rfl
          · rw [List.getElem?_set_ne hb] at hg1a
            exact hO.second_end _ _ hg1a
        · intro n hn
          show n.1 < m.elements_.brk + 1
          rcases (hmem n).mp hn with h | h
          · subst h; exact Nat.lt_succ_self _
          · exact Nat.lt_succ_of_lt (hO.addrs_lt n h)
        · intro b1 bucket1 hg1 a ha
          have hg1a : (m.buckets_.set (hash value.1 % m.buckets_.length)
              (Iterator.node m.elements_.brk, Iterator.head))[b1]? = some bucket1 := hg1
          show ∃ n ∈ ns, n.1 = a ∧ hash n.2.1 % (m.buckets_.set _ _).length = b1
          rw [List.length_set]
          by_cases hb : hash value.1 % m.buckets_.length = b1
          · subst hb
            rw [List.getElem?_set_self hlt] at hg1a
            cases hg1a
            cases ha
            exact ⟨_, (hmem _).mpr (Or.inl rfl), rfl, rfl⟩
          · rw [List.getElem?_set_ne hb] at hg1a
            obtain ⟨n, hn, e1, e2⟩ := hO.own _ _ hg1a a ha
            exact ⟨n, (hmem n).mpr (Or.inr hn), e1, e2⟩

theorem insertAllUnchecked_owned {hash : Key → Nat} (vs : List (Key × T)) :
    ∀ {m m1 : HashMap Key T}, Owned hash m → insertAllUnchecked hash m vs = some m1 →
      Owned hash m1 := by
  induction vs with
  | nil =>
    intro m m1 hO h
    simp only [insertAllUnchecked, Option.some.injEq] at h
    exact h ▸ hO
  | cons v vs ih =>
    intro m m1 hO h
    simp only [insertAllUnchecked] at h
    cases hi : m.InsertUnchecked hash v with
    | none => simp [hi] at h
    | some r =>
      obtain ⟨m2, it⟩ := r
      simp only [hi] at h
      exact ih (InsertUnchecked_owned hO hi) h

theorem Rehash_owned {hash : Key → Nat} {m m1 : HashMap Key T} {count : Nat}
    (h : m.Rehash hash count = some m1) : Owned hash m1 := by
  unfold Rehash at h
  cases hc : ceilDiv m.Size m.max_load_factor_ with
  | none => simp [hc] at h
  | some n =>
    simp only [hc] at h
    refine insertAllUnchecked_owned _ ?_ h
    refine ⟨?_, ?_, ?_⟩
    · intro b bucket hg
      have hg1 : (List.replicate (max n count)
          ((Iterator.head, Iterator.head) : Iterator × Iterator))[b]? = some bucket := hg
      rw [List.getElem?_replicate] at hg1
      split at hg1
      · cases hg1; rfl
      · cases hg1
    · intro n hn; cases hn
    · intro b bucket hg a ha
      have hg1 : (List.replicate (max n count)
          ((Iterator.head, Iterator.head) : Iterator × Iterator))[b]? = some bucket := hg
      rw [List.getElem?_replicate] at hg1
      split at hg1
      · cases hg1; cases ha
      · cases hg1

theorem CheckRehash_owned {hash : Key → Nat} {m m1 : HashMap Key T} (hO : Owned hash m)
    {additional : Nat} (h : m.CheckRehash hash additional = some m1) : Owned hash m1 := by
  unfold CheckRehash at h
  simp only at h
  split at h
  · exact Rehash_owned h
  · simp only [Option.some.injEq] at h
    exact h ▸ hO

theorem Insert_owned {hash : Key → Nat} {m : HashMap Key T} (hO : Owned hash m)
    {value : Key × T} {r : HashMap Key T × Iterator × Bool}
    (h : m.Insert hash value = some r) : Owned hash r.1 := by
  unfold Insert at h
  cases hF : m.Find hash value.1 with
  | none => simp [hF] at h
  | some it =>
    simp only [hF] at h
    split at h
    · simp only [Option.some.injEq] at h
      rw [← h]; exact hO
    · cases hc : m.CheckRehash hash 1 with
      | none => simp [hc] at h
      | some m1 =>
        simp only [hc] at h
        cases hi : m1.InsertUnchecked hash value with
        | none => simp [hi] at h
        | some r1 =>
          obtain ⟨m2, it2⟩ := r1
          simp only [hi, Option.some.injEq] at h
          rw [← h]
          exact InsertUnchecked_owned (CheckRehash_owned hO hc) hi

theorem insertAllChecked_owned {hash : Key → Nat} (l : List (Key × T)) :
    ∀ {m m2 : HashMap Key T}, Owned hash m → insertAllChecked hash m l = some m2 →
      Owned hash m2 := by
  induction l with
  | nil =>
    intro m m2 hO h
    simp only [insertAllChecked, Option.some.injEq] at h
    exact h ▸ hO
  | cons v vs ih =>
    intro m m2 hO h
    simp only [insertAllChecked] at h
    cases hc : m.Contains hash v.1 with
    | none => simp [hc] at h
    | some c =>
      cases c with
      | true =>
        simp only [hc] at h
        exact ih hO h
      | false =>
        simp only [hc] at h
        cases hi : m.InsertUnchecked hash v with
        | none => simp [hi] at h
        | some r =>
          obtain ⟨m1, it⟩ := r
          simp only [hi] at h
          exact ih (InsertUnchecked_owned hO hi) h

theorem InsertRange_owned {hash : Key → Nat} {m m2 : HashMap Key T} (hO : Owned hash m)
    {l : List (Key × T)} (h : m.InsertRange hash l = some m2) : Owned hash m2 := by
  unfold InsertRange at h
  split at h
  · simp only [Option.some.injEq] at h
    exact h ▸ hO
  · cases hc : m.CheckRehash hash l.length with
    | none => simp [hc] at h
    | some m1 =>
      simp only [hc] at h
      exact insertAllChecked_owned l (CheckRehash_owned hO hc) h

theorem Reserve_owned {hash : Key → Nat} {m m1 : HashMap Key T} {count : Nat}
    (h : m.Reserve hash count = some m1) : Owned hash m1 := by
  unfold Reserve at h
  cases hc : ceilDiv count m.max_load_factor_ with
  | none => simp [hc] at h
  | some n =>
    simp only [hc] at h
    exact Rehash_owned h

/-- In a table built without erasing, the entry of every bucket that is not
empty points to an element of that bucket. -/
theorem built_owned {hash : Key → Nat} {m : HashMap Key T} (h : Built hash m) :
    Owned hash m := by
  induction h with
  | default =>
    refine ⟨?_, ?_, ?_⟩
    · intro b bucket hg; cases hg
    · intro n hn; cases hn
    · intro b bucket hg; cases hg
  | maxLoadFactor f _ _ ih => exact ⟨ih.second_end, ih.addrs_lt, ih.own⟩
  | insert v _ hr ih => exact Insert_owned ih hr
  | insertRange vs _ hr ih => exact InsertRange_owned ih hr
  | rehash n _ hr _ => exact Rehash_owned hr
  | reserve n _ hr _ => exact Reserve_owned hr

/-- The bucket entries after `Erase(position)` at the node of a stored
element of a good state: an entry is the one it was, except that the entry of
the bucket of the erased element no longer points to the erased node (it
points to the node that followed, or is the empty entry). -/
theorem ErasePosition_entries {hash : Key → Nat} {m : HashMap Key T} (hG : Good hash m)
    {pre post : List (Nat × (Key × T))} {a : Nat} {e : Key × T}
    (hp : m.elements_.nodes = pre ++ (a, e) :: post)
    {r : HashMap Key T × Iterator} (h : m.ErasePosition hash (Iterator.node a) = some r) :
    ∀ (b1 : Nat) (bucket1 : Iterator × Iterator), r.1.buckets_[b1]? = some bucket1 →
      bucket1.1 = first post ∨ bucket1.1 = Iterator.head ∨
        (m.buckets_[b1]? = some bucket1 ∧
          (b1 = hash e.1 % m.buckets_.length → bucket1.1 ≠ Iterator.node a)) := by
  have hI := hG.inv
  have hmem : (a, (e.1, e.2)) ∈ m.elements_.nodes := by rw [hp]; simp
  have hpre : a ∉ addrs pre := not_mem_addrs_pre (hp ▸ hI.addrs_nodup)
  have hsuf : suffixFrom a m.elements_.nodes = some ((a, e) :: post) := by
    rw [hp]; exact suffixFrom_split hpre
  have hderef : m.elements_.deref (Iterator.node a) = some e := by
    simp [deref, walkFrom, hsuf]
  have hpos : 0 < m.buckets_.length := hI.buckets_pos (List.ne_nil_of_mem hmem)
  have hB : m.Bucket hash e.1 = some (hash e.1 % m.buckets_.length) := by
    simp [Bucket, BucketCount, Nat.pos_iff_ne_zero.mp hpos]
  have hlt : hash e.1 % m.buckets_.length < m.buckets_.length := Nat.mod_lt _ hpos
  obtain ⟨bucket, hg⟩ : ∃ bucket, m.buckets_[hash e.1 % m.buckets_.length]? = some bucket :=
    ⟨m.buckets_[hash e.1 % m.buckets_.length], List.getElem?_eq_getElem hlt⟩
  obtain ⟨h2, _⟩ := hI.covers _ _ hg
  obtain ⟨it, hF⟩ := Find_defined hI hG.clean e.1
  have hit : it = Iterator.node a := by
    rcases Find_sound hI hF with ⟨_, hk⟩ | ⟨a1, v1, hit, hmem1⟩
    · exact absurd (mem_keys.mpr ⟨_, hmem, rfl⟩) hk
    · have := node_eq_of_key_eq hI.keys_nodup hmem1 hmem rfl
      simp only [Prod.mk.injEq] at this
      rw [hit, this.1]
  subst hit
  have hnext : m.elements_.next (Iterator.node a) = some (first post) := next_split hsuf
  have hun : unlink a m.elements_.nodes = some (pre ++ post) := by
    rw [hp]; exact unlink_split hpre
  have hErase : m.elements_.Erase (Iterator.node a)
      = some (⟨pre ++ post, m.elements_.brk⟩, first post) := by
    simp [DoublyLinkedList.Erase, hnext, hun]
  unfold ErasePosition at h
  simp only [hderef, hF, hB, hg] at h
  intro b1 bucket1 hg1
  by_cases hf : bucket.1 = Iterator.node a
  · simp only [hf, if_true, hnext, Option.map_some', hErase, Option.some.injEq] at h
    rw [← h] at hg1
    have hg1a : (m.buckets_.set (hash e.1 % m.buckets_.length)
        (if first post = bucket.2 then (m.end_, m.end_) else (first post, bucket.2)))[b1]?
          = some bucket1 := hg1
    by_cases hb : hash e.1 % m.buckets_.length = b1
    · subst hb
      rw [List.getElem?_set_self hlt, Option.some.injEq] at hg1a
      by_cases hq : first post = bucket.2
      · rw [if_pos hq] at hg1a
        right; left
        rw [← hg1a]; rfl
      · rw [if_neg hq] at hg1a
        left
        rw [← hg1a]
    · rw [List.getElem?_set_ne hb] at hg1a
      right; right
      exact ⟨hg1a, fun e1 => absurd e1.symm hb⟩
  · have hne2 : ¬ bucket.2 = Iterator.node a := by rw [h2]; exact fun e => by cases e
    simp only [hf, hne2, if_false, hErase, Option.some.injEq] at h
    rw [← h] at hg1
    have hg1a : (m.buckets_.set (hash e.1 % m.buckets_.length)
        (if bucket.1 = bucket.2 then (m.end_, m.end_) else bucket))[b1]?
          = some bucket1 := hg1
    by_cases hb : hash e.1 % m.buckets_.length = b1
    · subst hb
      rw [List.getElem?_set_self hlt, Option.some.injEq] at hg1a
      by_cases hq : bucket.1 = bucket.2
      · rw [if_pos hq] at hg1a
        right; left
        rw [← hg1a]; rfl
      · rw [if_neg hq] at hg1a
        right; right
        rw [← hg1a]
        exact ⟨hg, fun _ => hf⟩
    · rw [List.getElem?_set_ne hb] at hg1a
      right; right
      exact ⟨hg1a, fun e1 => absurd e1.symm hb⟩

/-- After `Erase(position)` on a table built without erasing no bucket entry
dangles: the state is good again. -/
theorem ErasePosition_good {hash : Key → Nat} {m : HashMap Key T} (hG : Good hash m)
    (hO : Owned hash m) {pre post : List (Nat × (Key × T))} {a : Nat} {e : Key × T}
    (hp : m.elements_.nodes = pre ++ (a, e) :: post)
    {r : HashMap Key T × Iterator} (h : m.ErasePosition hash (Iterator.node a) = some r) :
    Good hash r.1 := by
  have hmem : (a, (e.1, e.2)) ∈ m.elements_.nodes := by rw [hp]; simp
  obtain ⟨hI1, _, _, _⟩ := ErasePosition_inv hG.inv hmem h
  obtain ⟨m1, h1, hn1, _, _⟩ := ErasePosition_eq hG hp
  have hr : r.1 = m1 := by
    rw [h1, Option.some.injEq] at h
    rw [← h]
  refine ⟨hI1, ?_⟩
  intro b1 bucket1 hg1 a1 ha1
  rw [hr, hn1]
  rcases ErasePosition_entries hG hp h b1 bucket1 hg1 with hc | hc | ⟨hold, hne⟩
  · rw [ha1] at hc
    cases post with
    | nil => simp [first] at hc
    | cons n2 rest =>
      simp only [first, Iterator.node.injEq] at hc
      simp [addrs, hc]
  · rw [ha1] at hc; cases hc
  · obtain ⟨n, hn, hna, hnb⟩ := hO.own _ _ hold a1 ha1
    have hne1 : a1 ≠ a := by
      intro e1
      subst e1
      have hnode := node_eq_of_addr_eq hG.inv.addrs_nodup hn hmem hna
      subst hnode
      exact hne hnb.symm (ha1)
    have : n ∈ pre ++ post := by
      rw [hp] at hn
      rcases List.mem_append.mp hn with h3 | h3
      · exact List.mem_append.mpr (Or.inl h3)
      · rcases List.mem_cons.mp h3 with h4 | h4
        · exact absurd (by rw [h4] at hna; exact hna.symm) hne1
        · exact List.mem_append.mpr (Or.inr h4)
    exact hna ▸ mem_addrs_of_mem this

/-- `Swap` of two good states gives two good states: after it every lookup,
`Insert` and `Erase(key)` on either table is defined. -/
theorem Swap_good {hash : Key → Nat} {a b : HashMap Key T} (ha : Good hash a)
    (hb : Good hash b) : Good hash (a.Swap b).1 ∧ Good hash (a.Swap b).2 :=
  ⟨⟨⟨hb.inv.addrs_nodup, hb.inv.addrs_lt, hb.inv.keys_nodup, hb.inv.buckets_pos,
      hb.inv.covers, hb.inv.buckets_lt, ha.inv.mlf_pos⟩, hb.clean⟩,
    ⟨⟨ha.inv.addrs_nodup, ha.inv.addrs_lt, ha.inv.keys_nodup, ha.inv.buckets_pos,
      ha.inv.covers, ha.inv.buckets_lt, hb.inv.mlf_pos⟩, ha.clean⟩⟩

/-! ## Claims on insertion over a stored key, erasure and lookup -/

/-- C11 (violated by the code): after `Insert({1,1}); Insert({2,4});
Insert({3,9}); Erase(1); Insert({6,36}); Insert({5,25}); Erase(6); Erase(5);`
with the identity hash the table stores the keys 2 and 3, key 2 falls in
bucket 2, and the entry of bucket 2 points to the deleted node of key 5.
`Insert({2,0})` of the stored key 2 starts its `Find(2)` at that deleted node
and has undefined behaviour, where it should return the existing element and
`false`. -/
theorem insert_stored_key_reads_deleted_node :
    runCalls id (default : HashMap Nat Nat)
        [Call.insert (1, 1), Call.insert (2, 4), Call.insert (3, 9), Call.erase 1,
          Call.insert (6, 36), Call.insert (5, 25), Call.erase 6, Call.erase 5]
        = some tableDangling ∧
      tableDangling.toList = [(2, 4), (3, 9)] ∧ tableDangling.Bucket id 2 = some 2 ∧
      tableDangling.beginBucket 2 = some (Iterator.node 4) ∧
      tableDangling.elements_.deref (Iterator.node 4) = none ∧
      tableDangling.Insert id (2, 0) = none :=
  ⟨rfl, rfl, rfl, rfl, rfl, rfl⟩

/-- C12 (violated by the code): in the table left by `Insert({1,1});
Insert({2,4}); Insert({3,9}); Erase(1); Insert({6,36}); Insert({5,25});
Erase(6); Erase(5);` with the identity hash, which stores the keys 2 and 3,
`Find(2)` reads the deleted node that the entry of bucket 2 points to, so
`InsertOrAssign(2, 0)` of the stored key 2 has undefined behaviour instead of
assigning the value, and so has `InsertOrAssign(6, 36)` of the key 6 that is
not stored. -/
theorem insert_or_assign_reads_deleted_node :
    runCalls id (default : HashMap Nat Nat)
        [Call.insert (1, 1), Call.insert (2, 4), Call.insert (3, 9), Call.erase 1,
          Call.insert (6, 36), Call.insert (5, 25), Call.erase 6, Call.erase 5]
        = some tableDangling ∧
      tableDangling.toList = [(2, 4), (3, 9)] ∧
      tableDangling.Find id 2 = none ∧
      tableDangling.InsertOrAssign id 2 0 = none ∧
      tableDangling.InsertOrAssign id 6 36 = none :=
  ⟨rfl, rfl, rfl, rfl, rfl⟩

/-- C13: for every table built by `Insert` calls (of any form, with any
maximum load factor and bucket count set through `MaxLoadFactor`, `Rehash`
and `Reserve`, for any hash function) and every position of a stored element,
given by the nodes `pre` before it, its node at address `a` with the element
`e`, and the nodes `post` after it: `Erase(position)` is defined and returns
the iterator to the first node of `post`, which is `std::next(position)` and
is `end()` when `post` is empty; afterwards the linked nodes are `pre` followed
by `post`, at their addresses, so the elements in iteration order are the
former ones without `e`, `Size()` is one less and `BucketCount()` is
unchanged; `At` returns every remaining element under its key, and the key
of `e` is no longer found. -/
theorem erase_position_removes_element (hash : Key → Nat) {m : HashMap Key T}
    (hB : Built hash m) (pre post : List (Nat × (Key × T))) (a : Nat) (e : Key × T)
    (hp : m.elements_.nodes = pre ++ (a, e) :: post) :
    ∃ m1, m.ErasePosition hash (Iterator.node a) = some (m1, first post) ∧
      m.elements_.next (Iterator.node a) = some (first post) ∧
      m1.elements_.nodes = pre ++ post ∧
      m.toList = pre.map Prod.snd ++ e :: post.map Prod.snd ∧
      m1.toList = pre.map Prod.snd ++ post.map Prod.snd ∧
      m1.Size + 1 = m.Size ∧ m1.BucketCount = m.BucketCount ∧
      (∀ p, p ∈ m1.toList → m1.At hash p.1 = some (Except.ok p)) ∧
      m1.At hash e.1 = some (Except.error ()) ∧ m1.Contains hash e.1 = some false := by
  have hG := built_good hB
  obtain ⟨m1, h1, hn1, hb1, _⟩ := ErasePosition_eq hG hp
  have hG1 : Good hash m1 := ErasePosition_good hG (built_owned hB) hp h1
  have hpre : a ∉ addrs pre := not_mem_addrs_pre (hp ▸ hG.inv.addrs_nodup)
  have hsuf : suffixFrom a m.elements_.nodes = some ((a, e) :: post) := by
    rw [hp]; exact suffixFrom_split hpre
  have ht : m.toList = pre.map Prod.snd ++ e :: post.map Prod.snd := by simp [toList, hp]
  have ht1 : m1.toList = pre.map Prod.snd ++ post.map Prod.snd := by simp [toList, hn1]
  have hk : e.1 ∉ m1.keys := by
    have hnd := hG.inv.keys_nodup
    simp only [keys, ht, ht1, List.map_append, List.map_cons] at hnd ⊢
    have h3 := List.nodup_append.mp hnd
    intro hmem
    rcases List.mem_append.mp hmem with h4 | h4
    · exact h3.2.2 h4 (List.mem_cons_self _ _)
    · exact (List.nodup_cons.mp h3.2.1).1 h4
  refine ⟨m1, h1, next_split hsuf, hn1, ht, ht1, ErasePosition_size h1, hb1, ?_, ?_, ?_⟩
  · intro p hp1
    rw [At_eq hG1 p.1, find?_key_of_mem hG1.inv.keys_nodup hp1]
    rfl
  · have hnone : m1.toList.find? (fun p => decide (p.1 = e.1)) = none := by
      rw [List.find?_eq_none]
      intro p hp1 hpk
      simp only [decide_eq_true_eq] at hpk
      exact hk (List.mem_map.mpr ⟨p, hp1, hpk⟩)
    rw [At_eq hG1 e.1, hnone]
    rfl
  · rw [Contains_eq hG1 e.1]
    simp [hk]

/-- Witness of C13 on the table built by `Insert({1,1}); Insert({2,4});
Insert({3,9});` and the position of the element with key 2. -/
theorem erase_position_removes_element_witness :
    Built id tableC ∧
      tableC.elements_.nodes = [(0, (1, 1))] ++ (1, (2, 4)) :: [(2, (3, 9))] ∧
      ∃ m1, tableC.ErasePosition id (Iterator.node 1)
          = some (m1, first [(2, ((3, 9) : Nat × Nat))]) ∧
        tableC.elements_.next (Iterator.node 1) = some (first [(2, ((3, 9) : Nat × Nat))]) ∧
        m1.elements_.nodes = [(0, (1, 1))] ++ [(2, (3, 9))] ∧
        tableC.toList
          = [(0, ((1, 1) : Nat × Nat))].map Prod.snd
            ++ (2, 4) :: [(2, ((3, 9) : Nat × Nat))].map Prod.snd ∧
        m1.toList
          = [(0, ((1, 1) : Nat × Nat))].map Prod.snd
            ++ [(2, ((3, 9) : Nat × Nat))].map Prod.snd ∧
        m1.Size + 1 = tableC.Size ∧ m1.BucketCount = tableC.BucketCount ∧
        (∀ p, p ∈ m1.toList → m1.At id p.1 = some (Except.ok p)) ∧
        m1.At id ((2, 4) : Nat × Nat).1 = some (Except.error ()) ∧
        m1.Contains id ((2, 4) : Nat × Nat).1 = some false :=
  ⟨built_runInserts
      [InsertCall.value (1, 1), InsertCall.value (2, 4), InsertCall.value (3, 9)]
      Built.default (by rfl),
    rfl,
    erase_position_removes_element id
      (built_runInserts
        [InsertCall.value (1, 1), InsertCall.value (2, 4), InsertCall.value (3, 9)]
        Built.default (by rfl) : Built id tableC)
      [(0, (1, 1))] [(2, (3, 9))] 1 (2, 4) rfl⟩

/-- C14 (violated by the code): in the table built by `Insert({1,1});
Insert({2,4}); Insert({3,9});` with the identity hash, `Erase(begin(), end())`
has undefined behaviour, because `Find(last->first)` reads the value of the
sentinel, which is never constructed; and `Erase(first, first)` at the
element with key 2 (a range of zero steps) runs the body of the `do`-`while`
loop, erases the elements from `first` on and then calls `Erase(end())`,
which is undefined as well. -/
theorem erase_range_reads_sentinel :
    insertEach id (default : HashMap Nat Nat) [(1, 1), (2, 4), (3, 9)] = some tableC ∧
      tableC.begin = Iterator.node 0 ∧ tableC.end_ = Iterator.head ∧
      tableC.elements_.deref tableC.end_ = none ∧
      tableC.EraseRange id tableC.begin tableC.end_ = none ∧
      tableC.elements_.deref (Iterator.node 1) = some (2, 4) ∧
      tableC.EraseRange id (Iterator.node 1) (Iterator.node 1) = none :=
  ⟨rfl, rfl, rfl, rfl, rfl, rfl, rfl⟩

/-- C15 (violated by the code): after `Insert({1,1}); Insert({2,4});
Insert({3,9}); Erase(1); Erase(2);` with the identity hash only key 3 is
stored, and `At(1)` reads the deleted node that the entry of bucket 1 points
to instead of throwing `std::out_of_range`; in the table left by
`Insert({1,1}); Insert({2,4}); Insert({3,9}); Erase(1); Insert({6,36});
Insert({5,25}); Erase(6); Erase(5);` the key 2 is stored with the value 4 and
`At(2)` reads a deleted node instead of returning the pair.  Both calls have
undefined behaviour. -/
theorem at_reads_deleted_node :
    (∃ m, runCalls id (default : HashMap Nat Nat)
        [Call.insert (1, 1), Call.insert (2, 4), Call.insert (3, 9), Call.erase 1,
          Call.erase 2] = some m ∧
      m.toList = [(3, 9)] ∧ m.At id 1 = none) ∧
    tableDangling.toList = [(2, 4), (3, 9)] ∧ tableDangling.At id 2 = none :=
  ⟨⟨_, rfl, rfl, rfl⟩, rfl, rfl⟩

/-! ## Claims on swapping and the bucket interface -/

/-- Counterexample to C17: `b` is the table after `MaxLoadFactor(2);
Insert({1,1});` (one bucket) and `a` is `HashMap()`.  After `a.Swap(b)` the
table `a` has the element and the bucket count `b` had, but it keeps its own
maximum load factor 1: `Insert({2,4})` on it rehashes to 2 buckets, whereas
`Insert({2,4})` on `b` before the swap kept the single bucket. -/
theorem swap_keeps_max_load_factor :
    ((default : HashMap Nat Nat).setMaxLoadFactor ⟨2, 1, Nat.one_pos⟩).Insert id (1, 1)
        = some (tableWide, Iterator.node 0, true) ∧
      ((default : HashMap Nat Nat).Swap tableWide).1.toList = tableWide.toList ∧
      ((default : HashMap Nat Nat).Swap tableWide).1.BucketCount = tableWide.BucketCount ∧
      (tableWide.Insert id (2, 4)).map (fun r => r.1.BucketCount) = some 1 ∧
      (((default : HashMap Nat Nat).Swap tableWide).1.Insert id (2, 4)).map
        (fun r => r.1.BucketCount) = some 2 :=
  ⟨rfl, rfl, rfl, rfl, rfl⟩

/-- C17 (amended): for all tables `a` and `b` and every hash function, after
`a.Swap(b)` the table `a` is the former `b` with the maximum load factor of
`a`, and `b` is the former `a` with the maximum load factor of `b`: elements,
iteration order and `BucketCount()` are exchanged, `MaxLoadFactor()` is not.
`Find` and `Erase(key)` do not read the maximum load factor, so on either
table they behave as on the table whose contents it received; `Insert`
behaves as on that table with the receiver's own maximum load factor. -/
theorem swap_exchanges_contents (hash : Key → Nat) (a b : HashMap Key T) :
    (a.Swap b).1 = b.setMaxLoadFactor a.MaxLoadFactor ∧
      (a.Swap b).2 = a.setMaxLoadFactor b.MaxLoadFactor ∧
      (a.Swap b).1.toList = b.toList ∧ (a.Swap b).1.BucketCount = b.BucketCount ∧
      (a.Swap b).2.toList = a.toList ∧ (a.Swap b).2.BucketCount = a.BucketCount ∧
      (a.Swap b).1.MaxLoadFactor = a.MaxLoadFactor ∧
      (a.Swap b).2.MaxLoadFactor = b.MaxLoadFactor ∧
      (∀ k, (a.Swap b).1.Find hash k = b.Find hash k ∧
        (a.Swap b).2.Find hash k = a.Find hash k) ∧
      (∀ k, (a.Swap b).1.Erase hash k
          = (b.Erase hash k).map (fun r => (r.1.setMaxLoadFactor a.MaxLoadFactor, r.2)) ∧
        (a.Swap b).2.Erase hash k
          = (a.Erase hash k).map (fun r => (r.1.setMaxLoadFactor b.MaxLoadFactor, r.2))) ∧
      (∀ e, (a.Swap b).1.Insert hash e = (b.setMaxLoadFactor a.MaxLoadFactor).Insert hash e ∧
        (a.Swap b).2.Insert hash e = (a.setMaxLoadFactor b.MaxLoadFactor).Insert hash e) :=
  ⟨rfl, rfl, rfl, rfl, rfl, rfl, rfl, rfl, fun _ => ⟨rfl, rfl⟩,
    fun k => ⟨Erase_setMaxLoadFactor hash b a.MaxLoadFactor k,
      Erase_setMaxLoadFactor hash a b.MaxLoadFactor k⟩,
    fun _ => ⟨rfl, rfl⟩⟩

/-- C18 (violated by the code): in the table with two buckets built by
`Insert({1,1}); Insert({2,4});` with the identity hash, one stored element
(key 1) falls in bucket 1 but `BucketSize(1)` is 2; in the table with four
buckets built by `Insert({1,1}); Insert({2,4}); Insert({3,9});` one stored
element falls in bucket 1 but `BucketSize(1)` is 3. -/
theorem bucket_size_counts_other_buckets :
    insertEach id (default : HashMap Nat Nat) [(1, 1), (2, 4)] = some tableA ∧
      tableA.BucketCount = 2 ∧
      tableA.toList.filter (fun e => decide (tableA.Bucket id e.1 = some 1)) = [(1, 1)] ∧
      tableA.BucketSize 1 = some 2 ∧
    insertEach id (default : HashMap Nat Nat) [(1, 1), (2, 4), (3, 9)] = some tableC ∧
      tableC.BucketCount = 4 ∧
      tableC.toList.filter (fun e => decide (tableC.Bucket id e.1 = some 1)) = [(1, 1)] ∧
      tableC.BucketSize 1 = some 3 :=
  ⟨rfl, rfl, rfl, rfl, rfl, rfl, rfl, rfl⟩

/-- C19 (violated by the code): in the table built by `Insert({1,1});
Insert({2,4}); Insert({3,9});` with the identity hash, `Size()` is 3 and
`BucketCount()` is 4, and `LoadFactor()` is 0, the integer quotient, not the
ratio 3/4. -/
theorem load_factor_integer_division :
    insertEach id (default : HashMap Nat Nat) [(1, 1), (2, 4), (3, 9)] = some tableC ∧
      tableC.Size = 3 ∧ tableC.BucketCount = 4 ∧
      tableC.LoadFactor = some ⟨0, 1, Nat.one_pos⟩ ∧
      tableC.LoadFactor.map Fraction.toRat = some 0 :=
  ⟨rfl, rfl, rfl, rfl, by simp [LoadFactor, Empty, DoublyLinkedList.Empty,
    DoublyLinkedList.Size, tableC, BucketCount, Size, Fraction.toRat]⟩

end HashMap

/-! ## The dynamic array -/

namespace DynamicArray

variable {T : Type}

theorem subscript_eq_some {a : DynamicArray T} {i : Nat} {v : T} :
    a.subscript i = some v ↔ a.data_[i]? = some (some v) := by
  unfold subscript
  cases h : a.data_[i]? with
  | none => simp
  | some c =>
    cases c with
    | none => simp
    | some w => simp

theorem WF_cell {a : DynamicArray T} (h : a.WF) {i : Nat} (hi : i < a.size_) :
    ∃ v, a.data_[i]? = some (some v) := by
  obtain ⟨v, hv⟩ := Option.isSome_iff_exists.mp (h.stored i hi)
  exact ⟨v, subscript_eq_some.mp hv⟩

/-- The move loop over `n` cells inside both buffers replaces the first `n`
cells of the new buffer by those of the old one. -/
theorem moveCells_eq (data : List (Option T)) :
    ∀ (n : Nat) (new_data : List (Option T)), n ≤ data.length → n ≤ new_data.length →
      moveCells data n new_data = some (data.take n ++ new_data.drop n) := by
  intro n
  induction n with
  | zero => intro new_data _ _; simp [moveCells]
  | succ i ih =>
    intro new_data h1 h2
    have hi1 : i < data.length := h1
    have hi2 : i < new_data.length := h2
    have hlen : (List.take i data ++ List.drop i new_data).length = new_data.length := by
      simp only [List.length_append, List.length_take, List.length_drop]
      omega
    have htl : (List.take i data).length = i := by
      simp only [List.length_take]; omega
    have hset : (List.take i data ++ List.drop i new_data).set i data[i]
        = List.take (i + 1) data ++ List.drop (i + 1) new_data := by
      have ht : List.take (i + 1) data = List.take i data ++ [data[i]] := by
        rw [List.take_succ, List.getElem?_eq_getElem hi1]; rfl
      rw [List.set_append_right _ _ (by omega), htl, Nat.sub_self,
        List.drop_eq_getElem_cons hi2, List.set_cons_zero, ht, List.append_assoc]
      rfl
    simp only [moveCells, ih new_data (Nat.le_of_lt hi1) (Nat.le_of_lt hi2),
      List.getElem?_eq_getElem hi1, hlen, hi2, if_true, hset]

theorem ForceReserve_cells {a : DynamicArray T} (h : a.WF) {n : Nat} (hn : a.size_ ≤ n) :
    a.ForceReserve n
      = some ⟨a.data_.take a.size_ ++ List.replicate (n - a.size_) none, n, a.size_⟩ := by
  have h1 : a.size_ ≤ a.data_.length := by rw [h.length_eq]; exact h.size_le
  have h2 : a.size_ ≤ (List.replicate n (none : Option T)).length := by
    rw [List.length_replicate]; exact hn
  simp only [ForceReserve, moveCells_eq a.data_ a.size_ _ h1 h2, List.drop_replicate]

theorem WF_default : (default : DynamicArray T).WF :=
  ⟨Nat.le_refl _, rfl, fun i hi => absurd hi (Nat.not_lt_zero i)⟩

theorem WF_of_cells {a : DynamicArray T} (h1 : a.size_ ≤ a.capacity_)
    (h2 : a.data_.length = a.capacity_)
    (h3 : ∀ i, i < a.size_ → ∃ v, a.data_[i]? = some (some v)) : a.WF :=
  ⟨h1, h2, fun i hi => by
    obtain ⟨v, hv⟩ := h3 i hi
    rw [subscript_eq_some.mpr hv]; rfl⟩

theorem ForceReserve_WF {a b : DynamicArray T} (h : a.WF) {n : Nat} (hn : a.size_ ≤ n)
    (hb : a.ForceReserve n = some b) :
    b.WF ∧ b.capacity_ = n ∧ b.size_ = a.size_ ∧
      ∀ i, i < a.size_ → b.data_[i]? = a.data_[i]? := by
  rw [ForceReserve_cells h hn, Option.some.injEq] at hb
  subst hb
  have h1 : a.size_ ≤ a.data_.length := by rw [h.length_eq]; exact h.size_le
  have hget : ∀ i, i < a.size_ →
      (List.take a.size_ a.data_ ++ List.replicate (n - a.size_) none)[i]? = a.data_[i]? := by
    intro i hi
    rw [List.getElem?_append_left (by simp only [List.length_take]; omega),
      List.getElem?_take_of_lt hi]
  refine ⟨WF_of_cells hn ?_ ?_, rfl, rfl, hget⟩
  · simp only [List.length_append, List.length_take, List.length_replicate]
    omega
  · intro i hi
    obtain ⟨v, hv⟩ := WF_cell h hi
    exact ⟨v, by simp only; rw [hget i hi, hv]⟩

theorem Reserve_WF {a b : DynamicArray T} (h : a.WF) {n : Nat} (hb : a.Reserve n = some b) :
    b.WF := by
  unfold Reserve at hb
  by_cases hc : n ≤ a.capacity_
  · rw [if_pos hc, Option.some.injEq] at hb
    exact hb ▸ h
  · rw [if_neg hc] at hb
    exact (ForceReserve_WF h (by have := h.size_le; omega) hb).1

/-- `PushBack(value)` keeps the invariant, appends the value and keeps the
elements stored before. -/
theorem PushBack_spec {a : DynamicArray T} (h : a.WF) (value : T) :
    ∃ b, a.PushBack value = some b ∧ b.WF ∧ b.size_ = a.size_ + 1 ∧
      b.subscript a.size_ = some value ∧ ∀ i, i < a.size_ → b.subscript i = a.subscript i := by
  have key : ∀ a1 : DynamicArray T, a1.WF → a1.size_ < a1.capacity_ →
      ∃ b, (if a1.size_ < a1.data_.length then
          some { a1 with data_ := a1.data_.set a1.size_ (some value), size_ := a1.size_ + 1 }
        else none) = some b ∧ b.WF ∧ b.size_ = a1.size_ + 1 ∧
        b.subscript a1.size_ = some value ∧
        ∀ i, i < a1.size_ → b.data_[i]? = a1.data_[i]? := by
    intro a1 h1 hlt
    have hl : a1.size_ < a1.data_.length := by rw [h1.length_eq]; exact hlt
    refine ⟨_, by rw [if_pos hl], WF_of_cells ?_ ?_ ?_, rfl, ?_, ?_⟩
    · exact hlt
    · simp only [List.length_set]; exact h1.length_eq
    · intro i hi
      simp only at hi ⊢
      by_cases hie : i = a1.size_
      · subst hie
        exact ⟨value, by simp [List.getElem?_set_self hl]⟩
      · obtain ⟨v, hv⟩ := WF_cell h1 (i := i) (by omega)
        exact ⟨v, by rw [List.getElem?_set_ne (Ne.symm hie)]; exact hv⟩
    · simp [subscript, List.getElem?_set_self hl]
    · intro i hi
      simp only
      rw [List.getElem?_set_ne (by omega)]
  unfold PushBack
  by_cases hfull : a.size_ = a.capacity_
  · rw [if_pos hfull]
    have hn : a.size_ ≤ (if a.capacity_ = 0 then 1 else a.capacity_ * 2) := by
      split <;> omega
    have hF := ForceReserve_cells h hn
    obtain ⟨hW, hcap, hsz, hcell⟩ := ForceReserve_WF h hn hF
    simp only [Grow, hF]
    obtain ⟨b, hb, hbW, hbs, hbv, hbc⟩ := key _ hW (by
      simp only
      split <;> omega)
    refine ⟨b, hb, hbW, hbs, hbv, ?_⟩
    intro i hi
    have := hbc i hi
    simp only [subscript, this, hcell i hi]
  · rw [if_neg hfull]
    obtain ⟨b, hb, hbW, hbs, hbv, hbc⟩ := key a h (by have := h.size_le; omega)
    refine ⟨b, hb, hbW, hbs, hbv, ?_⟩
    intro i hi
    simp only [subscript, hbc i hi]

/-- `DynamicArray::At(index)` throws `std::out_of_range` exactly when
`index >= Size()` and otherwise returns the element `data_[index]`; the array
is passed by value and not changed. -/
theorem At_index {a : DynamicArray T} (h : a.WF) (index : Nat) :
    (index ≥ a.Size → a.At index = some (Except.error ())) ∧
      (index < a.Size → ∃ v, a.data_[index]? = some (some v) ∧ a.subscript index = some v ∧
        a.At index = some (Except.ok v)) := by
  constructor
  · intro hi
    simp only [At, Size] at hi ⊢
    rw [if_pos hi]
  · intro hi
    simp only [Size] at hi
    obtain ⟨v, hv⟩ := WF_cell h hi
    refine ⟨v, hv, by simp [subscript, hv], ?_⟩
    simp [At, subscript, hv, Nat.not_le.mpr hi]

/-! ## Claim on `Reserve` -/

/-- C20: for every `DynamicArray` that satisfies the representation invariant
(the buffer has `capacity_` cells, `size_ <= capacity_`, and the first `size_`
cells hold the elements) and every `n`: `Reserve(n)` is defined, the
invariant holds afterwards, `Capacity()` is the maximum of the former
capacity and `n`, `Size()` is unchanged, and for every `i < Size()` the
element `a[i]` is defined and the same before and after, also as returned by
`At(i)`. -/
theorem reserve_keeps_elements (a : DynamicArray T) (n : Nat) (h : a.WF) :
    ∃ b, a.Reserve n = some b ∧ b.WF ∧ b.Capacity = max a.Capacity n ∧ b.Size = a.Size ∧
      ∀ i, i < a.Size →
        ∃ v, a.subscript i = some v ∧ b.subscript i = some v ∧
          b.At i = some (Except.ok v) := by
  have hsub : ∀ b : DynamicArray T, b.WF → b.size_ = a.size_ →
      (∀ i, i < a.size_ → b.data_[i]? = a.data_[i]?) → ∀ i, i < a.Size →
        ∃ v, a.subscript i = some v ∧ b.subscript i = some v ∧
          b.At i = some (Except.ok v) := by
    intro b hb hs hc i hi
    obtain ⟨v, hv, hsv, _⟩ := (At_index h i).2 hi
    have hi1 : i < b.Size := by simp only [Size] at hi ⊢; omega
    obtain ⟨w, hw, hsw, haw⟩ := (At_index hb i).2 hi1
    have : w = v := by
      rw [hc i hi, hv] at hw
      simpa using hw.symm
    subst this
    exact ⟨w, hsv, hsw, haw⟩
  unfold Reserve
  by_cases hc : n ≤ a.capacity_
  · rw [if_pos hc]
    exact ⟨a, rfl, h, by simp only [Capacity]; omega, rfl, hsub a h rfl (fun _ _ => rfl)⟩
  · rw [if_neg hc]
    have hn : a.size_ ≤ n := by have := h.size_le; omega
    have hF := ForceReserve_cells h hn
    obtain ⟨hW, hcap, hsz, hcell⟩ := ForceReserve_WF h hn hF
    exact ⟨_, hF, hW, by simp only [Capacity]; omega, rfl, hsub _ hW hsz hcell⟩

/-- Witness of C20 on the array left by `PushBack(7); PushBack(8);` (capacity
2) and `Reserve(5)`. -/
theorem reserve_keeps_elements_witness :
    ((default : DynamicArray Nat).PushBack 7).bind (fun a => a.PushBack 8) = some arrayA ∧
      arrayA.WF ∧
      ∃ b, arrayA.Reserve 5 = some b ∧ b.WF ∧ b.Capacity = max arrayA.Capacity 5 ∧
        b.Size = arrayA.Size ∧
        ∀ i, i < arrayA.Size →
          ∃ v, arrayA.subscript i = some v ∧ b.subscript i = some v ∧
            b.At i = some (Except.ok v) :=
  ⟨rfl, ⟨by decide, by decide, by decide⟩,
    reserve_keeps_elements arrayA 5 ⟨by decide, by decide, by decide⟩⟩

end DynamicArray

/-! ## The dynamic array: insertion of a range, erasure, comparison -/

namespace DynamicArray

variable {T : Type}

theorem reduceOption_map_some (l : List T) : (l.map some).reduceOption = l := by
  induction l with
  | nil => rfl
  | cons x xs ih => simp [List.reduceOption_cons_of_some, ih]

/-- In a well-formed array the first `size_` cells are the elements. -/
theorem WF_take {a : DynamicArray T} (h : a.WF) :
    a.data_.take a.size_ = a.toList.map some ∧ a.toList.length = a.size_ := by
  have hlen : a.size_ ≤ a.data_.length := by rw [h.length_eq]; exact h.size_le
  have hall : ∀ c ∈ a.data_.take a.size_, ∃ v, c = some v := by
    intro c hc
    obtain ⟨i, hi, rfl⟩ := List.getElem_of_mem hc
    have hi' : i < a.size_ := by
      simp only [List.length_take] at hi; omega
    obtain ⟨v, hv⟩ := WF_cell h hi'
    refine ⟨v, ?_⟩
    rw [List.getElem_take]
    have hi2 : i < a.data_.length := by omega
    have := List.getElem?_eq_getElem hi2
    rw [hv] at this
    exact (Option.some.inj this).symm
  have key : ∀ l : List (Option T), (∀ c ∈ l, ∃ v, c = some v) →
      l = l.reduceOption.map some := by
    intro l
    induction l with
    | nil => intro _; rfl
    | cons c cs ih =>
      intro hl
      obtain ⟨v, rfl⟩ := hl c (List.mem_cons_self _ _)
      rw [List.reduceOption_cons_of_some, List.map_cons,
        ← ih (fun c hc => hl c (List.mem_cons_of_mem _ hc))]
  have h1 := key _ hall
  refine ⟨h1, ?_⟩
  have h2 := congrArg List.length h1
  simp only [List.length_take, List.length_map] at h2
  unfold toList
  omega

/-- The cells of a well-formed array below `size_`, through its elements. -/
theorem WF_getElem? {a : DynamicArray T} (h : a.WF) {k : Nat} (hk : k < a.size_) :
    a.data_[k]? = (a.toList[k]?).map some := by
  have h1 := (WF_take h).1
  have h2 : (a.data_.take a.size_)[k]? = (a.toList.map some)[k]? := by rw [h1]
  rw [List.getElem?_take_of_lt hk, List.getElem?_map] at h2
  exact h2

/-- An array whose first `size_` cells are the values of a list is
well-formed and has that list as its elements. -/
theorem WF_of_take {a : DynamicArray T} {l : List T} (h1 : a.size_ ≤ a.capacity_)
    (h2 : a.data_.length = a.capacity_) (h3 : a.data_.take a.size_ = l.map some) :
    a.WF ∧ a.toList = l := by
  have hl : l.length = a.size_ := by
    have := congrArg List.length h3
    simp only [List.length_take, List.length_map] at this
    omega
  refine ⟨WF_of_cells h1 h2 ?_, ?_⟩
  · intro i hi
    have h4 : (a.data_.take a.size_)[i]? = (l.map some)[i]? := by rw [h3]
    rw [List.getElem?_take_of_lt hi, List.getElem?_map,
      List.getElem?_eq_getElem (by omega : i < l.length)] at h4
    exact ⟨l[i], h4⟩
  · unfold toList
    rw [h3, reduceOption_map_some]

/-- The cells after the move loop: the `n` cells from `i` on are those of
`data` from `old_i` on, the others are as before. -/
theorem moveRange_spec (data : List (Option T)) :
    ∀ (n old_i i : Nat) (new_data : List (Option T)), old_i + n ≤ data.length →
      i + n ≤ new_data.length →
      ∃ r, moveRange data n old_i i new_data = some r ∧ r.length = new_data.length ∧
        ∀ k, r[k]? = if i ≤ k ∧ k < i + n then data[old_i + (k - i)]? else new_data[k]? := by
  intro n
  induction n with
  | zero =>
    intro old_i i new_data _ _
    refine ⟨new_data, rfl, rfl, fun k => ?_⟩
    rw [if_neg (by omega)]
  | succ n ih =>
    intro old_i i new_data h1 h2
    have ho : old_i < data.length := by omega
    have hi : i < new_data.length := by omega
    simp only [moveRange, List.getElem?_eq_getElem ho, hi, if_true]
    obtain ⟨r, hr, hlen, hget⟩ :=
      ih (old_i + 1) (i + 1) (new_data.set i data[old_i]) (by omega)
        (by rw [List.length_set]; omega)
    refine ⟨r, hr, by rw [hlen, List.length_set], fun k => ?_⟩
    rw [hget k]
    by_cases hk : i + 1 ≤ k ∧ k < i + 1 + n
    · rw [if_pos hk, if_pos (by omega)]
      congr 1; omega
    · rw [if_neg hk]
      by_cases hki : k = i
      · subst hki
        rw [List.getElem?_set_self hi, if_pos (by omega), Nat.sub_self, Nat.add_zero,
          List.getElem?_eq_getElem ho]
      · rw [List.getElem?_set_ne (Ne.symm hki), if_neg (by omega)]

/-- The cells after the write loop: the cells from `i` on hold the values,
the others are as before. -/
theorem writeCells_spec (xs : List T) :
    ∀ (i : Nat) (data : List (Option T)), i + xs.length ≤ data.length →
      ∃ r, writeCells xs i data = some r ∧ r.length = data.length ∧
        ∀ k, r[k]? = if i ≤ k ∧ k < i + xs.length then (xs[k - i]?).map some else data[k]? := by
  induction xs with
  | nil =>
    intro i data _
    refine ⟨data, rfl, rfl, fun k => ?_⟩
    rw [if_neg (by simp)]
  | cons x xs ih =>
    intro i data h
    simp only [List.length_cons] at h
    have hi : i < data.length := by omega
    simp only [writeCells, hi, if_true]
    obtain ⟨r, hr, hlen, hget⟩ := ih (i + 1) (data.set i (some x)) (by rw [List.length_set]; omega)
    refine ⟨r, hr, by rw [hlen, List.length_set], fun k => ?_⟩
    rw [hget k]
    simp only [List.length_cons]
    by_cases hk : i + 1 ≤ k ∧ k < i + 1 + xs.length
    · rw [if_pos hk, if_pos (by omega)]
      have : k - i = (k - (i + 1)) + 1 := by omega
      rw [this, List.getElem?_cons_succ]
    · rw [if_neg hk]
      by_cases hki : k = i
      · subst hki
        rw [List.getElem?_set_self hi, if_pos (by omega), Nat.sub_self]
        simp
      · rw [List.getElem?_set_ne (Ne.symm hki), if_neg (by omega)]

/-- The cells after the swap loop of the in-place path: every cell visited
holds what the cell `distance` places below held, the cells below the lowest
one read are as before. -/
theorem swapDown_spec (distance : Nat) (hd : 0 < distance) :
    ∀ (n i : Nat) (data : List (Option T)), i < data.length → n + distance ≤ i + 1 →
      ∃ r, swapDown distance n i data = some r ∧ r.length = data.length ∧
        (∀ k, k + distance ≤ i - n → r[k]? = data[k]?) ∧
        (∀ k, i - n < k → k ≤ i → r[k]? = data[k - distance]?) := by
  intro n
  induction n with
  | zero =>
    intro i data _ _
    exact ⟨data, rfl, rfl, fun _ _ => rfl, fun k h1 h2 => by omega⟩
  | succ n ih =>
    intro i data hi hn
    have h1 : ¬ i < distance := by omega
    have h2 : i - distance < data.length := by omega
    simp only [swapDown, h1, if_false, List.getElem?_eq_getElem h2,
      List.getElem?_eq_getElem hi]
    obtain ⟨r, hr, hlen, hlow, hhigh⟩ :=
      ih (i - 1) ((data.set (i - distance) data[i]).set i data[i - distance])
        (by rw [List.length_set, List.length_set]; omega) (by omega)
    refine ⟨r, hr, by rw [hlen, List.length_set, List.length_set], ?_, ?_⟩
    · intro k hk
      rw [hlow k (by omega), List.getElem?_set_ne (by omega), List.getElem?_set_ne (by omega)]
    · intro k hk1 hk2
      by_cases hki : k = i
      · subst hki
        have hne : n = 0 ∨ 0 < n := Nat.eq_zero_or_pos n
        rcases hne with h0 | hpos
        · subst h0
          simp only [swapDown, Option.some.injEq] at hr
          subst hr
          rw [List.getElem?_set_self (by rw [List.length_set]; exact hi),
            List.getElem?_eq_getElem h2]
        · -- the cell `i` lies above the cells the remaining steps visit and
          -- below none of those they read
          have hkeep : ∀ (m j : Nat) (d1 : List (Option T)), j < k → j < d1.length →
              m + distance ≤ j + 1 →
              ∀ r1, swapDown distance m j d1 = some r1 → r1[k]? = d1[k]? := by
            intro m
            induction m with
            | zero =>
              intro j d1 _ _ _ r1 hr1
              simp only [swapDown, Option.some.injEq] at hr1
              rw [hr1]
            | succ m ihm =>
              intro j d1 hj hjl hm r1 hr1
              have g1 : ¬ j < distance := by omega
              have g2 : j - distance < d1.length := by omega
              simp only [swapDown, g1, if_false, List.getElem?_eq_getElem g2,
                List.getElem?_eq_getElem hjl] at hr1
              rw [ihm (j - 1) _ (by omega) (by rw [List.length_set, List.length_set]; omega)
                (by omega) r1 hr1,
                List.getElem?_set_ne (by omega), List.getElem?_set_ne (by omega)]
          rw [hkeep n (k - 1) _ (by omega)
            (by rw [List.length_set, List.length_set]; omega) (by omega) r hr,
            List.getElem?_set_self (by rw [List.length_set]; exact hi),
            List.getElem?_eq_getElem h2]
      · rw [hhigh k (by omega) (by omega), List.getElem?_set_ne (by omega),
          List.getElem?_set_ne (by omega)]

theorem getElem?_insert_segment (l xs : List T) {i : Nat} (hi : i ≤ l.length) (k : Nat) :
    (l.take i ++ xs ++ l.drop i)[k]?
      = if k < i then l[k]? else if k < i + xs.length then xs[k - i]? else l[k - xs.length]? := by
  have hl : (l.take i).length = i := by rw [List.length_take]; omega
  by_cases h1 : k < i
  · rw [if_pos h1, List.append_assoc, List.getElem?_append_left (by omega),
      List.getElem?_take_of_lt h1]
  · rw [if_neg h1, List.append_assoc, List.getElem?_append_right (by omega), hl]
    by_cases h2 : k < i + xs.length
    · rw [if_pos h2, List.getElem?_append_left (by omega)]
    · rw [if_neg h2, List.getElem?_append_right (by omega), List.getElem?_drop]
      congr 1; omega

/-- The first `n` cells of a buffer are the values of a list when each of
them is. -/
theorem take_eq_map_some {r : List (Option T)} {l : List T} {n : Nat} (hn : n ≤ r.length)
    (hl : l.length = n) (h : ∀ k, k < n → r[k]? = (l[k]?).map some) :
    r.take n = l.map some := by
  apply List.ext_getElem?
  intro k
  by_cases hk : k < n
  · rw [List.getElem?_take_of_lt hk, h k hk, List.getElem?_map]
  · rw [List.getElem?_eq_none (by rw [List.length_take]; omega),
      List.getElem?_eq_none (by rw [List.length_map]; omega)]

/-! ## Claims on the dynamic array -/

/-- `Insert(cbegin() + i, first, last)` of a non-empty range on a well-formed
array: the call is defined, the elements of the range stand at the index `i`
between the elements before and after it, and the array is well-formed
again. -/
theorem Insert_contents (a : DynamicArray T) (i : Nat) (xs : List T) (h : a.WF)
    (hi : i ≤ a.Size) (hx : xs ≠ []) :
    ∃ b, a.Insert i xs = some (b, i) ∧ b.WF ∧
      b.toList = a.toList.take i ++ xs ++ a.toList.drop i ∧
      b.Size = a.Size + xs.length ∧ b.subscript i = xs.head? ∧
      b.Capacity = (if a.Size + xs.length > a.Capacity
        then max (a.Capacity * 2) (a.Size + xs.length) else a.Capacity) := by
  obtain ⟨htake, hlen⟩ := WF_take h
  have hcap := h.size_le
  have hdl := h.length_eq
  simp only [Size] at hi
  have hxl : 0 < xs.length := List.length_pos.mpr hx
  have hxe : xs.isEmpty = false := by
    cases xs with
    | nil => exact absurd rfl hx
    | cons _ _ => rfl
  -- the cells of the old buffer below `size_`
  have hold : ∀ k, k < a.size_ → a.data_[k]? = (a.toList[k]?).map some :=
    fun k hk => WF_getElem? h hk
  -- how the result follows from the cells of the new buffer
  have finish : ∀ (r : List (Option T)) (cap : Nat), r.length = cap →
      a.size_ + xs.length ≤ cap →
      (∀ k, k < a.size_ + xs.length → r[k]? =
        if k < i then a.data_[k]? else if k < i + xs.length then (xs[k - i]?).map some
          else a.data_[k - xs.length]?) →
      (⟨r, cap, a.size_ + xs.length⟩ : DynamicArray T).WF ∧
        (⟨r, cap, a.size_ + xs.length⟩ : DynamicArray T).toList
          = a.toList.take i ++ xs ++ a.toList.drop i ∧
        (⟨r, cap, a.size_ + xs.length⟩ : DynamicArray T).subscript i = xs.head? := by
    intro r cap hr hc hcells
    have hcell : ∀ k, k < a.size_ + xs.length →
        r[k]? = ((a.toList.take i ++ xs ++ a.toList.drop i)[k]?).map some := by
      intro k hk
      rw [hcells k hk, getElem?_insert_segment _ _ (by omega)]
      by_cases h1 : k < i
      · rw [if_pos h1, if_pos h1, hold k (by omega)]
      · rw [if_neg h1, if_neg h1]
        by_cases h2 : k < i + xs.length
        · rw [if_pos h2, if_pos h2]
        · rw [if_neg h2, if_neg h2, hold _ (by omega)]
    have hT : (a.toList.take i ++ xs ++ a.toList.drop i).length = a.size_ + xs.length := by
      simp only [List.length_append, List.length_take, List.length_drop]
      omega
    have h3 := take_eq_map_some (r := r) (n := a.size_ + xs.length) (by omega) hT hcell
    obtain ⟨hW, hL⟩ := WF_of_take (a := ⟨r, cap, a.size_ + xs.length⟩) hc hr h3
    refine ⟨hW, hL, ?_⟩
    have h4 := hcell i (by omega)
    rw [getElem?_insert_segment _ _ (by omega), if_neg (by omega), if_pos (by omega),
      Nat.sub_self] at h4
    cases xs with
    | nil => exact absurd rfl hx
    | cons x xs1 =>
      simp only [List.getElem?_cons_zero, Option.map_some'] at h4
      simp [subscript, h4]
  unfold Insert
  simp only [hxe, Bool.false_eq_true, if_false, Size, Capacity]
  by_cases hre : a.size_ + xs.length > a.capacity_
  · -- the reallocating path
    rw [if_pos hre, if_pos hre]
    obtain ⟨d1, hd1, hl1, hg1⟩ := moveRange_spec a.data_ i 0 0
      (List.replicate (max (a.capacity_ * 2) (a.size_ + xs.length)) none) (by omega)
      (by rw [List.length_replicate]; omega)
    rw [List.length_replicate] at hl1
    obtain ⟨d2, hd2, hl2, hg2⟩ := writeCells_spec xs i d1 (by omega)
    obtain ⟨d3, hd3, hl3, hg3⟩ := moveRange_spec a.data_ (a.size_ - i) i (i + xs.length) d2
      (by omega) (by omega)
    simp only [hd1, hd2, hd3]
    obtain ⟨hW, hL, hS⟩ := finish d3 (max (a.capacity_ * 2) (a.size_ + xs.length))
      (by omega) (by omega) (by
        intro k hk
        rw [hg3 k]
        by_cases h3 : i + xs.length ≤ k ∧ k < i + xs.length + (a.size_ - i)
        · rw [if_pos h3, if_neg (by omega), if_neg (by omega)]
          congr 1; omega
        · rw [if_neg h3, hg2 k]
          by_cases h2 : i ≤ k ∧ k < i + xs.length
          · rw [if_pos h2, if_neg (by omega), if_pos (by omega)]
          · rw [if_neg h2, hg1 k, if_pos (by omega), if_pos (by omega)]
            simp)
    exact ⟨_, rfl, hW, hL, rfl, hS, rfl⟩
  · -- the in-place path
    rw [if_neg hre, if_neg hre]
    obtain ⟨d1, hd1, hl1, hlow, hhigh⟩ := swapDown_spec (T := T) xs.length hxl
      (a.size_ + xs.length - 1 - (i + xs.length - 1)) (a.size_ + xs.length - 1) a.data_
      (by omega) (by omega)
    obtain ⟨d2, hd2, hl2, hg2⟩ := writeCells_spec xs i d1 (by omega)
    simp only [hd1, hd2]
    obtain ⟨hW, hL, hS⟩ := finish d2 a.capacity_ (by omega) (by omega) (by
        intro k hk
        rw [hg2 k]
        by_cases h2 : i ≤ k ∧ k < i + xs.length
        · rw [if_pos h2, if_neg (by omega), if_pos (by omega)]
        · rw [if_neg h2]
          by_cases h1 : k < i
          · rw [if_pos h1, hlow k (by omega)]
          · rw [if_neg h1, if_neg (by omega), hhigh k (by omega) (by omega)])
    exact ⟨_, rfl, hW, hL, rfl, hS, rfl⟩

/-- In a well-formed array the subscript below `size_` reads the element. -/
theorem subscript_toList {a : DynamicArray T} (h : a.WF) {i : Nat} (hi : i < a.size_) :
    a.subscript i = a.toList[i]? := by
  have h1 := WF_getElem? h hi
  have hl := (WF_take h).2
  have hi2 : i < a.toList.length := by omega
  rw [List.getElem?_eq_getElem hi2] at h1 ⊢
  simp [subscript, h1]

/-- Putting the head of a list where one of its values was, and that value
in front, is a permutation. -/
theorem perm_set_cons (a y : T) : ∀ (t : List T) (j : Nat), t[j]? = some y →
    (y :: t.set j a).Perm (a :: t)
  | [], j, h => by simp at h
  | b :: t, 0, h => by
    simp only [List.getElem?_cons_zero, Option.some.injEq] at h
    subst h
    exact List.Perm.swap _ _ _
  | b :: t, j + 1, h => by
    simp only [List.getElem?_cons_succ] at h
    have ih := perm_set_cons a y t j h
    exact (List.Perm.swap _ _ _).trans (((List.Perm.cons b ih)).trans (List.Perm.swap _ _ _))

/-- Exchanging two values of a list is a permutation. -/
theorem perm_set_set : ∀ (l : List T) (i j : Nat) (x y : T), l[i]? = some x → l[j]? = some y →
    ((l.set i y).set j x).Perm l
  | [], i, j, x, y, h, _ => by simp at h
  | a :: t, 0, 0, x, y, hx, hy => by
    simp only [List.getElem?_cons_zero, Option.some.injEq] at hx hy
    subst hx
    simp
  | a :: t, 0, j + 1, x, y, hx, hy => by
    simp only [List.getElem?_cons_zero, Option.some.injEq, List.getElem?_cons_succ] at hx hy
    subst hx
    simpa using perm_set_cons a y t j hy
  | a :: t, i + 1, 0, x, y, hx, hy => by
    simp only [List.getElem?_cons_zero, Option.some.injEq, List.getElem?_cons_succ] at hx hy
    subst hy
    simpa using perm_set_cons a x t i hx
  | a :: t, i + 1, j + 1, x, y, hx, hy => by
    simp only [List.getElem?_cons_succ] at hx hy
    simpa using List.Perm.cons a (perm_set_set t i j x y hx hy)

/-- `std::swap(a[i], a[j])` on a well-formed array, both indices below
`size_`: the call is defined and exchanges the two elements. -/
theorem swapCells_spec {a : DynamicArray T} (h : a.WF) {i j : Nat} (hi : i < a.size_)
    (hj : j < a.size_) :
    ∃ b, a.swapCells i j = some b ∧ b.WF ∧ b.size_ = a.size_ ∧ b.capacity_ = a.capacity_ ∧
      b.toList.Perm a.toList ∧
      ∀ k, b.toList[k]? = if k = j then a.toList[i]? else if k = i then a.toList[j]?
        else a.toList[k]? := by
  obtain ⟨htake, hlen⟩ := WF_take h
  have hi2 : i < a.toList.length := by omega
  have hj2 : j < a.toList.length := by omega
  have hxi : a.subscript i = some a.toList[i] := by
    rw [subscript_toList h hi, List.getElem?_eq_getElem hi2]
  have hyj : a.subscript j = some a.toList[j] := by
    rw [subscript_toList h hj, List.getElem?_eq_getElem hj2]
  have hdl : a.size_ ≤ a.data_.length := by
    rw [h.length_eq]
    exact h.size_le
  have hcells : ∀ k, k < a.size_ →
      ((a.data_.set i (some a.toList[j])).set j (some a.toList[i]))[k]?
        = ((((a.toList.set i a.toList[j]).set j a.toList[i]))[k]?).map some := by
    intro k hk
    have hk2 : k < a.toList.length := by omega
    by_cases hkj : k = j
    · subst hkj
      rw [List.getElem?_set_self (by simp; omega), List.getElem?_set_self (by simp; omega)]
      rfl
    · rw [List.getElem?_set_ne (fun e => hkj e.symm), List.getElem?_set_ne (fun e => hkj e.symm)]
      by_cases hki : k = i
      · subst hki
        rw [List.getElem?_set_self (by omega), List.getElem?_set_self hk2]
        rfl
      · rw [List.getElem?_set_ne (fun e => hki e.symm), List.getElem?_set_ne (fun e => hki e.symm)]
        exact WF_getElem? h hk
  have h3 := take_eq_map_some
    (r := (a.data_.set i (some a.toList[j])).set j (some a.toList[i]))
    (l := (a.toList.set i a.toList[j]).set j a.toList[i]) (n := a.size_)
    (by simp; omega) (by simp; omega) hcells
  obtain ⟨hW, hL⟩ := WF_of_take
    (a := { a with data_ := (a.data_.set i (some a.toList[j])).set j (some a.toList[i]) })
    h.size_le (by simp [h.length_eq]) h3
  refine ⟨_, by simp only [swapCells, hxi, hyj], hW, rfl, rfl, ?_, ?_⟩
  · rw [hL]
    exact perm_set_set a.toList i j _ _ (List.getElem?_eq_getElem hi2)
      (List.getElem?_eq_getElem hj2)
  · intro k
    rw [hL]
    by_cases hkj : k = j
    · subst hkj
      rw [if_pos rfl, List.getElem?_set_self (by simp; omega), List.getElem?_eq_getElem hi2]
    · rw [if_neg hkj, List.getElem?_set_ne (fun e => hkj e.symm)]
      by_cases hki : k = i
      · subst hki
        rw [if_pos rfl, List.getElem?_set_self hi2, List.getElem?_eq_getElem hj2]
      · rw [if_neg hki, List.getElem?_set_ne (fun e => hki e.symm)]

/-- `PopBack()` on a well-formed array that is not empty: the call is defined
and removes the last element. -/
theorem PopBack_spec {a : DynamicArray T} (h : a.WF) (hs : 0 < a.size_) :
    ∃ b, a.PopBack = some b ∧ b.WF ∧ b.size_ = a.size_ - 1 ∧
      b.toList = a.toList.take (a.size_ - 1) := by
  obtain ⟨htake, hlen⟩ := WF_take h
  have hdl : a.size_ ≤ a.data_.length := by
    rw [h.length_eq]
    exact h.size_le
  have hcells : ∀ k, k < a.size_ - 1 →
      (a.data_.set (a.size_ - 1) none)[k]? = ((a.toList.take (a.size_ - 1))[k]?).map some := by
    intro k hk
    rw [List.getElem?_set_ne (by omega), List.getElem?_take_of_lt hk]
    exact WF_getElem? h (by omega)
  have h3 := take_eq_map_some (r := a.data_.set (a.size_ - 1) none)
    (l := a.toList.take (a.size_ - 1)) (n := a.size_ - 1) (by simp; omega)
    (by simp; omega) hcells
  obtain ⟨hW, hL⟩ := WF_of_take
    (a := { a with data_ := a.data_.set (a.size_ - 1) none, size_ := a.size_ - 1 })
    (by have := h.size_le; simp only; omega) (by simp [h.length_eq]) h3
  refine ⟨_, ?_, hW, rfl, hL⟩
  simp only [PopBack]
  rw [if_neg (by omega), if_pos (by omega)]

/-- The construction from an initializer list gives the well-formed array of
its values. -/
theorem ofList_spec (list : List T) :
    ∃ a, ofList list = some a ∧ a.WF ∧ a.toList = list := by
  cases list with
  | nil => exact ⟨default, rfl, WF_default, rfl⟩
  | cons x xs =>
    obtain ⟨b, hb, hW, hL, _⟩ := Insert_contents (default : DynamicArray T) 0 (x :: xs)
      WF_default (Nat.le_refl _) (by simp)
    refine ⟨b, by simp [ofList, hb], hW, ?_⟩
    rw [hL]
    simp [toList, default]

/-- The assignment of an initializer list to a well-formed array gives the
well-formed array of its values. -/
theorem assignList_spec {a : DynamicArray T} (h : a.WF) (list : List T) :
    ∃ b, a.assignList list = some b ∧ b.WF ∧ b.toList = list := by
  obtain ⟨a1, ha1, hW1, hcap⟩ : ∃ a1, a.Reserve list.length = some a1 ∧ a1.WF ∧
      list.length ≤ a1.capacity_ := by
    unfold Reserve
    by_cases hc : list.length ≤ a.capacity_
    · rw [if_pos hc]
      exact ⟨a, rfl, h, hc⟩
    · rw [if_neg hc]
      have hn : a.size_ ≤ list.length := by have := h.size_le; omega
      have hF := ForceReserve_cells h hn
      obtain ⟨hW, hcap, _, _⟩ := ForceReserve_WF h hn hF
      exact ⟨_, hF, hW, by omega⟩
  obtain ⟨d, hd, hdl, hdc⟩ := writeCells_spec list 0 a1.data_
    (by rw [hW1.length_eq]; omega)
  have h3 := take_eq_map_some (r := d) (l := list) (n := list.length)
    (by rw [hdl, hW1.length_eq]; exact hcap) rfl (by
      intro k hk
      rw [hdc k, if_pos ⟨Nat.zero_le _, by omega⟩, Nat.sub_zero])
  obtain ⟨hW, hL⟩ := WF_of_take (a := { a1 with data_ := d, size_ := list.length })
    hcap (by simp only; rw [hdl, hW1.length_eq]) h3
  exact ⟨_, by simp only [assignList, ha1, hd], hW, hL⟩

/-- `Insert(end(), first, last)` on a well-formed array appends the values of
the range. -/
theorem Insert_end_spec {a : DynamicArray T} (h : a.WF) (xs : List T) :
    ∃ b r, a.Insert a.size_ xs = some (b, r) ∧ b.WF ∧ b.toList = a.toList ++ xs := by
  cases xs with
  | nil => exact ⟨a, a.size_, rfl, h, by simp⟩
  | cons x xs =>
    obtain ⟨b, hb, hW, hL, _⟩ := Insert_contents a a.size_ (x :: xs) h (Nat.le_refl _)
      (by simp)
    refine ⟨b, a.size_, hb, hW, ?_⟩
    rw [hL, ← (WF_take h).2]
    simp

/-- C21: for every `DynamicArray` that satisfies the representation
invariant, every index `i <= Size()` and every non-empty sequence `xs` of
values of another container: `Insert(cbegin() + i, first, last)` is defined,
returns the iterator to index `i`, where the first value of `xs` now is, the
elements afterwards are `a[0..i) ++ xs ++ a[i..s)` and `Size()` is
`s + |xs|`; this holds on the in-place path (then `Capacity()` is unchanged)
and on the reallocating path (then it is `max(2 * c, s + |xs|)`), and the
invariant holds again. -/
theorem insert_range_contents (a : DynamicArray T) (i : Nat) (xs : List T) (h : a.WF)
    (hi : i ≤ a.Size) (hx : xs ≠ []) :
    ∃ b, a.Insert i xs = some (b, i) ∧ b.WF ∧
      b.toList = a.toList.take i ++ xs ++ a.toList.drop i ∧
      b.Size = a.Size + xs.length ∧ b.subscript i = xs.head? ∧
      b.Capacity = (if a.Size + xs.length > a.Capacity
        then max (a.Capacity * 2) (a.Size + xs.length) else a.Capacity) :=
  Insert_contents a i xs h hi hx

/-- Witness of C21 on `DynamicArray<int>{1, 3, 4, 5}` (capacity 4) with
`Insert(cbegin() + 2, xs)` for the two values 9 and 10, the reallocating
path. -/
theorem insert_range_contents_witness :
    arrayB.WF ∧ 2 ≤ arrayB.Size ∧ [9, 10] ≠ ([] : List Nat) ∧
      ∃ b, arrayB.Insert 2 [9, 10] = some (b, 2) ∧ b.WF ∧
        b.toList = arrayB.toList.take 2 ++ [9, 10] ++ arrayB.toList.drop 2 ∧
        b.Size = arrayB.Size + [9, 10].length ∧ b.subscript 2 = [9, 10].head? ∧
        b.Capacity = (if arrayB.Size + [9, 10].length > arrayB.Capacity
          then max (arrayB.Capacity * 2) (arrayB.Size + [9, 10].length)
          else arrayB.Capacity) :=
  ⟨⟨by decide, by decide, by decide⟩, by decide, by decide,
    insert_range_contents arrayB 2 [9, 10] ⟨by decide, by decide, by decide⟩ (by decide)
      (by decide)⟩

/-- C22 (violated by the code): on `DynamicArray<int>{1, 3, 4, 5}`,
`Erase(cbegin() + 2)` leaves the elements 1, 3, 5 with `Size()` 3, and the
element that followed the erased one, 5, is at index 2, but the returned
iterator is at index 3, which is `end()`: the test `last_index == size_` is
made after `size_` has been decreased.  In the same way
`Erase(cbegin(), cbegin() + 2)` leaves the elements 4, 5 and returns the
iterator at index 2, which is `end()`, instead of the one at index 0. -/
theorem erase_returns_end_early :
    ofList [1, 3, 4, 5] = some arrayB ∧
      arrayB.ErasePosition 2 = some (arrayErased, 3) ∧
      arrayErased.toList = [1, 3, 5] ∧ arrayErased.Size = 3 ∧
      arrayErased.toList[2]? = some 5 ∧
      (arrayB.Erase 0 2).map (fun r => (r.1.toList, r.1.Size, r.2)) = some ([4, 5], 2, 2) :=
  ⟨rfl, rfl, rfl, rfl, rfl, rfl⟩

/-- C23 (violated by the code): two default-constructed arrays of `int` are
equal under `operator==`, `operator<` holds between them, and both
`operator<=` and `operator>=` are false. -/
theorem empty_arrays_not_less_equal :
    (default : DynamicArray Nat).equal default = some true ∧
      (default : DynamicArray Nat).less (fun x y => decide (x < y)) default = some true ∧
      (default : DynamicArray Nat).lessEq (fun x y => decide (x < y)) default = some false ∧
      (default : DynamicArray Nat).greaterEq (fun x y => decide (x < y)) default = some false :=
  ⟨rfl, rfl, rfl, rfl⟩

end DynamicArray

/-! ## Claims on the deque -/

namespace Deque

variable {T : Type}

/-- C28 (violated by the code): `Deque<int>{1}` has one block; the assignment
`d = {1, 2, 3, 4, 5}` clears it, keeps the map of one block and writes the
five values into that block, so that the fifth value overwrites the first:
afterwards `Size()` is 5 and the elements are 5, 2, 3, 4, 5.  The copy
assignment of `Deque<int>{1, 2, 3, 4, 5}` gives the same state. -/
theorem assignment_overwrites_first_element :
    ofList 4 [1] = some dequeOne ∧
      dequeOne.assignList 4 [1, 2, 3, 4, 5] = some dequeAssigned ∧
      dequeAssigned.Size = 5 ∧
      dequeAssigned.elements 4 = [some 5, some 2, some 3, some 4, some 5] ∧
      dequeAssigned.subscript 4 0 = some 5 ∧
      ofList 4 [1, 2, 3, 4, 5] = some dequeFive ∧
      dequeOne.copyAssign 4 dequeFive = some dequeAssigned :=
  ⟨rfl, rfl, rfl, rfl, rfl, rfl, rfl⟩

/-- C29 (violated by the code): after `PushBack(1); PushBack(2); PushBack(3);`
on `Deque<int>()` the elements are 1, 2, 3 at the offsets 1, 2, 3 of the
block; `ShrinkToFit()` copies them to the same offsets of the new block and
sets `block_head_` to 0, so that afterwards `d[0]` is a cell that holds no
value, `d[1]` is 1 and `d[2]` is 2.  After five `PushBack` and one `PopBack`
the copy loop of `ShrinkToFit()` writes past the end of the new map. -/
theorem shrink_to_fit_moves_elements :
    pushAll 4 (default : Deque Nat) [1, 2, 3] = some dequePushed ∧
      dequePushed.elements 4 = [some 1, some 2, some 3] ∧
      (dequePushed.ShrinkToFit 4).map (fun d => (d.Size, d.elements 4))
        = some (3, [none, some 1, some 2]) ∧
      ((pushAll 4 (default : Deque Nat) [1, 2, 3, 4, 5]).bind (fun d => d.PopBack 4)).map
          (fun d => d.elements 4) = some [some 1, some 2, some 3, some 4] ∧
      ((pushAll 4 (default : Deque Nat) [1, 2, 3, 4, 5]).bind (fun d => d.PopBack 4)).bind
          (fun d => d.ShrinkToFit 4) = none :=
  ⟨rfl, rfl, rfl, rfl, rfl⟩

/-- The subtraction of `std::size_t` values without wrap-around. -/
theorem wsub_of_le {a b : Nat} (h : b ≤ a) : wsub a b = a - b := by
  simp [wsub, h]

/-- The cell of an index when the map is not empty. -/
theorem cellOf_pos (kBlockSize : Nat) (d : Deque T) (i : Nat) (h : 0 < d.map_capacity_) :
    d.cellOf kBlockSize i =
      some ((d.map_head_ + (d.block_head_ + i) / kBlockSize) % d.map_capacity_,
        (d.block_head_ + i) % kBlockSize) := by
  simp [cellOf, Nat.pos_iff_ne_zero.1 h]

/-- Distinct indices that fit in the map have distinct cells. -/
theorem cellOf_inj (kBlockSize : Nat) (d : Deque T) (i j : Nat) (_hk : 0 < kBlockSize)
    (hc : 0 < d.map_capacity_)
    (hi : d.block_head_ + i < d.map_capacity_ * kBlockSize)
    (hj : d.block_head_ + j < d.map_capacity_ * kBlockSize)
    (h : d.cellOf kBlockSize i = d.cellOf kBlockSize j) : i = j := by
  rw [cellOf_pos kBlockSize d i hc, cellOf_pos kBlockSize d j hc] at h
  simp only [Option.some.injEq, Prod.mk.injEq] at h
  have hA : (d.block_head_ + i) / kBlockSize < d.map_capacity_ :=
    Nat.div_lt_of_lt_mul (by rw [Nat.mul_comm]; exact hi)
  have hB : (d.block_head_ + j) / kBlockSize < d.map_capacity_ :=
    Nat.div_lt_of_lt_mul (by rw [Nat.mul_comm]; exact hj)
  have hq : (d.block_head_ + i) / kBlockSize = (d.block_head_ + j) / kBlockSize := by
    have h1 : Nat.ModEq d.map_capacity_ (d.map_head_ + (d.block_head_ + i) / kBlockSize)
        (d.map_head_ + (d.block_head_ + j) / kBlockSize) := h.1
    exact Nat.ModEq.eq_of_lt_of_lt (Nat.ModEq.add_left_cancel' _ h1) hA hB
  have e1 := Nat.div_add_mod (d.block_head_ + i) kBlockSize
  have e2 := Nat.div_add_mod (d.block_head_ + j) kBlockSize
  rw [hq, h.2] at e1
  omega

/-- Writing a cell of a well-formed map: the write is defined, the shape of
the map is kept, and only the written cell changes. -/
theorem writeCell_read (kBlockSize : Nat) (d : Deque T) (i : Nat) (c : Option T)
    (hk : 0 < kBlockSize) (hc : 0 < d.map_capacity_) (hl : d.map_.length = d.map_capacity_)
    (hb : ∀ b ∈ d.map_, b.length = kBlockSize) :
    ∃ m, d.writeCell kBlockSize i c = some { d with map_ := m } ∧
      m.length = d.map_capacity_ ∧ (∀ b ∈ m, b.length = kBlockSize) ∧
      ∀ j, ({ d with map_ := m } : Deque T).readCell kBlockSize j =
        if d.cellOf kBlockSize j = d.cellOf kBlockSize i then some c
        else d.readCell kBlockSize j := by
  have hbi : (d.map_head_ + (d.block_head_ + i) / kBlockSize) % d.map_capacity_
      < d.map_.length := by
    rw [hl]
    exact Nat.mod_lt _ hc
  have hoi : (d.block_head_ + i) % kBlockSize < kBlockSize := Nat.mod_lt _ hk
  have hget := List.getElem?_eq_getElem hbi
  have hblen : (d.map_[(d.map_head_ + (d.block_head_ + i) / kBlockSize)
      % d.map_capacity_]).length = kBlockSize := hb _ (List.getElem_mem _)
  refine ⟨d.map_.set ((d.map_head_ + (d.block_head_ + i) / kBlockSize) % d.map_capacity_)
    ((d.map_[(d.map_head_ + (d.block_head_ + i) / kBlockSize) % d.map_capacity_]).set
      ((d.block_head_ + i) % kBlockSize) c), ?_, ?_, ?_, ?_⟩
  · simp only [writeCell, cellOf_pos kBlockSize d i hc, hget]
    rw [if_pos (by rw [hblen]; exact hoi)]
  · simp [hl]
  · intro b hbm
    rcases List.mem_or_eq_of_mem_set hbm with h | h
    · exact hb b h
    · rw [h]
      simp [hblen]
  · intro j
    have hcj : ({ d with map_ := d.map_.set ((d.map_head_ + (d.block_head_ + i) / kBlockSize)
        % d.map_capacity_) ((d.map_[(d.map_head_ + (d.block_head_ + i) / kBlockSize)
        % d.map_capacity_]).set ((d.block_head_ + i) % kBlockSize) c) } : Deque T).cellOf
        kBlockSize j = d.cellOf kBlockSize j := rfl
    simp only [readCell, hcj]
    rw [cellOf_pos kBlockSize d j hc, cellOf_pos kBlockSize d i hc]
    simp only [Option.some.injEq, Prod.mk.injEq]
    by_cases h1 : (d.map_head_ + (d.block_head_ + j) / kBlockSize) % d.map_capacity_
        = (d.map_head_ + (d.block_head_ + i) / kBlockSize) % d.map_capacity_
    · rw [h1, List.getElem?_set_self hbi]
      by_cases h2 : (d.block_head_ + j) % kBlockSize = (d.block_head_ + i) % kBlockSize
      · rw [h2, if_pos ⟨rfl, rfl⟩]
        simp only []
        rw [List.getElem?_set_self (by rw [hblen]; exact hoi)]
      · rw [if_neg (fun h => h2 h.2)]
        simp only [hget]
        rw [List.getElem?_set_ne (fun e => h2 e.symm)]
    · rw [if_neg (fun h => h1 h.1), List.getElem?_set_ne (fun e => h1 e.symm)]
/-- The subscript reads the cell. -/
theorem subscript_of_readCell {kBlockSize : Nat} {d d1 : Deque T} {i j : Nat}
    (h : d1.readCell kBlockSize j = d.readCell kBlockSize i) :
    d1.subscript kBlockSize j = d.subscript kBlockSize i := by
  simp [subscript, h]

/-- The cell of index `i` after the counters of the front have moved by one
element is the cell of index `i + 1` before. -/
theorem cellOf_front_moved (kBlockSize : Nat) (d d1 : Deque T) (i : Nat) (hk : 0 < kBlockSize)
    (hc : 0 < d.map_capacity_) (hh : d.block_head_ < kBlockSize)
    (h1 : d1.map_capacity_ = d.map_capacity_)
    (h2 : d1.map_head_ = (d.map_head_ + (1 + d.block_head_) / kBlockSize) % d.map_capacity_)
    (h3 : d1.block_head_ = (d.block_head_ + 1 % kBlockSize) % kBlockSize) :
    d1.cellOf kBlockSize i = d.cellOf kBlockSize (i + 1) := by
  rw [cellOf_pos kBlockSize d (i + 1) hc, cellOf_pos kBlockSize d1 i (by rw [h1]; exact hc),
    h1, h2, h3]
  have hb : (d.block_head_ + 1 % kBlockSize) % kBlockSize = (d.block_head_ + 1) % kBlockSize := by
    rw [Nat.add_mod d.block_head_ 1 kBlockSize, Nat.mod_eq_of_lt hh]
  rw [hb]
  have hsplit : d.block_head_ + (i + 1)
      = kBlockSize * ((1 + d.block_head_) / kBlockSize)
        + ((d.block_head_ + 1) % kBlockSize + i) := by
    have := Nat.div_add_mod (d.block_head_ + 1) kBlockSize
    rw [Nat.add_comm 1 d.block_head_]
    omega
  rw [hsplit, Nat.mul_add_div hk, Nat.mul_add_mod, Nat.mod_add_mod, Nat.add_assoc]

/-- `PopFront()` on a deque of two or more values: the first value is gone
and the others have moved down by one index. -/
theorem PopFront_holds (kBlockSize : Nat) (d : Deque T) (y : T) (ys : List T)
    (h : Holds kBlockSize d (y :: ys)) (hne : 0 < ys.length) :
    ∃ d1, d.PopFront kBlockSize = some d1 ∧ Holds kBlockSize d1 ys := by
  obtain ⟨m, hw, hml, hmb, hmr⟩ := writeCell_read kBlockSize d 0 none h.block_size
    h.capacity_pos h.map_length h.blocks
  have hsz : d.size_ = ys.length + 1 := by simpa using h.size_eq
  have hcap : d.map_capacity_ ≠ 0 := Nat.pos_iff_ne_zero.1 h.capacity_pos
  refine ⟨{ d with
    map_ := m
    map_size_ := wsub d.map_size_ ((1 + d.block_head_) / kBlockSize)
    map_head_ := (d.map_head_ + (1 + d.block_head_) / kBlockSize) % d.map_capacity_
    block_head_ := (d.block_head_ + 1 % kBlockSize) % kBlockSize
    size_ := ys.length }, ?_, ?_⟩
  · have hw1 : wsub 1 0 = 1 := by simp [wsub]
    have hw2 : wsub (wsub (d.size_ + 1) (0 + 1)) 1 = ys.length := by
      rw [wsub_of_le (show 0 + 1 ≤ d.size_ + 1 by omega),
        wsub_of_le (show 1 ≤ d.size_ + 1 - (0 + 1) by omega)]
      omega
    have hw3 : wsub d.size_ 1 = ys.length := by
      rw [wsub_of_le (show 1 ≤ d.size_ by omega)]
      omega
    have hn0 : ¬ (0 = d.size_) := by omega
    have h10 : ¬ ((1 : Nat) = 0) := by decide
    simp only [PopFront, Erase, hw1, destroyAll, hw, if_neg hn0, if_neg h10, hw2, if_pos hne,
      Nat.zero_add, Nat.sub_self, moveUp, if_neg hcap, hw3, Option.map_some']
  · refine ⟨h.block_size, h.capacity_pos, hml, hmb, Nat.mod_lt _ h.block_size, rfl, ?_, ?_⟩
    · show (d.block_head_ + 1 % kBlockSize) % kBlockSize + ys.length
        ≤ d.map_capacity_ * kBlockSize
      have := h.fits
      have h1 : (d.block_head_ + 1 % kBlockSize) % kBlockSize ≤ d.block_head_ + 1 := by
        refine le_trans (Nat.mod_le _ _) ?_
        have := Nat.mod_le 1 kBlockSize
        omega
      omega
    · intro i hi
      have hcell := cellOf_front_moved kBlockSize d
        ({ d with
          map_ := m
          map_size_ := wsub d.map_size_ ((1 + d.block_head_) / kBlockSize)
          map_head_ := (d.map_head_ + (1 + d.block_head_) / kBlockSize) % d.map_capacity_
          block_head_ := (d.block_head_ + 1 % kBlockSize) % kBlockSize
          size_ := ys.length } : Deque T) i h.block_size h.capacity_pos h.head_lt rfl rfl rfl
      have hfit := h.fits
      have hne2 : d.cellOf kBlockSize (i + 1) ≠ d.cellOf kBlockSize 0 := by
        intro e
        have := cellOf_inj kBlockSize d (i + 1) 0 h.block_size h.capacity_pos (by omega)
          (by omega) e
        omega
      have hread : ({ d with
          map_ := m
          map_size_ := wsub d.map_size_ ((1 + d.block_head_) / kBlockSize)
          map_head_ := (d.map_head_ + (1 + d.block_head_) / kBlockSize) % d.map_capacity_
          block_head_ := (d.block_head_ + 1 % kBlockSize) % kBlockSize
          size_ := ys.length } : Deque T).readCell kBlockSize i
          = d.readCell kBlockSize (i + 1) := by
        have h2 := hmr (i + 1)
        rw [if_neg hne2] at h2
        rw [← h2]
        simp only [readCell, hcell]
        rfl
      rw [subscript_of_readCell hread, h.cells (i + 1) (by simp; omega)]
      simp

/-- `PopFront()` on a deque of one value leaves it empty. -/
theorem PopFront_last (kBlockSize : Nat) (d : Deque T) (y : T)
    (h : Holds kBlockSize d [y]) :
    ∃ d1, d.PopFront kBlockSize = some d1 ∧ d1.size_ = 0 := by
  obtain ⟨m, hw, _, _, _⟩ := writeCell_read kBlockSize d 0 none h.block_size
    h.capacity_pos h.map_length h.blocks
  have hsz : d.size_ = 1 := by simpa using h.size_eq
  have hw1 : wsub 1 0 = 1 := by simp [wsub]
  have hw2 : wsub (wsub (d.size_ + 1) (0 + 1)) 1 = 0 := by
    rw [wsub_of_le (show 0 + 1 ≤ d.size_ + 1 by omega),
      wsub_of_le (show 1 ≤ d.size_ + 1 - (0 + 1) by omega)]
    omega
  have hw3 : wsub d.size_ 1 = 0 := by
    rw [wsub_of_le (show 1 ≤ d.size_ by omega)]
    omega
  have hmd : d.size_ - 1 = 0 := by omega
  have hn0 : ¬ (0 = d.size_) := by omega
  have h10 : ¬ ((1 : Nat) = 0) := by decide
  simp only [PopFront, Erase, hw1, destroyAll, hw, if_neg hn0, if_neg h10, hw2, lt_irrefl,
    if_false, Nat.zero_add, hmd, moveDown, hw3, Option.map_some']
  exact ⟨_, rfl, rfl⟩
/-- The quotient and the remainder of a successor. -/
theorem succ_div_mod (t k : Nat) (hk : 0 < k) :
    (t % k + 1 < k → (t + 1) % k = t % k + 1 ∧ (t + 1) / k = t / k) ∧
      (t % k + 1 = k → (t + 1) % k = 0 ∧ (t + 1) / k = t / k + 1) := by
  have e := Nat.div_add_mod t k
  refine ⟨fun h => ?_, fun h => ?_⟩
  · have e1 : t + 1 = k * (t / k) + (t % k + 1) := by omega
    rw [e1, Nat.mul_add_mod, Nat.mul_add_div hk, Nat.mod_eq_of_lt h, Nat.div_eq_of_lt h]
    exact ⟨rfl, rfl⟩
  · have e1 : t + 1 = k * (t / k + 1) + 0 := by
      rw [Nat.mul_add, Nat.mul_one]
      omega
    rw [e1, Nat.mul_add_mod, Nat.mul_add_div hk]
    simp

/-- The blocks that `GrowMap` takes over from a map whose head is its first
entry. -/
theorem takeBlocks_head (d : Deque T) (hh : d.map_head_ = 0)
    (hl : d.map_.length = d.map_capacity_) :
    ∀ (n i : Nat), i + n ≤ d.map_capacity_ →
      takeBlocks d n i = some ((d.map_.drop i).take n)
  | 0, _, _ => by simp [takeBlocks]
  | n + 1, i, h => by
    have hi : i < d.map_.length := by omega
    have hc : d.map_capacity_ ≠ 0 := by omega
    have hm : (d.map_head_ + i) % d.map_capacity_ = i := by
      rw [hh, Nat.zero_add]
      exact Nat.mod_eq_of_lt (by omega)
    have ih := takeBlocks_head d hh hl n (i + 1) (by omega)
    have hd : d.map_.drop i = d.map_[i] :: d.map_.drop (i + 1) := List.drop_eq_getElem_cons hi
    simp only [takeBlocks, if_neg hc, hm, List.getElem?_eq_getElem hi, ih, Option.map_some', hd,
      List.take_succ_cons]

/-- `Grow(kBack, 1)` on a deque filled by `PushBack` calls: there is room for
one more value at the back and the values stay where they are. -/
theorem Grow_back_pushed (kBlockSize : Nat) (d : Deque T) (ys : List T)
    (h : Pushed kBlockSize d ys) :
    ∃ g, d.Grow kBlockSize Position.kBack 1 = some g ∧ g.size_ = d.size_ ∧
      g.map_head_ = 0 ∧ g.block_head_ = d.block_head_ ∧
      g.block_tail_ = (d.block_head_ + ys.length) % kBlockSize ∧
      g.map_size_ = (d.block_head_ + ys.length) / kBlockSize + 1 ∧
      g.map_size_ ≤ g.map_capacity_ ∧ 0 < g.map_capacity_ ∧
      g.map_.length = g.map_capacity_ ∧ (∀ b ∈ g.map_, b.length = kBlockSize) ∧
      ∀ i, i < ys.length → g.readCell kBlockSize i = d.readCell kBlockSize i := by
  have hk := h.holds.block_size
  have hcp := h.holds.capacity_pos
  have hc : d.map_capacity_ ≠ 0 := Nat.pos_iff_ne_zero.1 hcp
  have hn := h.nonempty
  have ht : d.block_head_ + ys.length = (d.block_head_ + ys.length - 1) + 1 := by omega
  have hbt := h.block_tail
  have hms := h.map_size
  have hbtlt : d.block_tail_ < kBlockSize := by
    rw [hbt]
    exact Nat.mod_lt _ hk
  obtain ⟨ha, hb⟩ := succ_div_mod (d.block_head_ + ys.length - 1) kBlockSize hk
  rw [← ht, ← hbt] at ha hb
  have hfree : wsub kBlockSize (d.block_tail_ + 1) = kBlockSize - (d.block_tail_ + 1) :=
    wsub_of_le (by omega)
  by_cases hroom : d.block_tail_ + 1 < kBlockSize
  · -- room in the last block
    obtain ⟨h1, h2⟩ := ha hroom
    refine ⟨{ d with block_tail_ := d.block_tail_ + 1 }, ?_, rfl, h.map_head, rfl, h1.symm, ?_,
      h.map_size_le, hcp, h.holds.map_length, h.holds.blocks, fun i _ => rfl⟩
    · simp only [Grow, if_neg hc, hfree]
      rw [if_pos (show 1 ≤ kBlockSize - (d.block_tail_ + 1) by omega)]
    · show d.map_size_ = _
      rw [h2, hms]
  · have hfull : d.block_tail_ + 1 = kBlockSize := by omega
    obtain ⟨h1, h2⟩ := hb hfull
    have hfree0 : kBlockSize - (d.block_tail_ + 1) = 0 := by omega
    have hw1 : wsub 1 0 = 1 := by simp [wsub]
    have hw2 : wsub 1 1 = 0 := by simp [wsub]
    have hsz : d.size_ ≠ 0 := by
      rw [h.holds.size_eq]
      omega
    have htail : (d.block_tail_ + 1 % kBlockSize) % kBlockSize
        = (d.block_head_ + ys.length) % kBlockSize := by
      rw [h1, hbt, ← Nat.add_mod, ← ht, h1]
    have hwc : wsub d.map_capacity_ d.map_size_ = d.map_capacity_ - d.map_size_ :=
      wsub_of_le h.map_size_le
    by_cases hblocks : d.map_size_ < d.map_capacity_
    · -- a block of the map is free
      refine ⟨{ d with map_size_ := d.map_size_ + 1
                       block_tail_ := (d.block_tail_ + 1 % kBlockSize) % kBlockSize }, ?_, rfl,
        h.map_head, rfl, htail, ?_, ?_, hcp, h.holds.map_length, h.holds.blocks, fun i _ => rfl⟩
      · simp only [Grow, if_neg hc, hfree, hfree0, hw1, hw2, Nat.zero_div, Nat.zero_add, hwc]
        rw [if_neg (show ¬ (1 ≤ 0) by omega),
          if_pos (show 1 ≤ d.map_capacity_ - d.map_size_ by omega)]
        simp only [GrowBlocks, updateHeadTail, if_neg hsz]
      · show d.map_size_ + 1 = _
        rw [h2, hms]
      · show d.map_size_ + 1 ≤ d.map_capacity_
        omega
    · -- the map grows
      have hfullmap : d.map_size_ = d.map_capacity_ := by
        have := h.map_size_le
        omega
      have htake := takeBlocks_head d h.map_head h.holds.map_length d.map_size_ 0
        (by omega)
      have htake2 : takeBlocks d d.map_size_ 0 = some d.map_ := by
        rw [htake, List.drop_zero, List.take_of_length_le]
        rw [h.holds.map_length, hfullmap]
      have hmax : d.map_size_ ≤ max (2 * d.map_capacity_) (d.map_capacity_ + 1) := by
        rw [hfullmap]
        exact le_trans (Nat.le_succ _) (le_max_right _ _)
      refine ⟨{ d with
          map_ := d.map_ ++ List.replicate
            (max (2 * d.map_capacity_) (d.map_capacity_ + 1) - d.map_size_)
            (List.replicate kBlockSize none)
          map_capacity_ := max (2 * d.map_capacity_) (d.map_capacity_ + 1)
          map_head_ := 0
          map_size_ := d.map_size_ + 1
          block_tail_ := (d.block_tail_ + 1 % kBlockSize) % kBlockSize }, ?_, rfl, rfl, rfl,
        htail, ?_, ?_, ?_, ?_, ?_, ?_⟩
      · simp only [Grow, if_neg hc, hfree, hfree0, hw1, hw2, Nat.zero_div, Nat.zero_add, hwc]
        rw [if_neg (show ¬ (1 ≤ 0) by omega),
          if_neg (show ¬ (1 ≤ d.map_capacity_ - d.map_size_) by omega)]
        simp only [GrowMap, htake2, if_pos hmax, GrowBlocks, updateHeadTail, if_neg hsz]
      · show d.map_size_ + 1 = _
        rw [h2, hms]
      · show d.map_size_ + 1 ≤ max (2 * d.map_capacity_) (d.map_capacity_ + 1)
        rw [hfullmap]
        exact le_max_right _ _
      · show 0 < max (2 * d.map_capacity_) (d.map_capacity_ + 1)
        exact lt_of_lt_of_le (Nat.succ_pos _) (le_max_right _ _)
      · show (d.map_ ++ List.replicate _ _).length = max (2 * d.map_capacity_) (d.map_capacity_ + 1)
        rw [List.length_append, List.length_replicate, h.holds.map_length]
        omega
      · intro b hb
        rcases List.mem_append.1 hb with hb | hb
        · exact h.holds.blocks b hb
        · rw [List.eq_of_mem_replicate hb]
          simp
      · intro i hi
        have hq : (d.block_head_ + i) / kBlockSize < d.map_capacity_ := by
          have hle : (d.block_head_ + i) / kBlockSize
              ≤ (d.block_head_ + ys.length - 1) / kBlockSize :=
            Nat.div_le_div_right (by omega)
          omega
        have hq2 : (d.block_head_ + i) / kBlockSize
            < max (2 * d.map_capacity_) (d.map_capacity_ + 1) :=
          lt_of_lt_of_le hq (le_trans (Nat.le_succ _) (le_max_right _ _))
        simp only [readCell, cellOf, if_neg hc,
          if_neg (show ¬ (max (2 * d.map_capacity_) (d.map_capacity_ + 1) = 0) by omega),
          h.map_head, Nat.zero_add, Nat.mod_eq_of_lt hq, Nat.mod_eq_of_lt hq2]
        rw [List.getElem?_append_left (by rw [h.holds.map_length]; exact hq)]
/-- `PushBack(x)` on a deque filled by `PushBack` calls with the values `ys`
gives the deque of the values `ys ++ [x]`. -/
theorem PushBack_pushed (kBlockSize : Nat) (d : Deque T) (ys : List T) (x : T)
    (h : Pushed kBlockSize d ys) :
    ∃ d1, d.PushBack kBlockSize x = some d1 ∧ Pushed kBlockSize d1 (ys ++ [x]) := by
  obtain ⟨g, hg, hgs, hgh, hgb, hgt, hgm, hgle, hgc, hgl, hgbl, hgr⟩ :=
    Grow_back_pushed kBlockSize d ys h
  have hk := h.holds.block_size
  obtain ⟨m, hw, hml, hmb, hmr⟩ := writeCell_read kBlockSize g g.size_ (some x) hk hgc hgl hgbl
  have hsz : g.size_ = ys.length := by rw [hgs, h.holds.size_eq]
  have hfit : g.block_head_ + ys.length < g.map_capacity_ * kBlockSize := by
    have e := Nat.div_add_mod (d.block_head_ + ys.length) kBlockSize
    have hlt := Nat.mod_lt (d.block_head_ + ys.length) hk
    have hmul : kBlockSize * ((d.block_head_ + ys.length) / kBlockSize + 1)
        ≤ kBlockSize * g.map_capacity_ :=
      Nat.mul_le_mul_left _ (by rw [← hgm]; exact hgle)
    rw [Nat.mul_add, Nat.mul_one] at hmul
    rw [hgb, Nat.mul_comm]
    omega
  refine ⟨{ g with map_ := m, size_ := g.size_ + 1 }, ?_, ?_⟩
  · simp only [PushBack, hg, hw]
  · refine ⟨⟨hk, hgc, hml, hmb, ?_, ?_, ?_, ?_⟩, by simp, hgh, ?_, ?_, ?_, hgle⟩
    · show g.block_head_ < kBlockSize
      rw [hgb]
      exact h.holds.head_lt
    · show g.size_ + 1 = (ys ++ [x]).length
      simp [hsz]
    · show g.block_head_ + (g.size_ + 1) ≤ g.map_capacity_ * kBlockSize
      omega
    · intro i hi
      have hi2 : i < ys.length + 1 := by simpa using hi
      have hsub : ({ g with map_ := m, size_ := g.size_ + 1 } : Deque T).readCell kBlockSize i
          = ({ g with map_ := m } : Deque T).readCell kBlockSize i := rfl
      simp only [subscript, hsub, hmr i]
      by_cases hin : i = ys.length
      · subst hin
        rw [hsz, if_pos rfl]
        simp
      · have hlt : i < ys.length := by omega
        have hne : g.cellOf kBlockSize i ≠ g.cellOf kBlockSize g.size_ := by
          intro e
          have := cellOf_inj kBlockSize g i g.size_ hk hgc (by omega) (by omega) e
          omega
        rw [if_neg hne, hgr i hlt, List.getElem?_append_left hlt]
        have := h.holds.cells i hlt
        simpa [subscript] using this
    · show g.block_head_ = (kBlockSize - 1) / 2
      rw [hgb]
      exact h.block_head
    · show g.block_tail_ = (g.block_head_ + (ys ++ [x]).length - 1) % kBlockSize
      rw [hgt, hgb]
      simp
    · show g.map_size_ = (g.block_head_ + (ys ++ [x]).length - 1) / kBlockSize + 1
      rw [hgm, hgb]
      simp

/-- `PushBack(x)` on `Deque()`. -/
theorem PushBack_first (kBlockSize : Nat) (x : T) (hk : 0 < kBlockSize) :
    ∃ d1, (default : Deque T).PushBack kBlockSize x = some d1 ∧ Pushed kBlockSize d1 [x] := by
  have hw1 : wsub 1 0 = 1 := by simp [wsub]
  have hw2 : wsub 1 1 = 0 := by simp [wsub]
  have hw3 : wsub 0 0 = 0 := by simp [wsub]
  have hw4 : wsub (1 * kBlockSize) 1 = kBlockSize - 1 := by
    rw [Nat.one_mul]
    exact wsub_of_le hk
  have hw5 : wsub kBlockSize 1 = kBlockSize - 1 := wsub_of_le hk
  have hb0 : (kBlockSize - 1) / 2 < kBlockSize :=
    lt_of_le_of_lt (Nat.div_le_self _ _) (by omega)
  have hg : (default : Deque T).Grow kBlockSize Position.kBack 1
      = some ⟨[List.replicate kBlockSize none], 1, 1, 0, 0, (kBlockSize - 1) / 2,
        (kBlockSize - 1) / 2⟩ := by
    simp only [Grow, default, if_true, hw1, hw2, hw3, Nat.zero_div, Nat.zero_add]
    rw [if_neg (show ¬ (1 ≤ 0) by omega), if_neg (show ¬ (1 ≤ 0) by omega)]
    simp [GrowMap, takeBlocks, GrowBlocks, updateHeadTail, hw2, hw4, hw5, Nat.mod_eq_of_lt hb0]
  obtain ⟨m, hw, hml, hmb, hmr⟩ := writeCell_read kBlockSize
    (⟨[List.replicate kBlockSize none], 1, 1, 0, 0, (kBlockSize - 1) / 2,
      (kBlockSize - 1) / 2⟩ : Deque T) 0 (some x) hk Nat.one_pos rfl (by simp)
  refine ⟨⟨m, 1, 1, 0, 1, (kBlockSize - 1) / 2, (kBlockSize - 1) / 2⟩, ?_, ?_⟩
  · simp only [PushBack, hg, hw]
  · refine ⟨⟨hk, Nat.one_pos, hml, hmb, hb0, rfl, ?_, ?_⟩, by simp, rfl, rfl, ?_, ?_, le_refl _⟩
    · show (kBlockSize - 1) / 2 + 1 ≤ 1 * kBlockSize
      omega
    · intro i hi
      have hi0 : i = 0 := by simpa using hi
      subst hi0
      have hsub : (⟨m, 1, 1, 0, 1, (kBlockSize - 1) / 2, (kBlockSize - 1) / 2⟩ : Deque T).readCell
          kBlockSize 0 = (⟨m, 1, 1, 0, 0, (kBlockSize - 1) / 2,
            (kBlockSize - 1) / 2⟩ : Deque T).readCell kBlockSize 0 := rfl
      simp only [subscript, hsub, hmr 0]
      simp
    · show (kBlockSize - 1) / 2 = ((kBlockSize - 1) / 2 + [x].length - 1) % kBlockSize
      simp [Nat.mod_eq_of_lt hb0]
    · show 1 = ((kBlockSize - 1) / 2 + [x].length - 1) / kBlockSize + 1
      simp [Nat.div_eq_of_lt hb0]

/-- The `PushBack` calls of a list of values on a deque filled by `PushBack`
calls. -/
theorem pushAll_pushed (kBlockSize : Nat) :
    ∀ (xs : List T) (d : Deque T) (ys : List T), Pushed kBlockSize d ys →
      ∃ d1, pushAll kBlockSize d xs = some d1 ∧ Pushed kBlockSize d1 (ys ++ xs)
  | [], d, ys, h => ⟨d, rfl, by simpa using h⟩
  | x :: xs, d, ys, h => by
    obtain ⟨d1, h1, hp1⟩ := PushBack_pushed kBlockSize d ys x h
    obtain ⟨d2, h2, hp2⟩ := pushAll_pushed kBlockSize xs d1 (ys ++ [x]) hp1
    refine ⟨d2, ?_, by simpa using hp2⟩
    simp only [pushAll, h1, h2]

/-- The `PushBack` calls of a non-empty list of values on `Deque()`. -/
theorem pushAll_default (kBlockSize : Nat) (xs : List T) (hk : 0 < kBlockSize)
    (hx : xs ≠ []) :
    ∃ d, pushAll kBlockSize (default : Deque T) xs = some d ∧ Pushed kBlockSize d xs := by
  cases xs with
  | nil => exact absurd rfl hx
  | cons x xs =>
    obtain ⟨d1, h1, hp1⟩ := PushBack_first kBlockSize x hk
    obtain ⟨d2, h2, hp2⟩ := pushAll_pushed kBlockSize xs d1 [x] hp1
    refine ⟨d2, ?_, by simpa using hp2⟩
    simp only [pushAll, h1, h2]

end Deque

/-! ## Claims on the queue -/

namespace Queue

variable {T : Type}

/-- The `Push` calls of a queue are the `PushBack` calls of its container. -/
theorem pushAll_container (kBlockSize : Nat) :
    ∀ (xs : List T) (q : Queue T),
      pushAll kBlockSize q xs = (Deque.pushAll kBlockSize q.container_ xs).map (fun c => ⟨c⟩)
  | [], q => rfl
  | x :: xs, q => by
    cases h : q.container_.PushBack kBlockSize x with
    | none => simp [pushAll, Deque.pushAll, Push, h]
    | some c =>
      have ih := pushAll_container kBlockSize xs ⟨c⟩
      simp [pushAll, Deque.pushAll, Push, h, ih]

/-- The first `k` calls of `Pop()` on a queue of more than `k` values remove
the first `k` values. -/
theorem popN_holds (kBlockSize : Nat) :
    ∀ (k : Nat) (q : Queue T) (ys : List T), Deque.Holds kBlockSize q.container_ ys →
      k < ys.length →
      ∃ q1, popN kBlockSize k q = some q1 ∧ Deque.Holds kBlockSize q1.container_ (ys.drop k)
  | 0, q, ys, h, _ => ⟨q, rfl, by simpa using h⟩
  | k + 1, q, [], _, hk => by simp at hk
  | k + 1, q, y :: ys, h, hk => by
    have hk1 : k < ys.length := by simpa using hk
    obtain ⟨d1, h1, hd1⟩ := Deque.PopFront_holds kBlockSize q.container_ y ys h (by omega)
    obtain ⟨q2, h2, hq2⟩ := popN_holds kBlockSize k ⟨d1⟩ ys hd1 hk1
    refine ⟨q2, ?_, by simpa using hq2⟩
    simp only [popN, Pop, h1, Option.map_some', h2]

/-- As many calls of `Pop()` as the queue has values leave it empty. -/
theorem popN_all (kBlockSize : Nat) :
    ∀ (ys : List T) (q : Queue T), Deque.Holds kBlockSize q.container_ ys → ys ≠ [] →
      ∃ q1, popN kBlockSize ys.length q = some q1 ∧ q1.Empty = true
  | [], _, _, hne => absurd rfl hne
  | [y], q, h, _ => by
    obtain ⟨d1, h1, hd1⟩ := Deque.PopFront_last kBlockSize q.container_ y h
    refine ⟨⟨d1⟩, ?_, ?_⟩
    · simp only [List.length_singleton, popN, Pop, h1, Option.map_some']
    · simp [Empty, Deque.Empty, hd1]
  | y :: y2 :: ys, q, h, _ => by
    obtain ⟨d1, h1, hd1⟩ := Deque.PopFront_holds kBlockSize q.container_ y (y2 :: ys) h
      (by simp)
    obtain ⟨q2, h2, hq2⟩ := popN_all kBlockSize (y2 :: ys) ⟨d1⟩ hd1 (by simp)
    refine ⟨q2, ?_, hq2⟩
    simp only [List.length_cons] at h2 ⊢
    simp only [popN, Pop, h1, Option.map_some']
    simpa [popN] using h2

/-- C30: for every block size and every non-empty sequence `xs`, the `Push`
calls of the values of `xs` in order on `Queue()` are defined and give a queue
with `Front() == xs[0]` and `Back()` the last value of `xs`; on that queue
`k < |xs|` calls of `Pop()` are defined and give a queue with
`Front() == xs[k]` and `Size() == |xs| - k`, and `|xs|` calls of `Pop()` give a
queue that is `Empty()`. -/
theorem push_then_pop_fifo (kBlockSize : Nat) (xs : List T) (hk : 0 < kBlockSize)
    (hx : xs ≠ []) :
    ∃ q, pushAll kBlockSize (default : Queue T) xs = some q ∧
      q.Front kBlockSize = xs.head? ∧ q.Back kBlockSize = xs.getLast? ∧
      q.Size = xs.length ∧
      (∀ k, k < xs.length → ∃ q1, popN kBlockSize k q = some q1 ∧
        q1.Front kBlockSize = xs[k]? ∧ q1.Size = xs.length - k) ∧
      ∃ q2, popN kBlockSize xs.length q = some q2 ∧ q2.Empty = true := by
  obtain ⟨d, hd, hp⟩ := Deque.pushAll_default kBlockSize xs hk hx
  have hH := hp.holds
  have hn := hp.nonempty
  refine ⟨⟨d⟩, ?_, ?_, ?_, hH.size_eq, ?_, popN_all kBlockSize xs ⟨d⟩ hH hx⟩
  · rw [pushAll_container]
    show (Deque.pushAll kBlockSize Deque.default xs).map _ = _
    rw [hd]
    rfl
  · show d.subscript kBlockSize 0 = _
    rw [hH.cells 0 hn]
    cases xs with
    | nil => exact absurd rfl hx
    | cons x xs => simp
  · show d.subscript kBlockSize (wsub d.size_ 1) = _
    rw [hH.size_eq, Deque.wsub_of_le (show 1 ≤ xs.length by omega), hH.cells _ (by omega),
      List.getLast?_eq_getElem?]
  · intro k hk1
    obtain ⟨q1, h1, hq1⟩ := popN_holds kBlockSize k ⟨d⟩ xs hH hk1
    refine ⟨q1, h1, ?_, ?_⟩
    · show q1.container_.subscript kBlockSize 0 = _
      rw [hq1.cells 0 (by simp; omega)]
      simp
    · show q1.container_.size_ = _
      rw [hq1.size_eq]
      simp

/-- Witness of C30 on `Queue<int>` (`kBlockSize == 4`) with the values
1, 2, 3, 4, 5, which cross the boundary of the first block. -/
theorem push_then_pop_fifo_witness :
    0 < 4 ∧ [1, 2, 3, 4, 5] ≠ ([] : List Nat) ∧
      ∃ q, pushAll 4 (default : Queue Nat) [1, 2, 3, 4, 5] = some q ∧
        q.Front 4 = [1, 2, 3, 4, 5].head? ∧ q.Back 4 = [1, 2, 3, 4, 5].getLast? ∧
        q.Size = [1, 2, 3, 4, 5].length ∧
        (∀ k, k < [1, 2, 3, 4, 5].length → ∃ q1, popN 4 k q = some q1 ∧
          q1.Front 4 = [1, 2, 3, 4, 5][k]? ∧ q1.Size = [1, 2, 3, 4, 5].length - k) ∧
        ∃ q2, popN 4 [1, 2, 3, 4, 5].length q = some q2 ∧ q2.Empty = true :=
  ⟨by decide, by decide, push_then_pop_fifo 4 [1, 2, 3, 4, 5] (by decide) (by decide)⟩

end Queue

/-! ## The binary heap -/

namespace BinaryHeap

variable {T : Type}

/-- A strict weak order is asymmetric. -/
theorem swo_asymm {lt : T → T → Bool} (hlt : StrictWeakOrder lt) {x y : T}
    (h : lt x y = true) : lt y x = false := by
  cases hyx : lt y x with
  | false => rfl
  | true =>
    have := hlt.trans x y x h hyx
    rw [hlt.irrefl x] at this
    exact absurd this (by decide)

/-- The complement of a strict weak order is transitive. -/
theorem swo_neg_trans {lt : T → T → Bool} (hlt : StrictWeakOrder lt) {x y z : T}
    (h1 : lt x y = false) (h2 : lt y z = false) : lt x z = false := by
  cases hxz : lt x z with
  | false => rfl
  | true =>
    have hyx : lt y x = false := by
      cases hyx : lt y x with
      | false => rfl
      | true =>
        have := hlt.trans y x z hyx hxz
        rw [h2] at this
        exact absurd this (by decide)
    have hzy : lt z y = false := by
      cases hzy : lt z y with
      | false => rfl
      | true =>
        have := hlt.trans x z y hxz hzy
        rw [h1] at this
        exact absurd this (by decide)
    have := (hlt.equiv_trans x y z h1 hyx h2 hzy).1
    rw [hxz] at this
    exact absurd this (by decide)

/-- The elements of a heap whose array is well-formed. -/
theorem toList_length {h : BinaryHeap T} (hw : h.array_.WF) : h.toList.length = h.Size :=
  (DynamicArray.WF_take hw).2

/-- One test of `Heapify` on a well-formed array: the child is chosen when it
exists and is not below the current largest element. -/
theorem pickLargest_spec (lt : T → T → Bool) {h : BinaryHeap T} (hw : h.array_.WF)
    (child largest : Nat) (hl : largest < h.Size) (_hne : child ≠ largest) :
    ∃ r, pickLargest lt h child largest = some r ∧
      ((r = child ∧ child < h.Size ∧
          ∀ c g, h.toList[child]? = some c → h.toList[largest]? = some g → lt c g = false) ∨
        (r = largest ∧
          ∀ c g, h.toList[child]? = some c → h.toList[largest]? = some g → lt c g = true)) := by
  have hlen := toList_length hw
  unfold pickLargest
  by_cases hc : child < h.Size
  · have hc2 : child < h.toList.length := by omega
    have hl2 : largest < h.toList.length := by omega
    have e1 : h.array_.subscript child = some h.toList[child] := by
      rw [DynamicArray.subscript_toList hw hc]
      exact List.getElem?_eq_getElem hc2
    have e2 : h.array_.subscript largest = some h.toList[largest] := by
      rw [DynamicArray.subscript_toList hw hl]
      exact List.getElem?_eq_getElem hl2
    rw [if_pos hc, e1, e2]
    simp only [List.getElem?_eq_getElem hc2, List.getElem?_eq_getElem hl2, Option.some.injEq]
    cases hlt : lt h.toList[child] h.toList[largest] with
    | false =>
      refine ⟨child, by simp, Or.inl ⟨rfl, hc, ?_⟩⟩
      intro c g e1 e2
      rw [← e1, ← e2]
      exact hlt
    | true =>
      refine ⟨largest, by simp, Or.inr ⟨rfl, ?_⟩⟩
      intro c g e1 e2
      rw [← e1, ← e2]
      exact hlt
  · rw [if_neg hc]
    refine ⟨largest, rfl, Or.inr ⟨rfl, ?_⟩⟩
    intro c g e1 _
    rw [List.getElem?_eq_none (by omega)] at e1
    exact absurd e1 (by simp)

/-- The two tests of `Heapify(i)`: the chosen index holds an element that is
not below the element at `i` and not below the children of `i`. -/
theorem select_spec (lt : T → T → Bool) (hlt : StrictWeakOrder lt) {h : BinaryHeap T}
    (hw : h.array_.WF) {i : Nat} (hi : i < h.Size) :
    ∃ r1 m, pickLargest lt h (2 * i + 1) i = some r1 ∧
      pickLargest lt h (2 * i + 2) r1 = some m ∧
      (m = i ∨ ((m = 2 * i + 1 ∨ m = 2 * i + 2) ∧ m < h.Size)) ∧
      (∀ c x y, (c = 2 * i + 1 ∨ c = 2 * i + 2) → c ≠ m → h.toList[m]? = some x →
        h.toList[c]? = some y → lt x y = false) ∧
      (∀ x y, m ≠ i → h.toList[m]? = some x → h.toList[i]? = some y → lt x y = false) := by
  obtain ⟨r1, e1, h1⟩ := pickLargest_spec lt hw (2 * i + 1) i hi (by omega)
  have hr1 : r1 < h.Size := by
    rcases h1 with ⟨rfl, hc, _⟩ | ⟨rfl, _⟩
    · exact hc
    · exact hi
  have hr1ne : 2 * i + 2 ≠ r1 := by
    rcases h1 with ⟨rfl, _, _⟩ | ⟨rfl, _⟩ <;> omega
  obtain ⟨m, e2, h2⟩ := pickLargest_spec lt hw (2 * i + 2) r1 hr1 hr1ne
  refine ⟨r1, m, e1, e2, ?_, ?_, ?_⟩
  · rcases h2 with ⟨rfl, hc, _⟩ | ⟨rfl, _⟩
    · exact Or.inr ⟨Or.inr rfl, hc⟩
    · rcases h1 with ⟨rfl, hc, _⟩ | ⟨rfl, _⟩
      · exact Or.inr ⟨Or.inl rfl, hc⟩
      · exact Or.inl rfl
  · intro c x y hc hcm hx hy
    have hlen := toList_length hw
    obtain ⟨vi, hvi⟩ : ∃ vi, h.toList[i]? = some vi :=
      ⟨h.toList[i], List.getElem?_eq_getElem (by omega)⟩
    rcases h2 with ⟨rfl, _, hB⟩ | ⟨rfl, hB⟩
    · -- the right child is chosen
      have hc1 : c = 2 * i + 1 := by omega
      subst hc1
      rcases h1 with ⟨rfl, _, _⟩ | ⟨rfl, hA⟩
      · exact hB x y hx hy
      · exact swo_neg_trans hlt (hB x vi hx hvi) (swo_asymm hlt (hA y vi hy hvi))
    · rcases h1 with ⟨rfl, _, _⟩ | ⟨rfl, hA⟩
      · -- the left child is chosen
        have hc2 : c = 2 * i + 2 := by omega
        subst hc2
        exact swo_asymm hlt (hB y x hy hx)
      · -- the element at `i` stays
        rcases hc with rfl | rfl
        · exact swo_asymm hlt (hA y x hy hx)
        · exact swo_asymm hlt (hB y x hy hx)
  · intro x y hmi hx hy
    have hlen := toList_length hw
    rcases h2 with ⟨rfl, _, hB⟩ | ⟨rfl, hB⟩
    · rcases h1 with ⟨rfl, hc1, hA⟩ | ⟨rfl, _⟩
      · obtain ⟨vl, hvl⟩ : ∃ vl, h.toList[2 * i + 1]? = some vl :=
          ⟨h.toList[2 * i + 1], List.getElem?_eq_getElem (by omega)⟩
        exact swo_neg_trans hlt (hB x vl hx hvl) (hA vl y hvl hy)
      · exact hB x y hx hy
    · rcases h1 with ⟨rfl, _, hA⟩ | ⟨rfl, _⟩
      · exact hA x y hx hy
      · exact absurd rfl hmi
/-- `Heapify(i)` sifts the element at `i` down: when the heap property holds
at every node from `i0` on but `i`, and the parent of `i` is not below the
children of `i`, the call is defined within `Size() - i` levels of recursion,
permutes the elements, and the heap property holds at every node from `i0`
on. -/
theorem Heapify_spec (lt : T → T → Bool) (hlt : StrictWeakOrder lt) :
    ∀ (fuel : Nat) (h : BinaryHeap T) (i i0 : Nat), h.array_.WF → i < h.Size →
      h.Size - i ≤ fuel → i0 ≤ i →
      (∀ j, i0 ≤ j → j ≠ i → Above lt h.toList j) →
      (∀ p c x y, i0 ≤ p → (i = 2 * p + 1 ∨ i = 2 * p + 2) → (c = 2 * i + 1 ∨ c = 2 * i + 2) →
        h.toList[p]? = some x → h.toList[c]? = some y → lt x y = false) →
      ∃ h1, Heapify lt fuel h i = some h1 ∧ h1.array_.WF ∧ h1.Size = h.Size ∧
        h1.toList.Perm h.toList ∧ ∀ j, i0 ≤ j → Above lt h1.toList j
  | 0, h, i, i0, _, hi, hf, _, _, _ => by omega
  | fuel + 1, h, i, i0, hw, hi, hf, hi0, hP1, hP2 => by
    obtain ⟨r1, m, e1, e2, hm, hD1, hD2⟩ := select_spec lt hlt hw hi
    simp only [Heapify, e1, e2]
    by_cases hmi : m = i
    · -- the element stays at `i`
      subst hmi
      rw [if_neg (by simp)]
      refine ⟨h, rfl, hw, rfl, List.Perm.refl _, ?_⟩
      intro j hj
      by_cases hji : j = m
      · subst hji
        intro c x y hc hx hy
        exact hD1 c x y hc (by omega) hx hy
      · exact hP1 j hj hji
    · -- the element of the chosen child moves up
      rw [if_pos hmi]
      have hm2 : (m = 2 * i + 1 ∨ m = 2 * i + 2) ∧ m < h.Size := by
        rcases hm with h0 | h0
        · exact absurd h0 hmi
        · exact h0
      obtain ⟨b, hb, hbw, hbs, _, hbp, hbk⟩ := DynamicArray.swapCells_spec hw
        (i := i) (j := m) hi hm2.2
      simp only [hb]
      have hbk2 : ∀ k, (⟨b⟩ : BinaryHeap T).toList[k]? =
          if k = m then h.toList[i]? else if k = i then h.toList[m]? else h.toList[k]? := hbk
      have ih := Heapify_spec lt hlt fuel ⟨b⟩ m i0 hbw
        (by show m < b.size_; rw [hbs]; exact hm2.2)
        (by
          show b.size_ - m ≤ fuel
          rw [hbs]
          have : h.Size = h.array_.size_ := rfl
          omega)
        (by omega)
        (by
          intro j hj hjm c x y hc hx hy
          rw [hbk2] at hx hy
          by_cases hji : j = i
          · subst hji
            rw [if_neg (Ne.symm hmi), if_pos rfl] at hx
            by_cases hcm : c = m
            · rw [if_pos hcm] at hy
              exact hD2 x y hmi hx hy
            · rw [if_neg hcm, if_neg (by omega)] at hy
              exact hD1 c x y hc hcm hx hy
          · rw [if_neg hjm, if_neg hji] at hx
            have hcm : c ≠ m := by omega
            rw [if_neg hcm] at hy
            by_cases hci : c = i
            · rw [if_pos hci] at hy
              exact hP2 j m x y hj (by omega) hm2.1 hx hy
            · rw [if_neg hci] at hy
              exact hP1 j hj hji c x y hc hx hy)
        (by
          intro p c x y hp hmp hc hx hy
          have hpi : p = i := by omega
          subst hpi
          rw [hbk2] at hx hy
          rw [if_neg (Ne.symm hmi), if_pos rfl] at hx
          rw [if_neg (by omega), if_neg (by omega)] at hy
          exact hP1 m (by omega) hmi c x y hc hx hy)
      obtain ⟨h1, e3, hw1, hs1, hp1, ha1⟩ := ih
      refine ⟨h1, e3, hw1, ?_, hp1.trans hbp, ha1⟩
      rw [hs1]
      exact hbs
/-- The loop of `HeapifyArray` from the index `i` down to 0, when the heap
property holds at every node after `i`: all calls are defined, the elements
are permuted and the result is a heap. -/
theorem heapifyLoop_spec (lt : T → T → Bool) (hlt : StrictWeakOrder lt) :
    ∀ (i : Nat) (h : BinaryHeap T), h.array_.WF → i < h.Size →
      (∀ j, i < j → Above lt h.toList j) →
      ∃ h1, heapifyLoop lt (i + 1) i h = some h1 ∧ h1.array_.WF ∧ h1.Size = h.Size ∧
        h1.toList.Perm h.toList ∧ IsHeap lt h1.toList
  | 0, h, hw, hi, ha => by
    obtain ⟨h1, e, hw1, hs1, hp1, ha1⟩ := Heapify_spec lt hlt h.Size h 0 0 hw hi (by omega)
      (Nat.le_refl _) (fun j _ hj => ha j (by omega)) (fun p c x y _ hp => by omega)
    refine ⟨h1, by simp only [heapifyLoop, e], hw1, hs1, hp1, ?_⟩
    intro j
    exact ha1 j (Nat.zero_le _)
  | i + 1, h, hw, hi, ha => by
    obtain ⟨h1, e, hw1, hs1, hp1, ha1⟩ := Heapify_spec lt hlt h.Size h (i + 1) (i + 1) hw hi
      (by omega) (Nat.le_refl _) (fun j hj hne => ha j (by omega))
      (fun p c x y hp hc => by omega)
    obtain ⟨h2, e2, hw2, hs2, hp2, ha2⟩ := heapifyLoop_spec lt hlt i h1 hw1 (by omega)
      (fun j hj => ha1 j (by omega))
    refine ⟨h2, ?_, hw2, by omega, hp2.trans hp1, ha2⟩
    simp only [heapifyLoop, e, Nat.add_sub_cancel]
    exact e2

/-- `HeapifyArray()` on a well-formed array is defined, permutes the elements
and establishes the heap property. -/
theorem HeapifyArray_spec (lt : T → T → Bool) (hlt : StrictWeakOrder lt) (h : BinaryHeap T)
    (hw : h.array_.WF) :
    ∃ h1, HeapifyArray lt h = some h1 ∧ h1.array_.WF ∧ h1.Size = h.Size ∧
      h1.toList.Perm h.toList ∧ IsHeap lt h1.toList := by
  have hlen := toList_length hw
  unfold HeapifyArray
  by_cases hs : h.Size ≤ 1
  · rw [if_pos hs]
    refine ⟨h, rfl, hw, rfl, List.Perm.refl _, ?_⟩
    intro j c x y hc _ hy
    rw [List.getElem?_eq_none (by omega)] at hy
    exact absurd hy (by simp)
  · rw [if_neg hs]
    refine heapifyLoop_spec lt hlt (h.Size / 2 - 1) h hw (by omega) ?_
    intro j hj c x y hc _ hy
    rw [List.getElem?_eq_none (by omega)] at hy
    exact absurd hy (by simp)

/-- The inner loop of `Erase` keeps the array well-formed. -/
theorem eraseOne_WF [DecidableEq T] (value : T) :
    ∀ (n i : Nat) (h : BinaryHeap T), h.array_.WF → i + n ≤ h.Size →
      ∃ h1, eraseOne value n i h = some h1 ∧ h1.array_.WF
  | 0, _, h, hw, _ => ⟨h, rfl, hw⟩
  | n + 1, i, h, hw, hin => by
    have hi : i < h.array_.size_ := by
      have : h.Size = h.array_.size_ := rfl
      omega
    obtain ⟨x, hx⟩ := Option.isSome_iff_exists.1 (hw.stored i hi)
    simp only [eraseOne, hx]
    by_cases hxv : x = value
    · rw [if_pos hxv]
      have hws : wsub h.Size 1 = h.array_.size_ - 1 := by
        show wsub h.array_.size_ 1 = _
        simp only [wsub]
        rw [if_pos (by omega)]
      rw [hws]
      obtain ⟨b, hb, hbw, hbs, _⟩ := DynamicArray.swapCells_spec hw (i := i)
        (j := h.array_.size_ - 1) hi (by omega)
      obtain ⟨b2, hb2, hbw2, _⟩ := DynamicArray.PopBack_spec hbw (by omega)
      exact ⟨⟨b2⟩, by simp only [hb, hb2, Option.map_some'], hbw2⟩
    · rw [if_neg hxv]
      exact eraseOne_WF value n (i + 1) h hw (by omega)

/-- The outer loop of `Erase` keeps the array well-formed. -/
theorem eraseAll_WF [DecidableEq T] :
    ∀ (xs : List T) (h : BinaryHeap T), h.array_.WF →
      ∃ h1, eraseAll xs h = some h1 ∧ h1.array_.WF
  | [], h, hw => ⟨h, rfl, hw⟩
  | x :: xs, h, hw => by
    obtain ⟨h1, e1, hw1⟩ := eraseOne_WF x h.Size 0 h hw (by omega)
    obtain ⟨h2, e2, hw2⟩ := eraseAll_WF xs h1 hw1
    exact ⟨h2, by simp only [eraseAll, e1, e2], hw2⟩

/-- `Pop()` on a well-formed heap that is not empty: the call is defined,
the element at the root is removed, and the result is a heap. -/
theorem Pop_spec (lt : T → T → Bool) (hlt : StrictWeakOrder lt) (h : BinaryHeap T)
    (hw : h.array_.WF) (hne : 0 < h.Size) :
    ∃ t h1, h.Top = some t ∧ h.Pop lt = some h1 ∧ h1.array_.WF ∧
      (t :: h1.toList).Perm h.toList ∧ h1.Size + 1 = h.Size ∧ IsHeap lt h1.toList := by
  have hlen := toList_length hw
  have hsz : h.Size = h.array_.size_ := rfl
  have h0 : 0 < h.array_.size_ := by omega
  have hws : wsub h.Size 1 = h.array_.size_ - 1 := by
    show wsub h.array_.size_ 1 = _
    simp only [wsub]
    rw [if_pos (by omega)]
  obtain ⟨b, hb, hbw, hbs, _, hbp, hbk⟩ := DynamicArray.swapCells_spec hw (i := 0)
    (j := h.array_.size_ - 1) h0 (by omega)
  obtain ⟨b2, hb2, hbw2, hbs2, hbl2⟩ := DynamicArray.PopBack_spec hbw (by omega)
  obtain ⟨h1, e1, hw1, hs1, hp1, ha1⟩ := HeapifyArray_spec lt hlt ⟨b2⟩ hbw2
  have hlen0 : 0 < h.toList.length := by omega
  have ht : h.Top = some h.toList[0] := by
    show h.array_.subscript 0 = _
    rw [DynamicArray.subscript_toList hw h0]
    exact List.getElem?_eq_getElem hlen0
  refine ⟨h.toList[0], h1, ht, by simp only [Pop, hws, hb, hb2, e1], hw1, ?_, ?_, ha1⟩
  · -- the elements
    have hbl : b.toList.length = b.size_ := (DynamicArray.WF_take hbw).2
    have hlast : b.toList[b.size_ - 1]? = some h.toList[0] := by
      have h5 := hbk (h.array_.size_ - 1)
      rw [if_pos rfl] at h5
      rw [hbs, h5]
      exact List.getElem?_eq_getElem hlen0
    have hsplit : b.toList = b.toList.take (b.size_ - 1) ++ [h.toList[0]] := by
      have h3 := List.take_append_drop (b.size_ - 1) b.toList
      have h4 : b.toList.drop (b.size_ - 1) = [h.toList[0]] := by
        apply List.ext_getElem?
        intro k
        rw [List.getElem?_drop]
        cases k with
        | zero => simpa using hlast
        | succ k =>
          rw [List.getElem?_eq_none (by omega)]
          simp
      rw [h4] at h3
      exact h3.symm
    have hp2 : (h.toList[0] :: b2.toList).Perm b.toList := by
      rw [hbl2]
      conv_rhs => rw [hsplit]
      exact (List.perm_append_singleton _ _).symm
    exact ((List.Perm.cons _ hp1).trans hp2).trans hbp
  · show h1.Size + 1 = h.Size
    rw [hs1]
    show b2.size_ + 1 = h.array_.size_
    omega

/-- Every heap produced by the public operations has a well-formed array
that satisfies the heap property. -/
theorem Made_heap [DecidableEq T] (lt : T → T → Bool) (hlt : StrictWeakOrder lt)
    {h : BinaryHeap T} (hm : Made lt h) : h.array_.WF ∧ IsHeap lt h.toList := by
  induction hm with
  | default =>
    refine ⟨DynamicArray.WF_default, ?_⟩
    intro j c x y _ hx _
    simp [toList, DynamicArray.toList, default, DynamicArray.default] at hx
  | ofList list e =>
    obtain ⟨a, ha, haw, _⟩ := DynamicArray.ofList_spec list
    simp only [ofList, ha] at e
    obtain ⟨h1, e1, hw1, _, _, hh1⟩ := HeapifyArray_spec lt hlt ⟨a⟩ haw
    rw [e1, Option.some.injEq] at e
    subst e
    exact ⟨hw1, hh1⟩
  | assignList list _ e ih =>
    obtain ⟨a, ha, haw, _⟩ := DynamicArray.assignList_spec ih.1 list
    simp only [assignList, ha] at e
    obtain ⟨h1, e1, hw1, _, _, hh1⟩ := HeapifyArray_spec lt hlt ⟨a⟩ haw
    rw [e1, Option.some.injEq] at e
    subst e
    exact ⟨hw1, hh1⟩
  | insert xs _ e ih =>
    obtain ⟨a, r, ha, haw, _⟩ := DynamicArray.Insert_end_spec ih.1 xs
    simp only [InsertRange, ha] at e
    obtain ⟨h1, e1, hw1, _, _, hh1⟩ := HeapifyArray_spec lt hlt ⟨a⟩ haw
    rw [e1, Option.some.injEq] at e
    subst e
    exact ⟨hw1, hh1⟩
  | erase xs _ e ih =>
    obtain ⟨h2, e2, hw2⟩ := eraseAll_WF xs _ ih.1
    simp only [EraseRange, e2] at e
    obtain ⟨h1, e1, hw1, _, _, hh1⟩ := HeapifyArray_spec lt hlt h2 hw2
    rw [e1, Option.some.injEq] at e
    subst e
    exact ⟨hw1, hh1⟩
  | pop hm' e ih =>
    rename_i h0 h1
    by_cases hs : 0 < h0.Size
    · obtain ⟨t, h2, _, e2, hw2, _, _, hh2⟩ := Pop_spec lt hlt h0 ih.1 hs
      rw [e2, Option.some.injEq] at e
      subst e
      exact ⟨hw2, hh2⟩
    · have hz : h0.array_.size_ = 0 := by
        have : h0.Size = h0.array_.size_ := rfl
        omega
      have hnone : h0.array_.subscript 0 = none := by
        cases hs0 : h0.array_.subscript 0 with
        | none => rfl
        | some v =>
          exfalso
          simp only [Pop, DynamicArray.swapCells, hs0] at e
          cases hj : h0.array_.subscript (wsub h0.Size 1) with
          | none => simp [hj] at e
          | some w =>
            simp only [hj] at e
            have : (DynamicArray.PopBack ({ h0.array_ with
                data_ := (h0.array_.data_.set 0 (some w)).set (wsub h0.Size 1) (some v) }))
                = none := by
              simp [DynamicArray.PopBack, hz]
            simp [this] at e
      simp [Pop, DynamicArray.swapCells, hnone] at e

/-- The root of a heap is not below any element. -/
theorem root_not_below (lt : T → T → Bool) (hlt : StrictWeakOrder lt) (l : List T)
    (hh : IsHeap lt l) (t : T) (ht : l[0]? = some t) :
    ∀ (k : Nat) (x : T), l[k]? = some x → lt t x = false := by
  intro k
  induction k using Nat.strong_induction_on with
  | _ k ih =>
    intro x hx
    cases k with
    | zero =>
      rw [ht, Option.some.injEq] at hx
      rw [← hx]
      exact hlt.irrefl t
    | succ k =>
      have hk : k + 1 < l.length := by
        by_contra hc
        rw [List.getElem?_eq_none (by omega)] at hx
        exact absurd hx (by simp)
      have hp : k / 2 < l.length := by omega
      have h1 := ih (k / 2) (by omega) l[k / 2] (List.getElem?_eq_getElem hp)
      have h2 := hh (k / 2) (k + 1) l[k / 2] x (by omega) (List.getElem?_eq_getElem hp) hx
      exact swo_neg_trans hlt h1 h2
/-- `std::less<int>` is a strict weak order. -/
theorem lessNat_strictWeakOrder : StrictWeakOrder lessNat := by
  refine ⟨fun x => ?_, fun x y z h1 h2 => ?_, fun x y z h1 h2 h3 h4 => ?_⟩
  · simp [lessNat]
  · simp only [lessNat, decide_eq_true_eq] at h1 h2 ⊢
    omega
  · simp only [lessNat, decide_eq_false_iff_not] at h1 h2 h3 h4 ⊢
    omega

/-- `std::greater<int>` is a strict weak order. -/
theorem greaterNat_strictWeakOrder : StrictWeakOrder greaterNat := by
  refine ⟨fun x => ?_, fun x y z h1 h2 => ?_, fun x y z h1 h2 h3 h4 => ?_⟩
  · simp [greaterNat]
  · simp only [greaterNat, decide_eq_true_eq] at h1 h2 ⊢
    omega
  · simp only [greaterNat, decide_eq_false_iff_not] at h1 h2 h3 h4 ⊢
    omega

/-- The element at the root of a non-empty heap produced by the public
operations is not below any stored element. -/
theorem Made_top [DecidableEq T] (lt : T → T → Bool) (h : BinaryHeap T)
    (hlt : StrictWeakOrder lt) (hm : Made lt h) (hne : h.Empty = false) :
    ∃ t, h.Top = some t ∧ t ∈ h.toList ∧ ∀ x ∈ h.toList, lt t x = false := by
  obtain ⟨hw, hh⟩ := Made_heap lt hlt hm
  have hlen := toList_length hw
  have hs : 0 < h.array_.size_ := by
    have : h.array_.size_ ≠ 0 := by
      simpa [Empty, DynamicArray.Empty] using hne
    omega
  have hl0 : 0 < h.toList.length := by
    rw [hlen]
    exact hs
  have h0 : h.toList[0]? = some h.toList[0] := List.getElem?_eq_getElem hl0
  refine ⟨h.toList[0], ?_, List.getElem_mem _, ?_⟩
  · show h.array_.subscript 0 = _
    rw [DynamicArray.subscript_toList hw hs]
    exact h0
  · intro x hx
    obtain ⟨k, hk, rfl⟩ := List.getElem_of_mem hx
    exact root_not_below lt hlt h.toList hh _ h0 k _ (List.getElem?_eq_getElem hk)

/-- With `std::less` the root of a non-empty heap is a maximum of the stored
elements. -/
theorem top_maximum_less (h : BinaryHeap Nat) (hm : Made lessNat h) (hne : h.Empty = false) :
    ∃ t, h.Top = some t ∧ t ∈ h.toList ∧ ∀ x ∈ h.toList, x ≤ t := by
  obtain ⟨t, h1, h2, h3⟩ := Made_top lessNat h lessNat_strictWeakOrder hm hne
  refine ⟨t, h1, h2, fun x hx => ?_⟩
  have := h3 x hx
  simp only [lessNat, decide_eq_false_iff_not] at this
  omega

/-- With `std::greater` the root of a non-empty heap is a minimum of the
stored elements. -/
theorem top_minimum_greater (h : BinaryHeap Nat) (hm : Made greaterNat h)
    (hne : h.Empty = false) :
    ∃ t, h.Top = some t ∧ t ∈ h.toList ∧ ∀ x ∈ h.toList, t ≤ x := by
  obtain ⟨t, h1, h2, h3⟩ := Made_top greaterNat h greaterNat_strictWeakOrder hm hne
  refine ⟨t, h1, h2, fun x hx => ?_⟩
  have := h3 x hx
  simp only [greaterNat, decide_eq_false_iff_not] at this
  omega

/-- C26: for every comparator that is a strict weak order and every non-empty
heap produced by the public operations (`BinaryHeap()`, construction from and
assignment of an initializer list, `Insert`, `Erase`, `Pop`), `Top()` is
defined, is one of the stored elements, and no stored element `x` satisfies
`Compare(Top(), x)`. -/
theorem top_is_extreme [DecidableEq T] (lt : T → T → Bool) (h : BinaryHeap T)
    (hlt : StrictWeakOrder lt) (hm : Made lt h) (hne : h.Empty = false) :
    ∃ t, h.Top = some t ∧ t ∈ h.toList ∧ ∀ x ∈ h.toList, lt t x = false :=
  Made_top lt h hlt hm hne

/-- Witness of C26 on `BinaryHeap<int>{3, 1, 4, 1, 5, 9, 2, 6}` with
`std::less`: `Top()` is 9. -/
theorem top_is_extreme_witness :
    StrictWeakOrder lessNat ∧ Made lessNat heapSample ∧ heapSample.Empty = false ∧
      ∃ t, heapSample.Top = some t ∧ t ∈ heapSample.toList ∧
        ∀ x ∈ heapSample.toList, lessNat t x = false :=
  have hof : ofList lessNat [3, 1, 4, 1, 5, 9, 2, 6] = some heapSample := rfl
  ⟨lessNat_strictWeakOrder, Made.ofList [3, 1, 4, 1, 5, 9, 2, 6] hof, rfl,
    top_is_extreme lessNat heapSample lessNat_strictWeakOrder
      (Made.ofList [3, 1, 4, 1, 5, 9, 2, 6] hof) rfl⟩

/-- C27: for every comparator that is a strict weak order and every heap with
a well-formed array that is not empty, `Pop()` is defined and removes one
occurrence of the value that `Top()` returned before the call: that value
together with the elements stored afterwards is a permutation of the elements
stored before, `Size()` has decreased by 1, and the array satisfies the heap
property again. -/
theorem pop_removes_top (lt : T → T → Bool) (h : BinaryHeap T) (hlt : StrictWeakOrder lt)
    (hw : h.array_.WF) (hne : h.Empty = false) :
    ∃ t h1, h.Top = some t ∧ h.Pop lt = some h1 ∧ (t :: h1.toList).Perm h.toList ∧
      h1.Size = h.Size - 1 ∧ IsHeap lt h1.toList ∧ h1.array_.WF := by
  have hs : 0 < h.Size := by
    have : h.array_.size_ ≠ 0 := by
      simpa [Empty, DynamicArray.Empty] using hne
    show 0 < h.array_.size_
    omega
  obtain ⟨t, h1, e1, e2, hw1, hp, hsz, hh⟩ := Pop_spec lt hlt h hw hs
  exact ⟨t, h1, e1, e2, hp, by omega, hh, hw1⟩

/-- Witness of C27 on `BinaryHeap<int>{3, 1, 4, 1, 5, 9, 2, 6}` with
`std::less`: `Pop()` removes 9. -/
theorem pop_removes_top_witness :
    StrictWeakOrder lessNat ∧ heapSample.array_.WF ∧ heapSample.Empty = false ∧
      heapSample.Top = some 9 ∧ heapSample.Pop lessNat = some heapPopped ∧
      ∃ t h1, heapSample.Top = some t ∧ heapSample.Pop lessNat = some h1 ∧
        (t :: h1.toList).Perm heapSample.toList ∧ h1.Size = heapSample.Size - 1 ∧
        IsHeap lessNat h1.toList ∧ h1.array_.WF :=
  ⟨lessNat_strictWeakOrder, ⟨by decide, by decide, by decide⟩, rfl, rfl, rfl,
    pop_removes_top lessNat heapSample lessNat_strictWeakOrder
      ⟨by decide, by decide, by decide⟩ rfl⟩

end BinaryHeap

/-! ## Claims on the linked list at the level of its pointers -/

namespace LinkedList

variable {T : Type}

/-- A loaded node lies inside the memory. -/
theorem load_lt {mem : List (Option (Node T))} {a : Nat} {nd : Node T}
    (h : load mem (some a) = some nd) : a < mem.length := by
  by_contra hlt
  have : mem[a]? = none := List.getElem?_eq_none (by omega)
  simp [load, this] at h

/-- Loading from a memory with one cell overwritten. -/
theorem load_set (mem : List (Option (Node T))) (a b : Nat) (nd : Node T)
    (ha : a < mem.length) :
    load (mem.set a (some nd)) (some b) = if b = a then some nd else load mem (some b) := by
  by_cases h : b = a
  · subst h
    simp [load, List.getElem?_set_self ha]
  · have h2 : a ≠ b := fun e => h e.symm
    simp [load, h, List.getElem?_set_ne h2]

/-- Loading from a memory with a new node allocated. -/
theorem load_append (mem : List (Option (Node T))) (b : Nat) (nd : Node T) :
    load (mem ++ [some nd]) (some b) =
      if b = mem.length then some nd else load mem (some b) := by
  by_cases h : b = mem.length
  · subst h
    simp [load]
  · rcases Nat.lt_or_gt_of_ne h with hlt | hgt
    · simp [load, h, List.getElem?_append_left hlt]
    · have h1 : (mem ++ [some nd])[b]? = none := List.getElem?_eq_none (by simp; omega)
      have h2 : mem[b]? = none := List.getElem?_eq_none (by omega)
      simp [load, h, h1, h2]

/-- The assignment `a->next = q` on a live node. -/
theorem setNext_live {mem : List (Option (Node T))} {a : Nat} {nd : Node T} (q : Option Nat)
    (h : load mem (some a) = some nd) :
    setNext mem (some a) q = some (mem.set a (some { nd with next := q })) := by
  simp [setNext, h]

/-- The assignment `a->prev = q` on a live node. -/
theorem setPrev_live {mem : List (Option (Node T))} {a : Nat} {nd : Node T} (q : Option Nat)
    (h : load mem (some a) = some nd) :
    setPrev mem (some a) q = some (mem.set a (some { nd with prev := q })) := by
  simp [setPrev, h]

/-- The memory after the three steps of `Insert(position, value)`: the new
node `n` stands between `x` and `p`, and nothing else has changed. -/
theorem insert_memory (mem : List (Option (Node T))) (x p : Nat) (v : T) (nx np : Node T)
    (hx : load mem (some x) = some nx) (hp : load mem (some p) = some np) :
    ∃ mem1 mem2 mem3,
      setNext (mem ++ [some ⟨some v, some x, none⟩]) (some x) (some mem.length) = some mem1 ∧
      setNext mem1 (some mem.length) (some p) = some mem2 ∧
      setPrev mem2 (some p) (some mem.length) = some mem3 ∧
      mem3.length = mem.length + 1 ∧
      (∀ u, nextOf mem3 u = if u = mem.length then some p
        else if u = x then some mem.length else nextOf mem u) ∧
      (∀ u, prevOf mem3 u = if u = p then some mem.length
        else if u = mem.length then some x else prevOf mem u) ∧
      (∀ u, deref mem3 (some u) = if u = mem.length then some v else deref mem (some u)) := by
  have hxl := load_lt hx
  have hpl := load_lt hp
  have hxn : x ≠ mem.length := by omega
  have hpn : p ≠ mem.length := by omega
  have hxn2 : mem.length ≠ x := fun e => hxn e.symm
  have hpn2 : mem.length ≠ p := fun e => hpn e.symm
  have l0 : ∀ b, load (mem ++ [some (⟨some v, some x, none⟩ : Node T)]) (some b) =
      if b = mem.length then some ⟨some v, some x, none⟩ else load mem (some b) :=
    fun b => load_append mem b _
  have hx0 : load (mem ++ [some (⟨some v, some x, none⟩ : Node T)]) (some x) = some nx := by
    rw [l0, if_neg hxn, hx]
  have e1 := setNext_live (some mem.length) hx0
  have len0 : (mem ++ [some (⟨some v, some x, none⟩ : Node T)]).length = mem.length + 1 := by
    simp
  have l1 : ∀ b, load ((mem ++ [some (⟨some v, some x, none⟩ : Node T)]).set x
      (some { nx with next := some mem.length })) (some b) =
      if b = x then some { nx with next := some mem.length }
      else if b = mem.length then some ⟨some v, some x, none⟩ else load mem (some b) := by
    intro b
    rw [load_set _ _ _ _ (by rw [len0]; omega), l0]
  have hn1 := l1 mem.length
  rw [if_neg (fun e => hxn e.symm), if_pos rfl] at hn1
  have e2 := setNext_live (some p) hn1
  have len1 : ((mem ++ [some (⟨some v, some x, none⟩ : Node T)]).set x
      (some { nx with next := some mem.length })).length = mem.length + 1 := by
    simp
  have l2 : ∀ b, load (((mem ++ [some (⟨some v, some x, none⟩ : Node T)]).set x
      (some { nx with next := some mem.length })).set mem.length
      (some ⟨some v, some x, some p⟩)) (some b) =
      if b = mem.length then some ⟨some v, some x, some p⟩
      else if b = x then some { nx with next := some mem.length }
      else load mem (some b) := by
    intro b
    rw [load_set _ _ _ _ (by rw [len1]; omega), l1]
    by_cases hb : b = mem.length
    · simp [hb]
    · simp [hb]
  have len2 : (((mem ++ [some (⟨some v, some x, none⟩ : Node T)]).set x
      (some { nx with next := some mem.length })).set mem.length
      (some ⟨some v, some x, some p⟩)).length = mem.length + 1 := by
    simp
  obtain ⟨np2, hp2, hp2v, hp2n⟩ : ∃ np2 : Node T, load (((mem ++
      [some (⟨some v, some x, none⟩ : Node T)]).set x
      (some { nx with next := some mem.length })).set mem.length
      (some ⟨some v, some x, some p⟩)) (some p) = some np2 ∧ np2.value = np.value ∧
      np2.next = (if p = x then some mem.length else np.next) := by
    rw [l2, if_neg hpn]
    by_cases hpx : p = x
    · subst hpx
      rw [hx] at hp
      cases hp
      simp
    · simp [hpx, hp]
  have e3 := setPrev_live (some mem.length) hp2
  refine ⟨_, _, _, e1, e2, e3, by simp, ?_, ?_, ?_⟩
  · intro u
    unfold nextOf
    rw [load_set _ _ _ _ (by rw [len2]; omega), l2]
    by_cases hu : u = p
    · subst hu
      simp only [if_pos rfl, Option.bind_some, hp2n, if_neg hpn]
      by_cases hux : u = x
      · simp [hux]
      · simp [hux, hp]
    · by_cases hun : u = mem.length
      · subst hun
        simp [hpn2]
      · by_cases hux : u = x
        · subst hux
          simp [hu, hun]
        · simp [hu, hun, hux]
  · intro u
    unfold prevOf
    rw [load_set _ _ _ _ (by rw [len2]; omega), l2]
    by_cases hu : u = p
    · simp [hu]
    · by_cases hun : u = mem.length
      · subst hun
        simp [hpn2]
      · by_cases hux : u = x
        · subst hux
          simp [hu, hun, hx]
        · simp [hu, hun, hux]
  · intro u
    unfold deref
    rw [load_set _ _ _ _ (by rw [len2]; omega), l2]
    by_cases hu : u = p
    · subst hu
      simp [hpn, hp2v, hp]
    · by_cases hun : u = mem.length
      · subst hun
        simp [hpn2]
      · by_cases hux : u = x
        · subst hux
          simp [hu, hun, hx]
        · simp [hu, hun, hux]
/-- A chain only depends on the `next` pointers of all its nodes but the last
and on the `prev` pointers of all its nodes but the first. -/
theorem chain_frame {mem mem1 : List (Option (Node T))} :
    ∀ (l : List Nat), (∀ u ∈ l.dropLast, nextOf mem1 u = nextOf mem u) →
      (∀ w ∈ l.tail, prevOf mem1 w = prevOf mem w) →
      List.Chain' (Link mem) l → List.Chain' (Link mem1) l
  | [], _, _, _ => List.chain'_nil
  | [a], _, _, _ => List.chain'_singleton a
  | a :: b :: l, hn, hp, hc => by
    rw [List.chain'_cons] at hc ⊢
    refine ⟨⟨?_, ?_⟩, chain_frame (b :: l) ?_ ?_ hc.2⟩
    · rw [hn a (by simp)]
      exact hc.1.1
    · rw [hp b (by simp)]
      exact hc.1.2
    · intro u hu
      exact hn u (by simp [hu])
    · intro w hw
      exact hp w (by simp at hw ⊢; exact Or.inr hw)

/-- Linking a new node `n` between the consecutive nodes `x` and `p` of a
circular chain gives the circular chain with `n` between them. -/
theorem chain_insert {mem mem1 : List (Option (Node T))} (head : Nat) (pre post : List Nat)
    (x p n : Nat) (hx : (head :: pre).getLast? = some x)
    (hp : (post ++ [head]).head? = some p) (hnd : (head :: (pre ++ post)).Nodup)
    (hn : n ∉ head :: (pre ++ post))
    (hc1 : List.Chain' (Link mem) (head :: pre))
    (hc2 : List.Chain' (Link mem) (post ++ [head]))
    (hN : ∀ u, nextOf mem1 u = if u = n then some p else if u = x then some n else nextOf mem u)
    (hP : ∀ u, prevOf mem1 u = if u = p then some n else if u = n then some x else prevOf mem u) :
    List.Chain (Link mem1) head ((pre ++ [n] ++ post) ++ [head]) := by
  have hxm : x ∈ head :: pre := List.mem_of_mem_getLast? hx
  have hpm : p ∈ post ++ [head] := List.mem_of_mem_head? hp
  have hnd1 : (head :: pre).Nodup := by
    have := hnd
    rw [← List.cons_append] at this
    exact (List.nodup_append.1 this).1
  have hnd2 : (post ++ [head]).Nodup := by
    have h1 : (head :: post).Nodup := by
      rw [List.nodup_cons] at hnd ⊢
      refine ⟨fun h => hnd.1 (by simp [h]), (List.nodup_append.1 hnd.2).2.1⟩
    exact (List.perm_append_singleton head post).nodup_iff.2 h1
  have hdisj : ∀ u ∈ head :: pre, ∀ w ∈ post, u ≠ w := by
    intro u hu w hw e
    subst e
    rw [← List.cons_append] at hnd
    exact (List.nodup_append.1 hnd).2.2 hu hw
  have hhead : head ∉ pre := (List.nodup_cons.1 hnd1).1
  have hxn : x ≠ n := fun e => hn (by
    rw [← e, ← List.cons_append]
    exact List.mem_append_left _ hxm)
  have hpn : p ≠ n := fun e => hn (by
    rw [← e]
    rcases List.mem_append.1 hpm with h | h
    · simp [h]
    · simp at h
      simp [h])
  have hnotn : ∀ u, u ∈ head :: pre ∨ u ∈ post ++ [head] → u ≠ n := by
    intro u hu e
    subst e
    apply hn
    rcases hu with h | h
    · rw [← List.cons_append]
      exact List.mem_append_left _ h
    · rcases List.mem_append.1 h with h | h
      · simp [h]
      · simp at h
        simp [h]
  -- the first segment
  have s1 : List.Chain' (Link mem1) (head :: pre) := by
    refine chain_frame _ ?_ ?_ hc1
    · intro u hu
      have hne : u ≠ x := by
        intro e
        subst e
        have hd := List.dropLast_append_getLast? _ hx
        rw [← hd] at hnd1
        exact (List.nodup_append.1 hnd1).2.2 hu (List.mem_singleton_self _)
      rw [hN, if_neg (hnotn u (Or.inl (List.dropLast_subset _ hu))), if_neg hne]
    · intro w hw
      have hw1 : w ∈ pre := by simpa using hw
      have hne : w ≠ p := by
        intro e
        subst e
        rcases List.mem_append.1 hpm with h | h
        · exact hdisj w (List.mem_cons_of_mem _ hw1) w h rfl
        · simp at h
          exact hhead (h ▸ hw1)
      rw [hP, if_neg hne, if_neg (hnotn w (Or.inl (List.mem_cons_of_mem _ hw1)))]
  -- the second segment
  have s2 : List.Chain' (Link mem1) (post ++ [head]) := by
    refine chain_frame _ ?_ ?_ hc2
    · intro u hu
      have hu1 : u ∈ post := by simpa using hu
      have hne : u ≠ x := fun e => hdisj x hxm u hu1 e.symm
      rw [hN, if_neg (hnotn u (Or.inr (List.mem_append_left _ hu1))), if_neg hne]
    · intro w hw
      obtain ⟨tl, htl⟩ := List.head?_eq_some_iff.1 hp
      rw [htl] at hw hnd2
      have hw1 : w ∈ tl := by simpa using hw
      have hne : w ≠ p := fun e => (List.nodup_cons.1 hnd2).1 (e ▸ hw1)
      have hwm : w ∈ post ++ [head] := by
        rw [htl]
        exact List.mem_cons_of_mem _ hw1
      rw [hP, if_neg hne, if_neg (hnotn w (Or.inr hwm))]
  have lxn : Link mem1 x n := by
    refine ⟨?_, ?_⟩
    · rw [hN, if_neg hxn, if_pos rfl]
    · rw [hP, if_neg (fun e => hpn e.symm), if_pos rfl]
  have lnp : Link mem1 n p := by
    refine ⟨?_, ?_⟩
    · rw [hN, if_pos rfl]
    · rw [hP, if_pos rfl]
  have s3 : List.Chain' (Link mem1) ([n] ++ (post ++ [head])) := by
    refine List.Chain'.append (List.chain'_singleton n) s2 ?_
    intro a ha b hb
    simp at ha
    rw [hp] at hb
    simp at hb
    subst ha
    subst hb
    exact lnp
  have s4 : List.Chain' (Link mem1) ((head :: pre) ++ ([n] ++ (post ++ [head]))) := by
    refine List.Chain'.append s1 s3 ?_
    intro a ha b hb
    rw [hx] at ha
    simp at ha hb
    subst ha
    subst hb
    exact lxn
  have e : (head :: pre) ++ ([n] ++ (post ++ [head])) = head :: ((pre ++ [n] ++ post) ++ [head]) := by
    simp
  rw [e] at s4
  exact s4
/-- The forward walk along a chain that ends at the sentinel visits the
values of its nodes in order. -/
theorem forwardLoop_chain (mem : List (Option (Node T))) (head : Nat) :
    ∀ (as : List Nat) (prev fuel : Nat), List.Chain (Link mem) prev (as ++ [head]) →
      head ∉ as → (∀ a ∈ as, ∃ v, deref mem (some a) = some v) → as.length < fuel →
      forwardLoop mem head fuel (nextOf mem prev) = some (contents mem as)
  | [], prev, fuel, hc, _, _, hf => by
    obtain ⟨k, rfl⟩ : ∃ k, fuel = k + 1 := ⟨fuel - 1, by simp at hf; omega⟩
    simp only [List.nil_append, List.chain_cons] at hc
    rw [hc.1.1]
    simp [forwardLoop, contents]
  | a :: as, prev, fuel, hc, hh, hv, hf => by
    obtain ⟨k, rfl⟩ : ∃ k, fuel = k + 1 := ⟨fuel - 1, by simp at hf; omega⟩
    simp only [List.cons_append, List.chain_cons] at hc
    have hne : a ≠ head := fun e => hh (by simp [e])
    obtain ⟨v, hva⟩ := hv a (by simp)
    have ih := forwardLoop_chain mem head as a k hc.2 (fun h => hh (by simp [h]))
      (fun b hb => hv b (by simp [hb])) (by simp at hf; omega)
    rw [hc.1.1]
    unfold deref at hva
    cases hl : load mem (some a) with
    | none => simp [hl] at hva
    | some nd =>
      simp only [hl] at hva
      have hnx : nextOf mem a = nd.next := by simp [nextOf, hl]
      rw [hnx] at ih
      have hc2 : contents mem (a :: as) = v :: contents mem as := by
        simp [contents, deref, hl, hva]
      simp [forwardLoop, hne, hl, hva, ih, hc2]

/-- The backward walk from the end of a chain down to its first node visits
the values of its nodes in the opposite order. -/
theorem backwardLoop_chain (mem : List (Option (Node T))) (a1 : Nat) (v1 : T)
    (hv1 : deref mem (some a1) = some v1) :
    ∀ (n : Nat) (mid : List Nat) (it fuel : Nat), mid.length = n →
      List.Chain (Link mem) a1 (mid ++ [it]) →
      it ≠ a1 → (∀ m ∈ mid, m ≠ a1) → (∀ a ∈ mid, ∃ v, deref mem (some a) = some v) →
      mid.length + 1 < fuel →
      backwardLoop mem (some a1) fuel (some it) = some ((contents mem (a1 :: mid)).reverse)
  | 0, mid, it, fuel, hlen, hc, hne, _, _, hf => by
    obtain ⟨k, rfl⟩ : ∃ k, fuel = k + 2 := ⟨fuel - 2, by omega⟩
    have hm : mid = [] := List.eq_nil_of_length_eq_zero hlen
    subst hm
    simp only [List.nil_append, List.chain_cons] at hc
    have hp := hc.1.2
    unfold prevOf at hp
    cases hl : load mem (some it) with
    | none => simp [hl] at hp
    | some nd =>
      simp only [hl, Option.some_bind] at hp
      unfold deref at hv1
      cases hl1 : load mem (some a1) with
      | none => simp [hl1] at hv1
      | some n1 =>
        simp only [hl1] at hv1
        simp [backwardLoop, hne, hl, hp, hl1, hv1, contents, deref]
  | n + 1, mid, it, fuel, hlen, hc, hne, hm1, hv, hf => by
    obtain ⟨k, rfl⟩ : ∃ k, fuel = k + 1 := ⟨fuel - 1, by omega⟩
    have hmid : mid ≠ [] := by
      intro e
      simp [e] at hlen
    obtain ⟨mid1, m, rfl⟩ : ∃ mid1 m, mid = mid1 ++ [m] :=
      ⟨mid.dropLast, mid.getLast hmid, (List.dropLast_concat_getLast hmid).symm⟩
    have hc1 : List.Chain (Link mem) a1 (mid1 ++ [m]) ∧ Link mem m it := by
      have := hc
      rw [List.append_assoc] at this
      have h2 := List.chain_split.1 this
      exact ⟨h2.1, by simpa using h2.2⟩
    have hlen1 : mid1.length = n := by simpa using hlen
    have ih := backwardLoop_chain mem a1 v1 hv1 n mid1 m k hlen1 hc1.1
      (hm1 m (by simp)) (fun b hb => hm1 b (by simp [hb])) (fun b hb => hv b (by simp [hb]))
      (by simp at hf; omega)
    have hp := hc1.2.2
    unfold prevOf at hp
    obtain ⟨vm, hvm⟩ := hv m (by simp)
    cases hl : load mem (some it) with
    | none => simp [hl] at hp
    | some nd =>
      simp only [hl, Option.some_bind] at hp
      have hvm2 := hvm
      unfold deref at hvm2
      cases hlm : load mem (some m) with
      | none => simp [hlm] at hvm2
      | some nm =>
        simp only [hlm] at hvm2
        have hcm : contents mem (a1 :: (mid1 ++ [m])) = contents mem (a1 :: mid1) ++ [vm] := by
          simp [contents, hvm, hv1, List.filterMap_append]
        simp [backwardLoop, hne, hl, hp, hlm, hvm2, ih, hcm]

/-- The contents of a prefix of the nodes. -/
theorem contents_take (mem : List (Option (Node T))) :
    ∀ (as : List Nat) (i : Nat), (∀ a ∈ as, ∃ v, deref mem (some a) = some v) →
      contents mem (as.take i) = (contents mem as).take i
  | [], i, _ => by simp [contents]
  | a :: as, 0, _ => by simp [contents]
  | a :: as, i + 1, hv => by
    obtain ⟨v, hva⟩ := hv a (by simp)
    have ih := contents_take mem as i (fun b hb => hv b (by simp [hb]))
    simp only [contents] at ih ⊢
    simp [hva, ih]

/-- The contents of a suffix of the nodes. -/
theorem contents_drop (mem : List (Option (Node T))) :
    ∀ (as : List Nat) (i : Nat), (∀ a ∈ as, ∃ v, deref mem (some a) = some v) →
      contents mem (as.drop i) = (contents mem as).drop i
  | [], i, _ => by simp [contents]
  | a :: as, 0, _ => by simp [contents]
  | a :: as, i + 1, hv => by
    obtain ⟨v, hva⟩ := hv a (by simp)
    have ih := contents_drop mem as i (fun b hb => hv b (by simp [hb]))
    simp only [contents] at ih ⊢
    simp [hva, ih]

/-- The contents only depend on the values of the nodes. -/
theorem contents_congr {mem mem1 : List (Option (Node T))} (as : List Nat)
    (h : ∀ a ∈ as, deref mem1 (some a) = deref mem (some a)) :
    contents mem1 as = contents mem as := by
  induction as with
  | nil => rfl
  | cons a as ih =>
    have ih2 := ih (fun b hb => h b (by simp [hb]))
    simp only [contents] at ih2 ⊢
    simp [List.filterMap_cons, h a (by simp), ih2]

/-- The nodes of a linked list are live. -/
theorem Linked_live {mem : List (Option (Node T))} {l : LinkedList} {as : List Nat}
    (h : Linked mem l as) : ∀ a ∈ l.head_ :: as, ∃ nd, load mem (some a) = some nd := by
  intro a ha
  rcases List.mem_cons.1 ha with rfl | ha
  · have hc := h.chain
    cases as with
    | nil =>
      simp only [List.nil_append, List.chain_cons] at hc
      have := hc.1.1
      unfold nextOf at this
      cases hl : load mem (some l.head_) with
      | none => simp [hl] at this
      | some nd => exact ⟨nd, rfl⟩
    | cons b bs =>
      simp only [List.cons_append, List.chain_cons] at hc
      have := hc.1.1
      unfold nextOf at this
      cases hl : load mem (some l.head_) with
      | none => simp [hl] at this
      | some nd => exact ⟨nd, rfl⟩
  · obtain ⟨v, hv⟩ := h.values a ha
    unfold deref at hv
    cases hl : load mem (some a) with
    | none => simp [hl] at hv
    | some nd => exact ⟨nd, rfl⟩

/-- A linked list has fewer nodes than the memory has cells. -/
theorem Linked_length_lt {mem : List (Option (Node T))} {l : LinkedList} {as : List Nat}
    (h : Linked mem l as) : as.length < mem.length := by
  have hsub : (l.head_ :: as) ⊆ List.range mem.length := by
    intro a ha
    obtain ⟨nd, hnd⟩ := Linked_live h a ha
    exact List.mem_range.2 (load_lt hnd)
  have := (List.subperm_of_subset h.nodup hsub).length_le
  simp at this
  omega

/-- The forward traversal of a linked list visits its contents. -/
theorem Linked_forward_eq {mem : List (Option (Node T))} {l : LinkedList} {as : List Nat}
    (h : Linked mem l as) : forward mem l = some (contents mem as) := by
  obtain ⟨nd, hnd⟩ := Linked_live h l.head_ (by simp)
  have hfw := forwardLoop_chain mem l.head_ as l.head_ (mem.length + 1) h.chain
    (List.nodup_cons.1 h.nodup).1 h.values (by have := Linked_length_lt h; omega)
  have hnx : nextOf mem l.head_ = nd.next := by simp [nextOf, hnd]
  rw [hnx] at hfw
  simp [forward, begin, hnd, hfw]

/-- The backward traversal of a linked list visits its contents in the
opposite order. -/
theorem Linked_backward_eq {mem : List (Option (Node T))} {l : LinkedList} {as : List Nat}
    (h : Linked mem l as) : backward mem l = some (contents mem as).reverse := by
  obtain ⟨nd, hnd⟩ := Linked_live h l.head_ (by simp)
  have hc := h.chain
  cases as with
  | nil =>
    simp only [List.nil_append, List.chain_cons] at hc
    have h1 := hc.1.1
    simp only [nextOf, hnd, Option.some_bind] at h1
    simp [backward, begin, hnd, h1, backwardLoop, contents]
  | cons a1 mid =>
    simp only [List.cons_append, List.chain_cons] at hc
    have h1 := hc.1.1
    simp only [nextOf, hnd, Option.some_bind] at h1
    obtain ⟨v1, hv1⟩ := h.values a1 (by simp)
    have hnd := h.nodup
    have hb := backwardLoop_chain mem a1 v1 hv1 mid.length mid l.head_ (mem.length + 1) rfl
      hc.2 (fun e => (List.nodup_cons.1 hnd).1 (by simp [e]))
      (fun m hm e => by
        subst e
        exact (List.nodup_cons.1 (List.nodup_cons.1 hnd).2).1 hm)
      (fun b hb => h.values b (by simp [hb]))
      (by have := Linked_length_lt h; simp at this; omega)
    simp [backward, begin, ‹load mem (some l.head_) = some nd›, h1, hb]
/-- The contents of a concatenation. -/
theorem contents_append (mem : List (Option (Node T))) (as bs : List Nat) :
    contents mem (as ++ bs) = contents mem as ++ contents mem bs := by
  simp [contents, List.filterMap_append]

/-- The steps of `Insert(position, value)` with the previous node `x` and the
next node `p`. -/
theorem Insert_steps (mem mem1 mem2 mem3 : List (Option (Node T))) (l : LinkedList)
    (position : Option Nat) (v : T) (x p : Nat)
    (hprev : (if l.size_ = 0 then some (some l.head_)
      else (load mem position).map (fun (n : Node T) => n.prev)) = some (some x))
    (hnext : position.getD l.head_ = p)
    (e1 : setNext (mem ++ [some ⟨some v, some x, none⟩]) (some x) (some mem.length) = some mem1)
    (e2 : setNext mem1 (some mem.length) (some p) = some mem2)
    (e3 : setPrev mem2 (some p) (some mem.length) = some mem3) :
    Insert mem l position v = some (mem3, { l with size_ := l.size_ + 1 }, some mem.length) := by
  unfold Insert InsertCount
  rw [if_neg (by decide), hprev]
  cases position with
  | none =>
    simp only [Option.getD_none] at hnext
    simp only [hnext, insertLoop, e1, e2, e3]
  | some q =>
    simp only [Option.getD_some] at hnext
    simp only [hnext, insertLoop, e1, e2, e3]

/-- The previous and the next node of a position of a list, with the two
segments of the chain they end and begin. -/
theorem Valid_position {mem : List (Option (Node T))} {l : LinkedList} {as : List Nat}
    {i : Nat} {position : Option Nat} (hV : Valid mem l as) (hi : i ≤ as.length)
    (hpos : (as ++ [l.head_])[i]? = position ∨ (as = [] ∧ begin mem l = some position)) :
    ∃ x p nx np, load mem (some x) = some nx ∧ load mem (some p) = some np ∧
      (l.head_ :: as.take i).getLast? = some x ∧ (as.drop i ++ [l.head_]).head? = some p ∧
      List.Chain' (Link mem) (l.head_ :: as.take i) ∧
      List.Chain' (Link mem) (as.drop i ++ [l.head_]) ∧
      (if l.size_ = 0 then some (some l.head_)
        else (load mem position).map (fun (n : Node T) => n.prev)) = some (some x) ∧
      position.getD l.head_ = p := by
  rcases hV with hL | ⟨hE, rfl⟩
  · -- a linked list
    have hpos1 : (as ++ [l.head_])[i]? = position := by
      rcases hpos with h | ⟨rfl, hb⟩
      · exact h
      · have hi0 : i = 0 := by simpa using hi
        subst hi0
        obtain ⟨nd, hnd⟩ := Linked_live hL l.head_ (by simp)
        have hc := hL.chain
        simp only [List.nil_append, List.chain_cons] at hc
        have h1 := hc.1.1
        simp only [nextOf, hnd, Option.some_bind] at h1
        simp only [begin, hnd, Option.map_some', h1, Option.some.injEq] at hb
        simp [← hb]
    have hsplit : l.head_ :: (as ++ [l.head_])
        = (l.head_ :: as.take i) ++ (as.drop i ++ [l.head_]) := by
      simp [← List.append_assoc, List.take_append_drop]
    have hc : List.Chain' (Link mem) (l.head_ :: (as ++ [l.head_])) := hL.chain
    rw [hsplit, List.chain'_append] at hc
    obtain ⟨x, hx⟩ : ∃ x, (l.head_ :: as.take i).getLast? = some x :=
      ⟨(l.head_ :: as.take i).getLast (by simp), List.getLast?_eq_getLast _ _⟩
    have hhd : (as.drop i ++ [l.head_]).head? = (as ++ [l.head_])[i]? := by
      rw [← List.drop_append_of_le_length hi, List.head?_drop]
    have hlt : i < (as ++ [l.head_]).length := by
      simp
      omega
    obtain ⟨p, hp⟩ : ∃ p, (as ++ [l.head_])[i]? = some p :=
      ⟨(as ++ [l.head_])[i], List.getElem?_eq_getElem hlt⟩
    have hlink := hc.2.2 x hx p (by rw [hhd]; exact hp)
    have hxm : x ∈ l.head_ :: as :=
      List.cons_subset_cons _ (List.take_subset _ _) (List.mem_of_mem_getLast? hx)
    obtain ⟨nx, hnx⟩ := Linked_live hL x hxm
    have hpp := hlink.2
    unfold prevOf at hpp
    cases hlp : load mem (some p) with
    | none => simp [hlp] at hpp
    | some np =>
      simp only [hlp, Option.some_bind] at hpp
      refine ⟨x, p, nx, np, hnx, hlp, hx, by rw [hhd]; exact hp, hc.1, hc.2.1, ?_, ?_⟩
      · by_cases hs : l.size_ = 0
        · have has : as = [] := List.eq_nil_of_length_eq_zero (by rw [← hL.size_eq]; exact hs)
          subst has
          simp at hx
          simp [hs, hx]
        · rw [if_neg hs, ← hpos1, hp, hlp]
          simp [hpp]
      · rw [← hpos1, hp]
        rfl
  · -- an emptied list
    obtain ⟨hs, ⟨nd, hnd⟩, hn, _⟩ := hE
    have hi0 : i = 0 := by simpa using hi
    subst hi0
    refine ⟨l.head_, l.head_, nd, nd, hnd, hnd, by simp, by simp, by simp, by simp, by simp [hs], ?_⟩
    rcases hpos with h | ⟨_, hb⟩
    · simp at h
      simp [← h]
    · simp only [nextOf, hnd, Option.some_bind] at hn
      simp only [begin, hnd, Option.map_some', hn, Option.some.injEq] at hb
      simp [← hb]
/-- C24: `Insert(position, v)` at the position of index `i <= s` of a list of
size `s` (the node `as[i]`, or `end()` for `i == s`; also `begin()` of an
empty list) is defined, returns the iterator to the new node, which holds
`v`, and leaves the list linked as a circular chain with the new node
between the first `i` nodes and the others: the forward traversal visits
`l[0..i) ++ [v] ++ l[i..s)`, the backward traversal visits the same elements
in the opposite order, `Size()` is `s + 1`, and every other node of the
memory keeps its value, so that the iterators obtained before still point at
the same elements. -/
theorem insert_value_links (mem : List (Option (Node T))) (l : LinkedList) (as : List Nat)
    (i : Nat) (position : Option Nat) (v : T) (hV : Valid mem l as) (hi : i ≤ as.length)
    (hpos : (as ++ [l.head_])[i]? = position ∨ (as = [] ∧ begin mem l = some position)) :
    ∃ mem1 l1, Insert mem l position v = some (mem1, l1, some mem.length) ∧
      Linked mem1 l1 (as.take i ++ [mem.length] ++ as.drop i) ∧
      forward mem1 l1 = some ((contents mem as).take i ++ [v] ++ (contents mem as).drop i) ∧
      backward mem1 l1 =
        some ((contents mem as).take i ++ [v] ++ (contents mem as).drop i).reverse ∧
      l.Size = as.length ∧ l1.Size = as.length + 1 ∧
      deref mem1 (some mem.length) = some v ∧
      (∀ a, a ≠ mem.length → deref mem1 (some a) = deref mem (some a)) ∧
      (Linked mem l as → forward mem l = some (contents mem as)) := by
  obtain ⟨x, p, nx, np, hx, hp, hxl, hph, hc1, hc2, hprev, hnext⟩ := Valid_position hV hi hpos
  obtain ⟨mem1, mem2, mem3, e1, e2, e3, _, hN, hP, hD⟩ := insert_memory mem x p v nx np hx hp
  -- the facts shared by the two states of the list
  have hnd : (l.head_ :: as).Nodup := by
    rcases hV with hL | ⟨_, rfl⟩
    · exact hL.nodup
    · simp
  have hvals : ∀ a ∈ as, ∃ w, deref mem (some a) = some w := by
    rcases hV with hL | ⟨_, rfl⟩
    · exact hL.values
    · simp
  have hsize : l.size_ = as.length := by
    rcases hV with hL | ⟨hE, rfl⟩
    · exact hL.size_eq
    · simpa using hE.1
  have hlive : ∀ a ∈ l.head_ :: as, a < mem.length := by
    rcases hV with hL | ⟨hE, rfl⟩
    · intro a ha
      obtain ⟨nd, h⟩ := Linked_live hL a ha
      exact load_lt h
    · intro a ha
      obtain ⟨nd, h⟩ := hE.2.1
      simp at ha
      subst ha
      exact load_lt h
  have hfresh : mem.length ∉ l.head_ :: as := fun h => Nat.lt_irrefl _ (hlive _ h)
  have htd : as.take i ++ as.drop i = as := List.take_append_drop i as
  have hchain := chain_insert l.head_ (as.take i) (as.drop i) x p mem.length hxl hph
    (by rw [htd]; exact hnd) (by rw [htd]; exact hfresh) hc1 hc2 hN hP
  have hL1 : Linked mem3 { l with size_ := l.size_ + 1 }
      (as.take i ++ [mem.length] ++ as.drop i) := by
    refine ⟨hchain, ?_, ?_, ?_⟩
    · have hperm : (l.head_ :: (as.take i ++ [mem.length] ++ as.drop i)).Perm
          (mem.length :: l.head_ :: as) := by
        have h1 : (as.take i ++ [mem.length] ++ as.drop i).Perm (mem.length :: as) := by
          have h2 : (as.take i ++ [mem.length] ++ as.drop i).Perm
              (mem.length :: (as.take i ++ as.drop i)) := by
            rw [List.append_assoc]
            exact List.perm_middle
          rw [htd] at h2
          exact h2
        exact (List.Perm.cons _ h1).trans (List.Perm.swap _ _ _)
      exact hperm.nodup_iff.2 (List.nodup_cons.2 ⟨hfresh, hnd⟩)
    · intro a ha
      rw [hD]
      by_cases han : a = mem.length
      · exact ⟨v, by rw [if_pos han]⟩
      · rw [if_neg han]
        have : a ∈ as := by
          simp only [List.mem_append, List.mem_singleton] at ha
          rcases ha with (h | h) | h
          · exact List.take_subset _ _ h
          · exact absurd h han
          · exact List.drop_subset _ _ h
        exact hvals a this
    · show l.size_ + 1 = _
      have : (as.take i).length + (as.drop i).length = as.length := by
        rw [← List.length_append, htd]
      simp only [List.length_append, List.length_singleton]
      omega
  have hcont : contents mem3 (as.take i ++ [mem.length] ++ as.drop i)
      = (contents mem as).take i ++ [v] ++ (contents mem as).drop i := by
    have hold : ∀ bs : List Nat, bs ⊆ as → contents mem3 bs = contents mem bs := by
      intro bs hbs
      refine contents_congr bs (fun a ha => ?_)
      rw [hD, if_neg]
      intro e
      exact hfresh (by rw [← e]; exact List.mem_cons_of_mem _ (hbs ha))
    rw [contents_append, contents_append, hold _ (List.take_subset _ _),
      hold _ (List.drop_subset _ _), contents_take mem as i hvals, contents_drop mem as i hvals]
    simp [contents, hD]
  refine ⟨mem3, { l with size_ := l.size_ + 1 },
    Insert_steps mem mem1 mem2 mem3 l position v x p hprev hnext e1 e2 e3, hL1, ?_, ?_,
    hsize, ?_, ?_, ?_, fun hL => Linked_forward_eq hL⟩
  · rw [Linked_forward_eq hL1, hcont]
  · rw [Linked_backward_eq hL1, hcont]
  · show l.size_ + 1 = _
    omega
  · rw [hD, if_pos rfl]
  · intro a ha
    rw [hD, if_neg ha]
/-- Witness of C24 on the list of the values 1 and 2 (the nodes at the
addresses 1 and 3 of `splicedMemory`, the sentinel at 0) with `Insert` of 7
before the second element: the contents become 1, 7, 2. -/
theorem insert_value_links_witness :
    Valid splicedMemory ⟨2, 0⟩ [1, 3] ∧ 1 ≤ [1, 3].length ∧
      ∃ mem1 l1, Insert splicedMemory ⟨2, 0⟩ (some 3) 7
          = some (mem1, l1, some splicedMemory.length) ∧
        Linked mem1 l1 ([1, 3].take 1 ++ [splicedMemory.length] ++ [1, 3].drop 1) ∧
        forward mem1 l1 = some ((contents splicedMemory [1, 3]).take 1 ++ [7]
          ++ (contents splicedMemory [1, 3]).drop 1) ∧
        backward mem1 l1 = some ((contents splicedMemory [1, 3]).take 1 ++ [7]
          ++ (contents splicedMemory [1, 3]).drop 1).reverse ∧
        LinkedList.Size ⟨2, 0⟩ = [1, 3].length ∧ l1.Size = [1, 3].length + 1 ∧
        deref mem1 (some splicedMemory.length) = some 7 ∧
        (∀ a, a ≠ splicedMemory.length →
          deref mem1 (some a) = deref splicedMemory (some a)) ∧
        (Linked splicedMemory ⟨2, 0⟩ [1, 3] →
          forward splicedMemory ⟨2, 0⟩ = some (contents splicedMemory [1, 3])) :=
  have hL : Linked splicedMemory ⟨2, 0⟩ [1, 3] :=
    ⟨List.Chain.cons ⟨rfl, rfl⟩ (List.Chain.cons ⟨rfl, rfl⟩
      (List.Chain.cons ⟨rfl, rfl⟩ List.Chain.nil)), by decide,
      fun a ha => by
        simp only [List.mem_cons, List.mem_singleton, List.not_mem_nil, or_false] at ha
        rcases ha with rfl | rfl
        · exact ⟨1, rfl⟩
        · exact ⟨2, rfl⟩, rfl⟩
  ⟨Or.inl hL, by decide,
    insert_value_links splicedMemory ⟨2, 0⟩ [1, 3] 1 (some 3) 7 (Or.inl hL) (by decide)
      (Or.inl rfl)⟩

/-- C25 (violated by the code): after `DoublyLinkedList<int> a, b;
a.PushBack(1); b.PushBack(2); a.Splice(a.cend(), b);` the list `a` holds 1, 2
and `b` has `Size()` 0 with the links of its sentinel set to `nullptr`.  The
call `b.Splice(b.cend(), a)` on the two distinct lists then reads
`position.node_->prev`, which is `nullptr`, as `prev_node` and writes
`prev_node->next`: undefined behaviour. -/
theorem splice_into_emptied_list :
    (∃ m1 m2 m3, create ([] : List (Option (Node Nat))) = (m1, ⟨0, 0⟩) ∧
      Insert m1 ⟨0, 0⟩ (end_ ⟨0, 0⟩) 1 = some (m2, ⟨1, 0⟩, some 1) ∧
      create m2 = (m3, ⟨0, 2⟩) ∧
      Insert m3 ⟨0, 2⟩ (end_ ⟨0, 2⟩) 2 = some (pushedMemory, ⟨1, 2⟩, some 3)) ∧
      Splice pushedMemory ⟨1, 0⟩ ⟨1, 2⟩ (end_ ⟨1, 0⟩) = some (splicedMemory, ⟨2, 0⟩, ⟨0, 2⟩) ∧
      forward splicedMemory ⟨2, 0⟩ = some [1, 2] ∧
      Size ⟨0, 2⟩ = 0 ∧
      load splicedMemory (end_ ⟨0, 2⟩) = some ⟨none, none, none⟩ ∧
      Splice splicedMemory ⟨0, 2⟩ ⟨2, 0⟩ (end_ ⟨0, 2⟩) = none :=
  ⟨⟨_, _, _, rfl, rfl, rfl, rfl⟩, rfl, rfl, rfl, rfl, rfl⟩

end LinkedList

/-! ## Claims on the order of lists and buckets, the load bound, the heap, the
priority queue and the ends of the deque -/

namespace DoublyLinkedList

/-- C38 (violated by the code): `operator<` of `DoublyLinkedList<int>` is not
a strict order.  For the empty list `a`, `a < a` is true (`size_ == 0`
returns `true`).  For `a` with the elements 1, 3 and `b` with the elements
2, 1, both built by `PushBack`, `a < b` is true (1 < 2) and `b < a` is true
(1 < 3): the loop returns `true` at the first position where the element of
`*this` is smaller, whatever the positions before it hold. -/
theorem less_not_strict_order :
    less lessInt (empty : DoublyLinkedList Int) empty = some true ∧
      ((empty : DoublyLinkedList Int).PushBack 1).bind (fun l => l.PushBack 3)
        = some listOneThree ∧
      ((empty : DoublyLinkedList Int).PushBack 2).bind (fun l => l.PushBack 1)
        = some listTwoOne ∧
      less lessInt listOneThree listTwoOne = some true ∧
      less lessInt listTwoOne listOneThree = some true ∧
      less lessInt listOneThree listOneThree = some false :=
  ⟨rfl, rfl, rfl, rfl, rfl, rfl⟩

end DoublyLinkedList

namespace HashMap

variable {Key T : Type}

/-- C35 (violated by the code): after `Insert(1); Insert(2); Erase(1);
Erase(2);` on `HashSet<int>()` with the identity hash the set is empty, but
the entry of bucket 1 still points to the node of key 2: `Erase(1)` moved the
entry from the node of key 1 to the next node, and `Erase(2)` deleted that
node.  `Insert(1)` and `Insert(3)` then link the new node before that deleted
node and have undefined behaviour, where the mathematical set would become
`{1}` and `{3}`. -/
theorem insert_after_erasing_all_reads_deleted_node :
    runCalls id (default : HashSet Nat)
        [Call.insert (1, ()), Call.insert (2, ()), Call.erase 1, Call.erase 2]
      = some tableEmptied ∧
      tableEmptied.Size = 0 ∧ tableEmptied.Contains id 1 = some false ∧
      tableEmptied.Bucket id 1 = some 1 ∧ tableEmptied.Bucket id 3 = some 1 ∧
      tableEmptied.beginBucket 1 = some (Iterator.node 1) ∧
      tableEmptied.elements_.walkFrom (Iterator.node 1) = none ∧
      tableEmptied.Insert id (1, ()) = none ∧ tableEmptied.Insert id (3, ()) = none ∧
      applyCall id tableEmptied (Call.insert (1, ())) = none :=
  ⟨rfl, rfl, rfl, rfl, rfl, rfl, rfl, rfl, rfl, rfl⟩

/-- Linking a node in front of the node at `a`: the nodes before `a` stay in
front, then comes the new node, then the nodes from `a` on. -/
theorem linkBefore_split {T : Type} {a : Nat} (x : Nat × T) :
    ∀ {l s : List (Nat × T)}, DoublyLinkedList.suffixFrom a l = some s →
      ∃ pre, l = pre ++ s ∧ DoublyLinkedList.linkBefore a x l = some (pre ++ x :: s)
  | [], s, h => by simp [DoublyLinkedList.suffixFrom] at h
  | n :: ns, s, h => by
    unfold DoublyLinkedList.suffixFrom at h
    by_cases hn : n.1 = a
    · rw [if_pos hn, Option.some.injEq] at h
      subst h
      exact ⟨[], rfl, by simp [DoublyLinkedList.linkBefore, hn]⟩
    · rw [if_neg hn] at h
      obtain ⟨pre, h1, h2⟩ := linkBefore_split x h
      refine ⟨n :: pre, by rw [h1]; rfl, ?_⟩
      simp [DoublyLinkedList.linkBefore, hn, h2]

/-- The list of the elements after `InsertUnchecked`: the one that `Insert`
of the list at the first node of the bucket gives. -/
theorem InsertUnchecked_elements {hash : Key → Nat} {m m1 : HashMap Key T} {it : Iterator}
    {value : Key × T} (h : m.InsertUnchecked hash value = some (m1, it)) :
    ∃ b bucket, m.Bucket hash value.1 = some b ∧ m.buckets_[b]? = some bucket ∧
      m.elements_.Insert bucket.1 value = some (m1.elements_, it) := by
  unfold InsertUnchecked at h
  cases hB : m.Bucket hash value.1 with
  | none => simp [hB] at h
  | some b =>
    cases hg : m.buckets_[b]? with
    | none => simp [hB, hg] at h
    | some bucket =>
      cases hi : m.elements_.Insert bucket.1 value with
      | none => simp [hB, hg, hi] at h
      | some r =>
        obtain ⟨els, it1⟩ := r
        simp only [hB, hg, hi] at h
        refine ⟨b, bucket, rfl, hg, ?_⟩
        by_cases h12 : bucket.1 = bucket.2
        · rw [if_pos h12] at h
          cases hn : els.next it1 with
          | none => simp [hn] at h
          | some nx =>
            simp only [hn, Option.some.injEq, Prod.mk.injEq] at h
            obtain ⟨h1, h2⟩ := h
            subst h1
            subst h2
            exact hi
        · rw [if_neg h12] at h
          simp only [Option.some.injEq, Prod.mk.injEq] at h
          obtain ⟨h1, h2⟩ := h
          subst h1
          subst h2
          exact hi

/-- Every count up to `2^24` is a `float`: its conversion is exact. -/
theorem toFloat_exact {n : Nat} (h : n ≤ 16777216) : toFloat n = n := by
  rcases Nat.lt_or_ge n 16777216 with h1 | h1
  · have h2 : n < 2 ^ 24 * 1 := by omega
    have h3 : toFloat n = if n < 2 ^ 24 * 1 then roundTo 1 n else toFloatLoop 39 (2 * 1) n :=
      rfl
    rw [h3, if_pos h2]
    simp [roundTo, Nat.mod_one]
  · have h2 : n = 16777216 := by omega
    subst h2
    rfl

/-- With `max_load_factor_ == 1.0f` and `Size()` at most `2^24`, `Rehash` in
`float` arithmetic is `Rehash` in exact arithmetic. -/
theorem RehashFloat_eq (hash : Key → Nat) (m : HashMap Key T) (count : Nat)
    (hf : m.max_load_factor_ = Fraction.one) (hs : m.Size ≤ 16777216) :
    m.RehashFloat hash count = m.Rehash hash count := by
  simp only [RehashFloat, Rehash, ceilDiv, hf, Fraction.one, toFloat_exact hs]
  simp

/-- The number of elements is the length of the list of the elements. -/
theorem Size_eq_length (m : HashMap Key T) : m.Size = m.toList.length := by
  simp [Size, DoublyLinkedList.Size, toList]

variable [DecidableEq Key]

/-- With `max_load_factor_ == 1.0f` and both counts at most `2^24`,
`CheckRehash` in `float` arithmetic is `CheckRehash` in exact arithmetic. -/
theorem CheckRehashFloat_eq (hash : Key → Nat) (m : HashMap Key T) (additional : Nat)
    (hf : m.max_load_factor_ = Fraction.one) (hs : m.Size + additional ≤ 16777216)
    (hb : m.BucketCount ≤ 16777216) :
    m.CheckRehashFloat hash additional = m.CheckRehash hash additional := by
  simp only [CheckRehashFloat, CheckRehash, toFloat_exact hs, toFloat_exact hb,
    RehashFloat_eq hash m _ hf (show m.Size ≤ 16777216 by omega), hf, Fraction.mulLt,
    Fraction.one, Nat.one_mul, Nat.mul_one, decide_eq_true_eq]

/-- With `max_load_factor_ == 1.0f` and both counts at most `2^24`, `Insert`
in `float` arithmetic is `Insert` in exact arithmetic. -/
theorem InsertFloat_eq (hash : Key → Nat) (m : HashMap Key T) (value : Key × T)
    (hf : m.max_load_factor_ = Fraction.one) (hs : m.Size + 1 ≤ 16777216)
    (hb : m.BucketCount ≤ 16777216) :
    m.InsertFloat hash value = m.Insert hash value := by
  simp only [InsertFloat, Insert, CheckRehashFloat_eq hash m 1 hf hs hb]

/-- `Insert(value)` of a key that is not stored, with `max_load_factor_ == 1.0`
in exact arithmetic: the number of buckets becomes
`max(Size() + 1, Size() * 2)` when `Size() + 1 > BucketCount()` and stays as
it is otherwise. -/
theorem Insert_bucket_count {hash : Key → Nat} {m : HashMap Key T} (hG : Good hash m)
    (hf : m.max_load_factor_ = Fraction.one) (value : Key × T) (hk : value.1 ∉ m.keys) :
    ∃ m1 it, m.Insert hash value = some (m1, it, true) ∧ Good hash m1 ∧
      m1.max_load_factor_ = Fraction.one ∧ m1.toList.Perm (value :: m.toList) ∧
      m1.BucketCount = (if m.BucketCount < m.Size + 1 then max (m.Size + 1) (m.Size * 2)
        else m.BucketCount) := by
  obtain ⟨it0, hF⟩ := Find_defined hG.inv hG.clean value.1
  have hit0 : it0 = Iterator.head := by
    rcases Find_sound hG.inv hF with ⟨h1, _⟩ | ⟨a, w, _, hmem⟩
    · exact h1
    · exact absurd (mem_keys.mpr ⟨_, hmem, rfl⟩) hk
  subst hit0
  have hCR : ∃ m0, m.CheckRehash hash 1 = some m0 ∧ Good hash m0 ∧
      m0.toList.Perm m.toList ∧ m0.max_load_factor_ = Fraction.one ∧
      m0.BucketCount = (if m.BucketCount < m.Size + 1 then max (m.Size + 1) (m.Size * 2)
        else m.BucketCount) := by
    by_cases hlt : m.BucketCount < m.Size + 1
    · obtain ⟨m0, e0, hG0, hp0, hl0, hf0⟩ :=
        Rehash_spec hash hG.inv.keys_nodup hG.inv.mlf_pos (max (m.Size + 1) (m.Size * 2))
      refine ⟨m0, ?_, hG0, hp0, hf0.trans hf, ?_⟩
      · simp only [CheckRehash, hf, Fraction.mulLt, Fraction.one, Nat.one_mul, Nat.mul_one,
          decide_eq_true_eq, if_pos hlt]
        exact e0
      · rw [if_pos hlt]
        show m0.buckets_.length = _
        rw [hl0, hf]
        simp only [Fraction.one, Nat.mul_one, Nat.add_sub_cancel, Nat.div_one]
        omega
    · refine ⟨m, ?_, hG, List.Perm.refl _, hf, by rw [if_neg hlt]⟩
      simp only [CheckRehash, hf, Fraction.mulLt, Fraction.one, Nat.one_mul, Nat.mul_one,
        decide_eq_true_eq, if_neg hlt]
  obtain ⟨m0, e0, hG0, hp0, hf0, hb0⟩ := hCR
  have hpos : 0 < m0.buckets_.length := by
    have : m0.BucketCount = m0.buckets_.length := rfl
    rw [← this, hb0]
    split <;> omega
  have hk0 : value.1 ∉ m0.keys := fun h => hk ((hp0.map Prod.fst).subset h)
  obtain ⟨m1, it, hU, hI1, hC1, hp1, hl1, hf1⟩ :=
    InsertUnchecked_spec hG0.inv hG0.clean hpos value hk0
  refine ⟨m1, it, ?_, ⟨hI1, hC1⟩, hf1.trans hf0, hp1.trans (hp0.cons value), ?_⟩
  · simp only [Insert, hF, end_, DoublyLinkedList.end_, ne_eq, not_true_eq_false, if_false,
      e0, hU]
  · rw [← hb0]
    exact hl1

/-- Inserting a list and then one more value, in `float` arithmetic. -/
theorem insertEachFloat_append (hash : Key → Nat) (v : Key × T) :
    ∀ (vs : List (Key × T)) (m : HashMap Key T),
      insertEachFloat hash m (vs ++ [v])
        = (insertEachFloat hash m vs).bind (fun m1 => (m1.InsertFloat hash v).map (fun r => r.1))
  | [], m => by
    simp only [List.nil_append, insertEachFloat, Option.some_bind]
    cases m.InsertFloat hash v <;> rfl
  | w :: vs, m => by
    simp only [List.cons_append, insertEachFloat]
    cases m.InsertFloat hash w with
    | none => rfl
    | some r => exact insertEachFloat_append hash v vs r.1

/-- The keys `0, ..., n` are the keys `0, ..., n - 1` and then `n`. -/
theorem firstKeys_succ (n : Nat) : firstKeys (n + 1) = firstKeys n ++ [(n, ())] := by
  simp [firstKeys, List.range_succ]

/-- A power of two between `n` and `2 n` with `n = 2^24` is `2^24`. -/
theorem pow_two_between {j b : Nat} (hb : b = 2 ^ j) (h1 : 16777216 ≤ b) (h2 : b < 33554432) :
    b = 16777216 := by
  subst hb
  have hj1 : j < 25 := by
    by_contra hc
    have : 2 ^ 25 ≤ 2 ^ j := Nat.pow_le_pow_right (by decide) (by omega)
    omega
  have hj2 : 24 ≤ j := by
    by_contra hc
    have : 2 ^ j ≤ 2 ^ 23 := Nat.pow_le_pow_right (by decide) (by omega)
    omega
  have : j = 24 := by omega
  subst this
  rfl

/-- The first `n <= 2^24` insertions of distinct keys into `HashSet<int>()`,
in `float` arithmetic: each `Insert` is defined, the set holds the `n` keys,
and the number of buckets is 0 for `n = 0` and otherwise the power of two
with `n <= BucketCount() < 2 n`. -/
theorem insertEachFloat_firstKeys :
    ∀ n, n ≤ 16777216 →
      ∃ m : HashSet Nat, insertEachFloat id (default : HashSet Nat) (firstKeys n) = some m ∧
        Good id m ∧ m.max_load_factor_ = Fraction.one ∧ m.Size = n ∧
        (∀ k ∈ m.keys, k < n) ∧
        ((n = 0 ∧ m.BucketCount = 0) ∨
          ∃ j, m.BucketCount = 2 ^ j ∧ n ≤ m.BucketCount ∧ m.BucketCount < 2 * n)
  | 0, _ => by
    refine ⟨default, rfl, built_good Built.default, rfl, rfl, ?_, Or.inl ⟨rfl, rfl⟩⟩
    intro k hk
    simp [keys, toList, default, DoublyLinkedList.empty] at hk
  | n + 1, hn => by
    obtain ⟨m, e, hG, hf, hs, hkeys, hbc⟩ := insertEachFloat_firstKeys n (by omega)
    have hk : ((n, ()) : Nat × Unit).1 ∉ m.keys := fun h => Nat.lt_irrefl n (hkeys n h)
    have hb : m.BucketCount ≤ 16777216 := by
      rcases hbc with ⟨_, h0⟩ | ⟨j, hj, h1, h2⟩
      · omega
      · by_contra hc
        have hj1 : 25 ≤ j := by
          by_contra hc2
          have : 2 ^ j ≤ 2 ^ 24 := Nat.pow_le_pow_right (by decide) (by omega)
          omega
        have : 2 ^ 25 ≤ 2 ^ j := Nat.pow_le_pow_right (by decide) hj1
        omega
    obtain ⟨m1, it, e1, hG1, hf1, hp1, hb1⟩ := Insert_bucket_count hG hf (n, ()) hk
    have e2 : m.InsertFloat id (n, ()) = some (m1, it, true) := by
      rw [InsertFloat_eq id m (n, ()) hf (by omega) hb]
      exact e1
    have hs1 : m1.Size = n + 1 := by
      rw [Size_eq_length, hp1.length_eq, List.length_cons, ← Size_eq_length, hs]
    refine ⟨m1, ?_, hG1, hf1, hs1, ?_, Or.inr ?_⟩
    · rw [firstKeys_succ, insertEachFloat_append, e, Option.some_bind, e2]
      rfl
    · intro k hk1
      have : k ∈ ((n, ()) :: m.toList).map Prod.fst := (hp1.map Prod.fst).subset hk1
      rcases List.mem_cons.mp this with h | h
      · have : k = n := h
        omega
      · have := hkeys k h
        omega
    · rw [hs] at hb1
      rcases hbc with ⟨h0, hb0⟩ | ⟨j, hj, h1, h2⟩
      · subst h0
        refine ⟨0, ?_, ?_, ?_⟩ <;> rw [hb1, hb0] <;> simp
      · by_cases hlt : m.BucketCount < n + 1
        · rw [if_pos hlt] at hb1
          have hbn : m.BucketCount = n := by omega
          refine ⟨j + 1, ?_, ?_, ?_⟩
          · rw [hb1, Nat.pow_succ, ← hj, hbn]
            omega
          · rw [hb1]
            omega
          · rw [hb1]
            omega
        · rw [if_neg hlt] at hb1
          refine ⟨j, by rw [hb1, hj], ?_, ?_⟩
          · rw [hb1]
            omega
          · rw [hb1]
            omega

/-- C31 (violated by the code): the test of `CheckRehash`,
`new_size > max_load_factor_ * BucketCount()`, is made in `float`, and the
conversion of `new_size = 2^24 + 1 = 16777217` gives `16777216.0f`.  After
`Insert(0), ..., Insert(16777215)` on `HashSet<int>()` with the identity hash
the set has `2^24` elements and `2^24` buckets; the call `Insert(16777216)`
finds `16777216.0f > 16777216.0f` false, does not rehash and adds the element:
`Size()` is 16777217 and `BucketCount()` is 16777216, with
`max_load_factor_` still `1.0f`. -/
theorem float_test_misses_rehash :
    toFloat 16777216 = 16777216 ∧ toFloat 16777217 = 16777216 ∧
      ∃ (m m1 : HashSet Nat) (it : Iterator),
        insertEachFloat id (default : HashSet Nat) (firstKeys 16777216) = some m ∧
        m.Size = 16777216 ∧ m.BucketCount = 16777216 ∧
        m.InsertFloat id (16777216, ()) = some (m1, it, true) ∧
        insertEachFloat id (default : HashSet Nat) (firstKeys 16777217) = some m1 ∧
        m1.max_load_factor_ = Fraction.one ∧
        m1.Size = 16777217 ∧ m1.BucketCount = 16777216 ∧ m1.BucketCount < m1.Size := by
  refine ⟨rfl, rfl, ?_⟩
  obtain ⟨m, e, hG, hf, hs, hkeys, hbc⟩ := insertEachFloat_firstKeys 16777216 (Nat.le_refl _)
  have hb : m.BucketCount = 16777216 := by
    rcases hbc with ⟨h0, _⟩ | ⟨j, hj, h1, h2⟩
    · omega
    · exact pow_two_between hj h1 (by omega)
  have hk : ((16777216, ()) : Nat × Unit).1 ∉ m.keys := fun h =>
    Nat.lt_irrefl _ (hkeys _ h)
  obtain ⟨it0, hF⟩ := Find_defined hG.inv hG.clean ((16777216, ()) : Nat × Unit).1
  have hit0 : it0 = Iterator.head := by
    rcases Find_sound hG.inv hF with ⟨h1, _⟩ | ⟨a, w, _, hmem⟩
    · exact h1
    · exact absurd (mem_keys.mpr ⟨_, hmem, rfl⟩) hk
  subst hit0
  have h16 : toFloat 16777216 = 16777216 := rfl
  have h17 : toFloat (16777216 + 1) = 16777216 := rfl
  have hCR : m.CheckRehashFloat id 1 = some m := by
    simp only [CheckRehashFloat, hs, hb, h16, h17, Nat.lt_irrefl, if_false]
  have hpos : 0 < m.buckets_.length := by
    have : m.BucketCount = m.buckets_.length := rfl
    omega
  obtain ⟨m1, it, hU, hI1, hC1, hp1, hl1, hf1⟩ :=
    InsertUnchecked_spec hG.inv hG.clean hpos (16777216, ()) hk
  have e2 : m.InsertFloat id (16777216, ()) = some (m1, it, true) := by
    simp only [InsertFloat, hF, end_, DoublyLinkedList.end_, ne_eq, not_true_eq_false,
      if_false, hCR, hU]
  have hs1 : m1.Size = 16777217 := by
    rw [Size_eq_length, hp1.length_eq, List.length_cons, ← Size_eq_length, hs]
  have hb1 : m1.BucketCount = 16777216 := by
    show m1.buckets_.length = 16777216
    rw [hl1]
    exact hb
  refine ⟨m, m1, it, e, hs, hb, e2, ?_, hf1.trans hf, hs1, hb1, by omega⟩
  have hfk : firstKeys 16777217 = firstKeys 16777216 ++ [(16777216, ())] :=
    firstKeys_succ 16777216
  rw [hfk, insertEachFloat_append, e, Option.some_bind, e2]
  rfl

end HashMap

namespace BinaryHeap

variable {T : Type}

/-- C33: for every comparator that is a strict weak order and every heap
produced by the public operations (construction from and assignment of an
initializer list, `Insert`, `Erase`, `Pop`), every index `i` with
`1 <= i < Size()` has a parent `a[(i - 1) / 2]` and an element `a[i]` with
`Compare(a[(i - 1) / 2], a[i])` false. -/
theorem heap_property_of_made [DecidableEq T] (lt : T → T → Bool) (h : BinaryHeap T)
    (hlt : StrictWeakOrder lt) (hm : Made lt h) (i : Nat) (h1 : 1 ≤ i) (hi : i < h.Size) :
    ∃ p c, h.array_.subscript ((i - 1) / 2) = some p ∧ h.array_.subscript i = some c ∧
      lt p c = false := by
  obtain ⟨hw, hh⟩ := Made_heap lt hlt hm
  have hlen := toList_length hw
  have hsz : h.Size = h.array_.size_ := rfl
  have hp : (i - 1) / 2 < h.array_.size_ := by omega
  have hi2 : i < h.toList.length := by omega
  have hp2 : (i - 1) / 2 < h.toList.length := by omega
  refine ⟨h.toList[(i - 1) / 2], h.toList[i], ?_, ?_, ?_⟩
  · rw [DynamicArray.subscript_toList hw hp]
    exact List.getElem?_eq_getElem hp2
  · rw [DynamicArray.subscript_toList hw (by omega)]
    exact List.getElem?_eq_getElem hi2
  · exact hh ((i - 1) / 2) i _ _ (by omega) (List.getElem?_eq_getElem hp2)
      (List.getElem?_eq_getElem hi2)

/-- Witness of C33 on `BinaryHeap<int>{3, 1, 4, 1, 5, 9, 2, 6}` with
`std::less` at the index 5: the parent `a[2]` is 4 and `a[5]` is 3. -/
theorem heap_property_of_made_witness :
    StrictWeakOrder lessNat ∧ Made lessNat heapSample ∧ 1 ≤ 5 ∧ 5 < heapSample.Size ∧
      ∃ p c, heapSample.array_.subscript ((5 - 1) / 2) = some p ∧
        heapSample.array_.subscript 5 = some c ∧ lessNat p c = false :=
  have hof : ofList lessNat [3, 1, 4, 1, 5, 9, 2, 6] = some heapSample := rfl
  ⟨lessNat_strictWeakOrder, Made.ofList [3, 1, 4, 1, 5, 9, 2, 6] hof, by decide, by decide,
    heap_property_of_made lessNat heapSample lessNat_strictWeakOrder
      (Made.ofList [3, 1, 4, 1, 5, 9, 2, 6] hof) 5 (by decide) (by decide)⟩

/-- For every comparator, `Heapify(i)` on a well-formed array with
`i < Size()` returns: the indices of its calls start at `i`, increase
strictly and stay below `Size()`, which bounds the depth of the recursion by
`Size() - i`. -/
theorem HeapifyCalls_spec (lt : T → T → Bool) :
    ∀ (fuel : Nat) (h : BinaryHeap T) (i : Nat), h.array_.WF → i < h.Size →
      h.Size - i ≤ fuel →
      ∃ h1 calls, HeapifyCalls lt fuel h i = some (h1, i :: calls) ∧
        Heapify lt fuel h i = some h1 ∧ h1.array_.WF ∧ h1.Size = h.Size ∧
        List.Chain (fun a b => a < b) i calls ∧ ∀ c ∈ calls, c < h.Size
  | 0, h, i, _, hi, hf => by omega
  | fuel + 1, h, i, hw, hi, hf => by
    obtain ⟨r1, e1, h1⟩ := pickLargest_spec lt hw (2 * i + 1) i hi (by omega)
    have hr1 : r1 < h.Size ∧ (r1 = i ∨ r1 = 2 * i + 1) := by
      rcases h1 with ⟨rfl, hc, _⟩ | ⟨rfl, _⟩
      · exact ⟨hc, Or.inr rfl⟩
      · exact ⟨hi, Or.inl rfl⟩
    obtain ⟨m, e2, h2⟩ := pickLargest_spec lt hw (2 * i + 2) r1 hr1.1 (by omega)
    have hm : m < h.Size ∧ (m = i ∨ i < m) := by
      rcases h2 with ⟨rfl, hc, _⟩ | ⟨rfl, _⟩
      · exact ⟨hc, Or.inr (by omega)⟩
      · exact ⟨hr1.1, by omega⟩
    simp only [HeapifyCalls, Heapify, e1, e2]
    by_cases hmi : m = i
    · subst hmi
      simp only [ne_eq, not_true_eq_false, if_false]
      exact ⟨h, [], rfl, rfl, hw, rfl, List.Chain.nil, by simp⟩
    · have him : i < m := by
        rcases hm.2 with e | e
        · exact absurd e hmi
        · exact e
      obtain ⟨b, hb, hbw, hbs, _⟩ := DynamicArray.swapCells_spec hw (i := i) (j := m) hi hm.1
      have hsz : (⟨b⟩ : BinaryHeap T).Size = h.Size := hbs
      obtain ⟨h1, calls, c1, c2, c3, c4, c5, c6⟩ :=
        HeapifyCalls_spec lt fuel ⟨b⟩ m hbw (by rw [hsz]; exact hm.1) (by rw [hsz]; omega)
      simp only [ne_eq, hmi, not_false_eq_true, if_true, hb, c1, c2, Option.map_some']
      refine ⟨h1, m :: calls, rfl, rfl, c3, by rw [c4, hsz], List.Chain.cons him c5, ?_⟩
      intro c hc
      rcases List.mem_cons.mp hc with rfl | hc
      · exact hm.1
      · rw [← hsz]
        exact c6 c hc

/-- The loop of `HeapifyArray` from the counter `i` on, over a 64-bit
unsigned counter: the body runs with `i`, `i - 1`, ..., `0`, the decrement at
0 wraps to `2^64 - 1`, which fails the test `i <= start`. -/
theorem heapifyCounter_spec (lt : T → T → Bool) (start : Nat) (hst : start < 2 ^ 64 - 1) :
    ∀ (i fuel : Nat) (h : BinaryHeap T), h.array_.WF → i ≤ start → start < h.Size →
      i + 2 ≤ fuel →
      ∃ h1, heapifyCounter lt start fuel i h
          = some (h1, (List.range (i + 1)).reverse, 2 ^ 64 - 1) ∧
        heapifyLoop lt (i + 1) i h = some h1 ∧ h1.array_.WF ∧ h1.Size = h.Size
  | i, 0, h, _, _, _, hf => by omega
  | 0, fuel + 1, h, hw, his, hs, hf => by
    obtain ⟨h1, calls, _, c2, c3, c4, _⟩ :=
      HeapifyCalls_spec lt h.Size h 0 hw (by omega) (by omega)
    obtain ⟨f2, rfl⟩ : ∃ f2, fuel = f2 + 1 := ⟨fuel - 1, by omega⟩
    have hw0 : wsub 0 1 = 2 ^ 64 - 1 := by simp [wsub]
    have hn : ¬ (2 ^ 64 - 1 ≤ start) := by omega
    refine ⟨h1, ?_, ?_, c3, c4⟩
    · simp only [heapifyCounter, Nat.zero_le, if_true, c2, hw0, if_neg hn, Option.map_some']
      rfl
    · simp only [heapifyLoop, c2]
  | i + 1, fuel + 1, h, hw, his, hs, hf => by
    obtain ⟨h1, calls, _, c2, c3, c4, _⟩ :=
      HeapifyCalls_spec lt h.Size h (i + 1) hw (by omega) (by omega)
    have hw1 : wsub (i + 1) 1 = i := by simp [wsub]
    obtain ⟨h2, d1, d2, d3, d4⟩ :=
      heapifyCounter_spec lt start hst i fuel h1 c3 (by omega) (by omega) (by omega)
    refine ⟨h2, ?_, ?_, d3, by rw [d4, c4]⟩
    · simp only [heapifyCounter, if_pos his, c2, hw1, d1, Option.map_some']
      rw [List.range_succ (i + 1), List.reverse_append]
      rfl
    · simp only [heapifyLoop, c2, Nat.add_sub_cancel]
      exact d2

/-- C34: for every comparator and every well-formed array of `n < 2^64`
elements, `HeapifyArray` returns.  For `n <= 1` it returns before the loop.
For `n >= 2` the body of the loop runs exactly `n / 2` times, with
`i = n/2 - 1` down to 0, and the loop is left with the counter `2^64 - 1`.
Each call `Heapify(i)` with `i < Size()` returns, its recursive calls being
made on strictly increasing indices below `Size()`. -/
theorem heapify_array_terminates (lt : T → T → Bool) (h : BinaryHeap T)
    (hw : h.array_.WF) (hs : h.Size < 2 ^ 64) :
    (h.Size ≤ 1 → HeapifyArrayCounter lt h = some (h, [], none)) ∧
      (2 ≤ h.Size → ∃ h1,
        HeapifyArrayCounter lt h
          = some (h1, (List.range (h.Size / 2)).reverse, some (2 ^ 64 - 1)) ∧
        ((List.range (h.Size / 2)).reverse).length = h.Size / 2 ∧
        HeapifyArray lt h = some h1 ∧ h1.Size = h.Size) ∧
      (∀ (g : BinaryHeap T) (i : Nat), g.array_.WF → i < g.Size →
        ∃ g1 calls, HeapifyCalls lt g.Size g i = some (g1, i :: calls) ∧
          Heapify lt g.Size g i = some g1 ∧
          List.Chain (fun a b => a < b) i calls ∧ ∀ c ∈ calls, c < g.Size) := by
  refine ⟨?_, ?_, ?_⟩
  · intro h1
    simp [HeapifyArrayCounter, h1]
  · intro h2
    have hn : ¬ (h.Size ≤ 1) := by omega
    obtain ⟨h1, d1, d2, _, d4⟩ := heapifyCounter_spec lt (h.Size / 2 - 1) (by omega)
      (h.Size / 2 - 1) (h.Size / 2 + 1) h hw (Nat.le_refl _) (by omega) (by omega)
    have e : h.Size / 2 - 1 + 1 = h.Size / 2 := by omega
    rw [e] at d1 d2
    refine ⟨h1, ?_, by simp, ?_, d4⟩
    · simp only [HeapifyArrayCounter, if_neg hn, d1, Option.map_some']
    · simp only [HeapifyArray, if_neg hn, e, d2]
  · intro g i hg hi
    obtain ⟨g1, calls, c1, c2, _, _, c5, c6⟩ :=
      HeapifyCalls_spec lt g.Size g i hg hi (by omega)
    exact ⟨g1, calls, c1, c2, c5, c6⟩

/-- Witness of C34 on the array 1, 3, 4, 5 with `std::less`: the loop runs
with `i` = 1 and 0. -/
theorem heapify_array_terminates_witness :
    (⟨DynamicArray.arrayB⟩ : BinaryHeap Nat).array_.WF ∧
      (⟨DynamicArray.arrayB⟩ : BinaryHeap Nat).Size < 2 ^ 64 ∧
      HeapifyArrayCounter lessNat (⟨DynamicArray.arrayB⟩ : BinaryHeap Nat)
        = some (⟨⟨[some 5, some 3, some 4, some 1], 4, 4⟩⟩, [1, 0], some (2 ^ 64 - 1)) ∧
      ∃ h1, HeapifyArrayCounter lessNat (⟨DynamicArray.arrayB⟩ : BinaryHeap Nat)
          = some (h1, (List.range ((⟨DynamicArray.arrayB⟩ : BinaryHeap Nat).Size / 2)).reverse,
            some (2 ^ 64 - 1)) ∧
        ((List.range ((⟨DynamicArray.arrayB⟩ : BinaryHeap Nat).Size / 2)).reverse).length
          = (⟨DynamicArray.arrayB⟩ : BinaryHeap Nat).Size / 2 ∧
        HeapifyArray lessNat (⟨DynamicArray.arrayB⟩ : BinaryHeap Nat) = some h1 ∧
        h1.Size = (⟨DynamicArray.arrayB⟩ : BinaryHeap Nat).Size :=
  ⟨⟨by decide, by decide, by decide⟩, by decide, rfl,
    (heapify_array_terminates lessNat ⟨DynamicArray.arrayB⟩
      ⟨by decide, by decide, by decide⟩ (by decide)).2.1 (by decide)⟩

/-- `std::less<T>` of a linearly ordered type is a strict weak order. -/
theorem lessOf_strictWeakOrder [LinearOrder T] :
    StrictWeakOrder (lessOf : T → T → Bool) := by
  refine ⟨fun x => ?_, fun x y z h1 h2 => ?_, fun x y z h1 h2 h3 h4 => ?_⟩
  · simp [lessOf]
  · simp only [lessOf, decide_eq_true_eq] at h1 h2 ⊢
    exact lt_trans h1 h2
  · simp only [lessOf, decide_eq_false_iff_not, not_lt] at h1 h2 h3 h4 ⊢
    exact ⟨le_trans h3 h1, le_trans h2 h4⟩

/-- `Insert(value)` on a well-formed array, for a strict weak order: the
values are those before and `value`, and the array is a heap. -/
theorem Insert_heap (lt : T → T → Bool) (hlt : StrictWeakOrder lt) (h : BinaryHeap T)
    (hw : h.array_.WF) (value : T) :
    ∃ h1, h.Insert lt value = some h1 ∧ h1.array_.WF ∧ h1.Size = h.Size + 1 ∧
      h1.toList.Perm (value :: h.toList) ∧ IsHeap lt h1.toList := by
  obtain ⟨b, r, hb, hbw, hbl⟩ := DynamicArray.Insert_end_spec hw [value]
  obtain ⟨h1, e1, hw1, hs1, hp1, hh1⟩ := HeapifyArray_spec lt hlt ⟨b⟩ hbw
  have hl1 := toList_length hw1
  have hl0 := toList_length hw
  have hlb := toList_length (h := ⟨b⟩) hbw
  have hbl2 : (⟨b⟩ : BinaryHeap T).toList = h.toList ++ [value] := hbl
  refine ⟨h1, ?_, hw1, ?_, ?_, hh1⟩
  · simp only [Insert, InsertRange, hb, e1]
  · rw [← hl1, hp1.length_eq, hbl2, List.length_append, hl0]
    rfl
  · refine hp1.trans ?_
    rw [hbl2]
    exact List.perm_append_singleton value h.toList

end BinaryHeap

namespace PriorityQueue

variable {T : Type}

/-- Pushing the values of a list, for a strict weak order, on a queue whose
array is well formed: every `Push` is defined, and the queue holds the values
it held and the pushed ones, as a heap. -/
theorem pushAll_spec (lt : T → T → Bool) (hlt : BinaryHeap.StrictWeakOrder lt) :
    ∀ (xs : List T) (q : PriorityQueue T), q.container_.array_.WF →
      BinaryHeap.IsHeap lt q.container_.toList →
      ∃ q1, pushAll lt q xs = some q1 ∧ q1.container_.array_.WF ∧
        q1.Size = q.Size + xs.length ∧ q1.container_.toList.Perm (q.container_.toList ++ xs) ∧
        BinaryHeap.IsHeap lt q1.container_.toList
  | [], q, hw, hh => ⟨q, rfl, hw, rfl, by simp, hh⟩
  | x :: xs, q, hw, _ => by
    obtain ⟨h1, e1, hw1, hs1, hp1, hh1⟩ := BinaryHeap.Insert_heap lt hlt q.container_ hw x
    obtain ⟨q2, e2, hw2, hs2, hp2, hh2⟩ := pushAll_spec lt hlt xs ⟨h1⟩ hw1 hh1
    refine ⟨q2, by simp only [pushAll, Push, e1, Option.map_some', e2], hw2, ?_, ?_, hh2⟩
    · rw [hs2]
      show h1.Size + xs.length = q.container_.Size + (xs.length + 1)
      rw [hs1]
      omega
    · refine hp2.trans ?_
      show (h1.toList ++ xs).Perm (q.container_.toList ++ x :: xs)
      refine (List.Perm.append_right xs hp1).trans ?_
      simp only [List.cons_append]
      exact List.perm_middle.symm

/-- Reading `Top()` and calling `Pop()` until the queue is empty, for a strict
weak order, on a queue whose array is a well-formed heap: after `Size() + 1`
tests of `Empty()` the loop has produced the stored values, none of them below
a later one. -/
theorem drain_spec (lt : T → T → Bool) (hlt : BinaryHeap.StrictWeakOrder lt) :
    ∀ (n : Nat) (q : PriorityQueue T), q.container_.array_.WF → q.Size = n →
      BinaryHeap.IsHeap lt q.container_.toList →
      ∃ out, drain lt (n + 1) q = some out ∧ out.Perm q.container_.toList ∧
        out.Pairwise (fun a b => lt a b = false)
  | 0, q, hw, hs, _ => by
    have he : q.Empty = true := by
      have : q.container_.array_.size_ = 0 := hs
      simp [Empty, BinaryHeap.Empty, DynamicArray.Empty, this]
    have hl : q.container_.toList = [] := by
      have hn : q.container_.toList.length = 0 := by
        rw [BinaryHeap.toList_length hw]
        exact hs
      exact List.length_eq_zero.mp hn
    refine ⟨[], by simp only [drain, he, if_true], by rw [hl], List.Pairwise.nil⟩
  | n + 1, q, hw, hs, hh => by
    have he : q.Empty = false := by
      have : q.container_.array_.size_ = n + 1 := hs
      simp [Empty, BinaryHeap.Empty, DynamicArray.Empty, this]
    have hpos : 0 < q.container_.Size := by
      have : q.container_.Size = n + 1 := hs
      omega
    obtain ⟨t, h1, et, ep, hw1, hp1, hs1, hh1⟩ := BinaryHeap.Pop_spec lt hlt q.container_ hw hpos
    have hs2 : (⟨h1⟩ : PriorityQueue T).Size = n := by
      have : q.container_.Size = n + 1 := hs
      show h1.Size = n
      omega
    obtain ⟨out, eo, hpo, hso⟩ := drain_spec lt hlt n ⟨h1⟩ hw1 hs2 hh1
    have hlen := BinaryHeap.toList_length hw
    have hl0 : 0 < q.container_.toList.length := by omega
    have ht0 : q.container_.toList[0]? = some t := by
      have h2 : q.container_.array_.subscript 0 = some t := et
      rw [DynamicArray.subscript_toList hw hpos] at h2
      exact h2
    have hroot := BinaryHeap.root_not_below lt hlt q.container_.toList hh t ht0
    refine ⟨t :: out, ?_, ?_, ?_⟩
    · rw [drain]
      simp only [he, Top, et, Pop, ep, Option.map_some', eo]
      rfl
    · exact (List.Perm.cons t hpo).trans hp1
    · refine List.Pairwise.cons ?_ hso
      intro x hx
      have hx1 : x ∈ h1.toList := hpo.subset hx
      have hx2 : x ∈ q.container_.toList := hp1.subset (List.mem_cons_of_mem t hx1)
      obtain ⟨k, hk⟩ := List.getElem?_of_mem hx2
      exact hroot k x hk

/-- C37: for every sequence `xs` over a linearly ordered type, pushing its
elements with `Push` into `PriorityQueue()` with `std::less` is defined and
gives a queue of `|xs|` elements, and reading `Top()` and calling `Pop()`
until `Empty()` ends after `|xs| + 1` tests of `Empty()` with exactly `|xs|`
values, which are a permutation of `xs` in non-increasing order. -/
theorem push_then_drain_sorted [LinearOrder T] (xs : List T) :
    ∃ q out, pushAll BinaryHeap.lessOf (default : PriorityQueue T) xs = some q ∧
      q.Size = xs.length ∧ drain BinaryHeap.lessOf (xs.length + 1) q = some out ∧
      out.length = xs.length ∧ out.Perm xs ∧ out.Pairwise (fun a b => b ≤ a) := by
  have hlt := BinaryHeap.lessOf_strictWeakOrder (T := T)
  have hw0 : (default : PriorityQueue T).container_.array_.WF := DynamicArray.WF_default
  have hh0 : BinaryHeap.IsHeap BinaryHeap.lessOf (default : PriorityQueue T).container_.toList := by
    intro j c x y _ hx _
    simp [default, BinaryHeap.toList, DynamicArray.toList, BinaryHeap.default,
      DynamicArray.default] at hx
  obtain ⟨q, e1, hw1, hs1, hp1, hh1⟩ := pushAll_spec BinaryHeap.lessOf hlt xs default hw0 hh0
  have hsz : q.Size = xs.length := by
    rw [hs1]
    show 0 + xs.length = xs.length
    omega
  obtain ⟨out, e2, hp2, hso⟩ := drain_spec BinaryHeap.lessOf hlt xs.length q hw1 hsz hh1
  have hperm : out.Perm xs := by
    refine hp2.trans (hp1.trans ?_)
    have : (default : PriorityQueue T).container_.toList = [] := rfl
    rw [this]
    simp
  refine ⟨q, out, e1, hsz, e2, hperm.length_eq, hperm, ?_⟩
  refine hso.imp ?_
  intro a b hab
  simpa [BinaryHeap.lessOf] using hab

end PriorityQueue

namespace Deque

variable {T : Type}

/-- The elements of a deque with fitting counters lie in the map. -/
theorem Counted_fits {kBlockSize : Nat} {d : Deque T} {n : Nat} (h : Counted kBlockSize d n) :
    d.block_head_ + n ≤ d.map_capacity_ * kBlockSize := by
  have hk := h.block_size
  have e := Nat.div_add_mod (d.block_head_ + n + kBlockSize - 1) kBlockSize
  have hlt := Nat.mod_lt (d.block_head_ + n + kBlockSize - 1) hk
  have hmul : kBlockSize * d.map_size_ ≤ kBlockSize * d.map_capacity_ :=
    Nat.mul_le_mul_left _ h.map_size_le
  rw [h.map_size] at hmul
  rw [Nat.mul_comm d.map_capacity_ kBlockSize]
  omega

/-- With no element the last block is the one before the first offset: a
tail at the end of a block means a head at the start of the next one, with no
block in use. -/
theorem Counted_empty_full {kBlockSize : Nat} {d : Deque T} (h : Counted kBlockSize d 0)
    (ht : d.block_tail_ + 1 = kBlockSize) : d.block_head_ = 0 ∧ d.map_size_ = 0 := by
  have hk := h.block_size
  have hb := h.block_tail
  have hm := h.map_size
  have hh := h.head_lt
  by_cases h0 : d.block_head_ = 0
  · refine ⟨h0, ?_⟩
    rw [hm, h0]
    exact Nat.div_eq_of_lt (by omega)
  · exfalso
    have e : d.block_head_ + 0 + kBlockSize - 1 = (d.block_head_ - 1) + kBlockSize := by omega
    rw [e, Nat.add_mod_right, Nat.mod_eq_of_lt (by omega)] at hb
    omega

/-- With no element and the head at the start of a block, no block is in use
and the tail is the last offset. -/
theorem Counted_empty_head {kBlockSize : Nat} {d : Deque T} (h : Counted kBlockSize d 0)
    (h0 : d.block_head_ = 0) : d.map_size_ = 0 := by
  have hk := h.block_size
  rw [h.map_size, h0]
  exact Nat.div_eq_of_lt (by omega)

/-- The counters after the first element has been given the middle of a new
block. -/
theorem middle_counts (kBlockSize : Nat) (hk : 0 < kBlockSize) :
    (kBlockSize - 1) / 2 < kBlockSize ∧
      ((kBlockSize - 1) / 2 + (0 + 1) + kBlockSize - 1) % kBlockSize = (kBlockSize - 1) / 2 ∧
      ((kBlockSize - 1) / 2 + (0 + 1) + kBlockSize - 1) / kBlockSize = 1 := by
  have hb0 : (kBlockSize - 1) / 2 < kBlockSize :=
    lt_of_le_of_lt (Nat.div_le_self _ _) (by omega)
  have e : (kBlockSize - 1) / 2 + (0 + 1) + kBlockSize - 1
      = (kBlockSize - 1) / 2 + kBlockSize := by omega
  refine ⟨hb0, ?_, ?_⟩
  · rw [e, Nat.add_mod_right, Nat.mod_eq_of_lt hb0]
  · rw [e, Nat.add_div_right _ hk, Nat.div_eq_of_lt hb0]

/-- The blocks that `GrowMap` takes over: the blocks in use, from the head of
the circular map on. -/
theorem takeBlocks_spec (d : Deque T) (hc : 0 < d.map_capacity_)
    (hl : d.map_.length = d.map_capacity_) :
    ∀ (n i : Nat), ∃ bs, takeBlocks d n i = some bs ∧ bs.length = n ∧
      ∀ j, j < n → bs[j]? = d.map_[(d.map_head_ + (i + j)) % d.map_capacity_]?
  | 0, _ => ⟨[], rfl, rfl, fun j hj => absurd hj (Nat.not_lt_zero j)⟩
  | n + 1, i => by
    have hc0 : d.map_capacity_ ≠ 0 := Nat.pos_iff_ne_zero.1 hc
    have hlt : (d.map_head_ + i) % d.map_capacity_ < d.map_.length := by
      rw [hl]
      exact Nat.mod_lt _ hc
    obtain ⟨bs, e, hlen, hget⟩ := takeBlocks_spec d hc hl n (i + 1)
    refine ⟨d.map_[(d.map_head_ + i) % d.map_capacity_] :: bs, ?_, by simp [hlen], ?_⟩
    · simp only [takeBlocks, if_neg hc0, List.getElem?_eq_getElem hlt, e, Option.map_some']
    · intro j hj
      cases j with
      | zero =>
        simp only [List.getElem?_cons_zero, Nat.add_zero]
        exact (List.getElem?_eq_getElem hlt).symm
      | succ j =>
        rw [List.getElem?_cons_succ, hget j (by omega)]
        have : i + 1 + j = i + (j + 1) := by omega
        rw [this]

/-- `GrowMap(c)` on a deque with fitting counters, for `c` at least the number
of blocks in use: the blocks in use become the first blocks of the new map,
and every cell of a block in use holds what it held. -/
theorem GrowMap_counted (kBlockSize : Nat) (d : Deque T) (n c : Nat)
    (h : Counted kBlockSize d n) (hle : d.map_size_ ≤ c) (hc : 0 < c) :
    ∃ g, d.GrowMap kBlockSize c = some g ∧ g.size_ = d.size_ ∧ g.map_capacity_ = c ∧
      g.map_size_ = d.map_size_ ∧ g.block_head_ = d.block_head_ ∧
      g.block_tail_ = d.block_tail_ ∧ g.map_head_ = 0 ∧ g.map_.length = c ∧
      (∀ b ∈ g.map_, b.length = kBlockSize) ∧
      ∀ i, (d.block_head_ + i) / kBlockSize < d.map_size_ →
        g.readCell kBlockSize i = d.readCell kBlockSize i := by
  obtain ⟨bs, e, hlen, hget⟩ := takeBlocks_spec d h.capacity_pos h.map_length d.map_size_ 0
  refine ⟨{ d with
      map_ := bs ++ List.replicate (c - d.map_size_) (List.replicate kBlockSize none)
      map_capacity_ := c
      map_head_ := 0 }, ?_, rfl, rfl, rfl, rfl, rfl, rfl, ?_, ?_, ?_⟩
  · simp only [GrowMap, e, if_pos hle]
  · show (bs ++ List.replicate _ _).length = c
    rw [List.length_append, List.length_replicate, hlen]
    omega
  · intro b hb
    rcases List.mem_append.1 hb with hb | hb
    · obtain ⟨j, hj, rfl⟩ := List.getElem_of_mem hb
      have h1 := hget j (by omega)
      rw [List.getElem?_eq_getElem hj] at h1
      have hlt : (d.map_head_ + (0 + j)) % d.map_capacity_ < d.map_.length := by
        rw [h.map_length]
        exact Nat.mod_lt _ h.capacity_pos
      rw [List.getElem?_eq_getElem hlt, Option.some.injEq] at h1
      rw [h1]
      exact h.blocks _ (List.getElem_mem _)
    · rw [List.eq_of_mem_replicate hb]
      simp
  · intro i hi
    have hc0 : d.map_capacity_ ≠ 0 := Nat.pos_iff_ne_zero.1 h.capacity_pos
    have hcc : ¬ (c = 0) := Nat.pos_iff_ne_zero.1 hc
    have hq : (d.block_head_ + i) / kBlockSize < c := by omega
    simp only [readCell, cellOf, if_neg hc0, if_neg hcc, Nat.zero_add, Nat.mod_eq_of_lt hq]
    rw [List.getElem?_append_left (by rw [hlen]; exact hi), hget _ hi, Nat.zero_add]

/-- One more block at the back: `GrowBlocks(kBack, 1)` and `update_head_tail`
for one element, on a deque with fitting counters whose last block is full up
to its end and whose map has a free entry. -/
theorem growBlock_back (kBlockSize : Nat) (d : Deque T) (n : Nat)
    (h : Counted kBlockSize d n) (hs : d.size_ = n) (ht : d.block_tail_ + 1 = kBlockSize)
    (hroom : d.map_size_ < d.map_capacity_) :
    Counted kBlockSize
        (updateHeadTail kBlockSize (d.GrowBlocks Position.kBack 1) Position.kBack 1) (n + 1) ∧
      (updateHeadTail kBlockSize (d.GrowBlocks Position.kBack 1) Position.kBack 1).size_
        = d.size_ ∧
      ∀ i, i < n →
        (updateHeadTail kBlockSize (d.GrowBlocks Position.kBack 1) Position.kBack 1).readCell
          kBlockSize i = d.readCell kBlockSize i := by
  have hk := h.block_size
  by_cases hn : n = 0
  · subst hn
    obtain ⟨hb0, hm1, hm2⟩ := middle_counts kBlockSize hk
    obtain ⟨_, hms⟩ := Counted_empty_full h ht
    have hw2 : wsub 1 1 = 0 := by simp [wsub]
    have hw4 : wsub (1 * kBlockSize) 1 = kBlockSize - 1 := by
      rw [Nat.one_mul]
      exact wsub_of_le hk
    have hg : updateHeadTail kBlockSize (d.GrowBlocks Position.kBack 1) Position.kBack 1
        = { d with map_size_ := d.map_size_ + 1
                   block_head_ := (kBlockSize - 1) / 2
                   block_tail_ := (kBlockSize - 1) / 2 } := by
      simp only [GrowBlocks, updateHeadTail, hs, if_true, hw2, Nat.zero_div, Nat.zero_add, hw4,
        Nat.zero_mod, Nat.mod_eq_of_lt hb0]
    rw [hg]
    refine ⟨⟨hk, h.capacity_pos, h.map_length, h.blocks, h.map_head_lt, hb0, hm1.symm, ?_, ?_⟩,
      rfl, fun i hi => absurd hi (Nat.not_lt_zero i)⟩
    · show d.map_size_ + 1 = _
      rw [hm2, hms]
    · show d.map_size_ + 1 ≤ d.map_capacity_
      omega
  · have hsz : ¬ (d.size_ = 0) := by omega
    obtain ⟨_, hb⟩ := succ_div_mod (d.block_head_ + n + kBlockSize - 1) kBlockSize hk
    rw [← h.block_tail] at hb
    obtain ⟨h1, h2⟩ := hb ht
    have e : d.block_head_ + (n + 1) + kBlockSize - 1
        = d.block_head_ + n + kBlockSize - 1 + 1 := by omega
    have hg : updateHeadTail kBlockSize (d.GrowBlocks Position.kBack 1) Position.kBack 1
        = { d with map_size_ := d.map_size_ + 1
                   block_tail_ := (d.block_tail_ + 1 % kBlockSize) % kBlockSize } := by
      simp only [GrowBlocks, updateHeadTail, if_neg hsz]
    rw [hg]
    refine ⟨⟨hk, h.capacity_pos, h.map_length, h.blocks, h.map_head_lt, h.head_lt, ?_, ?_, ?_⟩,
      rfl, fun i _ => rfl⟩
    · show (d.block_tail_ + 1 % kBlockSize) % kBlockSize = _
      rw [Nat.add_mod_mod, ht, Nat.mod_self, e, h1]
    · show d.map_size_ + 1 = _
      rw [e, h2, h.map_size]
    · show d.map_size_ + 1 ≤ d.map_capacity_
      omega

/-- `Grow(kBack, 1)` on a deque with fitting counters: there is room for one
more element at the back, and the elements stay where they are. -/
theorem Grow_back_counted (kBlockSize : Nat) (d : Deque T) (n : Nat)
    (h : Counted kBlockSize d n) (hs : d.size_ = n) :
    ∃ g, d.Grow kBlockSize Position.kBack 1 = some g ∧ g.size_ = d.size_ ∧
      Counted kBlockSize g (n + 1) ∧
      ∀ i, i < n → g.readCell kBlockSize i = d.readCell kBlockSize i := by
  have hk := h.block_size
  have hcp := h.capacity_pos
  have hc : d.map_capacity_ ≠ 0 := Nat.pos_iff_ne_zero.1 hcp
  have hbtlt : d.block_tail_ < kBlockSize := by
    rw [h.block_tail]
    exact Nat.mod_lt _ hk
  have hfree : wsub kBlockSize (d.block_tail_ + 1) = kBlockSize - (d.block_tail_ + 1) :=
    wsub_of_le (by omega)
  have e : d.block_head_ + (n + 1) + kBlockSize - 1
      = d.block_head_ + n + kBlockSize - 1 + 1 := by omega
  by_cases hroom : d.block_tail_ + 1 < kBlockSize
  · obtain ⟨ha, _⟩ := succ_div_mod (d.block_head_ + n + kBlockSize - 1) kBlockSize hk
    rw [← h.block_tail] at ha
    obtain ⟨h1, h2⟩ := ha hroom
    refine ⟨{ d with block_tail_ := d.block_tail_ + 1 }, ?_, rfl,
      ⟨hk, hcp, h.map_length, h.blocks, h.map_head_lt, h.head_lt, ?_, ?_, h.map_size_le⟩,
      fun i _ => rfl⟩
    · simp only [Grow, if_neg hc, hfree]
      rw [if_pos (show 1 ≤ kBlockSize - (d.block_tail_ + 1) by omega)]
    · show d.block_tail_ + 1 = _
      rw [e, h1]
    · show d.map_size_ = _
      rw [e, h2, h.map_size]
  · have hfull : d.block_tail_ + 1 = kBlockSize := by omega
    have hfree0 : kBlockSize - (d.block_tail_ + 1) = 0 := by omega
    have hw1 : wsub 1 0 = 1 := by simp [wsub]
    have hw2 : wsub 1 1 = 0 := by simp [wsub]
    have hwc : wsub d.map_capacity_ d.map_size_ = d.map_capacity_ - d.map_size_ :=
      wsub_of_le h.map_size_le
    by_cases hblocks : d.map_size_ < d.map_capacity_
    · obtain ⟨g1, g2, g3⟩ := growBlock_back kBlockSize d n h hs hfull hblocks
      refine ⟨_, ?_, g2, g1, g3⟩
      simp only [Grow, if_neg hc, hfree, hfree0, hw1, hw2, Nat.zero_div, Nat.zero_add, hwc]
      rw [if_neg (show ¬ (1 ≤ 0) by omega),
        if_pos (show 1 ≤ d.map_capacity_ - d.map_size_ by omega)]
    · have hfullmap : d.map_size_ = d.map_capacity_ := by
        have := h.map_size_le
        omega
      have hmax1 : d.map_capacity_ + 1 ≤ max (2 * d.map_capacity_) (d.map_capacity_ + 1) :=
        le_max_right _ _
      obtain ⟨g, e1, e2, e3, e4, e5, e6, e7, e8, e9, e10⟩ :=
        GrowMap_counted kBlockSize d n (max (2 * d.map_capacity_) (d.map_capacity_ + 1)) h
          (by omega) (by omega)
      have hgc : Counted kBlockSize g n :=
        ⟨hk, by omega, by rw [e8, e3], e9, by omega, by rw [e5]; exact h.head_lt,
          by rw [e6, e5]; exact h.block_tail, by rw [e4, e5]; exact h.map_size, by omega⟩
      obtain ⟨g1, g2, g3⟩ := growBlock_back kBlockSize g n hgc (by rw [e2]; exact hs)
        (by rw [e6]; exact hfull) (by omega)
      refine ⟨_, ?_, by rw [g2, e2], g1, ?_⟩
      · simp only [Grow, if_neg hc, hfree, hfree0, hw1, hw2, Nat.zero_div, Nat.zero_add, hwc]
        rw [if_neg (show ¬ (1 ≤ 0) by omega),
          if_neg (show ¬ (1 ≤ d.map_capacity_ - d.map_size_) by omega)]
        simp only [e1]
      · intro i hi
        rw [g3 i hi]
        refine e10 i ?_
        rw [h.map_size]
        have e2 : d.block_head_ + n + kBlockSize - 1
            = d.block_head_ + (n - 1) + kBlockSize := by omega
        rw [e2, Nat.add_div_right _ hk]
        exact Nat.lt_succ_of_le (Nat.div_le_div_right (by omega))

/-- The cell of the index `i + 1` after the head has moved to the end of the
block before the first one is the cell of the index `i` before. -/
theorem cellOf_block_before (kBlockSize : Nat) (d g : Deque T) (i : Nat) (hk : 0 < kBlockSize)
    (hc : 0 < d.map_capacity_) (hb0 : d.block_head_ = 0)
    (h1 : g.map_capacity_ = d.map_capacity_)
    (h2 : g.map_head_ = (d.map_head_ + d.map_capacity_ - 1) % d.map_capacity_)
    (h3 : g.block_head_ = kBlockSize - 1) :
    g.cellOf kBlockSize (i + 1) = d.cellOf kBlockSize i := by
  rw [cellOf_pos kBlockSize d i hc, cellOf_pos kBlockSize g (i + 1) (by rw [h1]; exact hc),
    h1, h2, h3, hb0]
  have e : kBlockSize - 1 + (i + 1) = i + kBlockSize := by omega
  rw [e, Nat.add_div_right _ hk, Nat.add_mod_right, Nat.zero_add, Nat.mod_add_mod]
  have e2 : d.map_head_ + d.map_capacity_ - 1 + (i / kBlockSize + 1)
      = d.map_head_ + i / kBlockSize + d.map_capacity_ := by omega
  rw [e2, Nat.add_mod_right]

/-- The head of the map after `GrowBlocks(kFront, 1)`: the entry before, in
the circular map. -/
theorem GrowBlocks_front (d : Deque T) (hc : 0 < d.map_capacity_)
    (hm : d.map_head_ < d.map_capacity_) :
    d.GrowBlocks Position.kFront 1
      = { d with map_size_ := d.map_size_ + 1
                 map_head_ := (d.map_head_ + d.map_capacity_ - 1) % d.map_capacity_ } := by
  by_cases h0 : d.map_head_ = 0
  · have hw1 : wsub 1 (0 + 1) = 0 := by simp [wsub]
    have hw2 : wsub d.map_capacity_ 1 = d.map_capacity_ - 1 := wsub_of_le hc
    have hw3 : wsub (d.map_capacity_ - 1) 0 = d.map_capacity_ - 1 := by simp [wsub]
    have e : (0 + d.map_capacity_ - 1) % d.map_capacity_ = d.map_capacity_ - 1 := by
      rw [Nat.zero_add]
      exact Nat.mod_eq_of_lt (by omega)
    simp only [GrowBlocks, h0, gt_iff_lt, Nat.lt_one_iff, if_true, hw1, hw2, hw3, e]
  · have hw1 : wsub d.map_head_ 1 = d.map_head_ - 1 := wsub_of_le (by omega)
    have e : (d.map_head_ + d.map_capacity_ - 1) % d.map_capacity_ = d.map_head_ - 1 := by
      have e2 : d.map_head_ + d.map_capacity_ - 1 = d.map_head_ - 1 + d.map_capacity_ := by omega
      rw [e2, Nat.add_mod_right]
      exact Nat.mod_eq_of_lt (by omega)
    simp only [GrowBlocks, gt_iff_lt, Nat.lt_one_iff, if_neg h0, hw1, e]

/-- One more block at the front: `GrowBlocks(kFront, 1)` and
`update_head_tail` for one element, on a deque with fitting counters whose
first element is at the start of its block and whose map has a free entry. -/
theorem growBlock_front (kBlockSize : Nat) (d : Deque T) (n : Nat)
    (h : Counted kBlockSize d n) (hs : d.size_ = n) (hb0 : d.block_head_ = 0)
    (hroom : d.map_size_ < d.map_capacity_) :
    Counted kBlockSize
        (updateHeadTail kBlockSize (d.GrowBlocks Position.kFront 1) Position.kFront 1) (n + 1) ∧
      (updateHeadTail kBlockSize (d.GrowBlocks Position.kFront 1) Position.kFront 1).size_
        = d.size_ ∧
      ∀ i, i < n →
        (updateHeadTail kBlockSize (d.GrowBlocks Position.kFront 1) Position.kFront 1).readCell
          kBlockSize (i + 1) = d.readCell kBlockSize i := by
  have hk := h.block_size
  have hcp := h.capacity_pos
  have hmh : (d.map_head_ + d.map_capacity_ - 1) % d.map_capacity_ < d.map_capacity_ :=
    Nat.mod_lt _ hcp
  rw [GrowBlocks_front d hcp h.map_head_lt]
  by_cases hn : n = 0
  · subst hn
    obtain ⟨hm0, hm1, hm2⟩ := middle_counts kBlockSize hk
    have hms := Counted_empty_head h hb0
    have hw2 : wsub 1 1 = 0 := by simp [wsub]
    have hw4 : wsub (1 * kBlockSize) 1 = kBlockSize - 1 := by
      rw [Nat.one_mul]
      exact wsub_of_le hk
    have hg : updateHeadTail kBlockSize
        { d with map_size_ := d.map_size_ + 1
                 map_head_ := (d.map_head_ + d.map_capacity_ - 1) % d.map_capacity_ }
          Position.kFront 1
        = { d with map_size_ := d.map_size_ + 1
                   map_head_ := (d.map_head_ + d.map_capacity_ - 1) % d.map_capacity_
                   block_head_ := (kBlockSize - 1) / 2
                   block_tail_ := (kBlockSize - 1) / 2 } := by
      simp only [updateHeadTail, hs, if_true, hw2, Nat.zero_div, Nat.zero_add, hw4,
        Nat.zero_mod, Nat.mod_eq_of_lt hm0]
    rw [hg]
    refine ⟨⟨hk, hcp, h.map_length, h.blocks, hmh, hm0, hm1.symm, ?_, ?_⟩,
      rfl, fun i hi => absurd hi (Nat.not_lt_zero i)⟩
    · show d.map_size_ + 1 = _
      rw [hm2, hms]
    · show d.map_size_ + 1 ≤ d.map_capacity_
      omega
  · have hsz : ¬ (d.size_ = 0) := by omega
    have hbh : (if d.block_head_ ≥ 1 % kBlockSize then d.block_head_ - 1 % kBlockSize
        else wsub kBlockSize (1 % kBlockSize - d.block_head_)) = kBlockSize - 1 := by
      rw [hb0]
      by_cases hk1 : kBlockSize = 1
      · subst hk1
        simp
      · have h1 : 1 % kBlockSize = 1 := Nat.mod_eq_of_lt (by omega)
        rw [h1, if_neg (by omega), Nat.sub_zero]
        exact wsub_of_le hk
    have hg : updateHeadTail kBlockSize
        { d with map_size_ := d.map_size_ + 1
                 map_head_ := (d.map_head_ + d.map_capacity_ - 1) % d.map_capacity_ }
          Position.kFront 1
        = { d with map_size_ := d.map_size_ + 1
                   map_head_ := (d.map_head_ + d.map_capacity_ - 1) % d.map_capacity_
                   block_head_ := kBlockSize - 1 } := by
      simp only [updateHeadTail, if_neg hsz]
      split
      · next hge =>
        have := hbh
        rw [if_pos hge] at this
        simp only [this]
      · next hge =>
        have := hbh
        rw [if_neg hge] at this
        simp only [this]
    rw [hg]
    have e : kBlockSize - 1 + (n + 1) + kBlockSize - 1
        = d.block_head_ + n + kBlockSize - 1 + kBlockSize := by omega
    refine ⟨⟨hk, hcp, h.map_length, h.blocks, hmh, by show kBlockSize - 1 < kBlockSize; omega,
      ?_, ?_, ?_⟩, rfl, ?_⟩
    · show d.block_tail_ = (kBlockSize - 1 + (n + 1) + kBlockSize - 1) % kBlockSize
      rw [e, Nat.add_mod_right]
      exact h.block_tail
    · show d.map_size_ + 1 = (kBlockSize - 1 + (n + 1) + kBlockSize - 1) / kBlockSize
      rw [e, Nat.add_div_right _ hk, h.map_size]
    · show d.map_size_ + 1 ≤ d.map_capacity_
      omega
    · intro i _
      have hcell := cellOf_block_before kBlockSize d
        ({ d with map_size_ := d.map_size_ + 1
                  map_head_ := (d.map_head_ + d.map_capacity_ - 1) % d.map_capacity_
                  block_head_ := kBlockSize - 1 } : Deque T) i hk hcp hb0 rfl rfl rfl
      simp only [readCell, hcell]

/-- `Grow(kFront, 1)` on a deque with fitting counters: there is room for one
more element at the front, and the elements move up by one index. -/
theorem Grow_front_counted (kBlockSize : Nat) (d : Deque T) (n : Nat)
    (h : Counted kBlockSize d n) (hs : d.size_ = n) :
    ∃ g, d.Grow kBlockSize Position.kFront 1 = some g ∧ g.size_ = d.size_ ∧
      Counted kBlockSize g (n + 1) ∧
      ∀ i, i < n → g.readCell kBlockSize (i + 1) = d.readCell kBlockSize i := by
  have hk := h.block_size
  have hcp := h.capacity_pos
  have hc : d.map_capacity_ ≠ 0 := Nat.pos_iff_ne_zero.1 hcp
  by_cases hroom : 1 ≤ d.block_head_
  · have hw : wsub d.block_head_ 1 = d.block_head_ - 1 := wsub_of_le hroom
    have hh := h.head_lt
    have e : d.block_head_ - 1 + (n + 1) + kBlockSize - 1
        = d.block_head_ + n + kBlockSize - 1 := by omega
    refine ⟨{ d with block_head_ := d.block_head_ - 1 }, ?_, rfl,
      ⟨hk, hcp, h.map_length, h.blocks, h.map_head_lt, ?_, ?_, ?_, h.map_size_le⟩, ?_⟩
    · simp only [Grow, if_neg hc, if_pos hroom, hw]
    · show d.block_head_ - 1 < kBlockSize
      omega
    · show d.block_tail_ = (d.block_head_ - 1 + (n + 1) + kBlockSize - 1) % kBlockSize
      rw [e]
      exact h.block_tail
    · show d.map_size_ = (d.block_head_ - 1 + (n + 1) + kBlockSize - 1) / kBlockSize
      rw [e]
      exact h.map_size
    · intro i _
      have e2 : d.block_head_ - 1 + (i + 1) = d.block_head_ + i := by omega
      simp only [readCell, cellOf, if_neg hc, e2]
  · have hb0 : d.block_head_ = 0 := by omega
    have hw1 : wsub 1 0 = 1 := by simp [wsub]
    have hw2 : wsub 1 1 = 0 := by simp [wsub]
    have hwc : wsub d.map_capacity_ d.map_size_ = d.map_capacity_ - d.map_size_ :=
      wsub_of_le h.map_size_le
    by_cases hblocks : d.map_size_ < d.map_capacity_
    · obtain ⟨g1, g2, g3⟩ := growBlock_front kBlockSize d n h hs hb0 hblocks
      refine ⟨_, ?_, g2, g1, g3⟩
      simp only [Grow, if_neg hc, if_neg hroom, hb0, hw1, hw2, Nat.zero_div, Nat.zero_add, hwc]
      rw [if_neg (show ¬ (1 ≤ 0) by omega),
        if_pos (show 1 ≤ d.map_capacity_ - d.map_size_ by omega)]
    · have hfullmap : d.map_size_ = d.map_capacity_ := by
        have := h.map_size_le
        omega
      have hmax1 : d.map_capacity_ + 1 ≤ max (2 * d.map_capacity_) (d.map_capacity_ + 1) :=
        le_max_right _ _
      obtain ⟨g, e1, e2, e3, e4, e5, e6, e7, e8, e9, e10⟩ :=
        GrowMap_counted kBlockSize d n (max (2 * d.map_capacity_) (d.map_capacity_ + 1)) h
          (by omega) (by omega)
      have hgc : Counted kBlockSize g n :=
        ⟨hk, by omega, by rw [e8, e3], e9, by omega, by rw [e5]; exact h.head_lt,
          by rw [e6, e5]; exact h.block_tail, by rw [e4, e5]; exact h.map_size, by omega⟩
      obtain ⟨g1, g2, g3⟩ := growBlock_front kBlockSize g n hgc (by rw [e2]; exact hs)
        (by rw [e5]; exact hb0) (by omega)
      refine ⟨_, ?_, by rw [g2, e2], g1, ?_⟩
      · simp only [Grow, if_neg hc, if_neg hroom, hb0, hw1, hw2, Nat.zero_div, Nat.zero_add,
          hwc]
        rw [if_neg (show ¬ (1 ≤ 0) by omega),
          if_neg (show ¬ (1 ≤ d.map_capacity_ - d.map_size_) by omega)]
        simp only [e1]
      · intro i hi
        rw [g3 i hi]
        refine e10 i ?_
        rw [h.map_size]
        have e2 : d.block_head_ + n + kBlockSize - 1
            = d.block_head_ + (n - 1) + kBlockSize := by omega
        rw [e2, Nat.add_div_right _ hk]
        exact Nat.lt_succ_of_le (Nat.div_le_div_right (by omega))

/-- `PushBack(x)` on a deque that holds the values `ys` gives the deque that
holds `ys ++ [x]`. -/
theorem PushBack_tracks (kBlockSize : Nat) (d : Deque T) (ys : List T) (x : T)
    (h : Tracks kBlockSize d ys) :
    ∃ d1, d.PushBack kBlockSize x = some d1 ∧ Tracks kBlockSize d1 (ys ++ [x]) := by
  obtain ⟨g, hg, hgs, hgc, hgr⟩ := Grow_back_counted kBlockSize d ys.length h.counted h.size_eq
  have hk := hgc.block_size
  obtain ⟨m, hw, hml, hmb, hmr⟩ := writeCell_read kBlockSize g g.size_ (some x) hk
    hgc.capacity_pos hgc.map_length hgc.blocks
  have hsz : g.size_ = ys.length := by rw [hgs, h.size_eq]
  have hfit := Counted_fits hgc
  have hlen : (ys ++ [x]).length = ys.length + 1 := by simp
  refine ⟨{ g with map_ := m, size_ := g.size_ + 1 }, ?_, ?_, ?_, ?_⟩
  · simp only [PushBack, hg, hw]
  · rw [hlen]
    exact ⟨hk, hgc.capacity_pos, hml, hmb, hgc.map_head_lt, hgc.head_lt, hgc.block_tail,
      hgc.map_size, hgc.map_size_le⟩
  · show g.size_ + 1 = (ys ++ [x]).length
    rw [hlen, hsz]
  · intro i hi
    have hi2 : i < ys.length + 1 := by rw [← hlen]; exact hi
    have hsub : ({ g with map_ := m, size_ := g.size_ + 1 } : Deque T).readCell kBlockSize i
        = ({ g with map_ := m } : Deque T).readCell kBlockSize i := rfl
    simp only [subscript, hsub, hmr i]
    by_cases hin : i = ys.length
    · subst hin
      rw [hsz, if_pos rfl]
      simp
    · have hlt : i < ys.length := by omega
      have hne : g.cellOf kBlockSize i ≠ g.cellOf kBlockSize g.size_ := by
        intro e
        have := cellOf_inj kBlockSize g i g.size_ hk hgc.capacity_pos (by omega) (by omega) e
        omega
      rw [if_neg hne, hgr i hlt, List.getElem?_append_left hlt]
      have := h.cells i hlt
      simpa [subscript] using this

/-- `PushFront(x)` on a deque that holds the values `ys` gives the deque that
holds `x :: ys`. -/
theorem PushFront_tracks (kBlockSize : Nat) (d : Deque T) (ys : List T) (x : T)
    (h : Tracks kBlockSize d ys) :
    ∃ d1, d.PushFront kBlockSize x = some d1 ∧ Tracks kBlockSize d1 (x :: ys) := by
  obtain ⟨g, hg, hgs, hgc, hgr⟩ := Grow_front_counted kBlockSize d ys.length h.counted h.size_eq
  have hk := hgc.block_size
  obtain ⟨m, hw, hml, hmb, hmr⟩ := writeCell_read kBlockSize g 0 (some x) hk
    hgc.capacity_pos hgc.map_length hgc.blocks
  have hsz : g.size_ = ys.length := by rw [hgs, h.size_eq]
  have hfit := Counted_fits hgc
  refine ⟨{ g with map_ := m, size_ := g.size_ + 1 }, ?_, ?_, ?_, ?_⟩
  · simp only [PushFront, hg, hw]
  · exact ⟨hk, hgc.capacity_pos, hml, hmb, hgc.map_head_lt, hgc.head_lt, hgc.block_tail,
      hgc.map_size, hgc.map_size_le⟩
  · show g.size_ + 1 = (x :: ys).length
    rw [List.length_cons, hsz]
  · intro i hi
    have hi2 : i < ys.length + 1 := by simpa using hi
    have hsub : ({ g with map_ := m, size_ := g.size_ + 1 } : Deque T).readCell kBlockSize i
        = ({ g with map_ := m } : Deque T).readCell kBlockSize i := rfl
    simp only [subscript, hsub, hmr i]
    cases i with
    | zero =>
      rw [if_pos rfl]
      simp
    | succ i =>
      have hlt : i < ys.length := by omega
      have hne : g.cellOf kBlockSize (i + 1) ≠ g.cellOf kBlockSize 0 := by
        intro e
        have := cellOf_inj kBlockSize g (i + 1) 0 hk hgc.capacity_pos (by omega) (by omega) e
        omega
      rw [if_neg hne, hgr i hlt, List.getElem?_cons_succ]
      have := h.cells i hlt
      simpa [subscript] using this

/-- `Erase` of the last element, `Erase(cbegin() + f, cbegin() + f + 1)` with
`f + 1 == Size()`, on a deque that holds the values `ys`: it takes the
`kBack` branch and gives the deque that holds `ys` without its last value. -/
theorem Erase_last_tracks (kBlockSize : Nat) (d : Deque T) (ys : List T) (f : Nat)
    (h : Tracks kBlockSize d ys) (hf : f + 1 = d.size_) :
    ∃ d1, (d.Erase kBlockSize f (f + 1)).map Prod.fst = some d1 ∧
      Tracks kBlockSize d1 ys.dropLast := by
  have hc := h.counted
  have hk := hc.block_size
  have hn : f + 1 = ys.length := by rw [hf, h.size_eq]
  obtain ⟨m, hw, hml, hmb, hmr⟩ := writeCell_read kBlockSize d f none hk
    hc.capacity_pos hc.map_length hc.blocks
  have hw1 : wsub (f + 1) f = 1 := by
    rw [wsub_of_le (Nat.le_succ f)]
    omega
  have hw2 : wsub (wsub (d.size_ + 1) (f + 1)) 1 = 0 := by
    rw [wsub_of_le (show f + 1 ≤ d.size_ + 1 by omega),
      wsub_of_le (show 1 ≤ d.size_ + 1 - (f + 1) by omega)]
    omega
  have hw3 : wsub d.size_ 1 = f := by
    rw [wsub_of_le (show 1 ≤ d.size_ by omega)]
    omega
  have hmd : d.size_ - (f + 1) = 0 := by omega
  have hn0 : ¬ (f = d.size_) := by omega
  have h10 : ¬ ((1 : Nat) = 0) := by decide
  have hlen : ys.dropLast.length = f := by
    rw [List.length_dropLast]
    omega
  -- the counters of the deque without its last element
  have e : d.block_head_ + ys.length + kBlockSize - 1
      = d.block_head_ + f + kBlockSize - 1 + 1 := by omega
  have hbt := hc.block_tail
  have hms := hc.map_size
  rw [e] at hbt hms
  obtain ⟨ha, hb⟩ := succ_div_mod (d.block_head_ + f + kBlockSize - 1) kBlockSize hk
  have hrlt := Nat.mod_lt (d.block_head_ + f + kBlockSize - 1) hk
  have hcount : (if d.block_tail_ ≥ 1 % kBlockSize then d.block_tail_ - 1 % kBlockSize
        else wsub kBlockSize (1 % kBlockSize - d.block_tail_))
        = (d.block_head_ + f + kBlockSize - 1) % kBlockSize ∧
      wsub d.map_size_ (1 / kBlockSize + (if 1 % kBlockSize > d.block_tail_ then 1 else 0))
        = (d.block_head_ + f + kBlockSize - 1) / kBlockSize := by
    by_cases hA : (d.block_head_ + f + kBlockSize - 1) % kBlockSize + 1 < kBlockSize
    · obtain ⟨h1, h2⟩ := ha hA
      have hk2 : 1 < kBlockSize := by omega
      have e1 : 1 % kBlockSize = 1 := Nat.mod_eq_of_lt hk2
      have e2 : 1 / kBlockSize = 0 := Nat.div_eq_of_lt hk2
      rw [e1, e2, hbt, h1, hms, h2]
      rw [if_pos (show (d.block_head_ + f + kBlockSize - 1) % kBlockSize + 1 ≥ 1 by omega),
        if_neg (show ¬ (1 > (d.block_head_ + f + kBlockSize - 1) % kBlockSize + 1) by omega)]
      refine ⟨by omega, ?_⟩
      rw [Nat.zero_add]
      simp [wsub]
    · have hB : (d.block_head_ + f + kBlockSize - 1) % kBlockSize + 1 = kBlockSize := by omega
      obtain ⟨h1, h2⟩ := hb hB
      rw [hbt, h1, hms, h2]
      by_cases hk1 : kBlockSize = 1
      · subst hk1
        simp [wsub, Nat.mod_one]
      · have hk2 : 1 < kBlockSize := by omega
        have e1 : 1 % kBlockSize = 1 := Nat.mod_eq_of_lt hk2
        have e2 : 1 / kBlockSize = 0 := Nat.div_eq_of_lt hk2
        have hx : ¬ ((0 : Nat) ≥ 1) := by omega
        have hy : (1 : Nat) > 0 := by omega
        rw [e1, e2, if_neg hx, if_pos hy, Nat.sub_zero, wsub_of_le (show 1 ≤ kBlockSize by omega),
          wsub_of_le (show 0 + 1 ≤ (d.block_head_ + f + kBlockSize - 1) / kBlockSize + 1
            from Nat.add_le_add_right (Nat.zero_le _) 1)]
        exact ⟨by omega, by rw [Nat.zero_add, Nat.add_sub_cancel]⟩
  refine ⟨{ d with
    map_ := m
    map_size_ := wsub d.map_size_
      (1 / kBlockSize + (if 1 % kBlockSize > d.block_tail_ then 1 else 0))
    block_tail_ := (if d.block_tail_ ≥ 1 % kBlockSize then d.block_tail_ - 1 % kBlockSize
      else wsub kBlockSize (1 % kBlockSize - d.block_tail_))
    size_ := f }, ?_, ?_, ?_, ?_⟩
  · simp only [Erase, hw1, destroyAll, hw, if_neg hn0, if_neg h10, hw2, Nat.not_lt_zero,
      if_false, hmd, moveDown, hw3, Option.map_some']
  · rw [hlen]
    refine ⟨hk, hc.capacity_pos, hml, hmb, hc.map_head_lt, hc.head_lt, hcount.1, hcount.2, ?_⟩
    show wsub d.map_size_ _ ≤ d.map_capacity_
    rw [hcount.2]
    have := hc.map_size_le
    rw [hc.map_size] at this
    refine le_trans (Nat.div_le_div_right ?_) this
    omega
  · show f = ys.dropLast.length
    exact hlen.symm
  · intro i hi
    rw [hlen] at hi
    have hfit := Counted_fits hc
    have hne : d.cellOf kBlockSize i ≠ d.cellOf kBlockSize f := by
      intro e
      have := cellOf_inj kBlockSize d i f hk hc.capacity_pos (by omega) (by omega) e
      omega
    have hread : ({ d with
        map_ := m
        map_size_ := wsub d.map_size_
          (1 / kBlockSize + (if 1 % kBlockSize > d.block_tail_ then 1 else 0))
        block_tail_ := (if d.block_tail_ ≥ 1 % kBlockSize then d.block_tail_ - 1 % kBlockSize
          else wsub kBlockSize (1 % kBlockSize - d.block_tail_))
        size_ := f } : Deque T).readCell kBlockSize i = d.readCell kBlockSize i := by
      have h2 := hmr i
      rw [if_neg hne] at h2
      rw [← h2]
      rfl
    rw [subscript_of_readCell hread, h.cells i (by omega), List.dropLast_eq_take,
      List.getElem?_take_of_lt (by omega)]

/-- `PopBack()` on a deque that holds one or more values `ys` gives the deque
that holds `ys` without its last value. -/
theorem PopBack_tracks (kBlockSize : Nat) (d : Deque T) (ys : List T)
    (h : Tracks kBlockSize d ys) (hne : 0 < ys.length) :
    ∃ d1, d.PopBack kBlockSize = some d1 ∧ Tracks kBlockSize d1 ys.dropLast := by
  have hs := h.size_eq
  have hw : wsub d.size_ 1 = d.size_ - 1 := wsub_of_le (by omega)
  obtain ⟨d1, e, ht⟩ := Erase_last_tracks kBlockSize d ys (d.size_ - 1) h (by omega)
  refine ⟨d1, ?_, ht⟩
  rw [PopBack, hw]
  exact e

/-- `PopFront()` on a deque that holds the values `y :: ys` gives the deque
that holds `ys`: with two or more values `Erase` takes the `kFront` branch,
with one value the `kBack` branch. -/
theorem PopFront_tracks (kBlockSize : Nat) (d : Deque T) (y : T) (ys : List T)
    (h : Tracks kBlockSize d (y :: ys)) :
    ∃ d1, d.PopFront kBlockSize = some d1 ∧ Tracks kBlockSize d1 ys := by
  have hc := h.counted
  have hk := hc.block_size
  have hsz : d.size_ = ys.length + 1 := by simpa using h.size_eq
  by_cases hne : 0 < ys.length
  · obtain ⟨m, hw, hml, hmb, hmr⟩ := writeCell_read kBlockSize d 0 none hk
      hc.capacity_pos hc.map_length hc.blocks
    have hcap : d.map_capacity_ ≠ 0 := Nat.pos_iff_ne_zero.1 hc.capacity_pos
    have hw1 : wsub 1 0 = 1 := by simp [wsub]
    have hw2 : wsub (wsub (d.size_ + 1) (0 + 1)) 1 = ys.length := by
      rw [wsub_of_le (show 0 + 1 ≤ d.size_ + 1 by omega),
        wsub_of_le (show 1 ≤ d.size_ + 1 - (0 + 1) by omega)]
      omega
    have hw3 : wsub d.size_ 1 = ys.length := by
      rw [wsub_of_le (show 1 ≤ d.size_ by omega)]
      omega
    have hn0 : ¬ (0 = d.size_) := by omega
    have h10 : ¬ ((1 : Nat) = 0) := by decide
    have hh := hc.head_lt
    have hbt := hc.block_tail
    have hms := hc.map_size
    rw [List.length_cons] at hbt hms
    obtain ⟨ha, hb⟩ := succ_div_mod d.block_head_ kBlockSize hk
    rw [Nat.mod_eq_of_lt hh, Nat.div_eq_of_lt hh] at ha hb
    have hcount : ((d.block_head_ + 1 % kBlockSize) % kBlockSize < kBlockSize) ∧
        d.block_tail_ = ((d.block_head_ + 1 % kBlockSize) % kBlockSize + ys.length
          + kBlockSize - 1) % kBlockSize ∧
        wsub d.map_size_ ((1 + d.block_head_) / kBlockSize)
          = ((d.block_head_ + 1 % kBlockSize) % kBlockSize + ys.length + kBlockSize - 1)
            / kBlockSize := by
      rw [Nat.add_mod_mod, Nat.add_comm 1 d.block_head_]
      refine ⟨Nat.mod_lt _ hk, ?_⟩
      by_cases hA : d.block_head_ + 1 < kBlockSize
      · obtain ⟨h1, h2⟩ := ha hA
        have e : d.block_head_ + 1 + ys.length + kBlockSize - 1
            = d.block_head_ + (ys.length + 1) + kBlockSize - 1 := by omega
        rw [h1, h2, e]
        exact ⟨hbt, by rw [← hms]; simp [wsub]⟩
      · obtain ⟨h1, h2⟩ := hb (by omega)
        have e : d.block_head_ + (ys.length + 1) + kBlockSize - 1
            = 0 + ys.length + kBlockSize - 1 + kBlockSize := by omega
        rw [e, Nat.add_mod_right] at hbt
        rw [e, Nat.add_div_right _ hk] at hms
        rw [h1, h2]
        refine ⟨hbt, ?_⟩
        rw [hms, wsub_of_le (show 0 + 1 ≤ (0 + ys.length + kBlockSize - 1) / kBlockSize + 1
          from Nat.add_le_add_right (Nat.zero_le _) 1), Nat.zero_add, Nat.add_sub_cancel]
    refine ⟨{ d with
      map_ := m
      map_size_ := wsub d.map_size_ ((1 + d.block_head_) / kBlockSize)
      map_head_ := (d.map_head_ + (1 + d.block_head_) / kBlockSize) % d.map_capacity_
      block_head_ := (d.block_head_ + 1 % kBlockSize) % kBlockSize
      size_ := ys.length }, ?_, ?_, rfl, ?_⟩
    · simp only [PopFront, Erase, hw1, destroyAll, hw, if_neg hn0, if_neg h10, hw2, if_pos hne,
        Nat.zero_add, Nat.sub_self, moveUp, if_neg hcap, hw3, Option.map_some']
    · refine ⟨hk, hc.capacity_pos, hml, hmb, Nat.mod_lt _ hc.capacity_pos, hcount.1,
        hcount.2.1, hcount.2.2, ?_⟩
      show wsub d.map_size_ _ ≤ d.map_capacity_
      have := hc.map_size_le
      have hle : wsub d.map_size_ ((1 + d.block_head_) / kBlockSize) ≤ d.map_size_ := by
        rw [hcount.2.2, hc.map_size, List.length_cons]
        refine Nat.div_le_div_right ?_
        have := Nat.mod_le (d.block_head_ + 1) kBlockSize
        rw [Nat.add_mod_mod]
        omega
      omega
    · intro i hi
      have hcell := cellOf_front_moved kBlockSize d
        ({ d with
          map_ := m
          map_size_ := wsub d.map_size_ ((1 + d.block_head_) / kBlockSize)
          map_head_ := (d.map_head_ + (1 + d.block_head_) / kBlockSize) % d.map_capacity_
          block_head_ := (d.block_head_ + 1 % kBlockSize) % kBlockSize
          size_ := ys.length } : Deque T) i hk hc.capacity_pos hh rfl rfl rfl
      have hfit := Counted_fits hc
      rw [List.length_cons] at hfit
      have hne2 : d.cellOf kBlockSize (i + 1) ≠ d.cellOf kBlockSize 0 := by
        intro e
        have := cellOf_inj kBlockSize d (i + 1) 0 hk hc.capacity_pos (by omega) (by omega) e
        omega
      have hread : ({ d with
          map_ := m
          map_size_ := wsub d.map_size_ ((1 + d.block_head_) / kBlockSize)
          map_head_ := (d.map_head_ + (1 + d.block_head_) / kBlockSize) % d.map_capacity_
          block_head_ := (d.block_head_ + 1 % kBlockSize) % kBlockSize
          size_ := ys.length } : Deque T).readCell kBlockSize i
          = d.readCell kBlockSize (i + 1) := by
        have h2 := hmr (i + 1)
        rw [if_neg hne2] at h2
        rw [← h2]
        simp only [readCell, hcell]
        rfl
      rw [subscript_of_readCell hread, h.cells (i + 1) (by simp; omega)]
      simp
  · have hnil : ys = [] := List.length_eq_zero.mp (by omega)
    subst hnil
    obtain ⟨d1, e, ht⟩ := Erase_last_tracks kBlockSize d [y] 0 h (by rw [hsz]; rfl)
    exact ⟨d1, e, ht⟩

/-- A deque filled by `PushBack` calls on `Deque()` holds its values with
fitting counters. -/
theorem Pushed_tracks {kBlockSize : Nat} {d : Deque T} {ys : List T}
    (h : Pushed kBlockSize d ys) : Tracks kBlockSize d ys := by
  have hk := h.holds.block_size
  have hn := h.nonempty
  have e : d.block_head_ + ys.length + kBlockSize - 1
      = d.block_head_ + ys.length - 1 + kBlockSize := by omega
  refine ⟨⟨hk, h.holds.capacity_pos, h.holds.map_length, h.holds.blocks, ?_, h.holds.head_lt,
    ?_, ?_, h.map_size_le⟩, h.holds.size_eq, h.holds.cells⟩
  · rw [h.map_head]
    exact h.holds.capacity_pos
  · rw [e, Nat.add_mod_right]
    exact h.block_tail
  · rw [e, Nat.add_div_right _ hk]
    exact h.map_size

/-- `Grow(position, 1)` on `Deque()`, at either end: a map of one block, the
first element in the middle of the block. -/
theorem Grow_default (kBlockSize : Nat) (position : Position) (hk : 0 < kBlockSize) :
    (default : Deque T).Grow kBlockSize position 1
      = some ⟨[List.replicate kBlockSize none], 1, 1, 0, 0, (kBlockSize - 1) / 2,
        (kBlockSize - 1) / 2⟩ := by
  have hw1 : wsub 1 0 = 1 := by simp [wsub]
  have hw2 : wsub 1 1 = 0 := by simp [wsub]
  have hw3 : wsub 0 0 = 0 := by simp [wsub]
  have hw4 : wsub (1 * kBlockSize) 1 = kBlockSize - 1 := by
    rw [Nat.one_mul]
    exact wsub_of_le hk
  have hw5 : wsub kBlockSize 1 = kBlockSize - 1 := wsub_of_le hk
  have hw6 : wsub 1 (0 + 1) = 0 := by simp [wsub]
  have hb0 : (kBlockSize - 1) / 2 < kBlockSize :=
    lt_of_le_of_lt (Nat.div_le_self _ _) (by omega)
  simp only [Grow, default, if_true, hw1, hw2, hw3, Nat.zero_div, Nat.zero_add]
  rw [if_neg (show ¬ (1 ≤ 0) by omega), if_neg (show ¬ (1 ≤ 0) by omega)]
  cases position <;>
    simp [GrowMap, takeBlocks, GrowBlocks, updateHeadTail, hw2, hw3, hw4, hw5, hw6,
      Nat.mod_eq_of_lt hb0]

/-- `PushFront(x)` on `Deque()` gives the deque that `PushBack(x)` gives. -/
theorem PushFront_default (kBlockSize : Nat) (x : T) (hk : 0 < kBlockSize) :
    (default : Deque T).PushFront kBlockSize x = (default : Deque T).PushBack kBlockSize x := by
  simp only [PushFront, PushBack, Grow_default kBlockSize _ hk]

/-- One call on a deque that is `Deque()` or holds the values `ys`, the call
being allowed on the list `ys`: the call is defined and the deque then holds
the values of the list after the call. -/
theorem applyCall_tracks (kBlockSize : Nat) (hk : 0 < kBlockSize) (d : Deque T)
    (ys ys1 : List T) (c : Call T)
    (h : (d = default ∧ ys = []) ∨ Tracks kBlockSize d ys) (hc : listCall ys c = some ys1) :
    ∃ d1, d.applyCall kBlockSize c = some d1 ∧ Tracks kBlockSize d1 ys1 := by
  rcases h with ⟨rfl, rfl⟩ | h
  · cases c with
    | pushBack x =>
      obtain ⟨d1, e, hp⟩ := PushBack_first kBlockSize x hk
      simp only [listCall, Option.some.injEq] at hc
      subst hc
      exact ⟨d1, e, Pushed_tracks hp⟩
    | pushFront x =>
      obtain ⟨d1, e, hp⟩ := PushBack_first kBlockSize x hk
      simp only [listCall, Option.some.injEq] at hc
      subst hc
      exact ⟨d1, by rw [applyCall, PushFront_default kBlockSize x hk]; exact e, Pushed_tracks hp⟩
    | popBack => simp [listCall] at hc
    | popFront => simp [listCall] at hc
  · cases c with
    | pushBack x =>
      simp only [listCall, Option.some.injEq] at hc
      subst hc
      exact PushBack_tracks kBlockSize d ys x h
    | pushFront x =>
      simp only [listCall, Option.some.injEq] at hc
      subst hc
      exact PushFront_tracks kBlockSize d ys x h
    | popBack =>
      cases ys with
      | nil => simp [listCall] at hc
      | cons y ys =>
        simp only [listCall, Option.some.injEq] at hc
        subst hc
        exact PopBack_tracks kBlockSize d (y :: ys) h (by simp)
    | popFront =>
      cases ys with
      | nil => simp [listCall] at hc
      | cons y ys =>
        simp only [listCall, Option.some.injEq] at hc
        subst hc
        exact PopFront_tracks kBlockSize d y ys h

/-- The calls of a list on a deque that is `Deque()` or holds the values
`ys`, the calls being allowed on the list `ys`. -/
theorem runCalls_tracks (kBlockSize : Nat) (hk : 0 < kBlockSize) :
    ∀ (calls : List (Call T)) (d : Deque T) (ys ys1 : List T),
      ((d = default ∧ ys = []) ∨ Tracks kBlockSize d ys) → listCalls ys calls = some ys1 →
      ∃ d1, runCalls kBlockSize d calls = some d1 ∧
        ((d1 = default ∧ ys1 = []) ∨ Tracks kBlockSize d1 ys1)
  | [], d, ys, ys1, h, hc => by
    simp only [listCalls, Option.some.injEq] at hc
    subst hc
    exact ⟨d, rfl, h⟩
  | c :: cs, d, ys, ys1, h, hc => by
    cases hl : listCall ys c with
    | none => simp [listCalls, hl] at hc
    | some ys2 =>
      simp only [listCalls, hl] at hc
      obtain ⟨d2, e2, ht2⟩ := applyCall_tracks kBlockSize hk d ys ys2 c h hl
      obtain ⟨d3, e3, ht3⟩ := runCalls_tracks kBlockSize hk cs d2 ys2 ys1 (Or.inr ht2) hc
      exact ⟨d3, by simp only [runCalls, e2, e3], ht3⟩

/-- C36: for every block size `kBlockSize > 0` and every sequence of
`PushBack`, `PushFront`, `PopBack` and `PopFront` calls on `Deque()` in which
no pop is made on an empty deque (the sequence is allowed on the mathematical
list, which it takes from `[]` to `ys`), every call is defined, `Size()` is
the length of `ys`, and `d[i]` is `ys[i]` for every `i < Size()`. -/
theorem deque_agrees_with_list (kBlockSize : Nat) (calls : List (Call T)) (ys : List T)
    (hk : 0 < kBlockSize) (h : listCalls [] calls = some ys) :
    ∃ d, runCalls kBlockSize (default : Deque T) calls = some d ∧ d.Size = ys.length ∧
      ∀ i, i < d.Size → d.subscript kBlockSize i = ys[i]? := by
  obtain ⟨d, e, ht⟩ := runCalls_tracks kBlockSize hk calls default [] ys (Or.inl ⟨rfl, rfl⟩) h
  refine ⟨d, e, ?_⟩
  rcases ht with ⟨rfl, rfl⟩ | ht
  · exact ⟨rfl, fun i hi => absurd hi (Nat.not_lt_zero i)⟩
  · refine ⟨ht.size_eq, fun i hi => ht.cells i ?_⟩
    rw [← ht.size_eq]
    exact hi

/-- Witness of C36 with `kBlockSize == 2`: three values pushed at the back,
two at the front (the map grows and its head wraps around), a pop at the back
and a pop at the front, and one more value at the front; the list is then
5, 4, 1, 2. -/
theorem deque_agrees_with_list_witness :
    0 < 2 ∧
      listCalls ([] : List Nat)
          [Call.pushBack 1, Call.pushBack 2, Call.pushBack 3, Call.pushFront 4,
            Call.pushFront 5, Call.popBack, Call.popFront, Call.pushFront 5]
        = some [5, 4, 1, 2] ∧
      ∃ d, runCalls 2 (default : Deque Nat)
          [Call.pushBack 1, Call.pushBack 2, Call.pushBack 3, Call.pushFront 4,
            Call.pushFront 5, Call.popBack, Call.popFront, Call.pushFront 5] = some d ∧
        d.Size = [5, 4, 1, 2].length ∧ ∀ i, i < d.Size → d.subscript 2 i = [5, 4, 1, 2][i]? :=
  ⟨by decide, rfl,
    deque_agrees_with_list 2
      [Call.pushBack 1, Call.pushBack 2, Call.pushBack 3, Call.pushFront 4,
        Call.pushFront 5, Call.popBack, Call.popFront, Call.pushFront 5] [5, 4, 1, 2]
      (by decide) rfl⟩

end Deque
/-! ## Claims where the value of `max_load_factor_` decides: `Rehash` and the copies -/

namespace Float32

/-- A rounding that starts at or below the binade of a value above 0 gives
a float above 0. -/
theorem binade_pos : ∀ (fuel k p q : Nat), 0 < q → q * 2 ^ k ≤ p * 2 ^ 149 →
    (finite 0 1).lt (binade fuel k p q) = true
  | 0, _, _, _, _, _ => rfl
  | fuel + 1, k, p, q, hq, h => by
    unfold binade
    by_cases h1 : p * 2 ^ 149 < 2 ^ 24 * (q * 2 ^ k)
    · rw [if_pos h1]
      by_cases h2 : roundHalfEven (p * 2 ^ 149) (q * 2 ^ k) = 2 ^ 24 ∧ k = 253
      · rw [if_pos h2]
        rfl
      · rw [if_neg h2]
        have hQ : 0 < q * 2 ^ k := Nat.mul_pos hq (Nat.two_pow_pos k)
        have hdiv : 1 ≤ p * 2 ^ 149 / (q * 2 ^ k) := (Nat.one_le_div_iff hQ).mpr h
        have hr : 1 ≤ roundHalfEven (p * 2 ^ 149) (q * 2 ^ k) := by
          unfold roundHalfEven
          split
          · exact hdiv
          · split
            · omega
            · split
              · exact hdiv
              · omega
        have hpos : 0 < roundHalfEven (p * 2 ^ 149) (q * 2 ^ k) * 2 ^ k :=
          Nat.mul_pos hr (Nat.two_pow_pos k)
        simp only [lt, Nat.zero_mul, Nat.mul_one, decide_eq_true_eq]
        exact hpos
    · rw [if_neg h1]
      refine binade_pos fuel (k + 1) p q hq ?_
      have e : q * 2 ^ (k + 1) = 2 * (q * 2 ^ k) := by
        rw [Nat.pow_succ]
        ac_rfl
      rw [e]
      have h3 : 2 ^ 24 * (q * 2 ^ k) ≤ p * 2 ^ 149 := Nat.le_of_not_lt h1
      have h4 : 2 * (q * 2 ^ k) ≤ 2 ^ 24 * (q * 2 ^ k) :=
        Nat.mul_le_mul_right _ (by decide)
      exact le_trans h4 h3

/-- The conversion of a count above 0 to `float` is above 0. -/
theorem ofNat_pos {n : Nat} (h : 0 < n) : (finite 0 1).lt (ofNat n) = true := by
  unfold ofNat round
  rw [if_neg (by omega)]
  refine binade_pos 254 0 n 1 Nat.one_pos ?_
  have : 1 ≤ 2 ^ 149 := Nat.one_le_two_pow
  calc 1 * 2 ^ 0 = 1 := by norm_num
    _ ≤ 1 * 2 ^ 149 := by omega
    _ ≤ n * 2 ^ 149 := Nat.mul_le_mul_right _ h

/-- `+infinity` times the conversion of a count above 0 is `+infinity`. -/
theorem mul_inf_ofNat {n : Nat} (h : 0 < n) : inf.mul (ofNat n) = inf := by
  have hp := ofNat_pos h
  cases hx : ofNat n with
  | finite num den =>
    rw [hx] at hp
    simp only [lt, Nat.zero_mul, Nat.mul_one, decide_eq_true_eq] at hp
    simp only [mul, if_neg (Nat.pos_iff_ne_zero.mp hp)]
  | inf => rfl
  | nan =>
    rw [hx] at hp
    simp [lt] at hp

end Float32

namespace HashMap

variable {Key T : Type} [DecidableEq Key]

/-- A table with no element and `n` buckets that all hold `(end(), end())` is
a good state. -/
theorem fresh_good (hash : Key → Nat) (n : Nat) (f : Fraction) (hf : 0 < f.num) :
    Good hash (⟨DoublyLinkedList.empty, List.replicate n (Iterator.head, Iterator.head), f⟩ :
      HashMap Key T) := by
  have hb : ∀ (b : Nat) (bucket : Iterator × Iterator),
      (List.replicate n (Iterator.head, Iterator.head))[b]? = some bucket →
      bucket = (Iterator.head, Iterator.head) := by
    intro b bucket hg
    rw [List.getElem?_replicate] at hg
    split at hg
    · exact (Option.some.inj hg).symm
    · cases hg
  refine ⟨⟨List.nodup_nil, ?_, List.nodup_nil, fun h => absurd rfl h, ?_, ?_, hf⟩, ?_⟩
  · intro n hn; cases hn
  · intro b bucket hg
    rw [hb b bucket hg]
    exact ⟨rfl, fun ns _ n hn => by cases hn⟩
  · intro b bucket hg a ha
    rw [hb b bucket hg] at ha
    cases ha
  · intro b bucket hg a ha
    rw [hb b bucket hg] at ha
    cases ha

end HashMap

namespace HashMap32

variable {Key T : Type} [DecidableEq Key]

/-- The tables a caller builds by `Insert` calls on a built table. -/
theorem built32_insertEach {hash : Key → Nat} :
    ∀ (vs : List (Key × T)) {t t1 : HashMap32 Key T}, Built hash t →
      insertEach hash t vs = some t1 → Built hash t1
  | [], t, t1, hB, h => by
    simp only [insertEach, Option.some.injEq] at h
    subst h
    exact hB
  | v :: vs, t, t1, hB, h => by
    cases hI : t.Insert hash v with
    | none => simp [insertEach, hI] at h
    | some r =>
      simp only [insertEach, hI] at h
      exact built32_insertEach vs (Built.insert v hB hI) h

end HashMap32

/-! ## The iteration order within a bucket -/

namespace HashMap

variable {Key T : Type} [DecidableEq Key]

/-- `InsertUnchecked(value)` of a key that is not stored, in a good state with
a bucket: the new element is linked in front of the stored elements of its
bucket, none of the elements before it falls in its bucket, and the order of
the stored elements does not change. -/
theorem InsertUnchecked_split {hash : Key → Nat} {m : HashMap Key T} (hG : Good hash m)
    (hpos : 0 < m.buckets_.length) (v : Key × T) (hk : v.1 ∉ m.keys) :
    ∃ m1 it pre post, m.InsertUnchecked hash v = some (m1, it) ∧ Good hash m1 ∧
      m.toList = pre ++ post ∧ m1.toList = pre ++ v :: post ∧
      m1.BucketCount = m.BucketCount ∧ m1.max_load_factor_ = m.max_load_factor_ ∧
      (∀ e ∈ pre, hash e.1 % m.BucketCount ≠ hash v.1 % m.BucketCount) ∧
      (∀ e ∈ m.toList, hash e.1 % m.BucketCount = hash v.1 % m.BucketCount → e ∈ post) := by
  obtain ⟨m1, it, hU, hI1, hC1, _, hlen, hf1⟩ :=
    InsertUnchecked_spec hG.inv hG.clean hpos v hk
  obtain ⟨b, bucket, hb, hg, hIns⟩ := InsertUnchecked_elements hU
  have hbv : b = hash v.1 % m.BucketCount := by
    simp [Bucket, BucketCount, Nat.pos_iff_ne_zero.mp hpos] at hb
    simp [BucketCount, hb]
  obtain ⟨_, hcov⟩ := hG.inv.covers b bucket hg
  cases hb1 : bucket.1 with
  | head =>
    rw [hb1] at hIns
    simp only [DoublyLinkedList.Insert, Option.some.injEq, Prod.mk.injEq] at hIns
    have hnone : ∀ n ∈ m.elements_.nodes, hash n.2.1 % m.buckets_.length ≠ b := by
      intro n hn e
      have := hcov [] (by rw [hb1]; rfl) n hn e
      simp at this
    refine ⟨m1, it, m.toList, [], hU, ⟨hI1, hC1⟩, by simp, ?_, hlen, hf1, ?_, ?_⟩
    · simp only [toList, ← hIns.1]
      simp
    · intro e he
      simp only [toList, List.mem_map] at he
      obtain ⟨n, hn, rfl⟩ := he
      rw [← hbv]
      exact hnone n hn
    · intro e he hb2
      simp only [toList, List.mem_map] at he
      obtain ⟨n, hn, rfl⟩ := he
      rw [← hbv] at hb2
      exact absurd hb2 (hnone n hn)
  | node a =>
    obtain ⟨s, hs⟩ := walkFrom_defined hG.clean hg
    rw [hb1] at hs hIns
    have hs2 : DoublyLinkedList.suffixFrom a m.elements_.nodes = some s := hs
    obtain ⟨pre, hsplit, hlink⟩ := linkBefore_split (m.elements_.brk, v) hs2
    simp only [DoublyLinkedList.Insert, hlink, Option.map_some', Option.some.injEq,
      Prod.mk.injEq] at hIns
    have hin : ∀ n ∈ m.elements_.nodes, hash n.2.1 % m.buckets_.length = b → n ∈ s :=
      fun n hn e => hcov s (by rw [hb1]; exact hs) n hn e
    have hnd := hG.inv.addrs_nodup
    rw [hsplit] at hnd
    simp only [DoublyLinkedList.addrs, List.map_append] at hnd
    have hdisj := (List.nodup_append.mp hnd).2.2
    refine ⟨m1, it, pre.map Prod.snd, s.map Prod.snd, hU, ⟨hI1, hC1⟩, ?_, ?_, hlen, hf1, ?_, ?_⟩
    · simp only [toList]
      rw [hsplit]
      simp
    · simp only [toList, ← hIns.1]
      simp
    · intro e he hb2
      simp only [List.mem_map] at he
      obtain ⟨n, hn, rfl⟩ := he
      rw [← hbv] at hb2
      have hns := hin n (by rw [hsplit]; exact List.mem_append_left _ hn) hb2
      exact hdisj (List.mem_map.mpr ⟨n, hn, rfl⟩) (List.mem_map.mpr ⟨n, hns, rfl⟩)
    · intro e he hb2
      simp only [toList, List.mem_map] at he
      obtain ⟨n, hn, rfl⟩ := he
      rw [← hbv] at hb2
      exact List.mem_map.mpr ⟨n, hin n hn hb2, rfl⟩

/-- The loop of `InsertUnchecked` calls, as `Rehash` runs it: the stored
elements keep their order, every value of the loop comes before the stored
elements of its bucket, and two values of the loop that fall in the same
bucket come in the reverse of their order in the loop. -/
theorem insertAllUnchecked_order {hash : Key → Nat} (vs : List (Key × T)) :
    ∀ {m : HashMap Key T}, Good hash m → (vs ≠ [] → 0 < m.buckets_.length) →
      (vs.map Prod.fst).Nodup → (∀ v ∈ vs, v.1 ∉ m.keys) →
      ∃ m1, insertAllUnchecked hash m vs = some m1 ∧ Good hash m1 ∧
        m1.toList.Perm (vs ++ m.toList) ∧ m1.BucketCount = m.BucketCount ∧
        m1.max_load_factor_ = m.max_load_factor_ ∧ m.toList.Sublist m1.toList ∧
        (∀ a ∈ vs, ∀ e ∈ m.toList,
          hash a.1 % m.BucketCount = hash e.1 % m.BucketCount → [a, e].Sublist m1.toList) ∧
        (∀ a b, [a, b].Sublist vs →
          hash a.1 % m.BucketCount = hash b.1 % m.BucketCount → [b, a].Sublist m1.toList) := by
  induction vs with
  | nil =>
    intro m hG _ _ _
    refine ⟨m, rfl, hG, List.Perm.refl _, rfl, rfl, List.Sublist.refl _, ?_, ?_⟩
    · intro a ha
      cases ha
    · intro a b hab
      cases hab
  | cons w ws ih =>
    intro m hG hpos hnd hdis
    have hnd2 := List.nodup_cons.mp hnd
    obtain ⟨m0, it, pre, post, hU, hG0, hsplit, hsplit0, hbc, hf0, _, hpost⟩ :=
      InsertUnchecked_split hG (hpos (List.cons_ne_nil w ws)) w
        (hdis w (List.mem_cons_self w ws))
    have hsub0 : m.toList.Sublist m0.toList := by
      rw [hsplit, hsplit0]
      exact List.Sublist.append (List.Sublist.refl pre) (List.sublist_cons_self w post)
    have hw0 : w ∈ m0.toList := by
      rw [hsplit0]
      simp
    have hperm0 : m0.toList.Perm (w :: m.toList) := by
      rw [hsplit, hsplit0]
      exact List.perm_middle
    have hdis0 : ∀ v ∈ ws, v.1 ∉ m0.keys := by
      intro v hv hmem
      have hmem2 : v.1 ∈ (w :: m.toList).map Prod.fst := (hperm0.map Prod.fst).subset hmem
      rw [List.map_cons, List.mem_cons] at hmem2
      rcases hmem2 with h | h
      · exact hnd2.1 (h ▸ List.mem_map_of_mem Prod.fst hv)
      · exact hdis v (List.mem_cons_of_mem w hv) h
    obtain ⟨m1, h1, hG1, hp1, hbc1, hf1, hsub1, hfront1, hrev1⟩ :=
      ih hG0 (fun _ => by
        have : m0.buckets_.length = m.buckets_.length := hbc
        rw [this]
        exact hpos (List.cons_ne_nil w ws)) hnd2.2 hdis0
    rw [hbc] at hfront1 hrev1
    refine ⟨m1, ?_, hG1, ?_, hbc1.trans hbc, hf1.trans hf0, hsub0.trans hsub1, ?_, ?_⟩
    · simp only [insertAllUnchecked, hU]
      exact h1
    · refine hp1.trans ?_
      refine (List.Perm.append_left ws hperm0).trans ?_
      exact List.perm_middle
    · intro a ha e he hb
      rcases List.mem_cons.mp ha with h | h
      · subst h
        have hep : e ∈ post := hpost e he hb.symm
        have h2 : [a, e].Sublist m0.toList := by
          rw [hsplit0]
          exact List.sublist_append_of_sublist_right
            (List.Sublist.cons₂ a (List.singleton_sublist.mpr hep))
        exact h2.trans hsub1
      · exact hfront1 a h e (hsub0.subset he) hb
    · intro a b hab hb
      cases hab with
      | cons _ h => exact hrev1 a b h hb
      | cons₂ _ h =>
        exact hfront1 b (List.singleton_sublist.mp h) w hw0 hb.symm

/-- `Rehash(count)` with `max_load_factor_ == 1.0f` in `float` arithmetic, in
a good state and with a bucket for the elements: the call is defined, the
table holds the same elements in `max(min_count, count)` buckets, and two
elements whose keys fall in the same new bucket come in the reverse of their
previous order. -/
theorem RehashFloat_order {hash : Key → Nat} {m : HashMap Key T} (hG : Good hash m)
    (count : Nat) (hpos : 0 < max (toFloat m.Size) count) :
    ∃ m0, m.RehashFloat hash count = some m0 ∧ Good hash m0 ∧ m0.toList.Perm m.toList ∧
      m0.BucketCount = max (toFloat m.Size) count ∧
      m0.max_load_factor_ = m.max_load_factor_ ∧
      (∀ a b, [a, b].Sublist m.toList →
        hash a.1 % m0.BucketCount = hash b.1 % m0.BucketCount → [b, a].Sublist m0.toList) := by
  have hF := fresh_good (T := T) hash (max (toFloat m.Size) count) m.max_load_factor_
    hG.inv.mlf_pos
  have hlen : (⟨DoublyLinkedList.empty,
      List.replicate (max (toFloat m.Size) count) (Iterator.head, Iterator.head),
      m.max_load_factor_⟩ : HashMap Key T).BucketCount = max (toFloat m.Size) count :=
    List.length_replicate _ _
  obtain ⟨m0, h0, hG0, hp0, hbc0, hf0, _, _, hrev0⟩ :=
    insertAllUnchecked_order m.toList hF (fun _ => by rw [← hlen] at hpos; exact hpos)
      hG.inv.keys_nodup (fun v _ hv => by simp [keys, toList, DoublyLinkedList.empty] at hv)
  rw [hlen] at hbc0 hrev0
  refine ⟨m0, h0, hG0, ?_, hbc0, hf0, ?_⟩
  · have : (⟨DoublyLinkedList.empty,
        List.replicate (max (toFloat m.Size) count) (Iterator.head, Iterator.head),
        m.max_load_factor_⟩ : HashMap Key T).toList = [] := rfl
    rw [this, List.append_nil] at hp0
    exact hp0
  · rw [hbc0]
    exact hrev0

/-- A multiple of `ulp` nearest to a number that is at least `ulp` is
positive. -/
theorem roundTo_pos {ulp n : Nat} (hu : 0 < ulp) (hn : ulp ≤ n) : 0 < roundTo ulp n := by
  have h1 : 0 < n / ulp := Nat.div_pos hn hu
  have h2 : 0 < n / ulp * ulp := Nat.mul_pos h1 hu
  have h3 : 0 < (n / ulp + 1) * ulp := Nat.mul_pos (Nat.succ_pos _) hu
  unfold roundTo
  split
  · exact h2
  · split
    · exact h3
    · split
      · exact h2
      · exact h3

/-- The search of the binade gives a positive value for a positive count. -/
theorem toFloatLoop_pos : ∀ (fuel ulp n : Nat), 0 < ulp → ulp ≤ n →
    0 < toFloatLoop fuel ulp n
  | 0, ulp, n, hu, hn => roundTo_pos hu hn
  | fuel + 1, ulp, n, hu, hn => by
    rw [toFloatLoop]
    split
    · exact roundTo_pos hu hn
    · exact toFloatLoop_pos fuel (2 * ulp) n (by omega) (by omega)

/-- The conversion of a positive count to `float` is positive. -/
theorem toFloat_pos {n : Nat} (h : 0 < n) : 0 < toFloat n :=
  toFloatLoop_pos 40 1 n Nat.one_pos h

/-- `CheckRehash(1)` with `max_load_factor_ == 1.0f` in `float` arithmetic, in
a good state: the call is defined and leaves a good state with a bucket; it
leaves the table as it is when `Size() + 1 > BucketCount()` is false for the
converted counts, and rehashes it otherwise. -/
theorem CheckRehashFloat_order {hash : Key → Nat} {m : HashMap Key T} (hG : Good hash m) :
    ∃ m0, m.CheckRehashFloat hash 1 = some m0 ∧ Good hash m0 ∧ m0.toList.Perm m.toList ∧
      0 < m0.BucketCount ∧
      (¬ toFloat m.BucketCount < toFloat (m.Size + 1) → m0 = m) ∧
      (toFloat m.BucketCount < toFloat (m.Size + 1) →
        m0.BucketCount = max (toFloat m.Size) (max (m.Size + 1) (m.Size * 2)) ∧
        ∀ a b, [a, b].Sublist m.toList →
          hash a.1 % m0.BucketCount = hash b.1 % m0.BucketCount →
            [b, a].Sublist m0.toList) := by
  by_cases ht : toFloat m.BucketCount < toFloat (m.Size + 1)
  · obtain ⟨m0, h0, hG0, hp0, hbc0, _, hrev0⟩ :=
      RehashFloat_order hG (max (m.Size + 1) (m.Size * 2)) (by omega)
    refine ⟨m0, ?_, hG0, hp0, by omega, fun h => absurd ht h, fun _ => ⟨hbc0, hrev0⟩⟩
    simp only [CheckRehashFloat, if_pos ht]
    exact h0
  · refine ⟨m, ?_, hG, List.Perm.refl _, ?_, fun _ => rfl, fun h => absurd h ht⟩
    · simp only [CheckRehashFloat, if_neg ht]
    · by_contra h0
      have hz : m.BucketCount = 0 := by omega
      apply ht
      rw [hz]
      have h1 : toFloat 0 = 0 := rfl
      rw [h1]
      exact toFloat_pos (Nat.succ_pos _)

/-- `Insert(value)` of a key that is not stored, with `max_load_factor_ ==
1.0f` in `float` arithmetic and in a good state: the call is defined, and the
new element is linked in front of the stored elements of its bucket in the
table that `CheckRehash(1)` leaves. -/
theorem InsertFloat_order {hash : Key → Nat} {m : HashMap Key T} (hG : Good hash m)
    (v : Key × T) (hk : v.1 ∉ m.keys) :
    ∃ m0 m1 it pre post, m.CheckRehashFloat hash 1 = some m0 ∧
      m.InsertFloat hash v = some (m1, it, true) ∧ Good hash m1 ∧
      m0.toList = pre ++ post ∧ m1.toList = pre ++ v :: post ∧
      m1.BucketCount = m0.BucketCount ∧
      (∀ e ∈ pre, hash e.1 % m1.BucketCount ≠ hash v.1 % m1.BucketCount) ∧
      (∀ e ∈ m0.toList, hash e.1 % m1.BucketCount = hash v.1 % m1.BucketCount → e ∈ post) ∧
      (¬ toFloat m.BucketCount < toFloat (m.Size + 1) → m0 = m) ∧
      (toFloat m.BucketCount < toFloat (m.Size + 1) →
        m0.BucketCount = max (toFloat m.Size) (max (m.Size + 1) (m.Size * 2)) ∧
        m0.toList.Perm m.toList ∧
        ∀ a b, [a, b].Sublist m.toList →
          hash a.1 % m0.BucketCount = hash b.1 % m0.BucketCount →
            [b, a].Sublist m0.toList) := by
  obtain ⟨it0, hF⟩ := Find_defined hG.inv hG.clean v.1
  have hit0 : it0 = Iterator.head := by
    rcases Find_sound hG.inv hF with ⟨h1, _⟩ | ⟨a, w, _, hmem⟩
    · exact h1
    · exact absurd (mem_keys.mpr ⟨_, hmem, rfl⟩) hk
  subst hit0
  obtain ⟨m0, h0, hG0, hp0, hpos0, hsame, hre⟩ := CheckRehashFloat_order hG
  have hk0 : v.1 ∉ m0.keys := fun h => hk ((hp0.map Prod.fst).subset h)
  obtain ⟨m1, it, pre, post, hU, hG1, hs0, hs1, hbc, _, hpre, hpost⟩ :=
    InsertUnchecked_split hG0 hpos0 v hk0
  refine ⟨m0, m1, it, pre, post, h0, ?_, hG1, hs0, hs1, hbc, ?_, ?_, hsame,
    fun ht => ⟨(hre ht).1, hp0, (hre ht).2⟩⟩
  · simp only [InsertFloat, hF, end_, DoublyLinkedList.end_, ne_eq, not_true_eq_false,
      if_false, h0, hU]
  · rw [hbc]
    exact hpre
  · rw [hbc]
    exact hpost

/-- `Insert(value)` with `max_load_factor_ == 1.0f` in `float` arithmetic
leaves a good state. -/
theorem InsertFloat_good {hash : Key → Nat} {m : HashMap Key T} (hG : Good hash m)
    {v : Key × T} {r : HashMap Key T × Iterator × Bool}
    (h : m.InsertFloat hash v = some r) : Good hash r.1 := by
  by_cases hk : v.1 ∈ m.keys
  · obtain ⟨it, hF⟩ := Find_defined hG.inv hG.clean v.1
    rcases Find_sound hG.inv hF with ⟨_, hn⟩ | ⟨a, w, hit, _⟩
    · exact absurd hk hn
    · subst hit
      simp [InsertFloat, hF, end_, DoublyLinkedList.end_] at h
      subst h
      exact hG
  · obtain ⟨_, m1, it, _, _, _, hI, hG1, _⟩ := InsertFloat_order hG v hk
    rw [hI] at h
    cases h
    exact hG1

/-- Every table built by `Insert` calls from the default table is in a good
state. -/
theorem builtFloat_good {hash : Key → Nat} {m : HashMap Key T} (h : BuiltFloat hash m) :
    Good hash m := by
  induction h with
  | default => exact Good_default hash
  | insert v _ hr ih => exact InsertFloat_good ih hr

/-- C32, amended: in a table built by `Insert` calls from the default table,
`Insert(value)` of a key that is not stored is defined.  It first runs
`CheckRehash(1)`, which leaves the table `m0`, and then links the new element
in `m0`: immediately in front of the stored elements of its bucket (every
stored element of that bucket comes after it, none of the elements before it
falls in that bucket), without changing the order of the other elements or
the number of buckets.  When `Size() + 1 > BucketCount()` is false for the
counts converted to `float`, `m0` is the table as it was.  Otherwise `m0` is
the table rehashed to `max(Size(), Size() + 1, Size() * 2)` buckets (the
first count converted to `float`), it holds the same elements, and any two
of them whose keys fall in the same new bucket come in the reverse of their
order before the call. -/
theorem insert_links_before_its_bucket (hash : Key → Nat) (m : HashMap Key T) (v : Key × T)
    (hB : BuiltFloat hash m) (hk : v.1 ∉ m.keys) :
    ∃ m0 m1 it pre post, m.CheckRehashFloat hash 1 = some m0 ∧
      m.InsertFloat hash v = some (m1, it, true) ∧
      m0.toList = pre ++ post ∧ m1.toList = pre ++ v :: post ∧
      m1.BucketCount = m0.BucketCount ∧
      (∀ e ∈ pre, hash e.1 % m1.BucketCount ≠ hash v.1 % m1.BucketCount) ∧
      (∀ e ∈ m0.toList, hash e.1 % m1.BucketCount = hash v.1 % m1.BucketCount → e ∈ post) ∧
      (¬ toFloat m.BucketCount < toFloat (m.Size + 1) → m0 = m) ∧
      (toFloat m.BucketCount < toFloat (m.Size + 1) →
        m0.BucketCount = max (toFloat m.Size) (max (m.Size + 1) (m.Size * 2)) ∧
        m0.toList.Perm m.toList ∧
        ∀ a b, [a, b].Sublist m.toList →
          hash a.1 % m0.BucketCount = hash b.1 % m0.BucketCount →
            [b, a].Sublist m0.toList) := by
  obtain ⟨m0, m1, it, pre, post, h0, hI, _, h⟩ := InsertFloat_order (builtFloat_good hB) v hk
  exact ⟨m0, m1, it, pre, post, h0, hI, h⟩

/-- Witness of the amended C32 on the table built by `Insert(4); Insert(8);`
on `HashSet<int>()` with the identity hash (2 buckets, order 8, 4) and
`Insert(12)`, which rehashes. -/
theorem insert_links_before_its_bucket_witness :
    BuiltFloat id tableEights ∧ ((12, ()) : Nat × Unit).1 ∉ tableEights.keys ∧
      ∃ m0 m1 it pre post, tableEights.CheckRehashFloat id 1 = some m0 ∧
        tableEights.InsertFloat id (12, ()) = some (m1, it, true) ∧
        m0.toList = pre ++ post ∧ m1.toList = pre ++ (12, ()) :: post ∧
        m1.BucketCount = m0.BucketCount ∧
        (∀ e ∈ pre, id e.1 % m1.BucketCount ≠ id ((12, ()) : Nat × Unit).1 % m1.BucketCount) ∧
        (∀ e ∈ m0.toList,
          id e.1 % m1.BucketCount = id ((12, ()) : Nat × Unit).1 % m1.BucketCount →
            e ∈ post) ∧
        (¬ toFloat tableEights.BucketCount < toFloat (tableEights.Size + 1) →
          m0 = tableEights) ∧
        (toFloat tableEights.BucketCount < toFloat (tableEights.Size + 1) →
          m0.BucketCount
              = max (toFloat tableEights.Size)
                (max (tableEights.Size + 1) (tableEights.Size * 2)) ∧
            m0.toList.Perm tableEights.toList ∧
            ∀ a b, [a, b].Sublist tableEights.toList →
              id a.1 % m0.BucketCount = id b.1 % m0.BucketCount →
                [b, a].Sublist m0.toList) :=
  have hB : BuiltFloat id tableEights :=
    BuiltFloat.insert (8, ())
      (BuiltFloat.insert (4, ()) BuiltFloat.default
        (by rfl : (default : HashSet Nat).InsertFloat id (4, ())
          = some (⟨⟨[(0, (4, ()))], 1⟩, [(Iterator.node 0, Iterator.head)], Fraction.one⟩,
              Iterator.node 0, true)))
      (by rfl : (⟨⟨[(0, (4, ()))], 1⟩, [(Iterator.node 0, Iterator.head)], Fraction.one⟩ :
          HashSet Nat).InsertFloat id (8, ())
        = some (tableEights, Iterator.node 1, true))
  ⟨hB, by decide, insert_links_before_its_bucket id tableEights (12, ()) hB (by decide)⟩

/-- Counterexample to C32: after `Insert(4); Insert(8); Insert(12);` on
`HashSet<int>()` with the identity hash the table has 4 buckets, the keys 4
and 8 both fall in bucket 0, and the iteration order is 12, 4, 8: the key 4,
inserted before the key 8, also comes before it.  After the first two calls
the order is 8, 4; the third `Insert` rehashes, and `Rehash` inserts the
elements again in iteration order, which turns the order within a bucket
around.  The result is the same in exact and in `float` arithmetic. -/
theorem rehash_reverses_bucket_order :
    insertEachFloat id (default : HashSet Nat) [(4, ()), (8, ())] = some tableEights ∧
      tableEights.keys = [8, 4] ∧
      insertEachFloat id (default : HashSet Nat) [(4, ()), (8, ()), (12, ())]
        = some tableFours ∧
      insertEach id (default : HashSet Nat) [(4, ()), (8, ()), (12, ())] = some tableFours ∧
      tableFours.keys = [12, 4, 8] ∧ tableFours.BucketCount = 4 ∧
      tableFours.Bucket id 4 = some 0 ∧ tableFours.Bucket id 8 = some 0 :=
  ⟨rfl, rfl, rfl, rfl, rfl, rfl, rfl, rfl⟩

end HashMap

end CppAlgorithms
